import Mathlib

/-!
# SubstLib: the logical / physical text model of the substitution edit control

A shallow embedding of `SubstMapping.hpp`, `SubstObjectsLogical.hpp` and
`SubstObjectsPhysical.hpp`.

* A `CString` is a list of characters.  The MFC string primitives (`Left`, `Right`,
  `Mid`, `Insert`, `Find`) take `int` arguments and clamp them the way MFC does.
* `size_t` values are natural numbers below `SIZE_MOD`; every `size_t` addition,
  subtraction and negation of the source is taken modulo `SIZE_MOD` (the source relies on
  this: it moves fields to the left by adding `-ilen`).  `(int)x` is `castInt x`.
* The pointer arrays `m_logList` / `m_physlist` are lists of values; a pointer to an
  element is its index (every element is allocated once and stored once).
* An operation that throws (`GetAt` out of range), dereferences `NULL` or never leaves
  its loop yields `none`.
-/

namespace SubstLib

/-! ## Machine integers and strings -/

abbrev CString := List Char

/-- Number of values of `size_t` (64-bit build). -/
def SIZE_MOD : Nat := 18446744073709551616

/-- The sum `a + b` of two `size_t`. -/
def addSz (a b : Nat) : Nat := (a + b) % SIZE_MOD

/-- The difference `a - b` of two `size_t`. -/
def subSz (a b : Nat) : Nat := (a % SIZE_MOD + (SIZE_MOD - b % SIZE_MOD)) % SIZE_MOD

/-- The value `-a` seen as a `size_t`. -/
def negSz (a : Nat) : Nat := (SIZE_MOD - a % SIZE_MOD) % SIZE_MOD

/-- The cast `(int)x` of a `size_t`: the low 32 bits, read in two's complement. -/
def castInt (x : Nat) : Int :=
  if x % 4294967296 < 2147483648 then ((x % 4294967296 : Nat) : Int)
  else ((x % 4294967296 : Nat) : Int) - 4294967296

/-- MFC `CString::Left(nCount)`. -/
def strLeft (s : CString) (nCount : Int) : CString := s.take nCount.toNat

/-- MFC `CString::Right(nCount)`. -/
def strRight (s : CString) (nCount : Int) : CString := s.drop (s.length - nCount.toNat)

/-- MFC `CString::Mid(iFirst, nCount)`. -/
def strMid (s : CString) (iFirst nCount : Int) : CString :=
  (s.drop iFirst.toNat).take nCount.toNat

/-- MFC `CString::Insert(iIndex, psz)`. -/
def strInsert (s : CString) (iIndex : Int) (psz : CString) : CString :=
  s.take iIndex.toNat ++ psz ++ s.drop iIndex.toNat

/-- Leftmost position, counted from `k`, at which `sub` starts in `s`. -/
def findAt (sub : CString) : CString → Nat → Option Nat
  | [], k => if sub = [] then some k else none
  | c :: cs, k => if sub.isPrefixOf (c :: cs) then some k else findAt sub cs (k + 1)

/-- MFC `CString::Find(pszSub, iStart)`; `none` stands for the result `-1`. -/
def strFind (s sub : CString) (iStart : Nat) : Option Nat :=
  if iStart > s.length then none else findAt sub (s.drop iStart) iStart

/-- Modelled from the spec: `extractSubstr` is declared `extern` and defined outside the
repository; it returns `szStr` with the `ilen` characters at index `istart` removed. -/
def extractSubstr (szStr : CString) (istart ilen : Nat) : CString :=
  szStr.take istart ++ szStr.drop (istart + ilen)

/-! ## SubstMapping -/

/-- `SubstDescr<TFIELDID>`: a field id and its display text. -/
structure SubstDescr where
  valId : Nat
  lpTxt : CString
deriving DecidableEq, Repr

/-- `kInvalidSubstElemId`. -/
def kInvalidSubstElemId : Nat := 0

/-- The scan of `SubstMapKeeper::FindMapItem`.  The table is the list of its entries, the
sentinel included; running off the end of the list (a table without sentinel) finds
nothing. -/
def FindMapItemScan : List SubstDescr → Nat → Option SubstDescr
  | [], _ => none
  | lpTmp :: rest, item =>
    if kInvalidSubstElemId = lpTmp.valId then none
    else if lpTmp.valId = item then some lpTmp
    else FindMapItemScan rest item

/-- `SubstMapKeeper::FindMapItem(lpMap, item)`. -/
def FindMapItem (lpMap : List SubstDescr) (item : Nat) : Option SubstDescr :=
  if kInvalidSubstElemId ≠ item then FindMapItemScan lpMap item else none

/-! ## SubstObjectsLogical -/

/-- `CLogInfo<TFIELDID>`: the logical coordinate of a field. -/
structure CLogInfo where
  m_what : Nat
  m_pos : Nat
deriving DecidableEq, Repr

/-- `CLogInfo::Add2Pos`. -/
def CLogInfo.Add2Pos (li : CLogInfo) (idelta : Nat) : CLogInfo :=
  { li with m_pos := addSz li.m_pos idelta }

/-- `CSubstLogData<TFIELDID>`. -/
structure CSubstLogData where
  m_logStr : CString
  m_logList : List CLogInfo
  m_map : List SubstDescr
deriving DecidableEq, Repr

/-- `getReplacementTextFn`. -/
def getReplacementTextFn (lpDesc : SubstDescr) : CString := lpDesc.lpTxt

/-- The `for` loop of `LogStrToPhysStr`, with its variables `strPhys` and `iLogCopied`. -/
def LogStrToPhysStrLoop (lpMap : List SubstDescr) (lpFn : SubstDescr → CString)
    (strLog : CString) : List CLogInfo → CString → Nat → CString × Nat
  | [], strPhys, iLogCopied => (strPhys, iLogCopied)
  | lplogInf :: rest, strPhys, iLogCopied =>
    match FindMapItem lpMap lplogInf.m_what with
    | some lpDesc =>
      let strTmp := strMid strLog (castInt iLogCopied) (castInt (subSz lplogInf.m_pos iLogCopied))
      LogStrToPhysStrLoop lpMap lpFn strLog rest (strPhys ++ strTmp ++ lpFn lpDesc) lplogInf.m_pos
    | none => LogStrToPhysStrLoop lpMap lpFn strLog rest strPhys iLogCopied

/-- `CSubstLogData::LogStrToPhysStr`. -/
def LogStrToPhysStr (logData : CSubstLogData) (lpFn : SubstDescr → CString) : CString :=
  let strLog := logData.m_logStr
  let r := LogStrToPhysStrLoop logData.m_map lpFn strLog logData.m_logList [] 0
  let itmplen := subSz strLog.length r.2
  if itmplen > 0 then r.1 ++ strMid strLog (castInt r.2) (castInt itmplen) else r.1

/-- `CSubstLogData::LogStr2PhysStr`. -/
def LogStr2PhysStr (logData : CSubstLogData) : CString :=
  LogStrToPhysStr logData getReplacementTextFn

/-- `CSubstLogData::ReplaceLogTextPart`.  `nReplacedLenght` is never negative at a call
site, so the test `nReplacedLenght < 0` is left out. -/
def ReplaceLogTextPart (d : CSubstLogData) (startIndex : Nat) (nReplacedLenght : Nat)
    (szNewText : CString) : CSubstLogData :=
  let strOldLog := d.m_logStr
  if startIndex > strOldLog.length then d
  else if (nReplacedLenght : Int) > castInt (subSz strOldLog.length startIndex) then d
  else
    let nAddedLength := szNewText.length
    let strNewLog1 :=
      if nReplacedLenght > 0 then extractSubstr strOldLog startIndex nReplacedLenght
      else strOldLog
    let strNewLog2 :=
      if 0 < nAddedLength then strInsert strNewLog1 (castInt startIndex) szNewText
      else strNewLog1
    let move (pInfo : CLogInfo) : CLogInfo :=
      if startIndex < pInfo.m_pos then
        let p1 := if nReplacedLenght > 0 then pInfo.Add2Pos (negSz nReplacedLenght) else pInfo
        if 0 < nAddedLength then p1.Add2Pos nAddedLength else p1
      else pInfo
    { d with m_logStr := strNewLog2, m_logList := d.m_logList.map move }

/-- The endless `for` loop of `ReplaceLogTextAllThrough`; `none` when the fuel is used up. -/
def ReplaceLogTextAllThroughLoop (strOldPart strNewPart : CString) :
    Nat → CSubstLogData → Nat → Option CSubstLogData
  | 0, _, _ => none
  | fuel + 1, d, nSearPos =>
    match strFind d.m_logStr strOldPart nSearPos with
    | some nDexFound =>
      ReplaceLogTextAllThroughLoop strOldPart strNewPart fuel
        (ReplaceLogTextPart d nDexFound strOldPart.length strNewPart)
        (nSearPos + strNewPart.length)
    | none => some d

/-- `CSubstLogData::ReplaceLogTextAllThrough`. -/
def ReplaceLogTextAllThrough (d : CSubstLogData) (strOldPart strNewPart : CString) :
    Option CSubstLogData :=
  if strOldPart.length = 0 then some d
  else ReplaceLogTextAllThroughLoop strOldPart strNewPart (d.m_logStr.length + 1) d 0

/-- The quotation mark. -/
def chQuot : Char := Char.ofNat 34

/-- The apostrophe. -/
def chApos : Char := Char.ofNat 39

/-- `CSubstLogData::ReplaceLogXmlCharsThere`. -/
def ReplaceLogXmlCharsThere (d : CSubstLogData) : Option CSubstLogData := do
  let d1 ← ReplaceLogTextAllThrough d "&".toList "&amp;".toList
  let d2 ← ReplaceLogTextAllThrough d1 "<".toList "&lt;".toList
  let d3 ← ReplaceLogTextAllThrough d2 ">".toList "&gt;".toList
  let d4 ← ReplaceLogTextAllThrough d3 [chQuot] "&quot;".toList
  ReplaceLogTextAllThrough d4 [chApos] "&apos".toList

/-- `CSubstLogData::ReplaceLogXmlPartsBack`. -/
def ReplaceLogXmlPartsBack (d : CSubstLogData) : Option CSubstLogData := do
  let d5 ← ReplaceLogTextAllThrough d "&apos".toList [chApos]
  let d4 ← ReplaceLogTextAllThrough d5 "&quot;".toList [chQuot]
  let d3 ← ReplaceLogTextAllThrough d4 "&gt;".toList ">".toList
  let d2 ← ReplaceLogTextAllThrough d3 "&lt;".toList "<".toList
  ReplaceLogTextAllThrough d2 "&amp;".toList "&".toList

/-- The inner `for` loop of `AssignPlainText`: the first descriptor, in declaration
order, whose text stands at `nDex` in `strLog`. -/
def matchDescr (strLog : CString) (nDex : Nat) : List SubstDescr → Option SubstDescr
  | [] => none
  | descr :: rest =>
    if kInvalidSubstElemId = descr.valId then none
    else
      let strLocal := descr.lpTxt
      if addSz nDex strLocal.length ≤ strLog.length
          ∧ strMid strLog (castInt nDex) strLocal.length = strLocal then some descr
      else matchDescr strLog nDex rest

/-- The outer `for` loop of `AssignPlainText`; `none` when the fuel is used up. -/
def AssignPlainTextLoop : Nat → CSubstLogData → Nat → Option CSubstLogData
  | 0, _, _ => none
  | fuel + 1, d, nDex =>
    let strLog := d.m_logStr
    if nDex ≥ strLog.length then some d
    else
      match matchDescr strLog nDex d.m_map with
      | some descr =>
        let d1 := ReplaceLogTextPart d nDex descr.lpTxt.length []
        AssignPlainTextLoop fuel
          { d1 with m_logList := d1.m_logList ++ [{ m_what := descr.valId, m_pos := nDex }] } nDex
      | none => AssignPlainTextLoop fuel d (nDex + 1)

/-- `CSubstLogData::AssignPlainText`. -/
def AssignPlainText (d : CSubstLogData) (szText : CString) : Option CSubstLogData := do
  let d1 ← AssignPlainTextLoop (szText.length + 1)
    { m_logStr := szText, m_logList := [], m_map := d.m_map } 0
  ReplaceLogXmlPartsBack d1

/-- `CSubstLogData::GetPlainText`. -/
def GetPlainText (d : CSubstLogData) : Option CString := do
  let tempData ← ReplaceLogXmlCharsThere d
  pure (LogStr2PhysStr tempData)

/-! ## SubstObjectsPhysical -/

/-- `CPhysInfo<TFIELDID>`: the physical coordinate of a field. -/
structure CPhysInfo where
  m_what : Nat
  m_start : Nat
  m_end : Nat
deriving DecidableEq, Repr

/-- `CPhysInfo::GetLength`. -/
def CPhysInfo.GetLength (phinf : CPhysInfo) : Nat := subSz phinf.m_end phinf.m_start

/-- `CSubstPhysData<TFIELDID>`, derived from `CSubstLogData<TFIELDID>`. -/
structure CSubstPhysData extends CSubstLogData where
  m_physStr : CString
  m_physlist : List CPhysInfo
deriving DecidableEq, Repr

/-- `CTypedPtrArrayEx::FirstThat`; `none` stands for the result `-1`. -/
def FirstThat {α : Type} (lpFn : α → Bool) : List α → Option Nat
  | [] => none
  | x :: xs => if lpFn x then some 0 else (FirstThat lpFn xs).map (· + 1)

/-- `CObArray::InsertAt(nIndex, newElement)` for `nIndex` within the array. -/
def InsertAt {α : Type} (l : List α) (nIndex : Nat) (x : α) : List α :=
  l.take nIndex ++ x :: l.drop nIndex

/-- `FnPhysInfoPosGreaterEq`. -/
def FnPhysInfoPosGreaterEq (wParam : Nat) (phinf : CPhysInfo) : Bool :=
  decide (phinf.m_start ≥ wParam)

/-- `FnPhysInfoBetween`. -/
def FnPhysInfoBetween (wParam lParam : Nat) (phinf : CPhysInfo) : Bool :=
  decide (phinf.m_start ≥ wParam) && decide (phinf.m_end ≤ lParam)

/-- `FnPhysInfoPosIsIn`. -/
def FnPhysInfoPosIsIn (wParam : Nat) (phinf : CPhysInfo) : Bool :=
  decide (phinf.m_start < wParam) && decide (wParam < phinf.m_end)

/-- `FnMoveAllPhysInfoGreaterEq`. -/
def FnMoveAllPhysInfoGreaterEq (wParam lParam : Nat) (phinf : CPhysInfo) : CPhysInfo :=
  if phinf.m_start ≥ wParam then
    { phinf with m_start := addSz phinf.m_start lParam, m_end := addSz phinf.m_end lParam }
  else phinf

/-- `CSubstPhysData::MoveAllPhysInfoGreaterEq`, on the list of physical fields. -/
def MoveAllPhysInfoGreaterEq (physlist : List CPhysInfo) (greaterOrEq dx : Nat) :
    List CPhysInfo :=
  physlist.map (FnMoveAllPhysInfoGreaterEq greaterOrEq dx)

/-- `CSubstPhysData::MoveAllInfoIfPhysGreaterEq`, on the two lists.  The loop runs over
the markers and reads the physical field of the same index; `GetAt` throws when there is
none. -/
def MoveAllInfoIfPhysGreaterEq (greaterOrEq dx : Nat) :
    List CLogInfo → List CPhysInfo → Option (List CLogInfo × List CPhysInfo)
  | [], physlist => some ([], physlist)
  | _ :: _, [] => none
  | lpLogTmp :: logRest, lpPhysTmp :: physRest =>
    match MoveAllInfoIfPhysGreaterEq greaterOrEq dx logRest physRest with
    | none => none
    | some (logRest1, physRest1) =>
      if lpPhysTmp.m_start ≥ greaterOrEq then
        some (lpLogTmp.Add2Pos dx :: logRest1,
          { lpPhysTmp with m_start := addSz lpPhysTmp.m_start dx,
                           m_end := addSz lpPhysTmp.m_end dx } :: physRest1)
      else some (lpLogTmp :: logRest1, lpPhysTmp :: physRest1)

/-- `CSubstPhysData::FindPhysInfoAfter`, as an index. -/
def FindPhysInfoAfter (d : CSubstPhysData) (phpos : Nat) : Option Nat :=
  FirstThat (FnPhysInfoPosGreaterEq phpos) d.m_physlist

/-- `CSubstPhysData::FindPhysInfoBetween`, as an index. -/
def FindPhysInfoBetween (d : CSubstPhysData) (start endPos : Nat) : Option Nat :=
  FirstThat (FnPhysInfoBetween start endPos) d.m_physlist

/-- `CSubstPhysData::FindPhysInfoPosIsIn`, as an index. -/
def FindPhysInfoPosIsIn (d : CSubstPhysData) (phpos : Nat) : Option Nat :=
  FirstThat (FnPhysInfoPosIsIn phpos) d.m_physlist

/-- `CSubstPhysData::PhysPos2LogPos`. -/
def PhysPos2LogPos (d : CSubstPhysData) (ph : Nat) : Nat :=
  d.m_physlist.foldl
    (fun result lpTmp => if lpTmp.m_end ≤ ph then subSz result lpTmp.GetLength else result) ph

/-- `CSubstPhysData::InsertNewInfo(phpos, lpLogInfo)`.  The second component is the new
physical field, `none` for the result `NULL`. -/
def InsertNewInfoLog (d : CSubstPhysData) (phpos : Nat) (lpLogInfo : CLogInfo) :
    Option (CSubstPhysData × Option CPhysInfo) :=
  match FindMapItem d.m_map lpLogInfo.m_what with
  | none => some (d, none)
  | some lpDesc =>
    let lpTxt := lpDesc.lpTxt
    let ilen := lpTxt.length
    let lpPhysInfo : CPhysInfo :=
      { m_what := lpLogInfo.m_what, m_start := phpos, m_end := addSz phpos ilen }
    let oldphysStr := d.m_physStr
    let newphysStr := strLeft oldphysStr (castInt phpos) ++ lpTxt
      ++ strRight oldphysStr (castInt (subSz oldphysStr.length phpos))
    match FindPhysInfoAfter d phpos with
    | some nDex =>
      -- `FindMatch(lpPhysBefore)` reads the marker of the same index
      if nDex < d.m_logList.length then
        some ({ d with
                m_logList := InsertAt d.m_logList nDex lpLogInfo
                m_physlist := InsertAt (MoveAllPhysInfoGreaterEq d.m_physlist phpos ilen) nDex
                  lpPhysInfo
                m_physStr := newphysStr }, some lpPhysInfo)
      else none
    | none =>
      some ({ d with
              m_logList := d.m_logList ++ [lpLogInfo]
              m_physlist := d.m_physlist ++ [lpPhysInfo]
              m_physStr := newphysStr }, some lpPhysInfo)

/-- `CSubstPhysData::InsertNewInfo(phpos, what)`. -/
def InsertNewInfo (d : CSubstPhysData) (phpos what : Nat) :
    Option (CSubstPhysData × Option CPhysInfo) :=
  match FindMapItem d.m_map what with
  | none => some (d, none)
  | some _ => InsertNewInfoLog d phpos { m_what := what, m_pos := PhysPos2LogPos d phpos }

/-- `CSubstPhysData::DeleteOneInfo`.  The argument `lpInf` is the index of the field in
`m_physlist`; an index outside the list stands for a pointer that is not in it. -/
def DeleteOneInfo (d : CSubstPhysData) (lpInf : Nat) : Option (CSubstPhysData × Bool) :=
  match d.m_physlist[lpInf]? with
  | none => some (d, false)
  | some phinf =>
    -- `FindMatch(lpInf)` reads the marker of the same index
    if lpInf < d.m_logList.length then
      let start := phinf.m_start
      let ilen := phinf.GetLength
      let physlist1 := d.m_physlist.eraseIdx lpInf
      let logList1 := d.m_logList.eraseIdx lpInf
      if ilen > 0 then
        some ({ d with
                m_logList := logList1
                m_physlist := MoveAllPhysInfoGreaterEq physlist1 start (negSz ilen)
                m_physStr := extractSubstr d.m_physStr start ilen }, true)
      else
        some ({ d with m_logList := logList1, m_physlist := physlist1 }, true)
    else none

/-- The `while` loop of `DeleteAllBetween`, with its variable `tempEnd`; `none` when the
fuel is used up. -/
def DeleteAllBetweenLoop (start : Nat) : Nat → CSubstPhysData → Nat → Option (CSubstPhysData × Nat)
  | 0, _, _ => none
  | fuel + 1, d, tempEnd =>
    match FindPhysInfoBetween d start tempEnd with
    | none => some (d, tempEnd)
    | some lpInf =>
      match d.m_physlist[lpInf]? with
      | none => none
      | some phinf =>
        match DeleteOneInfo d lpInf with
        | none => none
        | some (d1, _) => DeleteAllBetweenLoop start fuel d1 (subSz tempEnd phinf.GetLength)

/-- `CSubstPhysData::DeleteAllBetween`; the second component is the returned `phys_dx`. -/
def DeleteAllBetween (d : CSubstPhysData) (start endPos : Nat) : Option (CSubstPhysData × Nat) :=
  let phys_dx := subSz endPos start
  match DeleteAllBetweenLoop start (d.m_physlist.length + 1) d endPos with
  | none => none
  | some (d1, tempEnd) =>
    let log_dx := subSz tempEnd start
    if log_dx > 0 then
      let strPhys := extractSubstr d1.m_physStr start log_dx
      let nStart := PhysPos2LogPos d1 start
      let strLog := extractSubstr d1.m_logStr nStart log_dx
      match MoveAllInfoIfPhysGreaterEq start (negSz log_dx) d1.m_logList d1.m_physlist with
      | none => none
      | some (logList2, physlist2) =>
        some ({ d1 with m_physStr := strPhys, m_logStr := strLog, m_logList := logList2,
                        m_physlist := physlist2 }, phys_dx)
    else some (d1, phys_dx)

/-- `CSubstPhysData::InsertText`; the second component is the returned `BOOL`. -/
def InsertText (d : CSubstPhysData) (physIndex : Nat) (sztext : CString) :
    Option (CSubstPhysData × Bool) :=
  if physIndex > d.m_physStr.length then some (d, false)
  else if (FindPhysInfoPosIsIn d physIndex).isSome then some (d, false)
  else
    let logIndex := PhysPos2LogPos d physIndex
    let ilen := sztext.length
    if ilen > 0 then
      let strPhysNew := strInsert d.m_physStr (castInt physIndex) sztext
      let strLogNew := strInsert d.m_logStr (castInt logIndex) sztext
      match MoveAllInfoIfPhysGreaterEq physIndex ilen d.m_logList d.m_physlist with
      | none => none
      | some (logList1, physlist1) =>
        some ({ d with m_physStr := strPhysNew, m_logStr := strLogNew, m_logList := logList1,
                       m_physlist := physlist1 }, true)
    else some (d, true)

/-- The `for` loop of `InsertData`, with its variables `insertPhysIndex`,
`lasFieldLogPos` and `nSuma`; it consumes the marker list of `logData` from the front. -/
def InsertDataLoop (beginLogPos : Nat) :
    List CLogInfo → CSubstPhysData → Nat → Nat → Nat → Option (CSubstPhysData × Nat)
  | [], d, _, _, nSuma => some (d, nSuma)
  | logInfo :: rest, d, insertPhysIndex, lasFieldLogPos, nSuma =>
    let deltaLogPos := subSz logInfo.m_pos lasFieldLogPos
    let insertPhysIndex1 := addSz insertPhysIndex deltaLogPos
    match InsertNewInfoLog d insertPhysIndex1 (logInfo.Add2Pos beginLogPos) with
    | some (d1, some phInfo) =>
      let nLen := phInfo.GetLength
      InsertDataLoop beginLogPos rest d1 (addSz insertPhysIndex1 nLen) logInfo.m_pos
        (addSz nSuma nLen)
    | _ => none

/-- `CSubstPhysData::InsertData`; the result holds the new physical data, `logData` as
the call leaves it, and the returned `nSuma`. -/
def InsertData (d : CSubstPhysData) (physIndex : Nat) (logData : CSubstLogData) :
    Option (CSubstPhysData × CSubstLogData × Nat) :=
  match InsertText d physIndex logData.m_logStr with
  | none => none
  | some (d1, false) => some (d1, logData, 0)
  | some (d1, true) =>
    let beginLogPos := PhysPos2LogPos d1 physIndex
    match InsertDataLoop beginLogPos logData.m_logList d1 physIndex 0 logData.m_logStr.length with
    | none => none
    | some (d2, nSuma) => some (d2, { logData with m_logList := [] }, nSuma)

/-- The `for` loop of `AppendAsPhysInfo`, with its variable `suma`. -/
def AppendAsPhysInfoLoop (lpMap : List SubstDescr) : List CLogInfo → Nat → List CPhysInfo
  | [], _ => []
  | lplogInf :: rest, suma =>
    match FindMapItem lpMap lplogInf.m_what with
    | some lpDesc =>
      let ilen := lpDesc.lpTxt.length
      let start := addSz suma lplogInf.m_pos
      { m_what := lplogInf.m_what, m_start := start, m_end := addSz start ilen }
        :: AppendAsPhysInfoLoop lpMap rest (addSz suma ilen)
    | none => AppendAsPhysInfoLoop lpMap rest suma

/-- `CSubstPhysData::AssignPhysFromLog`, applied to the object's own logical data (as
`operator =` does): the physical part is rebuilt from the logical part. -/
def AssignPhysFromLog (logData : CSubstLogData) : CSubstPhysData :=
  { logData with
    m_physlist := AppendAsPhysInfoLoop logData.m_map logData.m_logList 0
    m_physStr := LogStr2PhysStr logData }

/-- `CSelInfo`: a selection, in physical coordinates. -/
structure CSelInfo where
  m_nStartChar : Nat
  m_nEndChar : Nat
  m_bCaretIsLast : Bool := false
deriving DecidableEq, Repr

/-- `CSelInfo::StartChar`. -/
def CSelInfo.StartChar (sel : CSelInfo) : Nat := sel.m_nStartChar

/-- `CSelInfo::EndChar`. -/
def CSelInfo.EndChar (sel : CSelInfo) : Nat := sel.m_nEndChar

/-- `CSelInfo::IsSel`. -/
def CSelInfo.IsSel (sel : CSelInfo) : Bool := sel.StartChar != sel.EndChar

/-- The loop of `CPkArrBase::FindAllThat` from the index `ii` on: the output array holds
pointers to elements of the source, here their indices. -/
def FindAllThatFrom {α : Type} (lpFn : α → Bool) : List α → Nat → List Nat
  | [], _ => []
  | x :: xs, ii =>
    if lpFn x then ii :: FindAllThatFrom lpFn xs (ii + 1) else FindAllThatFrom lpFn xs (ii + 1)

/-- `CPkArrBase::FindAllThat`. -/
def FindAllThat {α : Type} (lpFn : α → Bool) (l : List α) : List Nat :=
  FindAllThatFrom lpFn l 0

/-- `CSubstPhysData::FindPhysInfoAllBetween`, as indices. -/
def FindPhysInfoAllBetween (d : CSubstPhysData) (start endPos : Nat) : List Nat :=
  FindAllThat (FnPhysInfoBetween start endPos) d.m_physlist

/-- The `for` loop of `ExportLogListSel` over the exported fields (indices into
`m_physlist`), with its variable `suma` and the marker list of the output.  `FindMatch`
reads the marker of the same index; `GetAt` throws when there is none. -/
def ExportLogListLoop (d : CSubstPhysData) :
    List Nat → Nat → List CLogInfo → Option (List CLogInfo)
  | [], _, logList => some logList
  | nDex :: rest, suma, logList =>
    match d.m_physlist[nDex]? with
    | none => none
    | some physInf =>
      match d.m_logList[nDex]? with
      | none => none
      | some logInfOld =>
        match FindMapItem d.m_map logInfOld.m_what with
        | some lpDesc =>
          ExportLogListLoop d rest (addSz suma lpDesc.lpTxt.length)
            (logList ++ [{ m_what := physInf.m_what, m_pos := subSz physInf.m_start suma }])
        | none => ExportLogListLoop d rest suma logList

/-- `CSubstPhysData::ExportLogListSel`; `selInf = none` stands for the argument `NULL`.
The result is `logData` with the exported markers appended. -/
def ExportLogListSel (d : CSubstPhysData) (selInf : Option CSelInfo)
    (logData : CSubstLogData) : Option CSubstLogData :=
  let r :=
    match selInf with
    | none => ExportLogListLoop d (List.range d.m_physlist.length) 0 logData.m_logList
    | some sel =>
      ExportLogListLoop d (FindPhysInfoAllBetween d sel.StartChar sel.EndChar) sel.StartChar
        logData.m_logList
  match r with
  | none => none
  | some logList => some { logData with m_logList := logList }

/-- `CSubstPhysData::ExportLogListAll`. -/
def ExportLogListAll (d : CSubstPhysData) (logData : CSubstLogData) : Option CSubstLogData :=
  ExportLogListSel d none logData

/-- The `for` loop of `PhysStr2logStr`, with its variables `idone` and `strLog`. -/
def PhysStr2logStrLoop (lpMap : List SubstDescr) (strPhys : CString) :
    List CPhysInfo → Nat → CString → CString × Nat
  | [], idone, strLog => (strLog, idone)
  | physInf :: rest, idone, strLog =>
    match FindMapItem lpMap physInf.m_what with
    | some _ =>
      let istart := physInf.m_start
      let strLog1 :=
        if idone < istart then
          strLog ++ strMid strPhys (castInt idone) (castInt (subSz istart idone))
        else strLog
      PhysStr2logStrLoop lpMap strPhys rest physInf.m_end strLog1
    | none => PhysStr2logStrLoop lpMap strPhys rest idone strLog

/-- `CSubstPhysData::PhysStr2logStr(physData, NULL)`: the map is the one of `physData`. -/
def PhysStr2logStr (physData : CSubstPhysData) : CString :=
  let strPhys := physData.m_physStr
  let r := PhysStr2logStrLoop physData.m_map strPhys physData.m_physlist 0 []
  let itmplen := subSz strPhys.length r.2
  if itmplen > 0 then r.1 ++ strMid strPhys (castInt r.2) (castInt itmplen) else r.1

/-- `CSubstLogData::DeleteContents`. -/
def CSubstLogData.DeleteContents (logData : CSubstLogData) : CSubstLogData :=
  { logData with m_logStr := [], m_logList := [] }

/-- Modelled from the spec: `Clear` is called by `ExportLogAll` and is not declared in the
repository; for the export to produce a standalone snapshot it empties the logical
string and the marker list of the output, as `DeleteContents` does in `ExportLogSel`. -/
def CSubstLogData.Clear (logData : CSubstLogData) : CSubstLogData :=
  logData.DeleteContents

/-- `CSubstPhysData::ExportLogAll`; the result is the output argument `logData`. -/
def ExportLogAll (d : CSubstPhysData) (logData : CSubstLogData) : Option CSubstLogData :=
  match ExportLogListAll d logData.Clear with
  | none => none
  | some logData1 => some { logData1 with m_logStr := PhysStr2logStr d, m_map := d.m_map }

/-- `CSubstPhysData::ExportLogSel`; the result is the output argument `logData`. -/
def ExportLogSel (d : CSubstPhysData) (selInf : Option CSelInfo) (logData : CSubstLogData) :
    Option CSubstLogData :=
  let logData0 := logData.DeleteContents
  match selInf with
  | none =>
    match ExportLogListSel d none logData0 with
    | none => none
    | some logData1 => some { logData1 with m_logStr := PhysStr2logStr d, m_map := d.m_map }
  | some sel =>
    if sel.IsSel then
      match ExportLogListSel d (some sel) logData0 with
      | none => none
      | some logData1 =>
        let strLog := PhysStr2logStr d
        let nLogSelBeg := PhysPos2LogPos d sel.StartChar
        let nLogSelEnd := PhysPos2LogPos d sel.EndChar
        some { logData1 with
               m_logStr := strMid strLog (castInt nLogSelBeg) (castInt (subSz nLogSelEnd nLogSelBeg))
               m_map := d.m_map }
    else some logData0

/-- `CSubstLogData::ReplaceLogTextPart` with its argument `nReplacedLenght` as the `int`
of the source: the test `nReplacedLenght < 0`, which `ReplaceLogTextPart` above leaves
out, is made here.  Both early exits leave the object as it is, so their order does not
matter. -/
def ReplaceLogTextPartInt (d : CSubstLogData) (startIndex : Nat) (nReplacedLenght : Int)
    (szNewText : CString) : CSubstLogData :=
  if nReplacedLenght < 0 then d
  else ReplaceLogTextPart d startIndex nReplacedLenght.toNat szNewText

/-! ## PkArray -/

/-- The loop of `CTypedPtrArrayEx::LastThat` from the index `ii` on, with its variable
`result`. -/
def LastThatFrom {α : Type} (lpFn : α → Bool) : List α → Nat → Option Nat → Option Nat
  | [], _, result => result
  | x :: xs, ii, result => LastThatFrom lpFn xs (ii + 1) (if lpFn x then some ii else result)

/-- `CTypedPtrArrayEx::LastThat`; `none` stands for the result `-1`. -/
def LastThat {α : Type} (lpFn : α → Bool) (l : List α) : Option Nat :=
  LastThatFrom lpFn l 0 none

/-- The inner `for` loop of `CPkArrBase::BubbleSort` from the index `ii` on; the first
argument is the number of rounds that remain, `lastInd - ii`.  The comparator is taken
with its arguments `wPar`, `lPar` already fixed; the array is a list. -/
def BubbleSortInner {α : Type} (lpCompFn : α → α → Int) (bReverseOrder : Bool) :
    Nat → Nat → List α → Bool → List α × Bool
  | 0, _, arr, bAnyChange => (arr, bAnyChange)
  | n + 1, ii, arr, bAnyChange =>
    match arr[ii]?, arr[ii + 1]? with
    | some item, some nxt =>
      let cmpRes := lpCompFn item nxt
      if cmpRes ≠ 0 ∧ (decide (cmpRes > 0) = !bReverseOrder) then
        -- exchange the items
        BubbleSortInner lpCompFn bReverseOrder n (ii + 1) ((arr.set ii nxt).set (ii + 1) item) true
      else BubbleSortInner lpCompFn bReverseOrder n (ii + 1) arr bAnyChange
    | _, _ => (arr, bAnyChange)

/-- The outer `for` loop of `CPkArrBase::BubbleSort`, `lastInd` running down to 1. -/
def BubbleSortOuter {α : Type} (lpCompFn : α → α → Int) (bReverseOrder : Bool) :
    Nat → List α → Bool → List α × Bool
  | 0, arr, bAnyChange => (arr, bAnyChange)
  | lastInd + 1, arr, bAnyChange =>
    let r := BubbleSortInner lpCompFn bReverseOrder (lastInd + 1) 0 arr bAnyChange
    BubbleSortOuter lpCompFn bReverseOrder lastInd r.1 r.2

/-- `CPkArrBase::BubbleSort`: the array after the call and the returned `bAnyChange`. -/
def BubbleSort {α : Type} (lpCompFn : α → α → Int) (bReverseOrder : Bool) (arr : List α) :
    List α × Bool :=
  BubbleSortOuter lpCompFn bReverseOrder (arr.length - 1) arr false

/-- The loop of `CPkArrBase::IsSorted` from the index `ii` on; the first argument is
`nBound - ii`. -/
def IsSortedLoop {α : Type} (lpCompFn : α → α → Int) (bReverseOrder : Bool) :
    Nat → Nat → List α → Bool
  | 0, _, _ => true
  | n + 1, ii, arr =>
    match arr[ii]?, arr[ii + 1]? with
    | some item, some nxt =>
      let cmpRes := lpCompFn item nxt
      if cmpRes ≠ 0 ∧ (decide (cmpRes > 0) = !bReverseOrder) then false
      else IsSortedLoop lpCompFn bReverseOrder n (ii + 1) arr
    | _, _ => true

/-- `CPkArrBase::IsSorted`; `nBound` is `GetUpperBound()`, the size less one. -/
def IsSorted {α : Type} (lpCompFn : α → α → Int) (bReverseOrder : Bool) (arr : List α) : Bool :=
  IsSortedLoop lpCompFn bReverseOrder (arr.length - 1) 0 arr

/-! ## SubstEdit: the parts of the mediator that work on the model -/

/-- `FnPhysInfoPosLowerEq`. -/
def FnPhysInfoPosLowerEq (wParam : Nat) (phinf : CPhysInfo) : Bool :=
  decide (phinf.m_end ≤ wParam)

/-- `CSubstPhysData::FindPhysInfoBefore`, as an index. -/
def FindPhysInfoBefore (d : CSubstPhysData) (phpos : Nat) : Option Nat :=
  LastThat (FnPhysInfoPosLowerEq phpos) d.m_physlist

/-- `CSelInfo::CaretChar`. -/
def CSelInfo.CaretChar (sel : CSelInfo) : Nat :=
  if !sel.m_bCaretIsLast then sel.StartChar else sel.EndChar

/-- `CSubstEdit::eFindDirection`. -/
inductive eFindDirection where
  | eFindCloser
  | eFindBackward
  | eFindForward
deriving DecidableEq, Repr

/-- `CSubstEdit::FindPosOutsidePhys`, on the physical data of the control. -/
def FindPosOutsidePhys (d : CSubstPhysData) (iorig : Nat) (direction : eFindDirection) : Nat :=
  match (FindPhysInfoPosIsIn d iorig).bind (fun k => d.m_physlist[k]?) with
  | some lpPhys =>
    let delta_a := subSz iorig lpPhys.m_start
    let delta_b := subSz lpPhys.m_end iorig
    if direction = eFindDirection.eFindBackward
        ∨ (direction = eFindDirection.eFindCloser ∧ delta_a ≤ delta_b) then
      lpPhys.m_start
    else lpPhys.m_end
  | none => iorig

/-- The part of `CSubstEdit::BackspaceDeleteNotSel` that works on the model: the choice of
`iStart` and the call of `DeleteAllBetween`.  The calls of the original window procedure
act on the edit window only; with the caret at 0 the model is not touched. -/
def BackspaceDeleteNotSel (d : CSubstPhysData) (selInf : CSelInfo) : Option CSubstPhysData :=
  let iCaret := selInf.CaretChar
  if iCaret > 0 then
    let strLeft := strLeft d.m_physStr (castInt iCaret)
    let iPlain :=
      if strRight strLeft 2 = ['\r', '\n'] then subSz iCaret 2 else subSz iCaret 1
    let iStart :=
      match (FindPhysInfoBefore d iCaret).bind (fun k => d.m_physlist[k]?) with
      | some lpPhys => if lpPhys.m_end = iCaret then lpPhys.m_start else iPlain
      | none => iPlain
    (DeleteAllBetween d iStart iCaret).map Prod.fst
  else some d

/-- An `int` after `++`; the counters below stay far from the overflow, which is taken
to wrap around. -/
def intInc (x : Int) : Int := if x = 2147483647 then -2147483648 else x + 1

/-- An `int` after `--`. -/
def intDec (x : Int) : Int := if x = -2147483648 then 2147483647 else x - 1

/-- The change-notification state of `CSubstEdit`: its two counters and whether
`GetParent()` gives a window. -/
structure CSubstEdit where
  m_nChangeNotifyLock : Int
  m_nChangeModifyTempCount : Int
  hasParent : Bool
deriving DecidableEq, Repr

/-- `CSubstEdit::IsChangeNotifyLocked`. -/
def CSubstEdit.IsChangeNotifyLocked (e : CSubstEdit) : Bool := decide (0 < e.m_nChangeNotifyLock)

/-- `CSubstEdit::ChangeModifyTempCountReset`. -/
def CSubstEdit.ChangeModifyTempCountReset (e : CSubstEdit) : CSubstEdit :=
  { e with m_nChangeModifyTempCount := 0 }

/-- `CSubstEdit::ChangeModifyTempCountIncrement`. -/
def CSubstEdit.ChangeModifyTempCountIncrement (e : CSubstEdit) : CSubstEdit :=
  { e with m_nChangeModifyTempCount := intInc e.m_nChangeModifyTempCount }

/-- `CSubstEdit::NotifyFixPrologue`. -/
def CSubstEdit.NotifyFixPrologue (e : CSubstEdit) : CSubstEdit :=
  let e1 := { e with m_nChangeNotifyLock := intInc e.m_nChangeNotifyLock }
  if 0 = e.m_nChangeNotifyLock then e1.ChangeModifyTempCountReset else e1

/-- `CSubstEdit::NotifyFixEpilogue`; the second component tells whether the `EN_CHANGE`
message was sent to the parent. -/
def CSubstEdit.NotifyFixEpilogue (e : CSubstEdit) : CSubstEdit × Bool :=
  let e1 := { e with m_nChangeNotifyLock := intDec e.m_nChangeNotifyLock }
  if 0 = e1.m_nChangeNotifyLock then
    if 0 < e1.m_nChangeModifyTempCount then
      (e1.ChangeModifyTempCountReset, e1.hasParent)
    else (e1, false)
  else (e1, false)

/-- `CSubstEdit::OnEnChange`; the second component is the returned `BOOL`. -/
def CSubstEdit.OnEnChange (e : CSubstEdit) : CSubstEdit × Bool :=
  if e.IsChangeNotifyLocked then (e.ChangeModifyTempCountIncrement, true) else (e, false)

/-- The part of `CSubstEdit::VkDeleteNotSel` that works on the model: the choice of `iEnd`
and the call of `DeleteAllBetween`.  `strTmp` is the window text, which the function
asserts to be the physical string.  The second component is the number of `VK_DELETE`
keystrokes handed to the original window procedure: the rounds of the loop from `iCaret`
to `nDelLimit`, or the single one when the caret is at the end of the text. -/
def VkDeleteNotSel (d : CSubstPhysData) (selInf : CSelInfo) : Option (CSubstPhysData × Nat) :=
  let strTmp := d.m_physStr
  let iCaret := selInf.CaretChar
  if iCaret < strTmp.length then
    let strRight := strRight strTmp (castInt (subSz strTmp.length iCaret))
    let iEndPlain :=
      if strLeft strRight 2 = ['\r', '\n'] then addSz iCaret 2 else addSz iCaret 1
    let r : Nat × Nat :=
      match (FindPhysInfoAfter d iCaret).bind (fun k => d.m_physlist[k]?) with
      | some lpPhys =>
        if lpPhys.m_start = iCaret then (lpPhys.m_end, lpPhys.m_end)
        else (iEndPlain, addSz iCaret 1)
      | none => (iEndPlain, addSz iCaret 1)
    match DeleteAllBetween d iCaret r.1 with
    | none => none
    | some (d1, _) => some (d1, r.2 - iCaret)
  else some (d, 1)

/-- `CSubstEdit::ModifyDataOnInsertion`, on the physical data of the control; the second
component is the returned `delta`. -/
def ModifyDataOnInsertion (d : CSubstPhysData) (iPos : Nat) (szOldText szNewText : CString) :
    Option (CSubstPhysData × Nat) :=
  if szOldText ≠ szNewText then
    let inewLen := szNewText.length
    let ioldLen := szOldText.length
    let delta := subSz inewLen ioldLen
    let strTmp := strMid szNewText (castInt iPos) (castInt delta)
    match InsertText d iPos strTmp with
    | none => none
    | some (d1, _) => some (d1, delta)
  else some (d, 0)

/-! ## Specification vocabulary -/

/-- Strings of the source are `CString`s, whose length is an `int`: it is below
`INT_LIMIT`. -/
def INT_LIMIT : Nat := 2147483648

/-- The display text the map gives for a field id (empty when the id is unknown). -/
def fieldText (lpMap : List SubstDescr) (what : Nat) : CString :=
  match FindMapItem lpMap what with
  | some lpDesc => lpDesc.lpTxt
  | none => []

/-- The markers of a logical data are well formed: every id is in the map, the logical
positions do not decrease along the list and lie within the logical string. -/
def LogOk (logData : CSubstLogData) : Prop :=
  (∀ m ∈ logData.m_logList, (FindMapItem logData.m_map m.m_what).isSome = true)
  ∧ logData.m_logList.Pairwise (fun a b => a.m_pos ≤ b.m_pos)
  ∧ (∀ m ∈ logData.m_logList, m.m_pos ≤ logData.m_logStr.length)

/-- Consistent physical data: the markers are well formed, both strings are `CString`s
(shorter than `INT_LIMIT`) and the physical part (field spans and physical string) is the
one `AssignPhysFromLog` rebuilds from the logical part.  It follows that the two sequences are index-aligned, that the spans are sorted by
start and do not overlap, that every span holds the display text of its field, and that
the physical string is `LogStr2PhysStr` of the logical part. -/
def Consistent (d : CSubstPhysData) : Prop :=
  LogOk d.toCSubstLogData
  ∧ d.m_logStr.length < INT_LIMIT
  ∧ d.m_physStr.length < INT_LIMIT
  ∧ d.m_physlist = AppendAsPhysInfoLoop d.m_map d.m_logList 0
  ∧ d.m_physStr = LogStr2PhysStr d.toCSubstLogData

/-- The position `phpos` is not strictly inside a field. -/
def NotInside (d : CSubstPhysData) (phpos : Nat) : Prop :=
  ∀ f ∈ d.m_physlist, ¬ (f.m_start < phpos ∧ phpos < f.m_end)

/-- The two sequences are index-aligned: same length, same field id at every index. -/
def Aligned (d : CSubstPhysData) : Prop :=
  d.m_physlist.map (fun f => f.m_what) = d.m_logList.map (fun m => m.m_what)

/-- An element of a document seen as one sequence: a plain character or a field. -/
inductive Item where
  | ch (c : Char)
  | fld (what : Nat)
deriving DecidableEq, Repr

/-- The logical string of a sequence of items. -/
def itemsLog : List Item → CString
  | [] => []
  | Item.ch c :: rest => c :: itemsLog rest
  | Item.fld _ :: rest => itemsLog rest

/-- The physical string of a sequence of items. -/
def itemsPhys (lpMap : List SubstDescr) : List Item → CString
  | [] => []
  | Item.ch c :: rest => c :: itemsPhys lpMap rest
  | Item.fld what :: rest => fieldText lpMap what ++ itemsPhys lpMap rest

/-- The markers of a sequence of items that starts at logical position `lo`. -/
def itemsMarks : Nat → List Item → List CLogInfo
  | _, [] => []
  | lo, Item.ch _ :: rest => itemsMarks (lo + 1) rest
  | lo, Item.fld what :: rest => { m_what := what, m_pos := lo } :: itemsMarks lo rest

/-- The field spans of a sequence of items that starts at physical position `po`. -/
def itemsFields (lpMap : List SubstDescr) : Nat → List Item → List CPhysInfo
  | _, [] => []
  | po, Item.ch _ :: rest => itemsFields lpMap (po + 1) rest
  | po, Item.fld what :: rest =>
    { m_what := what, m_start := po, m_end := po + (fieldText lpMap what).length }
      :: itemsFields lpMap (po + (fieldText lpMap what).length) rest

/-- Every field of the sequence is in the map. -/
def itemsKnown (lpMap : List SubstDescr) (items : List Item) : Prop :=
  ∀ what, Item.fld what ∈ items → (FindMapItem lpMap what).isSome = true

/-- The physical data of a sequence of items. -/
def conc (lpMap : List SubstDescr) (items : List Item) : CSubstPhysData :=
  { m_logStr := itemsLog items
    m_logList := itemsMarks 0 items
    m_map := lpMap
    m_physStr := itemsPhys lpMap items
    m_physlist := itemsFields lpMap 0 items }

/-- The items of a logical string `strLog`, from position `lo` on, with its markers. -/
def buildItems (strLog : CString) : Nat → List CLogInfo → List Item
  | lo, [] => (strLog.drop lo).map Item.ch
  | lo, m :: rest =>
    ((strLog.drop lo).take (m.m_pos - lo)).map Item.ch
      ++ Item.fld m.m_what :: buildItems strLog m.m_pos rest

/-- The markers start at `lo` or later, do not decrease, and end at `len` or before. -/
def marksFrom (len : Nat) : Nat → List CLogInfo → Prop
  | lo, [] => lo ≤ len
  | lo, m :: rest => lo ≤ m.m_pos ∧ marksFrom len m.m_pos rest

/-- The end of `LogStrToPhysStr`: the logical text left after the last marker. -/
def renderFinish (strLog : CString) (r : CString × Nat) : CString :=
  if subSz strLog.length r.2 > 0 then
    r.1 ++ strMid strLog (castInt r.2) (castInt (subSz strLog.length r.2))
  else r.1

/-- Every field of the sequence starts before the end of the sequence (the sequence does
not end with fields of empty display text). -/
def Tight (lpMap : List SubstDescr) (A : List Item) : Prop :=
  ∀ f ∈ itemsFields lpMap 0 A, f.m_start < (itemsPhys lpMap A).length

/-- A physical field moved to the right by `dx`. -/
def CPhysInfo.shiftBy (f : CPhysInfo) (dx : Nat) : CPhysInfo :=
  { f with m_start := f.m_start + dx, m_end := f.m_end + dx }

/-- A physical field moved to the left by `dx`. -/
def CPhysInfo.shiftBack (f : CPhysInfo) (dx : Nat) : CPhysInfo :=
  { f with m_start := f.m_start - dx, m_end := f.m_end - dx }

instance (logData : CSubstLogData) : Decidable (LogOk logData) := by
  unfold LogOk; infer_instance

instance (d : CSubstPhysData) : Decidable (Consistent d) := by
  unfold Consistent; infer_instance

instance (d : CSubstPhysData) (phpos : Nat) : Decidable (NotInside d phpos) := by
  unfold NotInside; infer_instance

instance (d : CSubstPhysData) : Decidable (Aligned d) := by
  unfold Aligned; infer_instance

/-- The field map of the examples: `{1: "<Year>"}`, with its sentinel. -/
def yearMap : List SubstDescr :=
  [{ valId := 1, lpTxt := "<Year>".toList }, { valId := 0, lpTxt := [] }]

/-- The empty document over `yearMap`. -/
def yearDoc : CSubstPhysData :=
  { m_logStr := [], m_logList := [], m_map := yearMap, m_physStr := [], m_physlist := [] }

/-- The document over `yearMap` that holds the field `<Year>` and nothing else. -/
def yearFieldDoc : CSubstPhysData :=
  { m_logStr := [], m_logList := [{ m_what := 1, m_pos := 0 }], m_map := yearMap,
    m_physStr := "<Year>".toList, m_physlist := [{ m_what := 1, m_start := 0, m_end := 6 }] }

/-- Every display text of the map is non-empty. -/
def NonEmptyTexts (lpMap : List SubstDescr) : Prop :=
  ∀ lpDesc ∈ lpMap, lpDesc.valId ≠ kInvalidSubstElemId → lpDesc.lpTxt ≠ []

instance (lpMap : List SubstDescr) : Decidable (NonEmptyTexts lpMap) := by
  unfold NonEmptyTexts; infer_instance

/-- The fragment parsed from the plain text `"<Year>"` over `yearMap`. -/
def yearFragment : CSubstLogData :=
  { m_logStr := [], m_logList := [{ m_what := 1, m_pos := 0 }], m_map := yearMap }

/-- The first descriptor, in declaration order and before the sentinel, whose display
text is a prefix of `s`. -/
def firstPrefix : List SubstDescr → CString → Option SubstDescr
  | [], _ => none
  | descr :: rest, s =>
    if kInvalidSubstElemId = descr.valId then none
    else if descr.lpTxt.isPrefixOf s then some descr
    else firstPrefix rest s

/-- The field ids of the table are pairwise distinct. -/
def DistinctIds (lpMap : List SubstDescr) : Prop :=
  lpMap.Pairwise (fun a b => a.valId ≠ b.valId)

instance (lpMap : List SubstDescr) : Decidable (DistinctIds lpMap) := by
  unfold DistinctIds; infer_instance

/-- No display text of the table is a prefix of the display text of another entry. -/
def PrefixFree (lpMap : List SubstDescr) : Prop :=
  ∀ a ∈ lpMap, ∀ b ∈ lpMap, a.valId ≠ kInvalidSubstElemId → b.valId ≠ kInvalidSubstElemId →
    a ≠ b → a.lpTxt.isPrefixOf b.lpTxt = false

instance (lpMap : List SubstDescr) : Decidable (PrefixFree lpMap) := by
  unfold PrefixFree; infer_instance

/-- The five XML special characters. -/
def xmlSpecials : List Char := ['&', '<', '>', chQuot, chApos]

/-- The character `c` begins no display text of the table. -/
def BeginsNoText (lpMap : List SubstDescr) (c : Char) : Prop :=
  ∀ lpDesc ∈ lpMap, lpDesc.lpTxt.head? ≠ some c

instance (lpMap : List SubstDescr) (c : Char) : Decidable (BeginsNoText lpMap c) := by
  unfold BeginsNoText; infer_instance

/-- A field map whose display text is a single letter: `{1: "Y"}`, with its sentinel. -/
def letterMap : List SubstDescr :=
  [{ valId := 1, lpTxt := "Y".toList }, { valId := 0, lpTxt := [] }]

/-- The logical data over `letterMap` with the plain text `"Y"` and no field. -/
def letterLog : CSubstLogData :=
  { m_logStr := "Y".toList, m_logList := [], m_map := letterMap }


/-- The logical data over `yearMap` with the plain text `"aaaaa&"` and no field. -/
def ampLog : CSubstLogData :=
  { m_logStr := "aaaaa&".toList, m_logList := [], m_map := yearMap }

/-- The logical data over `yearMap` whose plain text is one apostrophe, with no field. -/
def aposLog : CSubstLogData :=
  { m_logStr := [chApos], m_logList := [], m_map := yearMap }

/-- The items with every plain character `x` replaced by the characters of `σ x`. -/
def substItems (σ : Char → CString) : List Item → List Item
  | [] => []
  | Item.ch x :: rest => (σ x).map Item.ch ++ substItems σ rest
  | Item.fld what :: rest => Item.fld what :: substItems σ rest

/-- The pattern `a` starts at no position of `s`, whatever text follows `s`. -/
def Apart (a s : CString) : Prop :=
  ∀ k < s.length, a.isPrefixOf (s.drop k) = false ∧ (s.drop k).isPrefixOf a = false

instance (a s : CString) : Decidable (Apart a s) := by
  unfold Apart; infer_instance

/-- The text that stands for the character `x` once `ReplaceLogXmlCharsThere` has done
its passes for the characters of `listed`. -/
def escapeChar (listed : List Char) (x : Char) : CString :=
  if x ∈ listed then
    if x = '<' then "&lt;".toList
    else if x = '>' then "&gt;".toList
    else if x = chQuot then "&quot;".toList
    else if x = chApos then "&apos".toList
    else [x]
  else [x]

/-- The logical data of `"x<y in <Year>."` over `yearMap`: the plain text `"x<y in ."`
and the field 1 at the logical position 7. -/
def lessLog : CSubstLogData :=
  { m_logStr := "x<y in .".toList, m_logList := [{ m_what := 1, m_pos := 7 }],
    m_map := yearMap }

/-- The logical data `lessLog` with its plain text escaped. -/
def lessLogEscaped : CSubstLogData :=
  { m_logStr := "x&lt;y in .".toList, m_logList := [{ m_what := 1, m_pos := 10 }],
    m_map := yearMap }

/-- The field ids of the table before its sentinel. -/
def idsBeforeSentinel (lpMap : List SubstDescr) : List Nat :=
  (lpMap.takeWhile (fun lpDesc => lpDesc.valId != kInvalidSubstElemId)).map
    (fun lpDesc => lpDesc.valId)

/-- The text the callback `lpFn` gives for the field id `what` (empty when the id is not
in the map). -/
def replacementText (lpMap : List SubstDescr) (lpFn : SubstDescr → CString) (what : Nat) :
    CString :=
  match FindMapItem lpMap what with
  | some lpDesc => lpFn lpDesc
  | none => []

/-- Reference definition of `LogStrToPhysStr`, after the specification: from the logical
position `prev` on, the logical text between consecutive marker positions with the
callback result spliced in at each marker, then the text after the last marker. -/
def renderReference (lpMap : List SubstDescr) (lpFn : SubstDescr → CString) (s : CString) :
    Nat → List CLogInfo → CString
  | prev, [] => s.drop prev
  | prev, m :: rest =>
    (s.drop prev).take (m.m_pos - prev) ++ replacementText lpMap lpFn m.m_what
      ++ renderReference lpMap lpFn s m.m_pos rest

/-- Number of characters of the physical string before `ph` that lie in no field span. -/
def plainBefore (d : CSubstPhysData) (ph : Nat) : Nat :=
  ((List.range ph).filter
    (fun i => d.m_physlist.all (fun f => !(decide (f.m_start ≤ i) && decide (i < f.m_end))))).length

/-- Sum of `end - start` over the physical fields that end at or before `ph`. -/
def lengthsBefore (d : CSubstPhysData) (ph : Nat) : Int :=
  ((d.m_physlist.filter (fun f => decide (f.m_end ≤ ph))).map
    (fun f => (f.m_end : Int) - (f.m_start : Int))).sum

/-- The end of `PhysStr2logStr`: the physical text left after the last field. -/
def exportFinish (strPhys : CString) (r : CString × Nat) : CString :=
  if subSz strPhys.length r.2 > 0 then
    r.1 ++ strMid strPhys (castInt r.2) (castInt (subSz strPhys.length r.2))
  else r.1

/-- The document `"ab<Year>cd"` over `yearMap`: the plain text `"abcd"` with the field 1
between `b` and `c`. -/
def midDoc : CSubstPhysData :=
  { m_logStr := "abcd".toList, m_logList := [{ m_what := 1, m_pos := 2 }], m_map := yearMap,
    m_physStr := "ab<Year>cd".toList, m_physlist := [{ m_what := 1, m_start := 2, m_end := 8 }] }

/-- The fields of a sequence do not overlap: of any two of them one ends at or before the
start of the other. -/
def NoOverlap (l : List CPhysInfo) : Prop :=
  l.Pairwise (fun a b => a.m_end ≤ b.m_start ∨ b.m_end ≤ a.m_start)

instance (l : List CPhysInfo) : Decidable (NoOverlap l) := by
  unfold NoOverlap; infer_instance

/-- The loop of `replaceAll`; the fuel is the length of the text that remains. -/
def replaceAllLoop (strOldPart strNewPart : CString) : Nat → CString → CString
  | 0, s => s
  | _ + 1, [] => []
  | fuel + 1, c :: cs =>
    if strOldPart.isPrefixOf (c :: cs) then
      strNewPart ++ replaceAllLoop strOldPart strNewPart fuel ((c :: cs).drop strOldPart.length)
    else c :: replaceAllLoop strOldPart strNewPart fuel cs

/-- The standard left-to-right, non-overlapping replace-all of `strOldPart` by
`strNewPart`, as the specification words it: every occurrence met from the left is
replaced, and the scan goes on behind the occurrence in the old text. -/
def replaceAll (strOldPart strNewPart s : CString) : CString :=
  if strOldPart = [] then s else replaceAllLoop strOldPart strNewPart s.length s

/-- The logical data over `yearMap` with the plain text `"aaaaaa&"` and no field. -/
def sixAmpLog : CSubstLogData :=
  { m_logStr := "aaaaaa&".toList, m_logList := [], m_map := yearMap }

/-- The logical data over `yearMap` with the plain text `"x&amp;amp;"` and no field. -/
def ampAmpLog : CSubstLogData :=
  { m_logStr := "x&amp;amp;".toList, m_logList := [], m_map := yearMap }

/-- A step of the change-notification protocol of the mediator. -/
inductive NotifyStep where
  | prologue
  | enChange
  | increment
  | epilogue
deriving DecidableEq, Repr

/-- One step on the state: `NotifyFixPrologue`, `OnEnChange`,
`ChangeModifyTempCountIncrement` or `NotifyFixEpilogue`.  The second component is what
the step gives out: the `BOOL` that `OnEnChange` returns, or whether `NotifyFixEpilogue`
sent `EN_CHANGE`; it is false for the two steps that give nothing out. -/
def notifyStep (e : CSubstEdit) : NotifyStep → CSubstEdit × Bool
  | NotifyStep.prologue => (e.NotifyFixPrologue, false)
  | NotifyStep.enChange => e.OnEnChange
  | NotifyStep.increment => (e.ChangeModifyTempCountIncrement, false)
  | NotifyStep.epilogue => e.NotifyFixEpilogue

/-- A sequence of steps run from the state `e`: the last state and what each step gave
out, in order. -/
def notifyRun (e : CSubstEdit) : List NotifyStep → CSubstEdit × List Bool
  | [] => (e, [])
  | s :: rest => ((notifyRun (notifyStep e s).1 rest).1,
                  (notifyStep e s).2 :: (notifyRun (notifyStep e s).1 rest).2)

/-- The nesting depth behind a sequence of steps entered at the depth `depth`; `none`
when an epilogue has no prologue to match. -/
def nestingDepth : List NotifyStep → Nat → Option Nat
  | [], depth => some depth
  | NotifyStep.prologue :: rest, depth => nestingDepth rest (depth + 1)
  | NotifyStep.epilogue :: _, 0 => none
  | NotifyStep.epilogue :: rest, depth + 1 => nestingDepth rest depth
  | NotifyStep.enChange :: rest, depth => nestingDepth rest depth
  | NotifyStep.increment :: rest, depth => nestingDepth rest depth

/-- The steps are well nested: every epilogue matches a prologue before it and every
prologue is closed. -/
def WellNested (steps : List NotifyStep) : Prop := nestingDepth steps 0 = some 0

instance (steps : List NotifyStep) : Decidable (WellNested steps) := by
  unfold WellNested; infer_instance

/-- The step reports a change: `OnEnChange` or `ChangeModifyTempCountIncrement`. -/
def NotifyStep.isChange : NotifyStep → Bool
  | NotifyStep.enChange => true
  | NotifyStep.increment => true
  | _ => false

/-- The steps of `CSubstEdit::InsertNewInfo` around the insertion, with one `EN_CHANGE` of
the edit control inside a nested prologue and epilogue. -/
def insertFieldSteps : List NotifyStep :=
  [NotifyStep.prologue, NotifyStep.enChange, NotifyStep.epilogue, NotifyStep.increment]

/-- The document over `yearMap` with the plain text `"a\r\n"` and no field. -/
def lineDoc : CSubstPhysData :=
  { m_logStr := ['a', '\r', '\n'], m_logList := [], m_map := yearMap,
    m_physStr := ['a', '\r', '\n'], m_physlist := [] }

/-- The test of `BubbleSort` and `IsSorted` on two neighbours: the comparison is not 0
and `(cmpRes > 0) == !bReverseOrder`, that is, the two stand in the wrong order. -/
def outOfOrder {α : Type} (lpCompFn : α → α → Int) (bReverseOrder : Bool) (a b : α) : Prop :=
  lpCompFn a b ≠ 0 ∧ (decide (lpCompFn a b > 0) = !bReverseOrder)

instance {α : Type} (lpCompFn : α → α → Int) (bReverseOrder : Bool) (a b : α) :
    Decidable (outOfOrder lpCompFn bReverseOrder a b) := by
  unfold outOfOrder; infer_instance

/-- One pass of the bubble sort as a recursion on the list: `n` comparisons, the element
`x` carried along against the elements that follow; the second component tells whether a
pair was exchanged. -/
def bubbleCarry {α : Type} (lpCompFn : α → α → Int) (bReverseOrder : Bool) :
    Nat → α → List α → List α × Bool
  | 0, x, rest => (x :: rest, false)
  | _ + 1, x, [] => ([x], false)
  | n + 1, x, y :: rest =>
    if outOfOrder lpCompFn bReverseOrder x y then
      (y :: (bubbleCarry lpCompFn bReverseOrder n x rest).1, true)
    else
      (x :: (bubbleCarry lpCompFn bReverseOrder n y rest).1,
        (bubbleCarry lpCompFn bReverseOrder n y rest).2)

/-- The comparison of two integers by their difference. -/
def intCompare (a b : Int) : Int := a - b

/-- The fields are sorted by position in sequence order: each field ends at or before the
start of every later one, and each has `start <= end`. -/
def PositionSorted (l : List CPhysInfo) : Prop :=
  l.Pairwise (fun a b => a.m_end ≤ b.m_start) ∧ ∀ f ∈ l, f.m_start ≤ f.m_end

instance (l : List CPhysInfo) : Decidable (PositionSorted l) := by
  unfold PositionSorted; infer_instance

/-- The document `"<Year>x<Year>"` over `yearMap`: two fields around the plain `x`. -/
def twoFieldDoc : CSubstPhysData :=
  { m_logStr := "x".toList,
    m_logList := [{ m_what := 1, m_pos := 0 }, { m_what := 1, m_pos := 1 }],
    m_map := yearMap,
    m_physStr := "<Year>x<Year>".toList,
    m_physlist := [{ m_what := 1, m_start := 0, m_end := 6 },
                   { m_what := 1, m_start := 7, m_end := 13 }] }

/-- The text that stands for one character in the escaped text, after the words of the
specification: `<`, `>` and the quotation mark become their entities. -/
def escXmlChar (c : Char) : CString :=
  if c = '<' then "&lt;".toList
  else if c = '>' then "&gt;".toList
  else if c = chQuot then "&quot;".toList
  else [c]

/-- The function `esc` of the specification on a text. -/
def escXml : CString → CString
  | [] => []
  | c :: s => escXmlChar c ++ escXml s

/-- The escaped plain text, after the words of the specification: from the logical
position `prev` on, the escaped pieces of the logical text between consecutive marker
positions with the display text of each field between them. -/
def escapedReference (lpMap : List SubstDescr) (s : CString) : Nat → List CLogInfo → CString
  | prev, [] => escXml (s.drop prev)
  | prev, m :: rest =>
    escXml ((s.drop prev).take (m.m_pos - prev)) ++ fieldText lpMap m.m_what
      ++ escapedReference lpMap s m.m_pos rest

/-- The logical data of `"a<<Year>>b"` over `yearMap`: the plain text `"a<>b"` with the
field 1 between the two angle brackets. -/
def bracketLog : CSubstLogData :=
  { m_logStr := "a<>b".toList, m_logList := [{ m_what := 1, m_pos := 2 }], m_map := yearMap }

/-- The empty document over the field map `lpMap`. -/
def emptyDoc (lpMap : List SubstDescr) : CSubstPhysData :=
  { m_logStr := [], m_logList := [], m_map := lpMap, m_physStr := [], m_physlist := [] }

/-- The states reachable from the empty document over `lpMap` by the five editing
operations, each called with a mapped field id, with positions within the physical string
that are not strictly inside a field, with strings within the range of a `CString`, and
(for `InsertData`) with a fragment over the same map whose markers are well formed: mapped
ids, positions within the fragment text and in non-decreasing order. -/
inductive Reachable (lpMap : List SubstDescr) : CSubstPhysData → Prop
  | empty : Reachable lpMap (emptyDoc lpMap)
  | insertNewInfo (d d1 : CSubstPhysData) (phpos what : Nat) (r : Option CPhysInfo) :
      Reachable lpMap d → (FindMapItem lpMap what).isSome = true →
      phpos ≤ d.m_physStr.length → NotInside d phpos →
      d.m_physStr.length + (fieldText lpMap what).length < INT_LIMIT →
      InsertNewInfo d phpos what = some (d1, r) → Reachable lpMap d1
  | insertText (d d1 : CSubstPhysData) (physIndex : Nat) (sztext : CString) (b : Bool) :
      Reachable lpMap d → physIndex ≤ d.m_physStr.length → NotInside d physIndex →
      d.m_physStr.length + sztext.length < INT_LIMIT →
      InsertText d physIndex sztext = some (d1, b) → Reachable lpMap d1
  | deleteOneInfo (d d1 : CSubstPhysData) (lpInf : Nat) (b : Bool) :
      Reachable lpMap d → DeleteOneInfo d lpInf = some (d1, b) → Reachable lpMap d1
  | deleteAllBetween (d d1 : CSubstPhysData) (start endPos n : Nat) :
      Reachable lpMap d → start ≤ endPos → endPos ≤ d.m_physStr.length →
      NotInside d start → NotInside d endPos →
      DeleteAllBetween d start endPos = some (d1, n) → Reachable lpMap d1
  | insertData (d d1 : CSubstPhysData) (physIndex : Nat) (logData logData1 : CSubstLogData)
      (n : Nat) :
      Reachable lpMap d → logData.m_map = lpMap → LogOk logData →
      logData.m_logStr.length < INT_LIMIT →
      physIndex ≤ d.m_physStr.length → NotInside d physIndex →
      d.m_physStr.length + (LogStr2PhysStr logData).length < INT_LIMIT →
      InsertData d physIndex logData = some (d1, logData1, n) → Reachable lpMap d1

/-- A fragment over `yearMap` whose two markers are out of position order: text `"ab"`,
markers at 2 and at 0. -/
def unsortedFragment : CSubstLogData :=
  { m_logStr := "ab".toList
    m_logList := [{ m_what := 1, m_pos := 2 }, { m_what := 1, m_pos := 0 }]
    m_map := yearMap }

/-- The physical data `InsertData` leaves when `unsortedFragment` is pasted into the empty
document over `yearMap`. -/
def unsortedPasted : CSubstPhysData :=
  { m_logStr := "ab".toList
    m_logList := [{ m_what := 1, m_pos := 2 }, { m_what := 1, m_pos := 0 }]
    m_map := yearMap
    m_physStr := "ab<Yea<Year>r>".toList
    m_physlist := [{ m_what := 1, m_start := 2, m_end := 8 },
                   { m_what := 1, m_start := 6, m_end := 12 }] }

/-- The document over `yearMap` that holds the field `<Year>` followed by the plain
character `x`. -/
def yearThenX : CSubstPhysData :=
  { m_logStr := "x".toList, m_logList := [{ m_what := 1, m_pos := 0 }], m_map := yearMap,
    m_physStr := "<Year>x".toList, m_physlist := [{ m_what := 1, m_start := 0, m_end := 6 }] }

/-- Consistent physical data as the claims list it, in four conditions: the two sequences
are index-aligned; the fields are sorted by start and do not overlap (each field ends at
or before the start of every later one); every span lies within the physical string and
holds exactly the display text of its field, which the map knows; and the physical string
is `LogStr2PhysStr` of the logical part.  Nothing is asked of the positions of the
markers. -/
def ListedConsistent (d : CSubstPhysData) : Prop :=
  Aligned d
  ∧ d.m_physlist.Pairwise (fun a b => a.m_end ≤ b.m_start)
  ∧ (∀ f ∈ d.m_physlist, f.m_start ≤ f.m_end ∧ f.m_end ≤ d.m_physStr.length
      ∧ (FindMapItem d.m_map f.m_what).isSome = true
      ∧ (d.m_physStr.drop f.m_start).take (f.m_end - f.m_start) = fieldText d.m_map f.m_what)
  ∧ d.m_physStr = LogStr2PhysStr d.toCSubstLogData

instance (d : CSubstPhysData) : Decidable (ListedConsistent d) := by
  unfold ListedConsistent; infer_instance

/-- The items of a physical string `strPhys`, from position `po` on, with its fields. -/
def physItems (strPhys : CString) : Nat → List CPhysInfo → List Item
  | po, [] => (strPhys.drop po).map Item.ch
  | po, f :: rest =>
    ((strPhys.drop po).take (f.m_start - po)).map Item.ch
      ++ Item.fld f.m_what :: physItems strPhys f.m_end rest

/-- The spans start at `po` or later, follow one another, lie within `strPhys` and hold
the display texts of their fields. -/
def spansFrom (lpMap : List SubstDescr) (strPhys : CString) : Nat → List CPhysInfo → Prop
  | po, [] => po ≤ strPhys.length
  | po, f :: rest =>
    po ≤ f.m_start ∧ f.m_start ≤ f.m_end ∧ f.m_end ≤ strPhys.length
      ∧ (strPhys.drop f.m_start).take (f.m_end - f.m_start) = fieldText lpMap f.m_what
      ∧ spansFrom lpMap strPhys f.m_end rest

/-- A field map whose display text stands in plain text as well: `{1: "ab"}`. -/
def abMap : List SubstDescr :=
  [{ valId := 1, lpTxt := "ab".toList }, { valId := 0, lpTxt := [] }]

/-- Physical data over `abMap` that meet the four listed conditions although the field
does not lie where its marker says: the logical string `"abX"` with the marker `{1, 3}`
renders to `"abXab"`, and the field span is `[0, 2)`, which holds `"ab"` too. -/
def echoDoc : CSubstPhysData :=
  { m_logStr := "abX".toList, m_logList := [{ m_what := 1, m_pos := 3 }], m_map := abMap,
    m_physStr := "abXab".toList, m_physlist := [{ m_what := 1, m_start := 0, m_end := 2 }] }

/-- Physical data over `yearMap` that meet the four listed conditions with markers out of
position order: the logical string `"ab"` with the markers `{1, 2}`, `{1, 0}` renders to
`"ab<Year><Year>ab"`, and the fields lie at `[2, 8)` and `[8, 14)`. -/
def swappedDoc : CSubstPhysData :=
  { m_logStr := "ab".toList
    m_logList := [{ m_what := 1, m_pos := 2 }, { m_what := 1, m_pos := 0 }]
    m_map := yearMap
    m_physStr := "ab<Year><Year>ab".toList
    m_physlist := [{ m_what := 1, m_start := 2, m_end := 8 },
                   { m_what := 1, m_start := 8, m_end := 14 }] }

/-- A field map whose display text ends in a carriage return: `{1: "X\r"}`. -/
def crMap : List SubstDescr :=
  [{ valId := 1, lpTxt := ['X', '\r'] }, { valId := 0, lpTxt := [] }]

/-- The document over `crMap` that holds the field 1 followed by a plain line feed: the
physical string is `"X\r\n"`, the field lies at `[0, 2)`. -/
def crDoc : CSubstPhysData :=
  { m_logStr := ['\n'], m_logList := [{ m_what := 1, m_pos := 0 }], m_map := crMap,
    m_physStr := ['X', '\r', '\n'], m_physlist := [{ m_what := 1, m_start := 0, m_end := 2 }] }

/-- Physical data over `yearMap` with a field and no marker. -/
def loneFieldDoc : CSubstPhysData :=
  { m_logStr := [], m_logList := [], m_map := yearMap,
    m_physStr := "<Year>".toList, m_physlist := [{ m_what := 1, m_start := 0, m_end := 6 }] }

/-- Physical data over `yearMap` whose two fields overlap: the string `"abcdefgh"` with the
spans `[0, 4)` and `[2, 6)`, and a marker for each. -/
def overlapDoc : CSubstPhysData :=
  { m_logStr := "ab".toList,
    m_logList := [{ m_what := 1, m_pos := 0 }, { m_what := 1, m_pos := 0 }],
    m_map := yearMap, m_physStr := "abcdefgh".toList,
    m_physlist := [{ m_what := 1, m_start := 0, m_end := 4 },
                   { m_what := 1, m_start := 2, m_end := 6 }] }

/-- The physical string parses back without ambiguity: at no position that lies outside
the field spans does a display text of the table begin, and at the start of every field
span the first display text of the table, in declaration order, that stands there is the
one of the field's own descriptor. -/
def ParsesBack (P : CSubstPhysData) : Prop :=
  (∀ i < P.m_physStr.length, (∀ f ∈ P.m_physlist, ¬ (f.m_start ≤ i ∧ i < f.m_end)) →
      firstPrefix P.m_map (P.m_physStr.drop i) = none)
  ∧ (∀ f ∈ P.m_physlist,
      firstPrefix P.m_map (P.m_physStr.drop f.m_start) = FindMapItem P.m_map f.m_what)

instance (P : CSubstPhysData) : Decidable (ParsesBack P) := by
  unfold ParsesBack; infer_instance

/-- A field map whose display text begins like ordinary words: `{1: "Year"}`. -/
def wordMap : List SubstDescr :=
  [{ valId := 1, lpTxt := "Year".toList }, { valId := 0, lpTxt := [] }]

/-- The logical data over `wordMap` with the plain text `"Yes"` and no field. -/
def yesLog : CSubstLogData :=
  { m_logStr := "Yes".toList, m_logList := [], m_map := wordMap }

/-- The stored logical position of every marker is the one recomputed from the span of the
field of the same index: `PhysPos2LogPos` of the start of the field. -/
def MarkersAtFields (d : CSubstPhysData) : Prop :=
  ∀ mf ∈ List.zip d.m_logList d.m_physlist, mf.1.m_pos = PhysPos2LogPos d mf.2.m_start

instance (d : CSubstPhysData) : Decidable (MarkersAtFields d) := by
  unfold MarkersAtFields; infer_instance

/-! ## Theorems -/
theorem addSz_of_lt {a b : Nat} (h : a + b < INT_LIMIT) : addSz a b = a + b := by
  unfold addSz SIZE_MOD; unfold INT_LIMIT at h; omega

theorem subSz_of_le {a b : Nat} (hb : b ≤ a) (ha : a < INT_LIMIT) : subSz a b = a - b := by
  unfold subSz SIZE_MOD; unfold INT_LIMIT at ha; omega

theorem addSz_negSz {a b : Nat} (hb : b ≤ a) (ha : a < INT_LIMIT) :
    addSz a (negSz b) = a - b := by
  unfold addSz negSz SIZE_MOD; unfold INT_LIMIT at ha; omega

theorem toNat_castInt {a : Nat} (ha : a < INT_LIMIT) : (castInt a).toNat = a := by
  unfold castInt; unfold INT_LIMIT at ha
  have h1 : a % 4294967296 = a := Nat.mod_eq_of_lt (by omega)
  rw [h1, if_pos ha]; simp

theorem castInt_of_lt {a : Nat} (ha : a < INT_LIMIT) : castInt a = (a : Int) := by
  unfold castInt; unfold INT_LIMIT at ha
  have h1 : a % 4294967296 = a := Nat.mod_eq_of_lt (by omega)
  rw [h1, if_pos ha]

theorem strMid_cast (s : CString) {a b : Nat} (ha : a < INT_LIMIT) (hb : b < INT_LIMIT) :
    strMid s (castInt a) (castInt b) = (s.drop a).take b := by
  unfold strMid; rw [toNat_castInt ha, toNat_castInt hb]

theorem strLeft_cast (s : CString) {a : Nat} (ha : a < INT_LIMIT) :
    strLeft s (castInt a) = s.take a := by
  unfold strLeft; rw [toNat_castInt ha]

theorem strRight_cast (s : CString) {a : Nat} (ha : a < INT_LIMIT) :
    strRight s (castInt a) = s.drop (s.length - a) := by
  unfold strRight; rw [toNat_castInt ha]

theorem strInsert_cast (s t : CString) {a : Nat} (ha : a < INT_LIMIT) :
    strInsert s (castInt a) t = s.take a ++ t ++ s.drop a := by
  unfold strInsert; rw [toNat_castInt ha]


/-! ### Sequences of items -/

@[simp] theorem itemsLog_append (A B : List Item) :
    itemsLog (A ++ B) = itemsLog A ++ itemsLog B := by
  induction A with
  | nil => rfl
  | cons x A ih => cases x <;> simp [itemsLog, ih]

@[simp] theorem itemsPhys_append (lpMap : List SubstDescr) (A B : List Item) :
    itemsPhys lpMap (A ++ B) = itemsPhys lpMap A ++ itemsPhys lpMap B := by
  induction A with
  | nil => rfl
  | cons x A ih => cases x <;> simp [itemsPhys, ih]

theorem itemsMarks_append (A B : List Item) (lo : Nat) :
    itemsMarks lo (A ++ B) = itemsMarks lo A ++ itemsMarks (lo + (itemsLog A).length) B := by
  induction A generalizing lo with
  | nil => simp [itemsMarks, itemsLog]
  | cons x A ih =>
    cases x with
    | ch c =>
      have e : lo + 1 + (itemsLog A).length = lo + ((itemsLog A).length + 1) := by omega
      simp [itemsMarks, itemsLog, ih, e]
    | fld w => simp [itemsMarks, itemsLog, ih]

theorem itemsFields_append (lpMap : List SubstDescr) (A B : List Item) (po : Nat) :
    itemsFields lpMap po (A ++ B)
      = itemsFields lpMap po A ++ itemsFields lpMap (po + (itemsPhys lpMap A).length) B := by
  induction A generalizing po with
  | nil => simp [itemsFields, itemsPhys]
  | cons x A ih =>
    cases x with
    | ch c =>
      have e : po + 1 + (itemsPhys lpMap A).length = po + ((itemsPhys lpMap A).length + 1) := by
        omega
      simp [itemsFields, itemsPhys, ih, e]
    | fld w =>
      have e : po + (fieldText lpMap w).length + (itemsPhys lpMap A).length
          = po + ((fieldText lpMap w).length + (itemsPhys lpMap A).length) := by omega
      simp [itemsFields, itemsPhys, ih, e]

@[simp] theorem itemsLog_chars (s : CString) : itemsLog (s.map Item.ch) = s := by
  induction s with
  | nil => rfl
  | cons c s ih => simp [itemsLog, ih]

@[simp] theorem itemsPhys_chars (lpMap : List SubstDescr) (s : CString) :
    itemsPhys lpMap (s.map Item.ch) = s := by
  induction s with
  | nil => rfl
  | cons c s ih => simp [itemsPhys, ih]

@[simp] theorem itemsMarks_chars (s : CString) (lo : Nat) :
    itemsMarks lo (s.map Item.ch) = [] := by
  induction s generalizing lo with
  | nil => rfl
  | cons c s ih => simp [itemsMarks, ih]

@[simp] theorem itemsFields_chars (lpMap : List SubstDescr) (s : CString) (po : Nat) :
    itemsFields lpMap po (s.map Item.ch) = [] := by
  induction s generalizing po with
  | nil => rfl
  | cons c s ih => simp [itemsFields, ih]

theorem itemsMarks_length (lpMap : List SubstDescr) (A : List Item) (lo po : Nat) :
    (itemsMarks lo A).length = (itemsFields lpMap po A).length := by
  induction A generalizing lo po with
  | nil => rfl
  | cons x A ih =>
    cases x with
    | ch c => simpa [itemsMarks, itemsFields] using ih _ _
    | fld w => simpa [itemsMarks, itemsFields] using ih _ _

theorem itemsLog_length_le (lpMap : List SubstDescr) (A : List Item) :
    (itemsLog A).length ≤ (itemsPhys lpMap A).length := by
  induction A with
  | nil => simp [itemsLog]
  | cons x A ih => cases x <;> simp [itemsLog, itemsPhys] <;> omega

/-- Moving the origin of a sequence moves every marker. -/
theorem itemsMarks_shift (A : List Item) (lo k : Nat) :
    itemsMarks (lo + k) A
      = (itemsMarks lo A).map (fun m => { m with m_pos := m.m_pos + k }) := by
  induction A generalizing lo with
  | nil => rfl
  | cons x A ih =>
    cases x with
    | ch c =>
      simp only [itemsMarks]
      rw [← ih (lo + 1)]; congr 1; omega
    | fld w => simp [itemsMarks, ih]

/-- Moving the origin of a sequence moves every field span. -/
theorem itemsFields_shift (lpMap : List SubstDescr) (A : List Item) (po k : Nat) :
    itemsFields lpMap (po + k) A
      = (itemsFields lpMap po A).map
          (fun f => { f with m_start := f.m_start + k, m_end := f.m_end + k }) := by
  induction A generalizing po with
  | nil => rfl
  | cons x A ih =>
    cases x with
    | ch c =>
      simp only [itemsFields]
      rw [← ih (po + 1)]; congr 1; omega
    | fld w =>
      have e : po + k + (fieldText lpMap w).length = po + (fieldText lpMap w).length + k := by
        omega
      simp only [itemsFields, List.map_cons]
      rw [← ih, e]

theorem itemsMarks_bounds (A : List Item) (lo : Nat) :
    ∀ m ∈ itemsMarks lo A, lo ≤ m.m_pos ∧ m.m_pos ≤ lo + (itemsLog A).length := by
  induction A generalizing lo with
  | nil => simp [itemsMarks]
  | cons x A ih =>
    cases x with
    | ch c =>
      intro m hm
      have := ih (lo + 1) m hm
      simp only [itemsLog, List.length_cons]; omega
    | fld w =>
      intro m hm
      simp only [itemsMarks, List.mem_cons] at hm
      rcases hm with rfl | hm
      · simp
      · simpa [itemsLog] using ih lo m hm

theorem itemsFields_bounds (lpMap : List SubstDescr) (A : List Item) (po : Nat) :
    ∀ f ∈ itemsFields lpMap po A, po ≤ f.m_start
      ∧ f.m_end = f.m_start + (fieldText lpMap f.m_what).length
      ∧ f.m_end ≤ po + (itemsPhys lpMap A).length := by
  induction A generalizing po with
  | nil => simp [itemsFields]
  | cons x A ih =>
    cases x with
    | ch c =>
      intro f hf
      have := ih (po + 1) f hf
      simp only [itemsPhys, List.length_cons]; omega
    | fld w =>
      intro f hf
      simp only [itemsFields, List.mem_cons] at hf
      rcases hf with rfl | hf
      · simp [itemsPhys]
      · have := ih _ f hf
        simp only [itemsPhys, List.length_append]; omega

theorem itemsKnown_append {lpMap : List SubstDescr} {A B : List Item} :
    itemsKnown lpMap (A ++ B) ↔ itemsKnown lpMap A ∧ itemsKnown lpMap B := by
  unfold itemsKnown
  constructor
  · intro h
    exact ⟨fun w hw => h w (List.mem_append_left _ hw), fun w hw => h w (List.mem_append_right _ hw)⟩
  · rintro ⟨h1, h2⟩ w hw
    rcases List.mem_append.1 hw with hw | hw
    · exact h1 w hw
    · exact h2 w hw

theorem itemsKnown_chars (lpMap : List SubstDescr) (s : CString) :
    itemsKnown lpMap (s.map Item.ch) := by
  intro w hw
  simp at hw

theorem itemsKnown_cons_fld {lpMap : List SubstDescr} {w : Nat} {A : List Item} :
    itemsKnown lpMap (Item.fld w :: A)
      ↔ (FindMapItem lpMap w).isSome = true ∧ itemsKnown lpMap A := by
  unfold itemsKnown
  constructor
  · intro h
    exact ⟨h w (List.mem_cons_self _ _), fun v hv => h v (List.mem_cons_of_mem _ hv)⟩
  · rintro ⟨h1, h2⟩ v hv
    rcases List.mem_cons.1 hv with hv | hv
    · cases hv; exact h1
    · exact h2 v hv

theorem itemsKnown_cons_ch {lpMap : List SubstDescr} {c : Char} {A : List Item} :
    itemsKnown lpMap (Item.ch c :: A) ↔ itemsKnown lpMap A := by
  unfold itemsKnown
  constructor
  · intro h v hv; exact h v (List.mem_cons_of_mem _ hv)
  · intro h v hv
    rcases List.mem_cons.1 hv with hv | hv
    · cases hv
    · exact h v hv

/-! ### Rendering a sequence of items -/

theorem fieldText_of_find {lpMap : List SubstDescr} {w : Nat} {lpDesc : SubstDescr}
    (h : FindMapItem lpMap w = some lpDesc) : fieldText lpMap w = lpDesc.lpTxt := by
  simp [fieldText, h]

theorem LogStrToPhysStr_eq (logData : CSubstLogData) (lpFn : SubstDescr → CString) :
    LogStrToPhysStr logData lpFn
      = renderFinish logData.m_logStr
          (LogStrToPhysStrLoop logData.m_map lpFn logData.m_logStr logData.m_logList [] 0) := rfl

theorem renderFinish_eq (S acc : CString) (c : Nat) (hS : S.length < INT_LIMIT)
    (hc : c ≤ S.length) : renderFinish S (acc, c) = acc ++ S.drop c := by
  unfold renderFinish
  simp only
  rw [subSz_of_le hc hS]
  split
  · rw [strMid_cast S (by omega) (by omega)]
    rw [List.take_of_length_le (by simp)]
  · have : S.drop c = [] := by
      apply List.drop_eq_nil_of_le; omega
    simp [this]

theorem render_items (lpMap : List SubstDescr) (S : CString) (hS : S.length < INT_LIMIT) :
    ∀ (X : List Item) (lo c : Nat) (acc rest : CString), itemsKnown lpMap X → c ≤ lo →
      lo ≤ S.length → S.drop lo = itemsLog X ++ rest →
      renderFinish S (LogStrToPhysStrLoop lpMap getReplacementTextFn S (itemsMarks lo X) acc c)
        = acc ++ (S.drop c).take (lo - c) ++ itemsPhys lpMap X ++ rest := by
  intro X
  induction X with
  | nil =>
    intro lo c acc rest _ hc hlo hdrop
    simp only [itemsMarks, LogStrToPhysStrLoop, itemsLog, itemsPhys, List.nil_append,
      List.append_nil] at hdrop ⊢
    rw [renderFinish_eq S acc c hS (by omega), ← hdrop, List.append_assoc]
    congr 1
    have : S.drop lo = (S.drop c).drop (lo - c) := by
      rw [List.drop_drop]; congr 1; omega
    rw [this, List.take_append_drop]
  | cons x X ih =>
    intro lo c acc rest hk hc hlo hdrop
    cases x with
    | ch a =>
      simp only [itemsMarks, itemsLog, itemsPhys, List.cons_append] at hdrop ⊢
      have hlt : lo < S.length := by
        by_contra hcon
        have : S.drop lo = [] := List.drop_eq_nil_of_le (by omega)
        rw [this] at hdrop; cases hdrop
      have hget : S[lo] = a := by
        have h1 := List.drop_eq_getElem_cons hlt
        rw [h1] at hdrop
        exact (List.cons.inj hdrop).1
      have hdrop1 : S.drop (lo + 1) = itemsLog X ++ rest := by
        have h1 := List.drop_eq_getElem_cons hlt
        rw [h1] at hdrop
        exact (List.cons.inj hdrop).2
      rw [ih (lo + 1) c acc rest (itemsKnown_cons_ch.1 hk) (by omega) (by omega) hdrop1]
      have e : lo + 1 - c = (lo - c) + 1 := by omega
      have hlt2 : lo - c < (S.drop c).length := by simp; omega
      rw [e, List.take_succ, List.getElem?_eq_getElem hlt2]
      have : (S.drop c)[lo - c] = a := by
        rw [List.getElem_drop]
        have : c + (lo - c) = lo := by omega
        simp only [this, hget]
      simp [this]
    | fld w =>
      obtain ⟨hw, hk'⟩ := itemsKnown_cons_fld.1 hk
      obtain ⟨lpDesc, hd⟩ := Option.isSome_iff_exists.1 hw
      simp only [itemsMarks, itemsLog, itemsPhys, LogStrToPhysStrLoop, hd] at hdrop ⊢
      rw [ih lo lo _ rest hk' (le_refl _) hlo hdrop]
      rw [strMid_cast S (by omega) (by rw [subSz_of_le hc (by omega)]; omega),
        subSz_of_le hc (by omega), fieldText_of_find hd]
      simp [getReplacementTextFn]

/-- Rendering the logical data of a sequence of items gives its physical string. -/
theorem LogStr2PhysStr_items (lpMap : List SubstDescr) (X : List Item)
    (hk : itemsKnown lpMap X) (hfit : (itemsLog X).length < INT_LIMIT) :
    LogStr2PhysStr { m_logStr := itemsLog X, m_logList := itemsMarks 0 X, m_map := lpMap }
      = itemsPhys lpMap X := by
  unfold LogStr2PhysStr
  rw [LogStrToPhysStr_eq]
  simp only
  rw [render_items lpMap (itemsLog X) hfit X 0 0 [] [] hk (le_refl _) (Nat.zero_le _) (by simp)]
  simp

/-- The field spans rebuilt from the markers of a sequence of items. -/
theorem AppendAsPhysInfoLoop_items (lpMap : List SubstDescr) :
    ∀ (X : List Item) (lo suma : Nat), itemsKnown lpMap X →
      suma + lo + (itemsPhys lpMap X).length < INT_LIMIT →
      AppendAsPhysInfoLoop lpMap (itemsMarks lo X) suma = itemsFields lpMap (suma + lo) X := by
  intro X
  induction X with
  | nil => intro lo suma _ _; rfl
  | cons x X ih =>
    intro lo suma hk hfit
    cases x with
    | ch a =>
      simp only [itemsMarks, itemsFields, itemsPhys, List.length_cons] at hfit ⊢
      rw [ih (lo + 1) suma (itemsKnown_cons_ch.1 hk) (by omega)]
      rfl
    | fld w =>
      obtain ⟨hw, hk'⟩ := itemsKnown_cons_fld.1 hk
      obtain ⟨lpDesc, hd⟩ := Option.isSome_iff_exists.1 hw
      simp only [itemsMarks, itemsFields, itemsPhys, List.length_append, AppendAsPhysInfoLoop,
        hd, fieldText_of_find hd] at hfit ⊢
      rw [addSz_of_lt (by omega), addSz_of_lt (by omega), addSz_of_lt (by omega),
        ih lo (suma + lpDesc.lpTxt.length) hk' (by omega)]
      have e : suma + lpDesc.lpTxt.length + lo = suma + lo + lpDesc.lpTxt.length := by omega
      rw [e]

/-! ### Consistent data are the data of sequences of items -/

theorem itemsMarks_mem_fld (X : List Item) (lo : Nat) :
    ∀ m ∈ itemsMarks lo X, Item.fld m.m_what ∈ X := by
  induction X generalizing lo with
  | nil => simp [itemsMarks]
  | cons x X ih =>
    cases x with
    | ch c => intro m hm; exact List.mem_cons_of_mem _ (ih (lo + 1) m hm)
    | fld w =>
      intro m hm
      simp only [itemsMarks, List.mem_cons] at hm
      rcases hm with rfl | hm
      · exact List.mem_cons_self _ _
      · exact List.mem_cons_of_mem _ (ih lo m hm)

theorem itemsFields_mem_fld (lpMap : List SubstDescr) (X : List Item) (po : Nat) :
    ∀ f ∈ itemsFields lpMap po X, Item.fld f.m_what ∈ X := by
  induction X generalizing po with
  | nil => simp [itemsFields]
  | cons x X ih =>
    cases x with
    | ch c => intro f hf; exact List.mem_cons_of_mem _ (ih (po + 1) f hf)
    | fld w =>
      intro f hf
      simp only [itemsFields, List.mem_cons] at hf
      rcases hf with rfl | hf
      · exact List.mem_cons_self _ _
      · exact List.mem_cons_of_mem _ (ih _ f hf)

theorem itemsMarks_pairwise (X : List Item) (lo : Nat) :
    (itemsMarks lo X).Pairwise (fun a b => a.m_pos ≤ b.m_pos) := by
  induction X generalizing lo with
  | nil => simp [itemsMarks]
  | cons x X ih =>
    cases x with
    | ch c => exact ih (lo + 1)
    | fld w =>
      simp only [itemsMarks, List.pairwise_cons]
      exact ⟨fun m hm => (itemsMarks_bounds X lo m hm).1, ih lo⟩

theorem itemsFields_pairwise (lpMap : List SubstDescr) (X : List Item) (po : Nat) :
    (itemsFields lpMap po X).Pairwise (fun a b => a.m_end ≤ b.m_start) := by
  induction X generalizing po with
  | nil => simp [itemsFields]
  | cons x X ih =>
    cases x with
    | ch c => exact ih (po + 1)
    | fld w =>
      simp only [itemsFields, List.pairwise_cons]
      exact ⟨fun f hf => (itemsFields_bounds lpMap X _ f hf).1, ih _⟩

theorem marksFrom_le {len : Nat} : ∀ (ms : List CLogInfo) (lo : Nat), marksFrom len lo ms → lo ≤ len := by
  intro ms
  induction ms with
  | nil => intro lo h; exact h
  | cons m ms ih => intro lo h; exact le_trans h.1 (ih _ h.2)

theorem marksFrom_of_pairwise {len : Nat} : ∀ (ms : List CLogInfo) (lo : Nat), lo ≤ len →
    (∀ m ∈ ms, lo ≤ m.m_pos ∧ m.m_pos ≤ len) → ms.Pairwise (fun a b => a.m_pos ≤ b.m_pos) →
    marksFrom len lo ms := by
  intro ms
  induction ms with
  | nil => intro lo h _ _; exact h
  | cons m ms ih =>
    intro lo _ hb hp
    rw [List.pairwise_cons] at hp
    refine ⟨(hb m (List.mem_cons_self _ _)).1, ih _ (hb m (List.mem_cons_self _ _)).2 ?_ hp.2⟩
    intro m' hm'
    exact ⟨hp.1 m' hm', (hb m' (List.mem_cons_of_mem _ hm')).2⟩

theorem buildItems_log (S : CString) : ∀ (ms : List CLogInfo) (lo : Nat),
    marksFrom S.length lo ms → itemsLog (buildItems S lo ms) = S.drop lo := by
  intro ms
  induction ms with
  | nil => intro lo _; simp only [buildItems, itemsLog_chars]
  | cons m ms ih =>
    intro lo h
    simp only [buildItems, itemsLog_append, itemsLog_chars, itemsLog, ih _ h.2]
    have : S.drop m.m_pos = (S.drop lo).drop (m.m_pos - lo) := by
      rw [List.drop_drop]; congr 1; have := h.1; omega
    rw [this, List.take_append_drop]

theorem buildItems_marks (S : CString) : ∀ (ms : List CLogInfo) (lo : Nat),
    marksFrom S.length lo ms → itemsMarks lo (buildItems S lo ms) = ms := by
  intro ms
  induction ms with
  | nil => intro lo _; simp only [buildItems, itemsMarks_chars]
  | cons m ms ih =>
    intro lo h
    have hle := marksFrom_le ms _ h.2
    have h1 := h.1
    have hlen : ((S.drop lo).take (m.m_pos - lo)).length = m.m_pos - lo := by
      simp; omega
    simp only [buildItems, itemsMarks_append, itemsMarks_chars, itemsLog_chars, hlen,
      itemsMarks, List.nil_append]
    have e : lo + (m.m_pos - lo) = m.m_pos := by omega
    rw [e, ih _ h.2]

theorem buildItems_known (lpMap : List SubstDescr) (S : CString) :
    ∀ (ms : List CLogInfo) (lo : Nat),
    (∀ m ∈ ms, (FindMapItem lpMap m.m_what).isSome = true) →
    itemsKnown lpMap (buildItems S lo ms) := by
  intro ms
  induction ms with
  | nil => intro lo _; exact itemsKnown_chars _ _
  | cons m ms ih =>
    intro lo h
    simp only [buildItems]
    rw [itemsKnown_append, itemsKnown_cons_fld]
    exact ⟨itemsKnown_chars _ _, h m (List.mem_cons_self _ _),
      ih _ (fun m' hm' => h m' (List.mem_cons_of_mem _ hm'))⟩

/-- Well-formed logical data are the logical data of a sequence of items. -/
theorem LogOk_items (L : CSubstLogData) (h : LogOk L) :
    ∃ X, itemsKnown L.m_map X ∧ itemsLog X = L.m_logStr ∧ itemsMarks 0 X = L.m_logList := by
  obtain ⟨hk, hp, hb⟩ := h
  have hm : marksFrom L.m_logStr.length 0 L.m_logList :=
    marksFrom_of_pairwise _ 0 (Nat.zero_le _) (fun m hm => ⟨Nat.zero_le _, hb m hm⟩) hp
  exact ⟨buildItems L.m_logStr 0 L.m_logList, buildItems_known _ _ _ _ hk,
    by simpa using buildItems_log _ _ 0 hm, buildItems_marks _ _ 0 hm⟩

theorem LogOk_of_items (lpMap : List SubstDescr) (X : List Item) (hk : itemsKnown lpMap X) :
    LogOk { m_logStr := itemsLog X, m_logList := itemsMarks 0 X, m_map := lpMap } := by
  refine ⟨fun m hm => hk _ (itemsMarks_mem_fld X 0 m hm), itemsMarks_pairwise X 0, ?_⟩
  intro m hm
  simpa using (itemsMarks_bounds X 0 m hm).2

/-- Consistent data are the data of a sequence of items. -/
theorem Consistent_items (d : CSubstPhysData) (h : Consistent d) :
    ∃ X, itemsKnown d.m_map X ∧ d = conc d.m_map X := by
  obtain ⟨hlog, hl, hp, hfields, hstr⟩ := h
  obtain ⟨X, hk, hX1, hX2⟩ := LogOk_items _ hlog
  have hrender : d.m_physStr = itemsPhys d.m_map X := by
    rw [hstr, ← LogStr2PhysStr_items d.m_map X hk (by rw [hX1]; exact hl), hX1, hX2]
  refine ⟨X, hk, ?_⟩
  have hf : d.m_physlist = itemsFields d.m_map 0 X := by
    rw [hfields, ← hX2, AppendAsPhysInfoLoop_items d.m_map X 0 0 hk
      (by rw [← hrender]; simpa using hp)]
  cases d with
  | mk L P F =>
    cases L with
    | mk s l m =>
      simp only [conc] at *
      subst hX1 hX2 hrender hf
      rfl

/-- The data of a sequence of items are consistent. -/
theorem conc_Consistent (lpMap : List SubstDescr) (X : List Item) (hk : itemsKnown lpMap X)
    (hfit : (itemsPhys lpMap X).length < INT_LIMIT) : Consistent (conc lpMap X) := by
  have hl : (itemsLog X).length < INT_LIMIT :=
    lt_of_le_of_lt (itemsLog_length_le lpMap X) hfit
  refine ⟨LogOk_of_items lpMap X hk, hl, hfit, ?_, ?_⟩
  · simp only [conc]
    rw [AppendAsPhysInfoLoop_items lpMap X 0 0 hk (by simpa using hfit)]
  · simp only [conc]
    rw [LogStr2PhysStr_items lpMap X hk hl]

/-! ### The list primitives -/

theorem FirstThat_append_false {α : Type} (p : α → Bool) (l1 l2 : List α)
    (h : ∀ x ∈ l1, p x = false) :
    FirstThat p (l1 ++ l2) = (FirstThat p l2).map (· + l1.length) := by
  induction l1 with
  | nil => simp [FirstThat]
  | cons x l1 ih =>
    have hx := h x (List.mem_cons_self _ _)
    have ih' := ih (fun y hy => h y (List.mem_cons_of_mem _ hy))
    rw [List.cons_append]
    simp only [FirstThat, hx, Bool.false_eq_true, if_false, ih', List.length_cons]
    cases FirstThat p l2 with
    | none => rfl
    | some j => simp only [Option.map_some', Option.some.injEq]; omega

theorem FirstThat_head {α : Type} (p : α → Bool) (x : α) (l : List α) (h : p x = true) :
    FirstThat p (x :: l) = some 0 := by
  simp [FirstThat, h]

theorem FirstThat_none_iff {α : Type} (p : α → Bool) (l : List α) :
    FirstThat p l = none ↔ ∀ x ∈ l, p x = false := by
  induction l with
  | nil => simp [FirstThat]
  | cons x l ih =>
    simp only [FirstThat, List.mem_cons, forall_eq_or_imp]
    by_cases hx : p x = true
    · simp [hx]
    · simp only [hx, Bool.false_eq_true, if_false, Option.map_eq_none', ih]
      simp [Bool.eq_false_iff.2 hx]

theorem FirstThat_some_lt {α : Type} (p : α → Bool) (l : List α) (k : Nat)
    (h : FirstThat p l = some k) : k < l.length := by
  induction l generalizing k with
  | nil => simp [FirstThat] at h
  | cons x l ih =>
    simp only [FirstThat] at h
    split at h
    · cases h; simp
    · cases hq : FirstThat p l with
      | none => simp [hq] at h
      | some j =>
        simp [hq] at h
        have := ih j hq
        simp; omega

theorem FirstThat_some_spec {α : Type} (p : α → Bool) (l : List α) (k : Nat)
    (h : FirstThat p l = some k) :
    ∃ x, l[k]? = some x ∧ p x = true ∧ ∀ y ∈ l.take k, p y = false := by
  induction l generalizing k with
  | nil => simp [FirstThat] at h
  | cons x l ih =>
    simp only [FirstThat] at h
    split at h
    · cases h
      exact ⟨x, by simp, by assumption, by simp⟩
    · rename_i hx
      cases hq : FirstThat p l with
      | none => simp [hq] at h
      | some j =>
        simp [hq] at h
        subst h
        obtain ⟨y, hy1, hy2, hy3⟩ := ih j hq
        refine ⟨y, by simpa using hy1, hy2, ?_⟩
        intro z hz
        simp only [List.take_succ_cons, List.mem_cons] at hz
        rcases hz with rfl | hz
        · simpa using hx
        · exact hy3 z hz

theorem MoveAllPhys_none (l : List CPhysInfo) (g dx : Nat) (h : ∀ f ∈ l, f.m_start < g) :
    MoveAllPhysInfoGreaterEq l g dx = l := by
  unfold MoveAllPhysInfoGreaterEq
  conv => rhs; rw [← List.map_id l]
  apply List.map_congr_left
  intro f hf
  have := h f hf
  simp [FnMoveAllPhysInfoGreaterEq]; omega

theorem MoveAllPhys_append (l1 l2 : List CPhysInfo) (g dx : Nat) :
    MoveAllPhysInfoGreaterEq (l1 ++ l2) g dx
      = MoveAllPhysInfoGreaterEq l1 g dx ++ MoveAllPhysInfoGreaterEq l2 g dx := by
  simp [MoveAllPhysInfoGreaterEq]

theorem MoveAllInfo_none : ∀ (ms : List CLogInfo) (fs : List CPhysInfo) (g dx : Nat),
    ms.length = fs.length → (∀ f ∈ fs, f.m_start < g) →
    MoveAllInfoIfPhysGreaterEq g dx ms fs = some (ms, fs) := by
  intro ms
  induction ms with
  | nil =>
    intro fs g dx hl _
    cases fs with
    | nil => rfl
    | cons f fs => simp at hl
  | cons m ms ih =>
    intro fs g dx hl h
    cases fs with
    | nil => simp at hl
    | cons f fs =>
      have hf := h f (List.mem_cons_self _ _)
      simp only [MoveAllInfoIfPhysGreaterEq,
        ih fs g dx (by simpa using hl) (fun f' hf' => h f' (List.mem_cons_of_mem _ hf'))]
      rw [if_neg (by omega)]

theorem MoveAllInfo_all : ∀ (ms : List CLogInfo) (fs : List CPhysInfo) (g dx : Nat),
    ms.length = fs.length → (∀ f ∈ fs, g ≤ f.m_start) →
    MoveAllInfoIfPhysGreaterEq g dx ms fs
      = some (ms.map (fun m => m.Add2Pos dx),
          fs.map (fun f => { f with m_start := addSz f.m_start dx, m_end := addSz f.m_end dx })) := by
  intro ms
  induction ms with
  | nil =>
    intro fs g dx hl _
    cases fs with
    | nil => rfl
    | cons f fs => simp at hl
  | cons m ms ih =>
    intro fs g dx hl h
    cases fs with
    | nil => simp at hl
    | cons f fs =>
      have hf := h f (List.mem_cons_self _ _)
      simp only [MoveAllInfoIfPhysGreaterEq,
        ih fs g dx (by simpa using hl) (fun f' hf' => h f' (List.mem_cons_of_mem _ hf'))]
      rw [if_pos (by omega)]
      rfl

theorem MoveAllInfo_append : ∀ (ms1 : List CLogInfo) (fs1 : List CPhysInfo)
    (ms2 : List CLogInfo) (fs2 : List CPhysInfo) (g dx : Nat)
    (a c : List CLogInfo) (b e : List CPhysInfo),
    ms1.length = fs1.length →
    MoveAllInfoIfPhysGreaterEq g dx ms1 fs1 = some (a, b) →
    MoveAllInfoIfPhysGreaterEq g dx ms2 fs2 = some (c, e) →
    MoveAllInfoIfPhysGreaterEq g dx (ms1 ++ ms2) (fs1 ++ fs2) = some (a ++ c, b ++ e) := by
  intro ms1
  induction ms1 with
  | nil =>
    intro fs1 ms2 fs2 g dx a c b e hl h1 h2
    cases fs1 with
    | nil =>
      simp only [MoveAllInfoIfPhysGreaterEq, Option.some.injEq, Prod.mk.injEq] at h1
      obtain ⟨rfl, rfl⟩ := h1
      simpa using h2
    | cons f fs => simp at hl
  | cons m ms1 ih =>
    intro fs1 ms2 fs2 g dx a c b e hl h1 h2
    cases fs1 with
    | nil => simp at hl
    | cons f fs1 =>
      simp only [MoveAllInfoIfPhysGreaterEq] at h1
      cases hr : MoveAllInfoIfPhysGreaterEq g dx ms1 fs1 with
      | none => simp [hr] at h1
      | some r =>
        obtain ⟨a', b'⟩ := r
        simp only [hr] at h1
        have ih' := ih fs1 ms2 fs2 g dx a' c b' e (by simpa using hl) hr h2
        rw [List.cons_append, List.cons_append]
        simp only [MoveAllInfoIfPhysGreaterEq, ih']
        by_cases hc : f.m_start ≥ g
        · rw [if_pos hc] at h1 ⊢
          simp only [Option.some.injEq, Prod.mk.injEq] at h1
          obtain ⟨rfl, rfl⟩ := h1
          rfl
        · rw [if_neg hc] at h1 ⊢
          simp only [Option.some.injEq, Prod.mk.injEq] at h1
          obtain ⟨rfl, rfl⟩ := h1
          rfl

theorem InsertAt_append {α : Type} (l1 l2 : List α) (x : α) (k : Nat) (h : k = l1.length) :
    InsertAt (l1 ++ l2) k x = l1 ++ x :: l2 := by
  subst h; simp [InsertAt]

theorem zipWith_eq_map {α β : Type} (f : α → β → α) (g : α → α) :
    ∀ (l1 : List α) (l2 : List β), l1.length = l2.length → (∀ b ∈ l2, ∀ a, f a b = g a) →
    List.zipWith f l1 l2 = l1.map g := by
  intro l1
  induction l1 with
  | nil => intro l2 _ _; simp
  | cons a l1 ih =>
    intro l2 hl h
    cases l2 with
    | nil => simp at hl
    | cons b l2 =>
      simp only [List.zipWith_cons_cons, List.map_cons]
      rw [h b (List.mem_cons_self _ _) a,
        ih l2 (by simpa using hl) (fun b' hb' => h b' (List.mem_cons_of_mem _ hb'))]

theorem getElem?_append_length {α : Type} (l1 l2 : List α) (x : α) :
    (l1 ++ x :: l2)[l1.length]? = some x := by
  induction l1 with
  | nil => simp
  | cons a l1 ih => simpa using ih

theorem eraseIdx_append_length {α : Type} (l1 l2 : List α) (x : α) :
    (l1 ++ x :: l2).eraseIdx l1.length = l1 ++ l2 := by
  induction l1 with
  | nil => rfl
  | cons a l1 ih => simpa using ih

/-! ### Positions in a sequence of items -/

/-- A position that is not strictly inside a field is the end of a tight prefix. -/
theorem split_at_pos (lpMap : List SubstDescr) : ∀ (X : List Item) (po p : Nat),
    po ≤ p → p ≤ po + (itemsPhys lpMap X).length →
    (∀ f ∈ itemsFields lpMap po X, ¬ (f.m_start < p ∧ p < f.m_end)) →
    ∃ A B, X = A ++ B ∧ po + (itemsPhys lpMap A).length = p
      ∧ ∀ f ∈ itemsFields lpMap po A, f.m_start < p := by
  intro X
  induction X with
  | nil =>
    intro po p h1 h2 _
    refine ⟨[], [], rfl, ?_, by simp [itemsFields]⟩
    simp [itemsPhys] at h2 ⊢; omega
  | cons x X ih =>
    intro po p h1 h2 hin
    by_cases hp : p = po
    · exact ⟨[], x :: X, rfl, by simp [itemsPhys, hp], by simp [itemsFields]⟩
    · cases x with
      | ch c =>
        simp only [itemsPhys, List.length_cons, itemsFields] at h2 hin
        obtain ⟨A, B, hX, hw, ht⟩ := ih (po + 1) p (by omega) (by omega) hin
        refine ⟨Item.ch c :: A, B, by simp [hX], by simp [itemsPhys]; omega, ?_⟩
        simpa [itemsFields] using ht
      | fld w =>
        simp only [itemsPhys, List.length_append, itemsFields, List.mem_cons,
          forall_eq_or_imp] at h2 hin
        obtain ⟨hhead, hin'⟩ := hin
        have hge : po + (fieldText lpMap w).length ≤ p := by
          by_contra hcon
          exact hhead ⟨by omega, by omega⟩
        obtain ⟨A, B, hX, hw, ht⟩ :=
          ih (po + (fieldText lpMap w).length) p hge (by omega) hin'
        refine ⟨Item.fld w :: A, B, by simp [hX], by simp [itemsPhys]; omega, ?_⟩
        intro f hf
        simp only [itemsFields, List.mem_cons] at hf
        rcases hf with rfl | hf
        · simp; omega
        · exact ht f hf

theorem Tight_iff (lpMap : List SubstDescr) (A : List Item) (po : Nat) :
    (∀ f ∈ itemsFields lpMap po A, f.m_start < po + (itemsPhys lpMap A).length) ↔ Tight lpMap A := by
  unfold Tight
  have e := itemsFields_shift lpMap A 0 po
  simp only [Nat.zero_add] at e
  rw [e]
  simp only [List.mem_map, forall_exists_index, and_imp, forall_apply_eq_imp_iff₂]
  constructor
  · intro h f hf; have := h f hf; omega
  · intro h f hf; have := h f hf; omega

/-- A consistent document splits at every position that is not strictly inside a field. -/
theorem conc_split (lpMap : List SubstDescr) (X : List Item) (p : Nat)
    (hp : p ≤ (conc lpMap X).m_physStr.length) (hin : NotInside (conc lpMap X) p) :
    ∃ A B, X = A ++ B ∧ (itemsPhys lpMap A).length = p ∧ Tight lpMap A := by
  obtain ⟨A, B, hX, hw, ht⟩ := split_at_pos lpMap X 0 p (Nat.zero_le _) (by simpa [conc] using hp) hin
  refine ⟨A, B, hX, by omega, ?_⟩
  rw [← Tight_iff lpMap A 0]
  simpa [hw] using ht

theorem GetLength_items {lpMap : List SubstDescr} {X : List Item} {po : Nat} {f : CPhysInfo}
    (hf : f ∈ itemsFields lpMap po X) (hfit : po + (itemsPhys lpMap X).length < INT_LIMIT) :
    f.GetLength = (fieldText lpMap f.m_what).length := by
  obtain ⟨h1, h2, h3⟩ := itemsFields_bounds lpMap X po f hf
  unfold CPhysInfo.GetLength
  rw [subSz_of_le (by omega) (by omega), h2]; omega

theorem fold_before (lpMap : List SubstDescr) (ph : Nat) (hph : ph < INT_LIMIT) :
    ∀ (A : List Item) (po r : Nat), po + (itemsPhys lpMap A).length ≤ ph →
    (itemsPhys lpMap A).length - (itemsLog A).length ≤ r → r < INT_LIMIT →
    (itemsFields lpMap po A).foldl
      (fun result lpTmp => if lpTmp.m_end ≤ ph then subSz result lpTmp.GetLength else result) r
      = r - ((itemsPhys lpMap A).length - (itemsLog A).length) := by
  intro A
  induction A with
  | nil => intro po r _ _ _; simp [itemsFields, itemsPhys, itemsLog]
  | cons x A ih =>
    intro po r h1 h2 h3
    have hle := itemsLog_length_le lpMap A
    cases x with
    | ch c =>
      simp only [itemsPhys, itemsLog, List.length_cons, itemsFields] at h1 h2 ⊢
      rw [ih (po + 1) r (by omega) (by omega) h3]
      omega
    | fld w =>
      simp only [itemsPhys, itemsLog, List.length_append, itemsFields, List.foldl_cons] at h1 h2 ⊢
      rw [if_pos (by omega)]
      have hlen : CPhysInfo.GetLength
          { m_what := w, m_start := po, m_end := po + (fieldText lpMap w).length }
          = (fieldText lpMap w).length := by
        unfold CPhysInfo.GetLength
        simp only
        rw [subSz_of_le (by omega) (by omega)]; omega
      rw [hlen, subSz_of_le (by omega) h3, ih _ _ (by omega) (by omega) (by omega)]
      omega

theorem fold_after (lpMap : List SubstDescr) (ph : Nat) (hph : ph < INT_LIMIT) :
    ∀ (B : List Item) (po r : Nat), ph ≤ po → r < INT_LIMIT →
    (itemsFields lpMap po B).foldl
      (fun result lpTmp => if lpTmp.m_end ≤ ph then subSz result lpTmp.GetLength else result) r
      = r := by
  intro B
  induction B with
  | nil => intro po r _ _; simp [itemsFields]
  | cons x B ih =>
    intro po r h1 h3
    cases x with
    | ch c =>
      simp only [itemsFields]
      exact ih (po + 1) r (by omega) h3
    | fld w =>
      simp only [itemsFields, List.foldl_cons]
      by_cases hc : po + (fieldText lpMap w).length ≤ ph
      · rw [if_pos hc]
        have hlen : CPhysInfo.GetLength
            { m_what := w, m_start := po, m_end := po + (fieldText lpMap w).length } = 0 := by
          unfold CPhysInfo.GetLength
          simp only
          rw [subSz_of_le (by omega) (by omega)]; omega
        rw [hlen, subSz_of_le (Nat.zero_le _) h3]
        exact ih _ _ (by omega) h3
      · rw [if_neg hc]
        exact ih _ _ (by omega) h3

/-- The logical position of the end of a prefix is the number of its plain characters. -/
theorem PhysPos2LogPos_conc (lpMap : List SubstDescr) (A B : List Item)
    (hfit : (itemsPhys lpMap A).length < INT_LIMIT) :
    PhysPos2LogPos (conc lpMap (A ++ B)) (itemsPhys lpMap A).length = (itemsLog A).length := by
  unfold PhysPos2LogPos
  simp only [conc, itemsFields_append, List.foldl_append, Nat.zero_add]
  rw [fold_before lpMap _ hfit A 0 _ (by omega) (by omega) hfit,
    fold_after lpMap _ hfit B _ _ (le_refl _) (by omega)]
  have := itemsLog_length_le lpMap A
  omega

theorem MoveAllPhys_items (lpMap : List SubstDescr) (B : List Item) (g po dx : Nat)
    (hg : g ≤ po) (hfit : po + (itemsPhys lpMap B).length + dx < INT_LIMIT) :
    MoveAllPhysInfoGreaterEq (itemsFields lpMap po B) g dx = itemsFields lpMap (po + dx) B := by
  rw [itemsFields_shift]
  unfold MoveAllPhysInfoGreaterEq
  apply List.map_congr_left
  intro f hf
  obtain ⟨h1, h2, h3⟩ := itemsFields_bounds lpMap B po f hf
  unfold FnMoveAllPhysInfoGreaterEq
  rw [if_pos (by omega), addSz_of_lt (by omega), addSz_of_lt (by omega)]

theorem MoveAllPhys_items_back (lpMap : List SubstDescr) (B : List Item) (g po n : Nat)
    (hg : g ≤ po + n) (hfit : po + n + (itemsPhys lpMap B).length < INT_LIMIT) :
    MoveAllPhysInfoGreaterEq (itemsFields lpMap (po + n) B) g (negSz n)
      = itemsFields lpMap po B := by
  rw [itemsFields_shift]
  unfold MoveAllPhysInfoGreaterEq
  rw [List.map_map]
  conv => rhs; rw [← List.map_id (itemsFields lpMap po B)]
  apply List.map_congr_left
  intro f hf
  obtain ⟨h1, h2, h3⟩ := itemsFields_bounds lpMap B po f hf
  simp only [Function.comp, FnMoveAllPhysInfoGreaterEq, id]
  rw [if_pos (by simp; omega), addSz_negSz (by omega) (by omega),
    addSz_negSz (by omega) (by omega)]
  simp

theorem itemsFields_nil_iff (lpMap : List SubstDescr) (B : List Item) (lo po : Nat) :
    itemsFields lpMap po B = [] ↔ itemsMarks lo B = [] := by
  rw [← List.length_eq_zero, ← List.length_eq_zero (l := itemsMarks lo B),
    itemsMarks_length lpMap B lo po]

/-! ### `InsertNewInfo` on a sequence of items -/

theorem FindPhysInfoAfter_conc (lpMap : List SubstDescr) (A B : List Item)
    (ht : Tight lpMap A) :
    FindPhysInfoAfter (conc lpMap (A ++ B)) (itemsPhys lpMap A).length
      = if itemsFields lpMap (itemsPhys lpMap A).length B = [] then none
        else some (itemsFields lpMap 0 A).length := by
  unfold FindPhysInfoAfter
  simp only [conc, itemsFields_append, Nat.zero_add]
  rw [FirstThat_append_false]
  · cases hB : itemsFields lpMap (itemsPhys lpMap A).length B with
    | nil => simp [FirstThat]
    | cons f fs =>
      have hf : f ∈ itemsFields lpMap (itemsPhys lpMap A).length B := by
        rw [hB]; exact List.mem_cons_self _ _
      have := (itemsFields_bounds lpMap B _ f hf).1
      rw [FirstThat_head _ _ _ (by simp [FnPhysInfoPosGreaterEq]; omega)]
      simp
  · intro f hf
    have := ht f hf
    simp [FnPhysInfoPosGreaterEq]; omega

/-- Inserting a field at the end of a tight prefix `A` of the document `A ++ B`. -/
theorem InsertNewInfoLog_conc (lpMap : List SubstDescr) (A B : List Item) (what : Nat)
    (lpDesc : SubstDescr) (hd : FindMapItem lpMap what = some lpDesc) (ht : Tight lpMap A)
    (hfit : (itemsPhys lpMap (A ++ B)).length + lpDesc.lpTxt.length < INT_LIMIT) :
    InsertNewInfoLog (conc lpMap (A ++ B)) (itemsPhys lpMap A).length
        { m_what := what, m_pos := (itemsLog A).length }
      = some (conc lpMap (A ++ Item.fld what :: B),
          some { m_what := what, m_start := (itemsPhys lpMap A).length,
                 m_end := (itemsPhys lpMap A).length + lpDesc.lpTxt.length }) := by
  have hT := fieldText_of_find hd
  simp only [itemsPhys_append, List.length_append] at hfit
  have hfa := FindPhysInfoAfter_conc lpMap A B ht
  unfold InsertNewInfoLog
  have hmap : (conc lpMap (A ++ B)).m_map = lpMap := rfl
  simp only [hmap, hd, hfa]
  have hstr : strLeft (conc lpMap (A ++ B)).m_physStr (castInt (itemsPhys lpMap A).length)
        ++ lpDesc.lpTxt
        ++ strRight (conc lpMap (A ++ B)).m_physStr
            (castInt (subSz (conc lpMap (A ++ B)).m_physStr.length (itemsPhys lpMap A).length))
      = itemsPhys lpMap (A ++ Item.fld what :: B) := by
    simp only [conc, itemsPhys_append, List.length_append, itemsPhys, hT]
    rw [strLeft_cast _ (by omega), subSz_of_le (by omega) (by omega),
      strRight_cast _ (by omega)]
    simp
  rw [hstr, addSz_of_lt (by omega)]
  by_cases hB : itemsFields lpMap (itemsPhys lpMap A).length B = []
  · have hBm : itemsMarks (itemsLog A).length B = [] :=
      (itemsFields_nil_iff lpMap B _ _).1 hB
    rw [if_pos hB]
    simp only [conc, itemsMarks_append, itemsFields_append, itemsMarks, itemsFields, Nat.zero_add,
      hB, hBm, List.append_nil, hT]
    have hB2 : itemsFields lpMap ((itemsPhys lpMap A).length + lpDesc.lpTxt.length) B = [] := by
      rw [itemsFields_shift, hB]; rfl
    rw [hB2]
    simp [itemsLog]
  · rw [if_neg hB]
    have hlen : (itemsFields lpMap 0 A).length < (conc lpMap (A ++ B)).m_logList.length := by
      simp only [conc, itemsMarks_append, List.length_append, Nat.zero_add]
      rw [itemsMarks_length lpMap A 0 0]
      have : (itemsMarks (itemsLog A).length B).length ≠ 0 := by
        rw [itemsMarks_length lpMap B _ (itemsPhys lpMap A).length]
        simpa [List.length_eq_zero] using hB
      omega
    simp only [hlen, ↓reduceIte]
    simp only [conc, itemsMarks_append, itemsFields_append, itemsMarks, itemsFields, Nat.zero_add,
      hT, MoveAllPhys_append]
    rw [MoveAllPhys_none _ _ _ (by
        intro f hf
        exact ht f hf),
      MoveAllPhys_items lpMap B _ _ _ (le_refl _) (by omega),
      InsertAt_append _ _ _ _ (itemsMarks_length lpMap A 0 0).symm,
      InsertAt_append _ _ _ _ rfl]
    simp [itemsLog]

/-! ### Moving markers and fields of a sequence of items -/

theorem itemsMarks_Add2Pos (B : List Item) (lo dx : Nat)
    (hfit : lo + (itemsLog B).length + dx < INT_LIMIT) :
    (itemsMarks lo B).map (fun m => m.Add2Pos dx) = itemsMarks (lo + dx) B := by
  rw [itemsMarks_shift]
  apply List.map_congr_left
  intro m hm
  have := itemsMarks_bounds B lo m hm
  unfold CLogInfo.Add2Pos
  rw [addSz_of_lt (by omega)]

theorem itemsMarks_Add2Pos_back (B : List Item) (lo n : Nat)
    (hfit : lo + n + (itemsLog B).length < INT_LIMIT) :
    (itemsMarks (lo + n) B).map (fun m => m.Add2Pos (negSz n)) = itemsMarks lo B := by
  rw [itemsMarks_shift, List.map_map]
  conv => rhs; rw [← List.map_id (itemsMarks lo B)]
  apply List.map_congr_left
  intro m hm
  have := itemsMarks_bounds B lo m hm
  simp only [Function.comp, CLogInfo.Add2Pos, id]
  rw [addSz_negSz (by omega) (by omega)]
  simp

theorem MoveAllInfo_items (lpMap : List SubstDescr) (B : List Item) (g lo po dx : Nat)
    (hg : g ≤ po) (hfit : po + (itemsPhys lpMap B).length + dx < INT_LIMIT)
    (hlo : lo ≤ po) :
    MoveAllInfoIfPhysGreaterEq g dx (itemsMarks lo B) (itemsFields lpMap po B)
      = some (itemsMarks (lo + dx) B, itemsFields lpMap (po + dx) B) := by
  have hle := itemsLog_length_le lpMap B
  rw [MoveAllInfo_all _ _ _ _ (itemsMarks_length lpMap B lo po)
    (fun f hf => le_trans hg (itemsFields_bounds lpMap B po f hf).1)]
  rw [itemsMarks_Add2Pos B lo dx (by omega)]
  have := MoveAllPhys_items lpMap B g po dx hg hfit
  unfold MoveAllPhysInfoGreaterEq at this
  rw [← this]
  congr 2
  apply List.map_congr_left
  intro f hf
  have := (itemsFields_bounds lpMap B po f hf).1
  unfold FnMoveAllPhysInfoGreaterEq
  rw [if_pos (by omega)]

theorem MoveAllInfo_items_back (lpMap : List SubstDescr) (B : List Item) (g lo po n : Nat)
    (hg : g ≤ po + n) (hfit : po + n + (itemsPhys lpMap B).length < INT_LIMIT)
    (hlo : lo ≤ po) :
    MoveAllInfoIfPhysGreaterEq g (negSz n) (itemsMarks (lo + n) B) (itemsFields lpMap (po + n) B)
      = some (itemsMarks lo B, itemsFields lpMap po B) := by
  have hle := itemsLog_length_le lpMap B
  rw [MoveAllInfo_all _ _ _ _ (itemsMarks_length lpMap B _ _)
    (fun f hf => le_trans hg (itemsFields_bounds lpMap B _ f hf).1)]
  rw [itemsMarks_Add2Pos_back B lo n (by omega)]
  have := MoveAllPhys_items_back lpMap B g po n hg hfit
  unfold MoveAllPhysInfoGreaterEq at this
  rw [← this]
  congr 2
  apply List.map_congr_left
  intro f hf
  have := (itemsFields_bounds lpMap B _ f hf).1
  unfold FnMoveAllPhysInfoGreaterEq
  rw [if_pos (by omega)]

/-- Moving everything from the end of a tight prefix `A` on, in the document `A ++ B`. -/
theorem MoveAllInfo_conc (lpMap : List SubstDescr) (A B : List Item) (dx : Nat)
    (ht : Tight lpMap A)
    (hfit : (itemsPhys lpMap (A ++ B)).length + dx < INT_LIMIT) :
    MoveAllInfoIfPhysGreaterEq (itemsPhys lpMap A).length dx
        (itemsMarks 0 (A ++ B)) (itemsFields lpMap 0 (A ++ B))
      = some (itemsMarks 0 A ++ itemsMarks ((itemsLog A).length + dx) B,
          itemsFields lpMap 0 A ++ itemsFields lpMap ((itemsPhys lpMap A).length + dx) B) := by
  simp only [itemsPhys_append, List.length_append] at hfit
  rw [itemsMarks_append, itemsFields_append]
  simp only [Nat.zero_add]
  apply MoveAllInfo_append _ _ _ _ _ _ _ _ _ _ (itemsMarks_length lpMap A 0 0)
  · exact MoveAllInfo_none _ _ _ _ (itemsMarks_length lpMap A 0 0) ht
  · exact MoveAllInfo_items lpMap B _ _ _ dx (le_refl _) (by omega) (itemsLog_length_le lpMap A)

/-! ### `InsertText` on a sequence of items -/

theorem FindPhysInfoPosIsIn_conc (lpMap : List SubstDescr) (A B : List Item) :
    FindPhysInfoPosIsIn (conc lpMap (A ++ B)) (itemsPhys lpMap A).length = none := by
  unfold FindPhysInfoPosIsIn
  rw [FirstThat_none_iff]
  intro f hf
  simp only [conc, itemsFields_append, Nat.zero_add, List.mem_append] at hf
  rcases hf with hf | hf
  · have := (itemsFields_bounds lpMap A 0 f hf).2.2
    simp [FnPhysInfoPosIsIn]; omega
  · have := (itemsFields_bounds lpMap B _ f hf).1
    simp [FnPhysInfoPosIsIn]; omega

theorem FindPhysInfoPosIsIn_none_iff (d : CSubstPhysData) (p : Nat) :
    FindPhysInfoPosIsIn d p = none ↔ NotInside d p := by
  unfold FindPhysInfoPosIsIn NotInside
  rw [FirstThat_none_iff]
  constructor
  · intro h f hf hcon
    have := h f hf
    simp [FnPhysInfoPosIsIn, hcon.1, hcon.2] at this
  · intro h f hf
    have := h f hf
    simp only [FnPhysInfoPosIsIn, Bool.and_eq_false_imp, decide_eq_true_eq, decide_eq_false_iff_not]
    intro h1 h2
    exact this ⟨h1, h2⟩

/-- Inserting text at the end of a tight prefix `A` of the document `A ++ B`. -/
theorem InsertText_conc (lpMap : List SubstDescr) (A B : List Item) (t : CString)
    (ht : Tight lpMap A)
    (hfit : (itemsPhys lpMap (A ++ B)).length + t.length < INT_LIMIT) :
    InsertText (conc lpMap (A ++ B)) (itemsPhys lpMap A).length t
      = some (conc lpMap (A ++ (t.map Item.ch ++ B)), true) := by
  have hfit' := hfit
  simp only [itemsPhys_append, List.length_append] at hfit'
  have hle := itemsLog_length_le lpMap A
  unfold InsertText
  have h1 : ¬ (itemsPhys lpMap A).length > (conc lpMap (A ++ B)).m_physStr.length := by
    simp [conc]
  rw [if_neg h1, FindPhysInfoPosIsIn_conc]
  simp only [Option.isSome_none, Bool.false_eq_true, if_false]
  rw [PhysPos2LogPos_conc lpMap A B (by omega)]
  by_cases ht0 : t.length > 0
  · rw [if_pos ht0]
    have hmv := MoveAllInfo_conc lpMap A B t.length ht hfit
    simp only [conc] at hmv ⊢
    rw [hmv]
    rw [strInsert_cast _ _ (by omega), strInsert_cast _ _ (by omega)]
    simp [itemsMarks_append, itemsFields_append]
  · rw [if_neg ht0]
    have : t = [] := List.length_eq_zero.1 (by omega)
    subst this
    simp

/-- C7, counterexample: the data `echoDoc` meet the four listed conditions and the
position 3 is in range and not inside a field; `InsertText(3, "Q")` returns TRUE and
leaves the physical string `"abXQab"`, while `LogStr2PhysStr` of the new logical part
(`"aQbX"` with the marker `{1, 3}`) is `"aQbabX"`.  The marker of `echoDoc`
is well formed, and it is not stored at the logical position of its field. -/
theorem InsertText_listed_counterexample :
    ListedConsistent echoDoc ∧ LogOk echoDoc.toCSubstLogData
    ∧ ¬ MarkersAtFields echoDoc ∧ ¬ Consistent echoDoc
    ∧ 3 ≤ echoDoc.m_physStr.length ∧ NotInside echoDoc 3
    ∧ (InsertText echoDoc 3 "Q".toList).map
        (fun r => (r.1.m_physStr, r.1.m_logStr, LogStr2PhysStr r.1.toCSubstLogData, r.2))
      = some ("abXQab".toList, "aQbX".toList, "aQbabX".toList, true)
    ∧ "abXQab".toList ≠ "aQbabX".toList := by
  decide

/-- C7 (amended). InsertPlainText, effect on success: on consistent physical data in the
sense of `Consistent` (the markers have mapped ids and do not decrease within the logical
string, and the fields and the physical string are the ones `AssignPhysFromLog` rebuilds
from the logical part), at a position
within the physical string that is not strictly inside a field, `InsertText` returns
`TRUE`; the text is spliced into the physical string at `physIndex` and into the logical
string at `PhysPos2LogPos(physIndex)`; every field that starts at `physIndex` or later has
its start, its end and the logical position of its marker increased by the length of the
text, every field that starts before `physIndex` and its marker are unchanged; the
physical string is `LogStr2PhysStr` of the logical part and the result is consistent. -/
theorem InsertText_effect (d : CSubstPhysData) (physIndex : Nat) (sztext : CString)
    (hc : Consistent d) (hpos : physIndex ≤ d.m_physStr.length) (hin : NotInside d physIndex)
    (hfit : d.m_physStr.length + sztext.length < INT_LIMIT) :
    ∃ d', InsertText d physIndex sztext = some (d', true)
      ∧ d'.m_physStr = d.m_physStr.take physIndex ++ sztext ++ d.m_physStr.drop physIndex
      ∧ d'.m_logStr = d.m_logStr.take (PhysPos2LogPos d physIndex) ++ sztext
          ++ d.m_logStr.drop (PhysPos2LogPos d physIndex)
      ∧ d'.m_physlist = d.m_physlist.map
          (fun f => if f.m_start ≥ physIndex then f.shiftBy sztext.length else f)
      ∧ d'.m_logList = List.zipWith
          (fun m f => if f.m_start ≥ physIndex then { m with m_pos := m.m_pos + sztext.length }
            else m) d.m_logList d.m_physlist
      ∧ d'.m_logList.length = d'.m_physlist.length
      ∧ d'.m_physStr = LogStr2PhysStr d'.toCSubstLogData
      ∧ Consistent d' := by
  obtain ⟨X, hk, hX⟩ := Consistent_items d hc
  generalize hm : d.m_map = lpMap at hk hX
  subst hX
  obtain ⟨A, B, rfl, hw, ht⟩ := conc_split lpMap X physIndex hpos hin
  subst hw
  have hfit' : (itemsPhys lpMap (A ++ B)).length + sztext.length < INT_LIMIT := hfit
  have hfit2 := hfit'
  simp only [itemsPhys_append, List.length_append] at hfit2
  have hk' : itemsKnown lpMap (A ++ (sztext.map Item.ch ++ B)) := by
    obtain ⟨hkA, hkB⟩ := itemsKnown_append.1 hk
    exact itemsKnown_append.2 ⟨hkA, itemsKnown_append.2 ⟨itemsKnown_chars _ _, hkB⟩⟩
  have hcons : Consistent (conc lpMap (A ++ (sztext.map Item.ch ++ B))) := by
    apply conc_Consistent lpMap _ hk'
    simp only [itemsPhys_append, itemsPhys_chars, List.length_append]
    omega
  refine ⟨_, InsertText_conc lpMap A B sztext ht hfit', ?_, ?_, ?_, ?_, ?_, hcons.2.2.2.2, hcons⟩
  · simp [conc]
  · rw [PhysPos2LogPos_conc lpMap A B (by omega)]
    simp [conc]
  · simp only [conc, itemsFields_append, itemsFields_chars, itemsPhys_append, itemsPhys_chars,
      List.length_append, Nat.zero_add, List.nil_append, List.map_append]
    congr 1
    · conv => lhs; rw [← List.map_id (itemsFields lpMap 0 A)]
      apply List.map_congr_left
      intro f hf
      have := ht f hf
      rw [if_neg (by omega)]; rfl
    · rw [itemsFields_shift]
      apply List.map_congr_left
      intro f hf
      have := (itemsFields_bounds lpMap B _ f hf).1
      rw [if_pos (by omega)]; rfl
  · simp only [conc, itemsMarks_append, itemsMarks_chars, itemsFields_append, itemsLog_append,
      itemsLog_chars, List.length_append, Nat.zero_add, List.nil_append]
    rw [List.zipWith_append _ _ _ _ _ (itemsMarks_length lpMap A 0 0)]
    congr 1
    · rw [zipWith_eq_map _ id _ _ (itemsMarks_length lpMap A 0 0)]
      · simp
      · intro f hf m
        have := ht f hf
        rw [if_neg (by omega)]; rfl
    · rw [itemsMarks_shift, zipWith_eq_map _ _ _ _
        (itemsMarks_length lpMap B (itemsLog A).length (itemsPhys lpMap A).length)]
      intro f hf m
      have := (itemsFields_bounds lpMap B _ f hf).1
      rw [if_pos (by omega)]
  · simp only [conc]
    exact itemsMarks_length lpMap _ 0 0

/-! ### C2: `InsertNewInfo` -/

/-- C2, counterexample: the data `echoDoc` meet the four listed conditions (aligned
sequences, sorted spans, the span `[0, 2)` holds the display text `"ab"`, and the physical
string `"abXab"` is `LogStr2PhysStr` of `"abX"` with the marker `{1, 3}`), the id 1 is in
the map and the position 2 is in range and not inside a field; `InsertNewInfo(2, 1)`
leaves the physical string `"ababXab"`, while `LogStr2PhysStr` of the new logical part is
`"abXabababX"`.  The marker of `echoDoc`
is well formed, and it is not stored at the logical position of its field. -/
theorem InsertNewInfo_listed_counterexample :
    ListedConsistent echoDoc ∧ LogOk echoDoc.toCSubstLogData
    ∧ ¬ MarkersAtFields echoDoc ∧ ¬ Consistent echoDoc
    ∧ (FindMapItem echoDoc.m_map 1).isSome = true
    ∧ 2 ≤ echoDoc.m_physStr.length ∧ NotInside echoDoc 2
    ∧ (InsertNewInfo echoDoc 2 1).map
        (fun r => (r.1.m_physStr, LogStr2PhysStr r.1.toCSubstLogData))
      = some ("ababXab".toList, "abXabababX".toList)
    ∧ "ababXab".toList ≠ "abXabababX".toList := by
  decide

/-- C2 (amended). InsertField keeps the physical string derivable: on consistent physical
data in the sense of `Consistent` (the markers have mapped ids and do not decrease within
the logical string, and the fields and the physical string are the ones `AssignPhysFromLog`
rebuilds from the logical part, which implies the four listed conditions), for a field id
of the map and a position within the physical string that is not strictly inside a field,
`InsertNewInfo` returns the new field with span `[phpos, phpos + len(displayText))`, the
new physical string is the old one with the display text spliced in at `phpos`, and it
equals `LogStr2PhysStr` of the new logical part; the result is consistent again. -/
theorem InsertNewInfo_keeps_derivable (d : CSubstPhysData) (phpos what : Nat)
    (lpDesc : SubstDescr) (hc : Consistent d) (hd : FindMapItem d.m_map what = some lpDesc)
    (hpos : phpos ≤ d.m_physStr.length) (hin : NotInside d phpos)
    (hfit : d.m_physStr.length + lpDesc.lpTxt.length < INT_LIMIT) :
    ∃ d', InsertNewInfo d phpos what
        = some (d', some { m_what := what, m_start := phpos,
                           m_end := phpos + lpDesc.lpTxt.length })
      ∧ d'.m_physStr = d.m_physStr.take phpos ++ lpDesc.lpTxt ++ d.m_physStr.drop phpos
      ∧ { m_what := what, m_start := phpos, m_end := phpos + lpDesc.lpTxt.length }
          ∈ d'.m_physlist
      ∧ d'.m_physStr = LogStr2PhysStr d'.toCSubstLogData
      ∧ Consistent d' := by
  obtain ⟨X, hk, hX⟩ := Consistent_items d hc
  generalize hm : d.m_map = lpMap at hk hX hd
  subst hX
  obtain ⟨A, B, rfl, hw, ht⟩ := conc_split lpMap X phpos hpos hin
  subst hw
  have hfit' : (itemsPhys lpMap (A ++ B)).length + lpDesc.lpTxt.length < INT_LIMIT := hfit
  have hfitA : (itemsPhys lpMap A).length < INT_LIMIT := by
    simp only [itemsPhys_append, List.length_append] at hfit'; omega
  have hk' : itemsKnown lpMap (A ++ Item.fld what :: B) := by
    obtain ⟨hkA, hkB⟩ := itemsKnown_append.1 hk
    exact itemsKnown_append.2 ⟨hkA, itemsKnown_cons_fld.2 ⟨by simp [hd], hkB⟩⟩
  have hcons : Consistent (conc lpMap (A ++ Item.fld what :: B)) := by
    apply conc_Consistent lpMap _ hk'
    simp only [itemsPhys_append, itemsPhys, List.length_append, fieldText_of_find hd] at hfit' ⊢
    omega
  refine ⟨conc lpMap (A ++ Item.fld what :: B), ?_, ?_, ?_, hcons.2.2.2.2, hcons⟩
  · unfold InsertNewInfo
    have hmap : (conc lpMap (A ++ B)).m_map = lpMap := rfl
    simp only [hmap, hd]
    rw [PhysPos2LogPos_conc lpMap A B hfitA]
    exact InsertNewInfoLog_conc lpMap A B what lpDesc hd ht hfit'
  · simp [conc, itemsPhys, fieldText_of_find hd]
  · simp [conc, itemsFields_append, itemsFields, fieldText_of_find hd]

/-- C2, witness: on the empty document over `{1: "<Year>"}`, `InsertNewInfo(0, 1)` gives
the physical string `"<Year>"`, one field `{1, 0, 6}` and one marker `{1, 0}`. -/
theorem InsertNewInfo_keeps_derivable_witness :
    (∃ d', InsertNewInfo yearDoc 0 1 = some (d', some { m_what := 1, m_start := 0, m_end := 0 + 6 })
      ∧ d'.m_physStr = yearDoc.m_physStr.take 0 ++ "<Year>".toList ++ yearDoc.m_physStr.drop 0
      ∧ { m_what := 1, m_start := 0, m_end := 0 + 6 } ∈ d'.m_physlist
      ∧ d'.m_physStr = LogStr2PhysStr d'.toCSubstLogData
      ∧ Consistent d')
    ∧ InsertNewInfo yearDoc 0 1
        = some (yearFieldDoc, some { m_what := 1, m_start := 0, m_end := 6 }) :=
  ⟨InsertNewInfo_keeps_derivable yearDoc 0 1 { valId := 1, lpTxt := "<Year>".toList }
      (by decide) (by decide) (by decide) (by decide) (by decide),
    by decide⟩

/-- C7, witness: after `InsertNewInfo(0, 1)` on the empty document, `InsertText(6, "!!")`
gives the physical string `"<Year>!!"` and leaves the field span `{0, 6}`. -/
theorem InsertText_effect_witness :
    (∃ d', InsertText yearFieldDoc 6 "!!".toList = some (d', true)
      ∧ d'.m_physStr = yearFieldDoc.m_physStr.take 6 ++ "!!".toList ++ yearFieldDoc.m_physStr.drop 6
      ∧ d'.m_logStr = yearFieldDoc.m_logStr.take (PhysPos2LogPos yearFieldDoc 6) ++ "!!".toList
          ++ yearFieldDoc.m_logStr.drop (PhysPos2LogPos yearFieldDoc 6)
      ∧ d'.m_physlist = yearFieldDoc.m_physlist.map
          (fun f => if f.m_start ≥ 6 then f.shiftBy "!!".toList.length else f)
      ∧ d'.m_logList = List.zipWith
          (fun m f => if f.m_start ≥ 6 then { m with m_pos := m.m_pos + "!!".toList.length }
            else m) yearFieldDoc.m_logList yearFieldDoc.m_physlist
      ∧ d'.m_logList.length = d'.m_physlist.length
      ∧ d'.m_physStr = LogStr2PhysStr d'.toCSubstLogData
      ∧ Consistent d')
    ∧ InsertText yearFieldDoc 6 "!!".toList
        = some ({ m_logStr := "!!".toList, m_logList := [{ m_what := 1, m_pos := 0 }],
                  m_map := yearMap, m_physStr := "<Year>!!".toList,
                  m_physlist := [{ m_what := 1, m_start := 0, m_end := 6 }] }, true) :=
  ⟨InsertText_effect yearFieldDoc 6 "!!".toList (by decide) (by decide) (by decide) (by decide),
    by decide⟩

/-! ### C8: `InsertText` rejects -/

/-- C8. InsertPlainText rejection: `InsertText` returns `FALSE` if and only if the
position is beyond the physical string or strictly inside some field, and then the
physical data are unchanged. -/
theorem InsertText_rejection (d : CSubstPhysData) (physIndex : Nat) (sztext : CString) :
    ((∃ d', InsertText d physIndex sztext = some (d', false))
      ↔ (physIndex > d.m_physStr.length
          ∨ ∃ f ∈ d.m_physlist, f.m_start < physIndex ∧ physIndex < f.m_end))
    ∧ (∀ d', InsertText d physIndex sztext = some (d', false) → d' = d) := by
  have hsome : (FindPhysInfoPosIsIn d physIndex).isSome = true
      ↔ ∃ f ∈ d.m_physlist, f.m_start < physIndex ∧ physIndex < f.m_end := by
    rw [← Option.ne_none_iff_isSome, Ne, FindPhysInfoPosIsIn_none_iff]
    unfold NotInside
    push_neg
    rfl
  have key : ∀ d', InsertText d physIndex sztext = some (d', false) →
      d' = d ∧ (physIndex > d.m_physStr.length ∨ (FindPhysInfoPosIsIn d physIndex).isSome = true) := by
    intro d' h
    unfold InsertText at h
    by_cases h1 : physIndex > d.m_physStr.length
    · rw [if_pos h1] at h
      simp only [Option.some.injEq, Prod.mk.injEq, and_true] at h
      exact ⟨h.symm, Or.inl h1⟩
    · rw [if_neg h1] at h
      by_cases h2 : (FindPhysInfoPosIsIn d physIndex).isSome = true
      · rw [if_pos h2] at h
        simp only [Option.some.injEq, Prod.mk.injEq, and_true] at h
        exact ⟨h.symm, Or.inr h2⟩
      · rw [if_neg h2] at h
        simp only at h
        split at h
        · split at h
          · cases h
          · simp at h
        · simp at h
  refine ⟨⟨?_, ?_⟩, fun d' h => (key d' h).1⟩
  · rintro ⟨d', h⟩
    rcases (key d' h).2 with h1 | h2
    · exact Or.inl h1
    · exact Or.inr (hsome.1 h2)
  · intro h
    refine ⟨d, ?_⟩
    unfold InsertText
    by_cases h1 : physIndex > d.m_physStr.length
    · rw [if_pos h1]
    · rw [if_neg h1]
      rcases h with h | h
      · exact absurd h h1
      · rw [if_pos (hsome.2 h)]

/-- C8, witness: after `InsertNewInfo(0, 1)` on the empty document, `InsertText(3, "x")`
is rejected and the state is unchanged. -/
theorem InsertText_rejection_witness :
    InsertText yearFieldDoc 3 "x".toList = some (yearFieldDoc, false)
    ∧ ∃ f ∈ yearFieldDoc.m_physlist, f.m_start < 3 ∧ 3 < f.m_end :=
  ⟨by decide, by
    have h := (InsertText_rejection yearFieldDoc 3 "x".toList).1.1 ⟨yearFieldDoc, by decide⟩
    rcases h with h | h
    · exact absurd h (by decide)
    · exact h⟩

/-! ### C5: index alignment -/

theorem MoveAllPhys_what (l : List CPhysInfo) (g dx : Nat) :
    (MoveAllPhysInfoGreaterEq l g dx).map (fun f => f.m_what) = l.map (fun f => f.m_what) := by
  unfold MoveAllPhysInfoGreaterEq
  rw [List.map_map]
  apply List.map_congr_left
  intro f _
  simp only [Function.comp, FnMoveAllPhysInfoGreaterEq]
  split <;> rfl

theorem MoveAllPhys_length (l : List CPhysInfo) (g dx : Nat) :
    (MoveAllPhysInfoGreaterEq l g dx).length = l.length := by
  simp [MoveAllPhysInfoGreaterEq]

theorem MoveAllInfo_what : ∀ (ms : List CLogInfo) (fs : List CPhysInfo) (g dx : Nat),
    ms.length = fs.length →
    ∃ a b, MoveAllInfoIfPhysGreaterEq g dx ms fs = some (a, b)
      ∧ a.map (fun m => m.m_what) = ms.map (fun m => m.m_what)
      ∧ b.map (fun f => f.m_what) = fs.map (fun f => f.m_what) := by
  intro ms
  induction ms with
  | nil =>
    intro fs g dx hl
    cases fs with
    | nil => exact ⟨[], [], rfl, rfl, rfl⟩
    | cons f fs => simp at hl
  | cons m ms ih =>
    intro fs g dx hl
    cases fs with
    | nil => simp at hl
    | cons f fs =>
      obtain ⟨a, b, h1, h2, h3⟩ := ih fs g dx (by simpa using hl)
      simp only [MoveAllInfoIfPhysGreaterEq, h1]
      by_cases hc : f.m_start ≥ g
      · rw [if_pos hc]
        exact ⟨_, _, rfl, by simp [CLogInfo.Add2Pos, h2], by simp [h3]⟩
      · rw [if_neg hc]
        exact ⟨_, _, rfl, by simp [h2], by simp [h3]⟩

theorem Aligned_length {d : CSubstPhysData} (h : Aligned d) :
    d.m_physlist.length = d.m_logList.length := by
  have := congrArg List.length h
  simpa using this

theorem InsertAt_map {α β : Type} (g : α → β) (l : List α) (k : Nat) (x : α) :
    (InsertAt l k x).map g = InsertAt (l.map g) k (g x) := by
  simp [InsertAt, List.map_take, List.map_drop]

theorem InsertAt_length_eq {α : Type} (l : List α) (x : α) :
    InsertAt l l.length x = l ++ [x] := by
  simp [InsertAt]

/-- `InsertNewInfo(phpos, lpLogInfo)` puts the marker and the field at one index. -/
theorem InsertNewInfoLog_aligned (d : CSubstPhysData) (phpos : Nat) (lpLogInfo : CLogInfo)
    (h : Aligned d) :
    ∃ d' r, InsertNewInfoLog d phpos lpLogInfo = some (d', r) ∧ Aligned d'
      ∧ d'.m_map = d.m_map
      ∧ (r.isSome = (FindMapItem d.m_map lpLogInfo.m_what).isSome)
      ∧ ∀ f, r = some f → f.m_what = lpLogInfo.m_what ∧ ∃ k, k ≤ d.m_logList.length
          ∧ d'.m_logList = InsertAt d.m_logList k lpLogInfo
          ∧ d'.m_physlist = InsertAt
              (MoveAllPhysInfoGreaterEq d.m_physlist phpos (fieldText d.m_map lpLogInfo.m_what).length)
              k f := by
  have hl := Aligned_length h
  unfold InsertNewInfoLog
  cases hd : FindMapItem d.m_map lpLogInfo.m_what with
  | none => exact ⟨d, none, rfl, h, rfl, rfl, by intro f hf; cases hf⟩
  | some lpDesc =>
    have hT := fieldText_of_find hd
    simp only
    cases hk : FindPhysInfoAfter d phpos with
    | none =>
      refine ⟨_, _, rfl, ?_, rfl, rfl, ?_⟩
      · unfold Aligned at h ⊢
        simp [h]
      · intro f hf
        cases hf
        refine ⟨rfl, d.m_logList.length, le_refl _, ?_, ?_⟩
        · simp [InsertAt_length_eq]
        · have hnone : ∀ x ∈ d.m_physlist, FnPhysInfoPosGreaterEq phpos x = false :=
            (FirstThat_none_iff _ _).1 hk
          rw [MoveAllPhys_none _ _ _ (by
            intro x hx
            have := hnone x hx
            simpa [FnPhysInfoPosGreaterEq] using this)]
          rw [← hl, InsertAt_length_eq]
    | some k =>
      have hklt : k < d.m_physlist.length := FirstThat_some_lt _ _ _ hk
      have hk2 : k < d.m_logList.length := by omega
      simp only [hk2, if_true]
      refine ⟨_, _, rfl, ?_, rfl, rfl, ?_⟩
      · unfold Aligned at h ⊢
        simp only [InsertAt_map, MoveAllPhys_what, h]
      · intro f hf
        cases hf
        exact ⟨rfl, k, by omega, rfl, by rw [hT]⟩

theorem eraseIdx_map {α β : Type} (g : α → β) (l : List α) (k : Nat) :
    (l.eraseIdx k).map g = (l.map g).eraseIdx k := by
  induction l generalizing k with
  | nil => rfl
  | cons a l ih =>
    cases k with
    | zero => rfl
    | succ k => simp [List.eraseIdx, ih]

/-- `DeleteOneInfo` removes the marker and the field of one index. -/
theorem DeleteOneInfo_aligned (d : CSubstPhysData) (lpInf : Nat) (h : Aligned d) :
    ∃ d' b, DeleteOneInfo d lpInf = some (d', b) ∧ Aligned d' ∧ d'.m_map = d.m_map
      ∧ (b = true ↔ lpInf < d.m_physlist.length)
      ∧ (b = true → d'.m_logList = d.m_logList.eraseIdx lpInf
          ∧ d'.m_physlist.map (fun f => f.m_what)
              = (d.m_physlist.eraseIdx lpInf).map (fun f => f.m_what)) := by
  have hl := Aligned_length h
  unfold DeleteOneInfo
  cases hg : d.m_physlist[lpInf]? with
  | none =>
    have : ¬ lpInf < d.m_physlist.length := by
      intro hlt
      rw [List.getElem?_eq_getElem hlt] at hg
      cases hg
    exact ⟨d, false, rfl, h, rfl, by simp [this], by intro hb; cases hb⟩
  | some phinf =>
    have hlt : lpInf < d.m_physlist.length := by
      by_contra hcon
      rw [List.getElem?_eq_none (by omega)] at hg
      cases hg
    have hlt2 : lpInf < d.m_logList.length := by omega
    simp only [hlt2, if_true]
    have hal : (d.m_physlist.eraseIdx lpInf).map (fun f => f.m_what)
        = (d.m_logList.eraseIdx lpInf).map (fun m => m.m_what) := by
      rw [eraseIdx_map, eraseIdx_map, h]
    by_cases hpos : phinf.GetLength > 0
    · rw [if_pos hpos]
      refine ⟨_, _, rfl, ?_, rfl, by simp [hlt], fun _ => ⟨rfl, ?_⟩⟩
      · unfold Aligned
        simp only [MoveAllPhys_what, hal]
      · simp only [MoveAllPhys_what]
    · rw [if_neg hpos]
      exact ⟨_, _, rfl, hal, rfl, by simp [hlt], fun _ => ⟨rfl, rfl⟩⟩

theorem DeleteAllBetweenLoop_aligned (start : Nat) : ∀ (fuel : Nat) (d : CSubstPhysData)
    (tempEnd : Nat), Aligned d → d.m_physlist.length < fuel →
    ∃ d' e, DeleteAllBetweenLoop start fuel d tempEnd = some (d', e) ∧ Aligned d'
      ∧ d'.m_map = d.m_map := by
  intro fuel
  induction fuel with
  | zero => intro d tempEnd _ hf; omega
  | succ fuel ih =>
    intro d tempEnd h hf
    unfold DeleteAllBetweenLoop
    cases hk : FindPhysInfoBetween d start tempEnd with
    | none => exact ⟨d, tempEnd, rfl, h, rfl⟩
    | some k =>
      have hklt : k < d.m_physlist.length := FirstThat_some_lt _ _ _ hk
      simp only [List.getElem?_eq_getElem hklt]
      obtain ⟨d1, b, h1, h2, h3, h4, h5⟩ := DeleteOneInfo_aligned d k h
      simp only [h1]
      have hb : b = true := h4.2 hklt
      have hlen : d1.m_physlist.length < fuel := by
        have := congrArg List.length (h5 hb).2
        simp only [List.length_map, List.length_eraseIdx, hklt, if_true] at this
        omega
      obtain ⟨d', e, h6, h7, h8⟩ := ih d1 (subSz tempEnd (d.m_physlist[k]).GetLength) h2 hlen
      exact ⟨d', e, h6, h7, by rw [h8, h3]⟩

theorem DeleteAllBetween_aligned (d : CSubstPhysData) (start endPos : Nat) (h : Aligned d) :
    ∃ d' n, DeleteAllBetween d start endPos = some (d', n) ∧ Aligned d' := by
  unfold DeleteAllBetween
  obtain ⟨d1, e, h1, h2, _⟩ :=
    DeleteAllBetweenLoop_aligned start (d.m_physlist.length + 1) d endPos h (by omega)
  simp only [h1]
  by_cases hpos : subSz e start > 0
  · rw [if_pos hpos]
    obtain ⟨a, b, h3, h4, h5⟩ := MoveAllInfo_what d1.m_logList d1.m_physlist start
      (negSz (subSz e start)) (Aligned_length h2).symm
    simp only [h3]
    refine ⟨_, _, rfl, ?_⟩
    unfold Aligned at h2 ⊢
    simp only [h4, h5, h2]
  · rw [if_neg hpos]
    exact ⟨_, _, rfl, h2⟩

theorem InsertText_aligned (d : CSubstPhysData) (physIndex : Nat) (sztext : CString)
    (h : Aligned d) :
    ∃ d' b, InsertText d physIndex sztext = some (d', b) ∧ Aligned d' ∧ d'.m_map = d.m_map := by
  unfold InsertText
  by_cases h1 : physIndex > d.m_physStr.length
  · rw [if_pos h1]; exact ⟨_, _, rfl, h, rfl⟩
  · rw [if_neg h1]
    by_cases h2 : (FindPhysInfoPosIsIn d physIndex).isSome = true
    · rw [if_pos h2]; exact ⟨_, _, rfl, h, rfl⟩
    · rw [if_neg h2]
      simp only
      by_cases h3 : sztext.length > 0
      · rw [if_pos h3]
        obtain ⟨a, b, h4, h5, h6⟩ := MoveAllInfo_what d.m_logList d.m_physlist physIndex
          sztext.length (Aligned_length h).symm
        simp only [h4]
        refine ⟨_, _, rfl, ?_, rfl⟩
        unfold Aligned at h ⊢
        simp only [h5, h6, h]
      · rw [if_neg h3]; exact ⟨_, _, rfl, h, rfl⟩

theorem InsertDataLoop_aligned (beginLogPos : Nat) : ∀ (l : List CLogInfo) (d : CSubstPhysData)
    (i last n : Nat), Aligned d →
    (∀ m ∈ l, (FindMapItem d.m_map m.m_what).isSome = true) →
    ∃ d' n', InsertDataLoop beginLogPos l d i last n = some (d', n') ∧ Aligned d' := by
  intro l
  induction l with
  | nil => intro d i last n h _; exact ⟨d, n, rfl, h⟩
  | cons m l ih =>
    intro d i last n h hk
    unfold InsertDataLoop
    obtain ⟨d1, r, h1, h2, h3, h4, _⟩ :=
      InsertNewInfoLog_aligned d (addSz i (subSz m.m_pos last)) (m.Add2Pos beginLogPos) h
    have hm : (FindMapItem d.m_map (m.Add2Pos beginLogPos).m_what).isSome = true :=
      hk m (List.mem_cons_self _ _)
    rw [hm] at h4
    obtain ⟨f, rfl⟩ := Option.isSome_iff_exists.1 h4
    simp only [h1]
    exact ih d1 _ _ _ h2 (fun m' hm' => by rw [h3]; exact hk m' (List.mem_cons_of_mem _ hm'))

theorem InsertData_aligned (d : CSubstPhysData) (physIndex : Nat) (logData : CSubstLogData)
    (h : Aligned d) (hk : ∀ m ∈ logData.m_logList, (FindMapItem d.m_map m.m_what).isSome = true) :
    ∃ d' F n, InsertData d physIndex logData = some (d', F, n) ∧ Aligned d' := by
  unfold InsertData
  obtain ⟨d1, b, h1, h2, h3⟩ := InsertText_aligned d physIndex logData.m_logStr h
  simp only [h1]
  cases b with
  | false => exact ⟨_, _, _, rfl, h2⟩
  | true =>
    simp only
    obtain ⟨d2, n, h4, h5⟩ := InsertDataLoop_aligned (PhysPos2LogPos d1 physIndex)
      logData.m_logList d1 physIndex 0 logData.m_logStr.length h2
      (fun m hm => by rw [h3]; exact hk m hm)
    simp only [h4]
    exact ⟨_, _, _, rfl, h5⟩

/-- C5. Index-alignment invariant: if the two sequences have the same length and the same
field id at every index, the same holds after each of `InsertNewInfo`, `DeleteOneInfo`,
`DeleteAllBetween`, `InsertText` and `InsertData`, for any position arguments (for
`InsertData`, with the ids of the fragment present in the map); each of them returns.
`InsertNewInfo` inserts the marker and the physical field at one index `k`, and
`DeleteOneInfo` removes the marker and the physical field of one index. -/
theorem index_alignment_preserved (d : CSubstPhysData) (h : Aligned d) :
    (∀ phpos what, ∃ d' r, InsertNewInfo d phpos what = some (d', r) ∧ Aligned d'
        ∧ ∀ f, r = some f → ∃ k m, k ≤ d.m_logList.length ∧ m.m_what = what ∧ f.m_what = what
            ∧ d'.m_logList = InsertAt d.m_logList k m
            ∧ d'.m_physlist = InsertAt
                (MoveAllPhysInfoGreaterEq d.m_physlist phpos (fieldText d.m_map what).length) k f)
    ∧ (∀ lpInf, ∃ d' b, DeleteOneInfo d lpInf = some (d', b) ∧ Aligned d'
        ∧ (b = true → d'.m_logList = d.m_logList.eraseIdx lpInf
            ∧ d'.m_physlist.map (fun f => f.m_what)
                = (d.m_physlist.eraseIdx lpInf).map (fun f => f.m_what)))
    ∧ (∀ start endPos, ∃ d' n, DeleteAllBetween d start endPos = some (d', n) ∧ Aligned d')
    ∧ (∀ physIndex sztext, ∃ d' b, InsertText d physIndex sztext = some (d', b) ∧ Aligned d')
    ∧ (∀ physIndex logData,
        (∀ m ∈ logData.m_logList, (FindMapItem d.m_map m.m_what).isSome = true) →
        ∃ d' F n, InsertData d physIndex logData = some (d', F, n) ∧ Aligned d') := by
  refine ⟨?_, ?_, fun s e => DeleteAllBetween_aligned d s e h, ?_,
    fun p F hk => InsertData_aligned d p F h hk⟩
  · intro phpos what
    unfold InsertNewInfo
    cases hd : FindMapItem d.m_map what with
    | none => exact ⟨d, none, rfl, h, by intro f hf; cases hf⟩
    | some lpDesc =>
      simp only
      obtain ⟨d', r, h1, h2, _, _, h5⟩ :=
        InsertNewInfoLog_aligned d phpos { m_what := what, m_pos := PhysPos2LogPos d phpos } h
      refine ⟨d', r, h1, h2, ?_⟩
      intro f hf
      obtain ⟨h6, k, h7, h8, h9⟩ := h5 f hf
      exact ⟨k, _, h7, rfl, h6, h8, h9⟩
  · intro lpInf
    obtain ⟨d', b, h1, h2, _, _, h5⟩ := DeleteOneInfo_aligned d lpInf h
    exact ⟨d', b, h1, h2, h5⟩
  · intro p t
    obtain ⟨d', b, h1, h2, _⟩ := InsertText_aligned d p t h
    exact ⟨d', b, h1, h2⟩

/-! ### `DeleteOneInfo` and `DeleteAllBetween` on a sequence of items -/

theorem FindMapItemScan_spec : ∀ (lpMap : List SubstDescr) (item : Nat) (lpDesc : SubstDescr),
    FindMapItemScan lpMap item = some lpDesc →
    lpDesc ∈ lpMap ∧ lpDesc.valId = item ∧ lpDesc.valId ≠ kInvalidSubstElemId := by
  intro lpMap
  induction lpMap with
  | nil => intro item lpDesc h; simp [FindMapItemScan] at h
  | cons x rest ih =>
    intro item lpDesc h
    simp only [FindMapItemScan] at h
    split at h
    · cases h
    · rename_i hx
      split at h
      · rename_i hx2
        cases h
        exact ⟨List.mem_cons_self _ _, hx2, fun hc => hx hc.symm⟩
      · obtain ⟨h1, h2, h3⟩ := ih item lpDesc h
        exact ⟨List.mem_cons_of_mem _ h1, h2, h3⟩

theorem FindMapItem_spec {lpMap : List SubstDescr} {item : Nat} {lpDesc : SubstDescr}
    (h : FindMapItem lpMap item = some lpDesc) :
    lpDesc ∈ lpMap ∧ lpDesc.valId = item ∧ lpDesc.valId ≠ kInvalidSubstElemId := by
  unfold FindMapItem at h
  split at h
  · exact FindMapItemScan_spec _ _ _ h
  · cases h

theorem fieldText_ne_nil {lpMap : List SubstDescr} (hne : NonEmptyTexts lpMap) {w : Nat}
    (hw : (FindMapItem lpMap w).isSome = true) : 0 < (fieldText lpMap w).length := by
  obtain ⟨lpDesc, hd⟩ := Option.isSome_iff_exists.1 hw
  rw [fieldText_of_find hd]
  obtain ⟨h1, _, h3⟩ := FindMapItem_spec hd
  exact List.length_pos.2 (hne lpDesc h1 h3)

theorem itemsFields_pos_length {lpMap : List SubstDescr} (hne : NonEmptyTexts lpMap)
    {X : List Item} (hk : itemsKnown lpMap X) (po : Nat) :
    ∀ f ∈ itemsFields lpMap po X, f.m_start < f.m_end := by
  intro f hf
  have hw := hk _ (itemsFields_mem_fld lpMap X po f hf)
  have := fieldText_ne_nil hne hw
  have := (itemsFields_bounds lpMap X po f hf).2.1
  omega

theorem Tight_of_nonEmpty {lpMap : List SubstDescr} (hne : NonEmptyTexts lpMap)
    {X : List Item} (hk : itemsKnown lpMap X) : Tight lpMap X := by
  intro f hf
  have h1 := itemsFields_pos_length hne hk 0 f hf
  have h2 := (itemsFields_bounds lpMap X 0 f hf).2.2
  omega

/-- A sequence of items is plain text or has a first field. -/
theorem items_first_field : ∀ (M : List Item),
    M = (itemsLog M).map Item.ch
      ∨ ∃ (C : CString) (w : Nat) (M' : List Item), M = C.map Item.ch ++ Item.fld w :: M' := by
  intro M
  induction M with
  | nil => left; rfl
  | cons x M ih =>
    cases x with
    | ch c =>
      rcases ih with h | ⟨C, w, M', h⟩
      · left
        simp only [itemsLog, List.map_cons]
        rw [← h]
      · right
        exact ⟨c :: C, w, M', by simp [h]⟩
    | fld w => right; exact ⟨[], w, M, rfl⟩

/-- Deleting the field that follows a tight prefix `X`. -/
theorem DeleteOneInfo_conc (lpMap : List SubstDescr) (X Y : List Item) (w : Nat)
    (ht : Tight lpMap X)
    (hfit : (itemsPhys lpMap (X ++ Item.fld w :: Y)).length < INT_LIMIT) :
    DeleteOneInfo (conc lpMap (X ++ Item.fld w :: Y)) (itemsFields lpMap 0 X).length
      = some (conc lpMap (X ++ Y), true) := by
  simp only [itemsPhys_append, itemsPhys, List.length_append] at hfit
  unfold DeleteOneInfo
  have hget : (conc lpMap (X ++ Item.fld w :: Y)).m_physlist[(itemsFields lpMap 0 X).length]?
      = some { m_what := w, m_start := (itemsPhys lpMap X).length,
               m_end := (itemsPhys lpMap X).length + (fieldText lpMap w).length } := by
    simp only [conc, itemsFields_append, itemsFields, Nat.zero_add]
    exact getElem?_append_length _ _ _
  rw [hget]
  simp only
  have hlt : (itemsFields lpMap 0 X).length
      < (conc lpMap (X ++ Item.fld w :: Y)).m_logList.length := by
    simp only [conc, itemsMarks_append, itemsMarks, List.length_append, List.length_cons]
    rw [itemsMarks_length lpMap X 0 0]
    omega
  simp only [hlt, if_true]
  have hlen : CPhysInfo.GetLength
      { m_what := w, m_start := (itemsPhys lpMap X).length,
        m_end := (itemsPhys lpMap X).length + (fieldText lpMap w).length }
      = (fieldText lpMap w).length := by
    unfold CPhysInfo.GetLength
    simp only
    rw [subSz_of_le (by omega) (by omega)]; omega
  rw [hlen]
  have he1 : (conc lpMap (X ++ Item.fld w :: Y)).m_physlist.eraseIdx (itemsFields lpMap 0 X).length
      = itemsFields lpMap 0 X
        ++ itemsFields lpMap ((itemsPhys lpMap X).length + (fieldText lpMap w).length) Y := by
    simp only [conc, itemsFields_append, itemsFields, Nat.zero_add]
    exact eraseIdx_append_length _ _ _
  have he2 : (conc lpMap (X ++ Item.fld w :: Y)).m_logList.eraseIdx (itemsFields lpMap 0 X).length
      = itemsMarks 0 X ++ itemsMarks (itemsLog X).length Y := by
    rw [← itemsMarks_length lpMap X 0 0]
    simp only [conc, itemsMarks_append, itemsMarks, Nat.zero_add]
    exact eraseIdx_append_length _ _ _
  rw [he1, he2]
  by_cases hpos : (fieldText lpMap w).length > 0
  · rw [if_pos hpos, MoveAllPhys_append, MoveAllPhys_none _ _ _ ht,
      MoveAllPhys_items_back lpMap Y _ _ _ (by omega) (by omega)]
    simp [conc, itemsMarks_append, itemsFields_append, itemsPhys, itemsLog, extractSubstr]
  · rw [if_neg hpos]
    have h0 : fieldText lpMap w = [] := List.length_eq_zero.1 (by omega)
    simp [conc, itemsMarks_append, itemsFields_append, itemsPhys, itemsLog, h0]

theorem FindPhysInfoBetween_first (lpMap : List SubstDescr) (A : List Item) (C : CString)
    (w : Nat) (Y : List Item) (tempEnd : Nat) (ht : Tight lpMap A)
    (hend : (itemsPhys lpMap A).length + C.length + (fieldText lpMap w).length ≤ tempEnd) :
    FindPhysInfoBetween (conc lpMap (A ++ (C.map Item.ch ++ Item.fld w :: Y)))
        (itemsPhys lpMap A).length tempEnd
      = some (itemsFields lpMap 0 A).length := by
  unfold FindPhysInfoBetween
  simp only [conc, itemsFields_append, itemsFields_chars, itemsPhys_chars, itemsFields,
    Nat.zero_add, List.nil_append]
  rw [FirstThat_append_false, FirstThat_head]
  · simp
  · simp [FnPhysInfoBetween]; omega
  · intro f hf
    have := ht f hf
    simp [FnPhysInfoBetween]; omega

theorem FindPhysInfoBetween_none (lpMap : List SubstDescr) (hne : NonEmptyTexts lpMap)
    (A : List Item) (s : CString) (B : List Item)
    (hk : itemsKnown lpMap (A ++ (s.map Item.ch ++ B))) :
    FindPhysInfoBetween (conc lpMap (A ++ (s.map Item.ch ++ B)))
        (itemsPhys lpMap A).length ((itemsPhys lpMap A).length + s.length) = none := by
  obtain ⟨hkA, hk2⟩ := itemsKnown_append.1 hk
  obtain ⟨_, hkB⟩ := itemsKnown_append.1 hk2
  unfold FindPhysInfoBetween
  rw [FirstThat_none_iff]
  intro f hf
  simp only [conc, itemsFields_append, itemsFields_chars, itemsPhys_chars, Nat.zero_add,
    List.nil_append, List.mem_append] at hf
  rcases hf with hf | hf
  · have := Tight_of_nonEmpty hne hkA f hf
    simp [FnPhysInfoBetween]; omega
  · have h1 := itemsFields_pos_length hne hkB _ f hf
    have h2 := (itemsFields_bounds lpMap B _ f hf).1
    simp [FnPhysInfoBetween]; omega

/-- The loop of `DeleteAllBetween` removes the fields of the middle part `M` of the
document `A ++ M ++ B`, one by one. -/
theorem DeleteAllBetweenLoop_conc (lpMap : List SubstDescr) (hne : NonEmptyTexts lpMap)
    (A B : List Item) : ∀ (n : Nat) (M : List Item) (fuel : Nat),
    (itemsMarks 0 M).length = n → n < fuel → itemsKnown lpMap (A ++ (M ++ B)) →
    (itemsPhys lpMap (A ++ (M ++ B))).length < INT_LIMIT →
    DeleteAllBetweenLoop (itemsPhys lpMap A).length fuel (conc lpMap (A ++ (M ++ B)))
        ((itemsPhys lpMap A).length + (itemsPhys lpMap M).length)
      = some (conc lpMap (A ++ ((itemsLog M).map Item.ch ++ B)),
          (itemsPhys lpMap A).length + (itemsLog M).length) := by
  intro n
  induction n with
  | zero =>
    intro M fuel hn hfuel hk hfit
    cases fuel with
    | zero => omega
    | succ fuel =>
      have hM : M = (itemsLog M).map Item.ch := by
        rcases items_first_field M with h | ⟨C, w, M', h⟩
        · exact h
        · rw [h] at hn
          simp [itemsMarks_append, itemsMarks] at hn
      have hw : (itemsPhys lpMap M).length = (itemsLog M).length := by
        conv => lhs; rw [hM, itemsPhys_chars]
      unfold DeleteAllBetweenLoop
      rw [hw]
      have hk' : itemsKnown lpMap (A ++ ((itemsLog M).map Item.ch ++ B)) := by
        rw [← hM]; exact hk
      have hnone := FindPhysInfoBetween_none lpMap hne A (itemsLog M) B hk'
      rw [← hM] at hnone
      rw [hnone]
      simp only
      rw [← hM]
  | succ n ih =>
    intro M fuel hn hfuel hk hfit
    cases fuel with
    | zero => omega
    | succ fuel =>
      obtain ⟨hkA, hk2⟩ := itemsKnown_append.1 hk
      obtain ⟨hkM, hkB⟩ := itemsKnown_append.1 hk2
      have htA := Tight_of_nonEmpty hne hkA
      rcases items_first_field M with h | ⟨C, w, M', h⟩
      · rw [h] at hn
        simp at hn
      · subst h
        simp only [itemsPhys_append, itemsPhys_chars, itemsPhys, List.length_append] at hfit
        unfold DeleteAllBetweenLoop
        have e1 : A ++ ((C.map Item.ch ++ Item.fld w :: M') ++ B)
            = A ++ (C.map Item.ch ++ Item.fld w :: (M' ++ B)) := by simp
        rw [e1, FindPhysInfoBetween_first lpMap A C w (M' ++ B) _ htA
          (by simp only [itemsPhys_append, itemsPhys_chars, itemsPhys, List.length_append]; omega)]
        simp only
        have e2 : A ++ (C.map Item.ch ++ Item.fld w :: (M' ++ B))
            = (A ++ C.map Item.ch) ++ Item.fld w :: (M' ++ B) := by simp
        have e3 : (itemsFields lpMap 0 A).length = (itemsFields lpMap 0 (A ++ C.map Item.ch)).length := by
          simp [itemsFields_append]
        have hkX : itemsKnown lpMap (A ++ C.map Item.ch) :=
          itemsKnown_append.2 ⟨hkA, itemsKnown_chars _ _⟩
        have hget : (conc lpMap ((A ++ C.map Item.ch) ++ Item.fld w :: (M' ++ B))).m_physlist[
              (itemsFields lpMap 0 (A ++ C.map Item.ch)).length]?
            = some { m_what := w, m_start := (itemsPhys lpMap (A ++ C.map Item.ch)).length,
                     m_end := (itemsPhys lpMap (A ++ C.map Item.ch)).length
                       + (fieldText lpMap w).length } := by
          simp only [conc, itemsFields_append, itemsFields, Nat.zero_add]
          exact getElem?_append_length _ _ _
        rw [e2, e3, hget]
        simp only
        rw [DeleteOneInfo_conc lpMap _ _ w (Tight_of_nonEmpty hne hkX)
          (by simp only [itemsPhys_append, itemsPhys_chars, itemsPhys, List.length_append]; omega)]
        simp only
        have hlen : CPhysInfo.GetLength
            { m_what := w, m_start := (itemsPhys lpMap (A ++ C.map Item.ch)).length,
              m_end := (itemsPhys lpMap (A ++ C.map Item.ch)).length + (fieldText lpMap w).length }
            = (fieldText lpMap w).length := by
          unfold CPhysInfo.GetLength
          simp only [itemsPhys_append, itemsPhys_chars, List.length_append]
          rw [subSz_of_le (by omega) (by omega)]; omega
        rw [hlen]
        have hte : subSz ((itemsPhys lpMap A).length
              + (itemsPhys lpMap (C.map Item.ch ++ Item.fld w :: M')).length)
              (fieldText lpMap w).length
            = (itemsPhys lpMap A).length + (itemsPhys lpMap (C.map Item.ch ++ M')).length := by
          simp only [itemsPhys_append, itemsPhys_chars, itemsPhys, List.length_append]
          rw [subSz_of_le (by omega) (by omega)]; omega
        rw [hte]
        have e4 : (A ++ C.map Item.ch) ++ (M' ++ B) = A ++ ((C.map Item.ch ++ M') ++ B) := by simp
        rw [e4]
        have hn' : (itemsMarks 0 (C.map Item.ch ++ M')).length = n := by
          simp only [itemsMarks_append, itemsMarks_chars, itemsMarks, List.nil_append,
            List.length_cons, itemsLog_chars, Nat.zero_add] at hn ⊢
          omega
        have hk' : itemsKnown lpMap (A ++ ((C.map Item.ch ++ M') ++ B)) := by
          obtain ⟨_, hkM2⟩ := itemsKnown_append.1 hkM
          obtain ⟨_, hkM'⟩ := itemsKnown_cons_fld.1 hkM2
          exact itemsKnown_append.2 ⟨hkA, itemsKnown_append.2
            ⟨itemsKnown_append.2 ⟨itemsKnown_chars _ _, hkM'⟩, hkB⟩⟩
        rw [ih (C.map Item.ch ++ M') fuel hn' (by omega) hk'
          (by simp only [itemsPhys_append, itemsPhys_chars, List.length_append]; omega)]
        simp [itemsLog]

/-- `DeleteAllBetween` on the document `A ++ M ++ B`, from the end of `A` to the end of
`M`, leaves the document `A ++ B`. -/
theorem DeleteAllBetween_conc (lpMap : List SubstDescr) (hne : NonEmptyTexts lpMap)
    (A M B : List Item) (hk : itemsKnown lpMap (A ++ (M ++ B)))
    (hfit : (itemsPhys lpMap (A ++ (M ++ B))).length < INT_LIMIT) :
    DeleteAllBetween (conc lpMap (A ++ (M ++ B))) (itemsPhys lpMap A).length
        ((itemsPhys lpMap A).length + (itemsPhys lpMap M).length)
      = some (conc lpMap (A ++ B), (itemsPhys lpMap M).length) := by
  obtain ⟨hkA, hk2⟩ := itemsKnown_append.1 hk
  obtain ⟨hkM, hkB⟩ := itemsKnown_append.1 hk2
  have hfit' := hfit
  simp only [itemsPhys_append, List.length_append] at hfit'
  have hleM := itemsLog_length_le lpMap M
  have hleA := itemsLog_length_le lpMap A
  unfold DeleteAllBetween
  have hfuel : (itemsMarks 0 M).length < (conc lpMap (A ++ (M ++ B))).m_physlist.length + 1 := by
    simp only [conc, itemsFields_append, List.length_append]
    rw [itemsMarks_length lpMap M 0 (0 + (itemsPhys lpMap A).length)]
    omega
  rw [DeleteAllBetweenLoop_conc lpMap hne A B _ M _ rfl hfuel hk hfit]
  simp only
  rw [subSz_of_le (by omega) (by omega), subSz_of_le (by omega) (by omega)]
  have e1 : (itemsPhys lpMap A).length + (itemsLog M).length - (itemsPhys lpMap A).length
      = (itemsLog M).length := by omega
  have e2 : (itemsPhys lpMap A).length + (itemsPhys lpMap M).length - (itemsPhys lpMap A).length
      = (itemsPhys lpMap M).length := by omega
  rw [e1, e2]
  by_cases hpos : (itemsLog M).length > 0
  · rw [if_pos hpos, PhysPos2LogPos_conc lpMap A _ (by omega)]
    have hmv : MoveAllInfoIfPhysGreaterEq (itemsPhys lpMap A).length (negSz (itemsLog M).length)
        (conc lpMap (A ++ ((itemsLog M).map Item.ch ++ B))).m_logList
        (conc lpMap (A ++ ((itemsLog M).map Item.ch ++ B))).m_physlist
        = some (itemsMarks 0 A ++ itemsMarks (itemsLog A).length B,
            itemsFields lpMap 0 A ++ itemsFields lpMap (itemsPhys lpMap A).length B) := by
      simp only [conc, itemsMarks_append, itemsFields_append, itemsMarks_chars,
        itemsFields_chars, itemsLog_chars, itemsPhys_chars, Nat.zero_add, List.nil_append]
      apply MoveAllInfo_append _ _ _ _ _ _ _ _ _ _ (itemsMarks_length lpMap A 0 0)
      · exact MoveAllInfo_none _ _ _ _ (itemsMarks_length lpMap A 0 0)
          (Tight_of_nonEmpty hne hkA)
      · exact MoveAllInfo_items_back lpMap B _ _ _ _ (by omega) (by omega) hleA
    rw [hmv]
    simp [conc, itemsMarks_append, itemsFields_append, extractSubstr]
  · rw [if_neg hpos]
    have h0 : itemsLog M = [] := List.length_eq_zero.1 (by omega)
    simp [h0]

/-! ### C3, C4: `DeleteAllBetween` -/

theorem drop_append_two {α : Type} (a b c : List α) :
    (a ++ (b ++ c)).drop (a.length + b.length) = c := by
  rw [← List.append_assoc, ← List.length_append, List.drop_left]

/-- A range whose ends are not strictly inside a field cuts a document in three. -/
theorem conc_split_range (lpMap : List SubstDescr) (X : List Item) (start endPos : Nat)
    (hse : start ≤ endPos) (hend : endPos ≤ (conc lpMap X).m_physStr.length)
    (hin1 : NotInside (conc lpMap X) start) (hin2 : NotInside (conc lpMap X) endPos) :
    ∃ A M B, X = A ++ (M ++ B) ∧ (itemsPhys lpMap A).length = start
      ∧ (itemsPhys lpMap A).length + (itemsPhys lpMap M).length = endPos := by
  obtain ⟨A, R, hX, hw, _⟩ := split_at_pos lpMap X 0 start (Nat.zero_le _)
    (by simp only [conc] at hend; omega) hin1
  subst hX
  simp only [Nat.zero_add] at hw
  have hin2' : ∀ f ∈ itemsFields lpMap start R, ¬ (f.m_start < endPos ∧ endPos < f.m_end) := by
    intro f hf
    apply hin2 f
    simp only [conc, itemsFields_append, List.mem_append, Nat.zero_add, hw]
    exact Or.inr hf
  obtain ⟨M, B, hR, hw2, _⟩ := split_at_pos lpMap R start endPos hse
    (by simp only [conc, itemsPhys_append, List.length_append] at hend; omega) hin2'
  exact ⟨A, M, B, by rw [hR], hw, by omega⟩

theorem zip_items_shift (lpMap : List SubstDescr) (B : List Item) (lo po a b : Nat) :
    List.zip (itemsMarks (lo + a) B) (itemsFields lpMap (po + b) B)
      = (List.zip (itemsMarks lo B) (itemsFields lpMap po B)).map
          (fun mf => ({ mf.1 with m_pos := mf.1.m_pos + a }, mf.2.shiftBy b)) := by
  rw [itemsMarks_shift, itemsFields_shift, List.zip_map]
  rfl

/-- C3, counterexample: the data `echoDoc` meet the four listed conditions, the display
text is non-empty, and the range `[2, 3)` holds the plain character `X`, with both ends
not inside a field; `DeleteAllBetween(2, 3)` takes `X` out of the physical string
(`"abab"`) but `a` out of the logical string (`"bX"`), and `LogStr2PhysStr` of the new
logical part is `"bXab"`.  The marker of `echoDoc`
is well formed, and it is not stored at the logical position of its field. -/
theorem DeleteAllBetween_listed_counterexample :
    ListedConsistent echoDoc ∧ LogOk echoDoc.toCSubstLogData
    ∧ ¬ MarkersAtFields echoDoc ∧ ¬ Consistent echoDoc ∧ NonEmptyTexts echoDoc.m_map
    ∧ 2 ≤ 3 ∧ 3 ≤ echoDoc.m_physStr.length ∧ NotInside echoDoc 2 ∧ NotInside echoDoc 3
    ∧ (DeleteAllBetween echoDoc 2 3).map
        (fun r => (r.1.m_physStr, r.1.m_logStr, LogStr2PhysStr r.1.toCSubstLogData))
      = some ("abab".toList, "bX".toList, "bXab".toList)
    ∧ "abab".toList ≠ "bXab".toList ∧ "bX".toList ≠ "ab".toList := by
  decide

/-- C3 (amended). DeleteRange removes exactly the requested physical range: on consistent
physical data in the sense of `Consistent` (the markers have mapped ids and do not decrease
within the logical string, and the fields and the physical string are the ones
`AssignPhysFromLog` rebuilds from the logical part)
over a map with non-empty display texts, for `start <= end <= len(physicalString)`
with neither end strictly inside a field, `DeleteAllBetween` returns `end - start`; the
physical string loses the characters `[start, end)`; every field that lay wholly inside
the range is gone together with its marker; every field that started at or after `end`
is moved left by `end - start` (its marker by the number of plain characters removed),
the other fields and markers are unchanged; the logical string loses exactly the plain
characters of the range; the physical string is `LogStr2PhysStr` of the logical part and
the result is consistent. -/
theorem DeleteAllBetween_removes_range (d : CSubstPhysData) (start endPos : Nat)
    (hc : Consistent d) (hne : NonEmptyTexts d.m_map) (hse : start ≤ endPos)
    (hend : endPos ≤ d.m_physStr.length) (hin1 : NotInside d start)
    (hin2 : NotInside d endPos) :
    ∃ d', DeleteAllBetween d start endPos = some (d', endPos - start)
      ∧ d'.m_physStr = d.m_physStr.take start ++ d.m_physStr.drop endPos
      ∧ d'.m_logStr = d.m_logStr.take (PhysPos2LogPos d start)
          ++ d.m_logStr.drop (PhysPos2LogPos d endPos)
      ∧ List.zip d'.m_logList d'.m_physlist
          = ((List.zip d.m_logList d.m_physlist).filter
              (fun mf => !FnPhysInfoBetween start endPos mf.2)).map
              (fun mf => if mf.2.m_start ≥ endPos then
                ({ mf.1 with
                   m_pos := mf.1.m_pos - (PhysPos2LogPos d endPos - PhysPos2LogPos d start) },
                  mf.2.shiftBack (endPos - start))
                else mf)
      ∧ d'.m_logList.length = d'.m_physlist.length
      ∧ d'.m_physStr = LogStr2PhysStr d'.toCSubstLogData
      ∧ Consistent d' := by
  obtain ⟨X, hk, hX⟩ := Consistent_items d hc
  have hfit : d.m_physStr.length < INT_LIMIT := hc.2.2.1
  generalize hm : d.m_map = lpMap at hk hX hne
  subst hX
  obtain ⟨A, M, B, rfl, hw1, hw2⟩ := conc_split_range lpMap X start endPos hse hend hin1 hin2
  subst hw1 hw2
  obtain ⟨hkA, hk2⟩ := itemsKnown_append.1 hk
  obtain ⟨hkM, hkB⟩ := itemsKnown_append.1 hk2
  have hfit' : (itemsPhys lpMap (A ++ (M ++ B))).length < INT_LIMIT := hfit
  have hfit2 := hfit'
  simp only [itemsPhys_append, List.length_append] at hfit2
  have hk' : itemsKnown lpMap (A ++ B) := itemsKnown_append.2 ⟨hkA, hkB⟩
  have hcons : Consistent (conc lpMap (A ++ B)) := by
    apply conc_Consistent lpMap _ hk'
    simp only [itemsPhys_append, List.length_append]; omega
  have hp1 : PhysPos2LogPos (conc lpMap (A ++ (M ++ B))) (itemsPhys lpMap A).length
      = (itemsLog A).length := PhysPos2LogPos_conc lpMap A _ (by omega)
  have hp2 : PhysPos2LogPos (conc lpMap (A ++ (M ++ B)))
      ((itemsPhys lpMap A).length + (itemsPhys lpMap M).length)
      = (itemsLog A).length + (itemsLog M).length := by
    have := PhysPos2LogPos_conc lpMap (A ++ M) B
      (by simp only [itemsPhys_append, List.length_append]; omega)
    simpa only [List.append_assoc, itemsPhys_append, itemsLog_append, List.length_append]
      using this
  have hdel := DeleteAllBetween_conc lpMap hne A M B hk hfit'
  have e2 : (itemsPhys lpMap A).length + (itemsPhys lpMap M).length - (itemsPhys lpMap A).length
      = (itemsPhys lpMap M).length := by omega
  refine ⟨conc lpMap (A ++ B), by rw [e2]; exact hdel, ?_, ?_, ?_, ?_, hcons.2.2.2.2, hcons⟩
  · simp only [conc, itemsPhys_append]
    rw [List.take_left, drop_append_two]
  · rw [hp1, hp2]
    simp only [conc, itemsLog_append]
    rw [List.take_left, drop_append_two]
  · rw [hp1, hp2, e2]
    simp only [conc, itemsMarks_append, itemsFields_append, Nat.zero_add, itemsLog_append,
      itemsPhys_append, List.length_append]
    rw [List.zip_append (itemsMarks_length lpMap A 0 0),
      List.zip_append (itemsMarks_length lpMap A 0 0),
      List.zip_append (itemsMarks_length lpMap M _ _), List.filter_append, List.filter_append,
      List.map_append, List.map_append]
    have hA1 : (List.zip (itemsMarks 0 A) (itemsFields lpMap 0 A)).filter
        (fun mf => !FnPhysInfoBetween (itemsPhys lpMap A).length
          ((itemsPhys lpMap A).length + (itemsPhys lpMap M).length) mf.2)
        = List.zip (itemsMarks 0 A) (itemsFields lpMap 0 A) := by
      rw [List.filter_eq_self]
      intro mf hmf
      have := Tight_of_nonEmpty hne hkA mf.2 (List.of_mem_zip hmf).2
      simp [FnPhysInfoBetween]; omega
    have hM1 : (List.zip (itemsMarks (itemsLog A).length M)
          (itemsFields lpMap (itemsPhys lpMap A).length M)).filter
        (fun mf => !FnPhysInfoBetween (itemsPhys lpMap A).length
          ((itemsPhys lpMap A).length + (itemsPhys lpMap M).length) mf.2) = [] := by
      rw [List.filter_eq_nil_iff]
      intro mf hmf
      have := itemsFields_bounds lpMap M _ mf.2 (List.of_mem_zip hmf).2
      simp [FnPhysInfoBetween]; omega
    have hB1 : (List.zip (itemsMarks ((itemsLog A).length + (itemsLog M).length) B)
          (itemsFields lpMap ((itemsPhys lpMap A).length + (itemsPhys lpMap M).length) B)).filter
        (fun mf => !FnPhysInfoBetween (itemsPhys lpMap A).length
          ((itemsPhys lpMap A).length + (itemsPhys lpMap M).length) mf.2)
        = List.zip (itemsMarks ((itemsLog A).length + (itemsLog M).length) B)
          (itemsFields lpMap ((itemsPhys lpMap A).length + (itemsPhys lpMap M).length) B) := by
      rw [List.filter_eq_self]
      intro mf hmf
      have h1 := itemsFields_bounds lpMap B _ mf.2 (List.of_mem_zip hmf).2
      have h2 := itemsFields_pos_length hne hkB _ mf.2 (List.of_mem_zip hmf).2
      simp [FnPhysInfoBetween]; omega
    rw [hA1, hM1, hB1, List.map_nil, List.nil_append]
    congr 1
    · conv => lhs; rw [← List.map_id (List.zip (itemsMarks 0 A) (itemsFields lpMap 0 A))]
      apply List.map_congr_left
      intro mf hmf
      have h1 := Tight_of_nonEmpty hne hkA mf.2 (List.of_mem_zip hmf).2
      have h3 := itemsFields_pos_length hne hkA 0 mf.2 (List.of_mem_zip hmf).2
      rw [if_neg (by omega)]; rfl
    · rw [zip_items_shift, List.map_map]
      conv => lhs; rw [← List.map_id (List.zip (itemsMarks (itemsLog A).length B)
        (itemsFields lpMap (itemsPhys lpMap A).length B))]
      apply List.map_congr_left
      intro mf hmf
      have h1 := (itemsFields_bounds lpMap B _ mf.2 (List.of_mem_zip hmf).2).1
      simp only [Function.comp, CPhysInfo.shiftBy, CPhysInfo.shiftBack, id]
      rw [if_pos (by simp; omega)]
      have e3 : (itemsLog A).length + (itemsLog M).length - (itemsLog A).length
          = (itemsLog M).length := by omega
      simp [e3]
  · simp only [conc]
    exact itemsMarks_length lpMap _ 0 0

/-- C3, witness: after `InsertNewInfo(0, 1)` on the empty document,
`DeleteAllBetween(0, 6)` leaves the physical string empty and both sequences empty. -/
theorem DeleteAllBetween_removes_range_witness :
    (∃ d', DeleteAllBetween yearFieldDoc 0 6 = some (d', 6 - 0)
      ∧ d'.m_physStr = yearFieldDoc.m_physStr.take 0 ++ yearFieldDoc.m_physStr.drop 6
      ∧ d'.m_logStr = yearFieldDoc.m_logStr.take (PhysPos2LogPos yearFieldDoc 0)
          ++ yearFieldDoc.m_logStr.drop (PhysPos2LogPos yearFieldDoc 6)
      ∧ List.zip d'.m_logList d'.m_physlist
          = ((List.zip yearFieldDoc.m_logList yearFieldDoc.m_physlist).filter
              (fun mf => !FnPhysInfoBetween 0 6 mf.2)).map
              (fun mf => if mf.2.m_start ≥ 6 then
                ({ mf.1 with
                   m_pos := mf.1.m_pos
                     - (PhysPos2LogPos yearFieldDoc 6 - PhysPos2LogPos yearFieldDoc 0) },
                  mf.2.shiftBack (6 - 0))
                else mf)
      ∧ d'.m_logList.length = d'.m_physlist.length
      ∧ d'.m_physStr = LogStr2PhysStr d'.toCSubstLogData
      ∧ Consistent d')
    ∧ DeleteAllBetween yearFieldDoc 0 6 = some (yearDoc, 6) :=
  ⟨DeleteAllBetween_removes_range yearFieldDoc 0 6 (by decide) (by decide) (by decide)
      (by decide) (by decide) (by decide),
    by decide⟩

/-- Every field of a sequence of items has its display text at its span. -/
theorem itemsFields_text (lpMap : List SubstDescr) : ∀ (X : List Item) (po : Nat),
    ∀ f ∈ itemsFields lpMap po X,
      ((itemsPhys lpMap X).drop (f.m_start - po)).take (fieldText lpMap f.m_what).length
        = fieldText lpMap f.m_what := by
  intro X
  induction X with
  | nil => intro po f hf; simp [itemsFields] at hf
  | cons x X ih =>
    intro po f hf
    cases x with
    | ch c =>
      simp only [itemsFields] at hf
      have h1 := (itemsFields_bounds lpMap X _ f hf).1
      have e : f.m_start - po = (f.m_start - (po + 1)) + 1 := by omega
      rw [e]
      simpa [itemsPhys] using ih (po + 1) f hf
    | fld w =>
      simp only [itemsFields, List.mem_cons] at hf
      rcases hf with rfl | hf
      · simp [itemsPhys]
      · have h1 := (itemsFields_bounds lpMap X _ f hf).1
        have := ih _ f hf
        simp only [itemsPhys]
        rw [List.drop_append_eq_append_drop, List.drop_eq_nil_of_le (by omega), List.nil_append,
          Nat.sub_sub]
        exact this

/-- C4, the code against the claim: on the consistent document that holds the field
`<Year>` at `[0, 6)`, the range `[0, 3)` overlaps the field partially;
`DeleteAllBetween(0, 3)` keeps the field and its marker and cuts `"<Ye"` out of its
display text: the physical string `"ar>"` is not `LogStr2PhysStr` of the logical part,
`"<Year>"`, which the function asserts in debug builds.  On the consistent document
`"X\r\n"` with the field `"X\r"` at `[0, 2)`, the range `[1, 3)`, which a backspace at 3
requests, leaves the physical string `"X"` with the field still at `[0, 2)`. -/
theorem DeleteAllBetween_cuts_field :
    Consistent yearFieldDoc ∧ 0 ≤ 3 ∧ 3 ≤ yearFieldDoc.m_physStr.length
    ∧ DeleteAllBetween yearFieldDoc 0 3
      = some ({ m_logStr := [], m_logList := [{ m_what := 1, m_pos := 18446744073709551613 }],
                m_map := yearMap, m_physStr := "ar>".toList,
                m_physlist := [{ m_what := 1, m_start := 18446744073709551613, m_end := 3 }] },
              3)
    ∧ (DeleteAllBetween yearFieldDoc 0 3).map (fun r => LogStr2PhysStr r.1.toCSubstLogData)
      = some "<Year>".toList
    ∧ Consistent crDoc ∧ 1 ≤ 3 ∧ 3 ≤ crDoc.m_physStr.length
    ∧ (DeleteAllBetween crDoc 1 3).map
        (fun r => (r.1.m_physStr, r.1.m_physlist, r.1.m_logList,
          LogStr2PhysStr r.1.toCSubstLogData))
      = some (['X'], [{ m_what := 1, m_start := 0, m_end := 2 }], [{ m_what := 1, m_pos := 0 }],
          ['X', '\r', '\n']) := by
  decide

/-- Deleting a range that cuts no field: on consistent physical data over a map with
non-empty display texts, for a range `start <= end <= len(physicalString)` whose two ends
are not strictly inside a field, every field that shares a character with the range lies
wholly inside it; `DeleteAllBetween` removes each of these fields in its entirety and
keeps the others (moved left by `end - start` when they start at `end` or later); the
result is consistent (one marker per remaining field), and every field remaining
afterwards has its full display text at `[start_i, end_i)` of the physical string. -/
theorem DeleteAllBetween_atomic (d : CSubstPhysData) (start endPos : Nat)
    (hc : Consistent d) (hne : NonEmptyTexts d.m_map) (hse : start ≤ endPos)
    (hend : endPos ≤ d.m_physStr.length) (hin1 : NotInside d start)
    (hin2 : NotInside d endPos) :
    ∃ d', DeleteAllBetween d start endPos = some (d', endPos - start)
      ∧ (∀ f ∈ d.m_physlist, f.m_start < endPos → start < f.m_end →
          start ≤ f.m_start ∧ f.m_end ≤ endPos)
      ∧ d'.m_physlist
          = ((d.m_physlist.filter
              (fun f => !(decide (f.m_start < endPos) && decide (start < f.m_end)))).map
              (fun f => if f.m_start ≥ endPos then f.shiftBack (endPos - start) else f))
      ∧ Consistent d'
      ∧ (∀ f ∈ d'.m_physlist, ∃ lpDesc, FindMapItem d.m_map f.m_what = some lpDesc
          ∧ f.m_end = f.m_start + lpDesc.lpTxt.length
          ∧ (d'.m_physStr.drop f.m_start).take lpDesc.lpTxt.length = lpDesc.lpTxt) := by
  obtain ⟨X, hk, hX⟩ := Consistent_items d hc
  have hfit : d.m_physStr.length < INT_LIMIT := hc.2.2.1
  generalize hm : d.m_map = lpMap at hk hX hne
  subst hX
  obtain ⟨A, M, B, rfl, hw1, hw2⟩ := conc_split_range lpMap X start endPos hse hend hin1 hin2
  subst hw1 hw2
  obtain ⟨hkA, hk2⟩ := itemsKnown_append.1 hk
  obtain ⟨hkM, hkB⟩ := itemsKnown_append.1 hk2
  have hfit' : (itemsPhys lpMap (A ++ (M ++ B))).length < INT_LIMIT := hfit
  have hfit2 := hfit'
  simp only [itemsPhys_append, List.length_append] at hfit2
  have hk' : itemsKnown lpMap (A ++ B) := itemsKnown_append.2 ⟨hkA, hkB⟩
  have hcons : Consistent (conc lpMap (A ++ B)) := by
    apply conc_Consistent lpMap _ hk'
    simp only [itemsPhys_append, List.length_append]; omega
  have hdel := DeleteAllBetween_conc lpMap hne A M B hk hfit'
  have e2 : (itemsPhys lpMap A).length + (itemsPhys lpMap M).length - (itemsPhys lpMap A).length
      = (itemsPhys lpMap M).length := by omega
  refine ⟨conc lpMap (A ++ B), by rw [e2]; exact hdel, ?_, ?_, hcons, ?_⟩
  · intro f hf h1 h2
    simp only [conc, itemsFields_append, List.mem_append, Nat.zero_add] at hf
    rcases hf with hf | hf | hf
    · have := (itemsFields_bounds lpMap A 0 f hf).2.2
      omega
    · have := itemsFields_bounds lpMap M _ f hf
      omega
    · have := (itemsFields_bounds lpMap B _ f hf).1
      omega
  · rw [e2]
    simp only [conc, itemsFields_append, Nat.zero_add, List.filter_append, List.map_append]
    have hA1 : (itemsFields lpMap 0 A).filter
        (fun f => !(decide (f.m_start < (itemsPhys lpMap A).length + (itemsPhys lpMap M).length)
          && decide ((itemsPhys lpMap A).length < f.m_end)))
        = itemsFields lpMap 0 A := by
      rw [List.filter_eq_self]
      intro f hf
      have := (itemsFields_bounds lpMap A 0 f hf).2.2
      simp; omega
    have hM1 : (itemsFields lpMap (itemsPhys lpMap A).length M).filter
        (fun f => !(decide (f.m_start < (itemsPhys lpMap A).length + (itemsPhys lpMap M).length)
          && decide ((itemsPhys lpMap A).length < f.m_end))) = [] := by
      rw [List.filter_eq_nil_iff]
      intro f hf
      have h1 := itemsFields_bounds lpMap M _ f hf
      have h2 := itemsFields_pos_length hne hkM _ f hf
      simp; omega
    have hB1 : (itemsFields lpMap ((itemsPhys lpMap A).length + (itemsPhys lpMap M).length) B).filter
        (fun f => !(decide (f.m_start < (itemsPhys lpMap A).length + (itemsPhys lpMap M).length)
          && decide ((itemsPhys lpMap A).length < f.m_end)))
        = itemsFields lpMap ((itemsPhys lpMap A).length + (itemsPhys lpMap M).length) B := by
      rw [List.filter_eq_self]
      intro f hf
      have h1 := (itemsFields_bounds lpMap B _ f hf).1
      simp; omega
    rw [hA1, hM1, hB1, List.map_nil, List.nil_append]
    congr 1
    · conv => lhs; rw [← List.map_id (itemsFields lpMap 0 A)]
      apply List.map_congr_left
      intro f hf
      have h1 := Tight_of_nonEmpty hne hkA f hf
      rw [if_neg (by omega)]; rfl
    · rw [itemsFields_shift, List.map_map]
      conv => lhs; rw [← List.map_id (itemsFields lpMap (itemsPhys lpMap A).length B)]
      apply List.map_congr_left
      intro f hf
      have h1 := (itemsFields_bounds lpMap B _ f hf).1
      simp only [Function.comp, CPhysInfo.shiftBack, id]
      rw [if_pos (by simp; omega)]
      simp
  · intro f hf
    have hw := hk' _ (itemsFields_mem_fld lpMap _ 0 f hf)
    obtain ⟨lpDesc, hd⟩ := Option.isSome_iff_exists.1 hw
    refine ⟨lpDesc, hd, ?_, ?_⟩
    · rw [(itemsFields_bounds lpMap _ 0 f hf).2.1, fieldText_of_find hd]
    · have := itemsFields_text lpMap (A ++ B) 0 f hf
      rw [fieldText_of_find hd] at this
      simpa [conc] using this

/-- The range `[0, 6)` on the document that holds the field `<Year>` at `[0, 6)`. -/
theorem DeleteAllBetween_atomic_example :
    ∃ d', DeleteAllBetween yearFieldDoc 0 6 = some (d', 6 - 0)
      ∧ (∀ f ∈ yearFieldDoc.m_physlist, f.m_start < 6 → 0 < f.m_end →
          0 ≤ f.m_start ∧ f.m_end ≤ 6)
      ∧ d'.m_physlist
          = ((yearFieldDoc.m_physlist.filter
              (fun f => !(decide (f.m_start < 6) && decide (0 < f.m_end)))).map
              (fun f => if f.m_start ≥ 6 then f.shiftBack (6 - 0) else f))
      ∧ Consistent d'
      ∧ (∀ f ∈ d'.m_physlist, ∃ lpDesc, FindMapItem yearFieldDoc.m_map f.m_what = some lpDesc
          ∧ f.m_end = f.m_start + lpDesc.lpTxt.length
          ∧ (d'.m_physStr.drop f.m_start).take lpDesc.lpTxt.length = lpDesc.lpTxt) :=
  DeleteAllBetween_atomic yearFieldDoc 0 6 (by decide) (by decide) (by decide)
    (by decide) (by decide) (by decide)

/-- C5, witness: the document that holds the field `<Year>` is index-aligned, and stays
so under `DeleteAllBetween(0, 6)`. -/
theorem index_alignment_preserved_witness :
    Aligned yearFieldDoc
    ∧ ∃ d' n, DeleteAllBetween yearFieldDoc 0 6 = some (d', n) ∧ Aligned d' :=
  ⟨by decide, (index_alignment_preserved yearFieldDoc (by decide)).2.2.1 0 6⟩

/-! ### C6: `InsertData` -/

/-- A sequence of items is a tight sequence followed by fields of empty display text. -/
theorem split_trailing (lpMap : List SubstDescr) (U : List Item) :
    ∃ U1 Z, U = U1 ++ Z ∧ Tight lpMap U1 ∧ itemsPhys lpMap Z = [] ∧ itemsLog Z = [] := by
  induction U using List.reverseRecOn with
  | nil => exact ⟨[], [], rfl, by intro f hf; simp [itemsFields] at hf, rfl, rfl⟩
  | append_singleton U x ih =>
    have htight : 0 < (itemsPhys lpMap [x]).length → Tight lpMap (U ++ [x]) := by
      intro hpos f hf
      simp only [itemsFields_append, List.mem_append, Nat.zero_add] at hf
      simp only [itemsPhys_append, List.length_append]
      rcases hf with hf | hf
      · have := itemsFields_bounds lpMap U 0 f hf
        omega
      · cases x with
        | ch c => simp [itemsFields] at hf
        | fld w =>
          simp only [itemsFields, List.mem_singleton] at hf
          subst hf
          simpa using hpos
    cases x with
    | ch c => exact ⟨U ++ [Item.ch c], [], by simp, htight (by simp [itemsPhys]), rfl, rfl⟩
    | fld w =>
      by_cases h0 : fieldText lpMap w = []
      · obtain ⟨U1, Z, hU, ht, hz1, hz2⟩ := ih
        exact ⟨U1, Z ++ [Item.fld w], by rw [hU, List.append_assoc], ht,
          by simp [hz1, itemsPhys, h0], by simp [hz2, itemsLog]⟩
      · exact ⟨U ++ [Item.fld w], [], by simp,
          htight (by simpa [itemsPhys] using List.length_pos.2 h0), rfl, rfl⟩

/-- Inserting a field at the end of a prefix `U` of the document `U ++ V`: the field
comes after `U`, in front of the fields of empty display text that end `U`. -/
theorem InsertNewInfoLog_conc_any (lpMap : List SubstDescr) (U V : List Item) (what : Nat)
    (lpDesc : SubstDescr) (hd : FindMapItem lpMap what = some lpDesc)
    (hk : itemsKnown lpMap U)
    (hfit : (itemsPhys lpMap (U ++ V)).length + lpDesc.lpTxt.length < INT_LIMIT) :
    ∃ U', itemsPhys lpMap U' = itemsPhys lpMap U ++ lpDesc.lpTxt ∧ itemsLog U' = itemsLog U
      ∧ itemsKnown lpMap U'
      ∧ InsertNewInfoLog (conc lpMap (U ++ V)) (itemsPhys lpMap U).length
          { m_what := what, m_pos := (itemsLog U).length }
        = some (conc lpMap (U' ++ V),
            some { m_what := what, m_start := (itemsPhys lpMap U).length,
                   m_end := (itemsPhys lpMap U).length + lpDesc.lpTxt.length }) := by
  obtain ⟨U1, Z, rfl, ht, hz1, hz2⟩ := split_trailing lpMap U
  obtain ⟨hk1, hkZ⟩ := itemsKnown_append.1 hk
  refine ⟨U1 ++ Item.fld what :: Z, by simp [itemsPhys, hz1, fieldText_of_find hd],
    by simp [itemsLog, hz2],
    itemsKnown_append.2 ⟨hk1, itemsKnown_cons_fld.2 ⟨by simp [hd], hkZ⟩⟩, ?_⟩
  have h := InsertNewInfoLog_conc lpMap U1 (Z ++ V) what lpDesc hd ht
    (by simpa only [List.append_assoc] using hfit)
  simp only [itemsPhys_append, itemsLog_append, hz1, hz2, List.append_nil, List.append_assoc,
    List.cons_append] at h ⊢
  exact h

/-- The loop of `InsertData`, on the document `U ++ text ++ B` where `U` ends with the
part of the fragment that is in place and `text` is the plain text of the rest `Y` of the
fragment. -/
theorem InsertDataLoop_conc (lpMap : List SubstDescr) (B : List Item) (beginLogPos : Nat) :
    ∀ (Y U : List Item) (lo i last n : Nat), itemsKnown lpMap Y → itemsKnown lpMap U →
    last ≤ lo → (itemsPhys lpMap U).length = i + (lo - last) →
    (itemsLog U).length = beginLogPos + lo →
    (itemsPhys lpMap U).length + (itemsPhys lpMap Y).length + (itemsPhys lpMap B).length
      < INT_LIMIT →
    n + ((itemsPhys lpMap Y).length - (itemsLog Y).length) < INT_LIMIT →
    ∃ U', itemsPhys lpMap U' = itemsPhys lpMap U ++ itemsPhys lpMap Y ∧ itemsKnown lpMap U'
      ∧ InsertDataLoop beginLogPos (itemsMarks lo Y)
          (conc lpMap (U ++ ((itemsLog Y).map Item.ch ++ B))) i last n
        = some (conc lpMap (U' ++ B),
            n + ((itemsPhys lpMap Y).length - (itemsLog Y).length)) := by
  intro Y
  induction Y with
  | nil =>
    intro U lo i last n _ hkU _ _ _ _ _
    exact ⟨U, by simp [itemsPhys], hkU, by simp [itemsMarks, InsertDataLoop, itemsLog, itemsPhys]⟩
  | cons x Y ih =>
    intro U lo i last n hkY hkU hlast hw hn hfit hfitn
    have hleY := itemsLog_length_le lpMap Y
    have hleU := itemsLog_length_le lpMap U
    cases x with
    | ch c =>
      simp only [itemsPhys, itemsLog, List.length_cons] at hfit hfitn
      obtain ⟨U', h1, h2, h3⟩ := ih (U ++ [Item.ch c]) (lo + 1) i last n
        (itemsKnown_cons_ch.1 hkY)
        (itemsKnown_append.2 ⟨hkU, itemsKnown_cons_ch.2 (by intro w hw; simp at hw)⟩)
        (by omega) (by simp [itemsPhys]; omega) (by simp [itemsLog]; omega)
        (by simp [itemsPhys]; omega) (by omega)
      refine ⟨U', by simp [h1, itemsPhys], h2, ?_⟩
      simp only [itemsMarks, itemsLog, itemsPhys, List.map_cons, List.length_cons]
      have e : U ++ (Item.ch c :: ((itemsLog Y).map Item.ch) ++ B)
          = (U ++ [Item.ch c]) ++ ((itemsLog Y).map Item.ch ++ B) := by simp
      rw [e, h3]
      congr 2
      omega
    | fld w =>
      obtain ⟨hw1, hkY'⟩ := itemsKnown_cons_fld.1 hkY
      obtain ⟨lpDesc, hd⟩ := Option.isSome_iff_exists.1 hw1
      have hT := fieldText_of_find hd
      simp only [itemsPhys, itemsLog, List.length_append, hT] at hfit hfitn
      obtain ⟨U1, hU1, hU2, hkU1, hins⟩ := InsertNewInfoLog_conc_any lpMap U
        ((itemsLog Y).map Item.ch ++ B) w lpDesc hd hkU
        (by simp only [itemsPhys_append, itemsPhys_chars, List.length_append]; omega)
      obtain ⟨U', h1, h2, h3⟩ := ih U1 lo ((itemsPhys lpMap U).length + lpDesc.lpTxt.length)
        lo (n + lpDesc.lpTxt.length) hkY' hkU1 (le_refl _)
        (by rw [hU1]; simp) (by rw [hU2]; exact hn)
        (by rw [hU1]; simp only [List.length_append]; omega) (by omega)
      refine ⟨U', by rw [h1, hU1]; simp [itemsPhys, hT], h2, ?_⟩
      simp only [itemsMarks, itemsLog, InsertDataLoop]
      have ei : addSz i (subSz lo last) = (itemsPhys lpMap U).length := by
        rw [subSz_of_le hlast (by omega), addSz_of_lt (by omega)]; omega
      have em : CLogInfo.Add2Pos { m_what := w, m_pos := lo } beginLogPos
          = { m_what := w, m_pos := (itemsLog U).length } := by
        unfold CLogInfo.Add2Pos
        simp only
        rw [addSz_of_lt (by omega), hn, Nat.add_comm]
      rw [ei, em, hins]
      simp only
      have hlen : CPhysInfo.GetLength
          { m_what := w, m_start := (itemsPhys lpMap U).length,
            m_end := (itemsPhys lpMap U).length + lpDesc.lpTxt.length }
          = lpDesc.lpTxt.length := by
        unfold CPhysInfo.GetLength
        simp only
        rw [subSz_of_le (by omega) (by omega)]; omega
      rw [hlen, addSz_of_lt (by omega), addSz_of_lt (by omega), h3]
      congr 2
      simp only [itemsPhys, List.length_append, hT]
      omega

theorem itemsPhys_length (lpMap : List SubstDescr) (Y : List Item) (lo : Nat) :
    (itemsPhys lpMap Y).length
      = (itemsLog Y).length
        + ((itemsMarks lo Y).map (fun m => (fieldText lpMap m.m_what).length)).sum := by
  induction Y generalizing lo with
  | nil => rfl
  | cons x Y ih =>
    cases x with
    | ch c => simp only [itemsPhys, itemsLog, itemsMarks, List.length_cons]; rw [ih (lo + 1)]; omega
    | fld w =>
      simp only [itemsPhys, itemsLog, itemsMarks, List.length_append, List.map_cons,
        List.sum_cons]
      rw [ih lo]; omega

/-- C6, counterexample: the data `echoDoc` meet the four listed conditions and the
position 3 is in range and not inside a field; `InsertData(3, F)` for the fragment `F`
with the text `"Q"` and no marker returns 1 and leaves the physical string `"abXQab"`,
while `LogStr2PhysStr` of the new logical part is `"aQbabX"`: the result is not
consistent.  The marker of `echoDoc`
is well formed, and it is not stored at the logical position of its field. -/
theorem InsertData_listed_counterexample :
    ListedConsistent echoDoc ∧ LogOk echoDoc.toCSubstLogData
    ∧ ¬ MarkersAtFields echoDoc ∧ ¬ Consistent echoDoc
    ∧ 3 ≤ echoDoc.m_physStr.length ∧ NotInside echoDoc 3
    ∧ LogOk { m_logStr := "Q".toList, m_logList := [], m_map := abMap }
    ∧ (InsertData echoDoc 3 { m_logStr := "Q".toList, m_logList := [], m_map := abMap }).map
        (fun r => (r.1.m_physStr, LogStr2PhysStr r.1.toCSubstLogData, r.2.2,
          decide (ListedConsistent r.1)))
      = some ("abXQab".toList, "aQbabX".toList, 1, false)
    ∧ "abXQab".toList ≠ "aQbabX".toList := by
  decide

/-- C6 (amended). InsertStructuredData merges a fragment as one splice: on consistent
physical data in the sense of `Consistent` (the markers have mapped ids and do not decrease
within the logical string, and the fields and the physical string are the ones
`AssignPhysFromLog` rebuilds from the logical part),
at a position within the physical string that is not strictly inside a field, for a
fragment over the same map whose markers are well formed (ids in the map, positions not
decreasing and within the text), `InsertData` returns `len(LogStr2PhysStr(F))`, which is
the length of the text plus the lengths of the display texts of the fields of `F`; the
new physical string is the old one with `LogStr2PhysStr(F)` spliced in at `physIndex`;
the marker list of `F` is empty afterwards; the physical string is `LogStr2PhysStr` of
the logical part and the result is consistent. -/
theorem InsertData_splice (d : CSubstPhysData) (physIndex : Nat) (logData : CSubstLogData)
    (hc : Consistent d) (hmap : logData.m_map = d.m_map) (hF : LogOk logData)
    (hpos : physIndex ≤ d.m_physStr.length) (hin : NotInside d physIndex)
    (hfitF : logData.m_logStr.length < INT_LIMIT)
    (hfit : d.m_physStr.length + (LogStr2PhysStr logData).length < INT_LIMIT) :
    ∃ d', InsertData d physIndex logData
        = some (d', { logData with m_logList := [] }, (LogStr2PhysStr logData).length)
      ∧ (LogStr2PhysStr logData).length = logData.m_logStr.length
          + (logData.m_logList.map (fun m => (fieldText d.m_map m.m_what).length)).sum
      ∧ d'.m_physStr = d.m_physStr.take physIndex ++ LogStr2PhysStr logData
          ++ d.m_physStr.drop physIndex
      ∧ d'.m_physStr = LogStr2PhysStr d'.toCSubstLogData
      ∧ Consistent d' := by
  obtain ⟨X, hk, hX⟩ := Consistent_items d hc
  obtain ⟨Y, hkY, hY1, hY2⟩ := LogOk_items logData hF
  generalize hm : d.m_map = lpMap at hk hX hmap
  rw [hmap] at hkY
  have hrender : LogStr2PhysStr logData = itemsPhys lpMap Y := by
    rw [← LogStr2PhysStr_items lpMap Y hkY (by rw [hY1]; exact hfitF), hY1, hY2, ← hmap]
  rw [hrender] at hfit ⊢
  subst hX
  obtain ⟨A, B, rfl, hw, ht⟩ := conc_split lpMap X physIndex hpos hin
  subst hw
  obtain ⟨hkA, hkB⟩ := itemsKnown_append.1 hk
  have hfit' : (itemsPhys lpMap (A ++ B)).length + (itemsPhys lpMap Y).length < INT_LIMIT := hfit
  have hfit2 := hfit'
  simp only [itemsPhys_append, List.length_append] at hfit2
  have hleY := itemsLog_length_le lpMap Y
  have hleA := itemsLog_length_le lpMap A
  have htext := InsertText_conc lpMap A B logData.m_logStr ht
    (by rw [← hY1]; simp only [itemsPhys_append, List.length_append]; omega)
  have hbegin : PhysPos2LogPos (conc lpMap (A ++ (logData.m_logStr.map Item.ch ++ B)))
      (itemsPhys lpMap A).length = (itemsLog A).length :=
    PhysPos2LogPos_conc lpMap A _ (by omega)
  obtain ⟨U', hU1, hkU', hloop⟩ := InsertDataLoop_conc lpMap B (itemsLog A).length Y A 0
    (itemsPhys lpMap A).length 0 (itemsLog Y).length hkY hkA (le_refl _) (by simp) (by simp)
    (by omega) (by omega)
  rw [hY1, hY2] at hloop
  have hcons : Consistent (conc lpMap (U' ++ B)) := by
    apply conc_Consistent lpMap _ (itemsKnown_append.2 ⟨hkU', hkB⟩)
    simp only [itemsPhys_append, hU1, List.length_append]; omega
  refine ⟨conc lpMap (U' ++ B), ?_, ?_, ?_, hcons.2.2.2.2, hcons⟩
  · unfold InsertData
    rw [htext]
    simp only
    rw [hbegin, hloop]
    simp only
    congr 3
    rw [← hY1]; omega
  · rw [itemsPhys_length lpMap Y 0, hY1, hY2]
  · simp only [conc, itemsPhys_append, hU1]
    rw [List.take_left, List.drop_left, List.append_assoc]

/-- C6, witness: pasting the fragment parsed from `"<Year>"` at the end of the document
that holds one field `<Year>` returns 6 and adds exactly one field, at `[6, 12)`. -/
theorem InsertData_splice_witness :
    (∃ d', InsertData yearFieldDoc 6 yearFragment
        = some (d', { yearFragment with m_logList := [] }, (LogStr2PhysStr yearFragment).length)
      ∧ (LogStr2PhysStr yearFragment).length = yearFragment.m_logStr.length
          + (yearFragment.m_logList.map
              (fun m => (fieldText yearFieldDoc.m_map m.m_what).length)).sum
      ∧ d'.m_physStr = yearFieldDoc.m_physStr.take 6 ++ LogStr2PhysStr yearFragment
          ++ yearFieldDoc.m_physStr.drop 6
      ∧ d'.m_physStr = LogStr2PhysStr d'.toCSubstLogData
      ∧ Consistent d')
    ∧ AssignPlainText { m_logStr := [], m_logList := [], m_map := yearMap } "<Year>".toList
        = some yearFragment
    ∧ InsertData yearFieldDoc 6 yearFragment
        = some ({ m_logStr := [],
                  m_logList := [{ m_what := 1, m_pos := 0 }, { m_what := 1, m_pos := 0 }],
                  m_map := yearMap, m_physStr := "<Year><Year>".toList,
                  m_physlist := [{ m_what := 1, m_start := 0, m_end := 6 },
                                 { m_what := 1, m_start := 6, m_end := 12 }] },
                { yearFragment with m_logList := [] }, 6) :=
  ⟨InsertData_splice yearFieldDoc 6 yearFragment (by decide) (by decide) (by decide)
      (by decide) (by decide) (by decide) (by decide),
    by decide, by decide⟩

/-! ### The plain-text import -/

theorem findAt_none (c : Char) (sub' : CString) : ∀ (s : CString) (k : Nat), c ∉ s →
    findAt (c :: sub') s k = none := by
  intro s
  induction s with
  | nil => intro k _; simp [findAt]
  | cons x xs ih =>
    intro k h
    have hx : c ≠ x := fun e => h (by rw [e]; exact List.mem_cons_self _ _)
    have hxs : c ∉ xs := fun e => h (List.mem_cons_of_mem _ e)
    simp only [findAt, List.isPrefixOf]
    have : (c == x) = false := by simpa using hx
    simp [this, ih (k + 1) hxs]

/-- A replacement pass whose pattern begins with a character that is not in the logical
string leaves the logical data alone. -/
theorem ReplaceLogTextAllThrough_noop (d : CSubstLogData) (c : Char) (sub' strNewPart : CString)
    (h : c ∉ d.m_logStr) : ReplaceLogTextAllThrough d (c :: sub') strNewPart = some d := by
  unfold ReplaceLogTextAllThrough
  rw [if_neg (by simp)]
  unfold ReplaceLogTextAllThroughLoop
  have : strFind d.m_logStr (c :: sub') 0 = none := by
    unfold strFind
    simp [findAt_none c sub' d.m_logStr 0 h]
  rw [this]

theorem ReplaceLogXmlPartsBack_noop (d : CSubstLogData) (h : '&' ∉ d.m_logStr) :
    ReplaceLogXmlPartsBack d = some d := by
  unfold ReplaceLogXmlPartsBack
  have e1 : "&apos".toList = '&' :: "apos".toList := rfl
  have e2 : "&quot;".toList = '&' :: "quot;".toList := rfl
  have e3 : "&gt;".toList = '&' :: "gt;".toList := rfl
  have e4 : "&lt;".toList = '&' :: "lt;".toList := rfl
  have e5 : "&amp;".toList = '&' :: "amp;".toList := rfl
  rw [e1, e2, e3, e4, e5]
  simp [ReplaceLogTextAllThrough_noop _ _ _ _ h]

theorem ReplaceLogXmlCharsThere_noop (d : CSubstLogData)
    (h : ∀ c ∈ xmlSpecials, c ∉ d.m_logStr) : ReplaceLogXmlCharsThere d = some d := by
  unfold ReplaceLogXmlCharsThere
  have e1 : "&".toList = '&' :: [] := rfl
  have e2 : "<".toList = '<' :: [] := rfl
  have e3 : ">".toList = '>' :: [] := rfl
  rw [e1, e2, e3]
  have h1 := h '&' (by simp [xmlSpecials])
  have h2 := h '<' (by simp [xmlSpecials])
  have h3 := h '>' (by simp [xmlSpecials])
  have h4 := h chQuot (by simp [xmlSpecials])
  have h5 := h chApos (by simp [xmlSpecials])
  simp [ReplaceLogTextAllThrough_noop _ _ _ _ h1, ReplaceLogTextAllThrough_noop _ _ _ _ h2,
    ReplaceLogTextAllThrough_noop _ _ _ _ h3, ReplaceLogTextAllThrough_noop _ _ _ _ h4,
    ReplaceLogTextAllThrough_noop _ _ _ _ h5]

theorem isPrefixOf_iff_take (a s : CString) :
    a.isPrefixOf s = true ↔ s.take a.length = a := by
  rw [List.isPrefixOf_iff_prefix, List.prefix_iff_eq_take]
  exact eq_comm

/-- The test of `AssignPlainText` at `nDex` is a prefix test on the rest of the string. -/
theorem matchDescr_eq_firstPrefix (S : CString) (nDex : Nat) (hS : S.length < INT_LIMIT)
    (hn : nDex ≤ S.length) : ∀ (lpMap : List SubstDescr),
    matchDescr S nDex lpMap = firstPrefix lpMap (S.drop nDex) := by
  intro lpMap
  induction lpMap with
  | nil => rfl
  | cons descr rest ih =>
    simp only [matchDescr, firstPrefix]
    by_cases h0 : kInvalidSubstElemId = descr.valId
    · simp [h0]
    · simp only [h0, if_false]
      have hmid : strMid S (castInt nDex) (descr.lpTxt.length : Int)
          = (S.drop nDex).take descr.lpTxt.length := by
        unfold strMid
        rw [toNat_castInt (by omega)]
        simp
      have hiff : (addSz nDex descr.lpTxt.length ≤ S.length
            ∧ strMid S (castInt nDex) (descr.lpTxt.length : Int) = descr.lpTxt)
          ↔ descr.lpTxt.isPrefixOf (S.drop nDex) = true := by
        rw [isPrefixOf_iff_take, hmid]
        constructor
        · intro h; exact h.2
        · intro h
          refine ⟨?_, h⟩
          have hl := congrArg List.length h
          simp only [List.length_take, List.length_drop] at hl
          rw [addSz_of_lt (by omega)]
          omega
      by_cases hp : descr.lpTxt.isPrefixOf (S.drop nDex) = true
      · rw [if_pos (hiff.2 hp), if_pos hp]
      · rw [if_neg (fun h => hp (hiff.1 h)), if_neg hp, ih]

theorem firstPrefix_spec : ∀ (lpMap : List SubstDescr) (s : CString) (descr : SubstDescr),
    firstPrefix lpMap s = some descr →
    descr ∈ lpMap ∧ descr.valId ≠ kInvalidSubstElemId ∧ descr.lpTxt.isPrefixOf s = true := by
  intro lpMap
  induction lpMap with
  | nil => intro s descr h; simp [firstPrefix] at h
  | cons x rest ih =>
    intro s descr h
    simp only [firstPrefix] at h
    split at h
    · cases h
    · rename_i hx
      split at h
      · rename_i hp
        cases h
        exact ⟨List.mem_cons_self _ _, fun e => hx e.symm, hp⟩
      · obtain ⟨h1, h2, h3⟩ := ih s descr h
        exact ⟨List.mem_cons_of_mem _ h1, h2, h3⟩

/-- With pairwise distinct ids, the descriptor found by its text is the one found by its
id. -/
theorem firstPrefix_find : ∀ (lpMap : List SubstDescr) (s : CString) (descr : SubstDescr),
    DistinctIds lpMap → firstPrefix lpMap s = some descr →
    FindMapItem lpMap descr.valId = some descr := by
  intro lpMap
  induction lpMap with
  | nil => intro s descr _ h; simp [firstPrefix] at h
  | cons x rest ih =>
    intro s descr hd h
    unfold DistinctIds at hd
    rw [List.pairwise_cons] at hd
    have hspec := firstPrefix_spec _ _ _ h
    simp only [firstPrefix] at h
    unfold FindMapItem
    rw [if_pos (fun e => hspec.2.1 e.symm)]
    simp only [FindMapItemScan]
    split at h
    · cases h
    · rename_i hx
      rw [if_neg hx]
      split at h
      · cases h
        simp
      · have hmem := (firstPrefix_spec _ _ _ h).1
        rw [if_neg (hd.1 descr hmem)]
        have := ih s descr hd.2 h
        unfold FindMapItem at this
        rw [if_pos (fun e => hspec.2.1 e.symm)] at this
        exact this

theorem ReplaceLogTextPart_delete (lpMap : List SubstDescr) (pre txt post : CString)
    (ms : List CLogInfo) (hfit : (pre ++ (txt ++ post)).length < INT_LIMIT)
    (hms : ∀ m ∈ ms, m.m_pos ≤ pre.length) (hpos : 0 < txt.length) :
    ReplaceLogTextPart { m_logStr := pre ++ (txt ++ post), m_logList := ms, m_map := lpMap }
        pre.length txt.length []
      = { m_logStr := pre ++ post, m_logList := ms, m_map := lpMap } := by
  simp only [List.length_append] at hfit
  unfold ReplaceLogTextPart
  simp only [List.length_append, List.length_nil]
  rw [if_neg (by omega), subSz_of_le (by omega) (by omega), castInt_of_lt (by omega)]
  rw [if_neg (by omega)]
  simp only [hpos, if_true, Nat.lt_irrefl, if_false]
  congr 1
  · simp [extractSubstr]
  · conv => rhs; rw [← List.map_id ms]
    apply List.map_congr_left
    intro m hm
    have := hms m hm
    rw [if_neg (by omega)]; rfl

theorem AssignPlainTextLoop_end (lpMap : List SubstDescr) (U : List Item) (fuel : Nat) :
    AssignPlainTextLoop (fuel + 1)
        { m_logStr := itemsLog U, m_logList := itemsMarks 0 U, m_map := lpMap }
        (itemsLog U).length
      = some { m_logStr := itemsLog U, m_logList := itemsMarks 0 U, m_map := lpMap } := by
  simp [AssignPlainTextLoop]

theorem AssignPlainTextLoop_field (lpMap : List SubstDescr) (hne : NonEmptyTexts lpMap)
    (U : List Item) (rest : CString) (fuel : Nat) (descr : SubstDescr)
    (hfit : (itemsLog U ++ rest).length < INT_LIMIT)
    (hm : firstPrefix lpMap rest = some descr) :
    rest = descr.lpTxt ++ rest.drop descr.lpTxt.length ∧ 0 < descr.lpTxt.length
    ∧ AssignPlainTextLoop (fuel + 1)
        { m_logStr := itemsLog U ++ rest, m_logList := itemsMarks 0 U, m_map := lpMap }
        (itemsLog U).length
      = AssignPlainTextLoop fuel
          { m_logStr := itemsLog (U ++ [Item.fld descr.valId]) ++ rest.drop descr.lpTxt.length,
            m_logList := itemsMarks 0 (U ++ [Item.fld descr.valId]), m_map := lpMap }
          (itemsLog (U ++ [Item.fld descr.valId])).length := by
  obtain ⟨hmem, hid, hpre⟩ := firstPrefix_spec _ _ _ hm
  have hsplit : rest = descr.lpTxt ++ rest.drop descr.lpTxt.length := by
    have := (isPrefixOf_iff_take _ _).1 hpre
    conv => lhs; rw [← List.take_append_drop descr.lpTxt.length rest, this]
  have hpos : 0 < descr.lpTxt.length := List.length_pos.2 (hne descr hmem hid)
  refine ⟨hsplit, hpos, ?_⟩
  have hlen : descr.lpTxt.length ≤ rest.length := by
    have := congrArg List.length hsplit
    simp only [List.length_append] at this
    omega
  simp only [List.length_append] at hfit
  have hmd : matchDescr (itemsLog U ++ rest) (itemsLog U).length lpMap = some descr := by
    rw [matchDescr_eq_firstPrefix _ _ (by simp only [List.length_append]; omega) (by simp)]
    rw [List.drop_left]
    exact hm
  have hdel := ReplaceLogTextPart_delete lpMap (itemsLog U) descr.lpTxt
    (rest.drop descr.lpTxt.length) (itemsMarks 0 U)
    (by rw [← hsplit]; simp only [List.length_append]; omega)
    (fun m hm' => by simpa using (itemsMarks_bounds U 0 m hm').2) hpos
  rw [← hsplit] at hdel
  conv => lhs; rw [AssignPlainTextLoop]
  simp only [List.length_append]
  rw [if_neg (by omega), hmd]
  simp only
  rw [hdel]
  simp [itemsMarks_append, itemsMarks, itemsLog]

theorem AssignPlainTextLoop_char (lpMap : List SubstDescr) (U : List Item) (c : Char)
    (rest' : CString) (fuel : Nat)
    (hfit : (itemsLog U ++ c :: rest').length < INT_LIMIT)
    (hm : firstPrefix lpMap (c :: rest') = none) :
    AssignPlainTextLoop (fuel + 1)
        { m_logStr := itemsLog U ++ c :: rest', m_logList := itemsMarks 0 U, m_map := lpMap }
        (itemsLog U).length
      = AssignPlainTextLoop fuel
          { m_logStr := itemsLog (U ++ [Item.ch c]) ++ rest',
            m_logList := itemsMarks 0 (U ++ [Item.ch c]), m_map := lpMap }
          (itemsLog (U ++ [Item.ch c])).length := by
  simp only [List.length_append, List.length_cons] at hfit
  have hmd : matchDescr (itemsLog U ++ c :: rest') (itemsLog U).length lpMap = none := by
    rw [matchDescr_eq_firstPrefix _ _ (by simp only [List.length_append, List.length_cons]; omega)
      (by simp)]
    rw [List.drop_left]
    exact hm
  conv => lhs; rw [AssignPlainTextLoop]
  simp only [List.length_append, List.length_cons]
  rw [if_neg (by omega), hmd]
  simp [itemsMarks_append, itemsMarks, itemsLog]

/-! ### C9: `AssignPlainText` -/

theorem itemsLog_subset (lpMap : List SubstDescr) (U : List Item) (c : Char)
    (h : c ∈ itemsLog U) : c ∈ itemsPhys lpMap U := by
  induction U with
  | nil => simp [itemsLog] at h
  | cons x U ih =>
    cases x with
    | ch a =>
      simp only [itemsLog, itemsPhys, List.mem_cons] at h ⊢
      rcases h with h | h
      · exact Or.inl h
      · exact Or.inr (ih h)
    | fld w =>
      simp only [itemsLog, itemsPhys, List.mem_append] at h ⊢
      exact Or.inr (ih h)

/-- The scan of `AssignPlainText` turns the rest of the text into items. -/
theorem parse_loop (lpMap : List SubstDescr) (hne : NonEmptyTexts lpMap)
    (hids : DistinctIds lpMap) (t : CString) (hfit : t.length < INT_LIMIT) :
    ∀ (fuel : Nat) (U : List Item) (rest : CString), t = itemsPhys lpMap U ++ rest →
    rest.length < fuel → itemsKnown lpMap U →
    (∀ f ∈ itemsFields lpMap 0 U, ∃ descr,
      firstPrefix lpMap (t.drop f.m_start) = some descr ∧ descr.valId = f.m_what) →
    ∃ U', AssignPlainTextLoop fuel
          { m_logStr := itemsLog U ++ rest, m_logList := itemsMarks 0 U, m_map := lpMap }
          (itemsLog U).length
        = some { m_logStr := itemsLog U', m_logList := itemsMarks 0 U', m_map := lpMap }
      ∧ itemsPhys lpMap U' = t ∧ itemsKnown lpMap U'
      ∧ (∀ f ∈ itemsFields lpMap 0 U', ∃ descr,
          firstPrefix lpMap (t.drop f.m_start) = some descr ∧ descr.valId = f.m_what) := by
  intro fuel
  induction fuel with
  | zero => intro U rest _ h _ _; omega
  | succ fuel ih =>
    intro U rest ht hfuel hk hg
    have hleU := itemsLog_length_le lpMap U
    have hlen : (itemsPhys lpMap U).length + rest.length = t.length := by
      rw [ht]; simp
    cases rest with
    | nil =>
      refine ⟨U, ?_, by rw [ht]; simp, hk, hg⟩
      rw [List.append_nil]
      exact AssignPlainTextLoop_end lpMap U fuel
    | cons c rest' =>
      cases hm : firstPrefix lpMap (c :: rest') with
      | none =>
        rw [AssignPlainTextLoop_char lpMap U c rest' fuel
          (by simp only [List.length_append] at hlen ⊢; omega) hm]
        apply ih (U ++ [Item.ch c]) rest'
        · rw [ht]; simp [itemsPhys]
        · simp only [List.length_cons] at hfuel; omega
        · exact itemsKnown_append.2 ⟨hk, itemsKnown_cons_ch.2 (by intro w hw; simp at hw)⟩
        · intro f hf
          simp only [itemsFields_append, itemsFields, List.append_nil] at hf
          exact hg f hf
      | some descr =>
        obtain ⟨hsplit, hpos, hstep⟩ := AssignPlainTextLoop_field lpMap hne U (c :: rest') fuel
          descr (by simp only [List.length_append] at hlen ⊢; omega) hm
        have hfind := firstPrefix_find lpMap _ descr hids hm
        have hT := fieldText_of_find hfind
        rw [hstep]
        apply ih (U ++ [Item.fld descr.valId]) ((c :: rest').drop descr.lpTxt.length)
        · rw [ht]
          simp only [itemsPhys_append, itemsPhys, hT, List.append_nil, List.append_assoc]
          rw [← hsplit]
        · have hl := congrArg List.length hsplit
          simp only [List.length_append, List.length_drop] at hl ⊢
          omega
        · exact itemsKnown_append.2 ⟨hk, itemsKnown_cons_fld.2
            ⟨by simp [hfind], by intro w hw; simp at hw⟩⟩
        · intro f hf
          simp only [itemsFields_append, itemsFields, List.mem_append, List.mem_singleton,
            Nat.zero_add] at hf
          rcases hf with hf | hf
          · exact hg f hf
          · subst hf
            refine ⟨descr, ?_, rfl⟩
            simp only
            rw [ht, List.drop_left]
            exact hm

/-- C9, counterexample: in a table that gives the id 1 twice, `"B"` is recognised as the
second entry, of id 1, and the id 1 is rendered with the text of the first entry. -/
theorem AssignPlainText_duplicate_id_counterexample :
    NonEmptyTexts [{ valId := 1, lpTxt := "A".toList }, { valId := 1, lpTxt := "B".toList },
      { valId := 0, lpTxt := [] }]
    ∧ '&' ∉ "B".toList
    ∧ AssignPlainText
        { m_logStr := [], m_logList := [],
          m_map := [{ valId := 1, lpTxt := "A".toList }, { valId := 1, lpTxt := "B".toList },
            { valId := 0, lpTxt := [] }] } "B".toList
      = some { m_logStr := [], m_logList := [{ m_what := 1, m_pos := 0 }],
               m_map := [{ valId := 1, lpTxt := "A".toList }, { valId := 1, lpTxt := "B".toList },
                 { valId := 0, lpTxt := [] }] }
    ∧ LogStr2PhysStr
        { m_logStr := [], m_logList := [{ m_what := 1, m_pos := 0 }],
          m_map := [{ valId := 1, lpTxt := "A".toList }, { valId := 1, lpTxt := "B".toList },
            { valId := 0, lpTxt := [] }] } = "A".toList
    ∧ "A".toList ≠ "B".toList := by
  decide

/-- C9 (amended). `AssignPlainText` extracts fields so that rendering gives the input
back: for an input text without `&` (shorter than `INT_LIMIT`) and a field map with
non-empty display texts and pairwise distinct ids, `AssignPlainText` returns logical data
whose `LogStr2PhysStr` is the input, whose markers are in non-decreasing order of
logical position, and every field of which stands, in the input, at an offset where the
first descriptor in declaration order whose display text matches is the descriptor of
that field. -/
theorem AssignPlainText_renders_back (d : CSubstLogData) (szText : CString)
    (hne : NonEmptyTexts d.m_map) (hids : DistinctIds d.m_map) (hamp : '&' ∉ szText)
    (hfit : szText.length < INT_LIMIT) :
    ∃ L, AssignPlainText d szText = some L ∧ L.m_map = d.m_map
      ∧ LogStr2PhysStr L = szText
      ∧ L.m_logList.Pairwise (fun a b => a.m_pos ≤ b.m_pos)
      ∧ (∀ f ∈ (AssignPhysFromLog L).m_physlist, ∃ descr,
          matchDescr szText f.m_start d.m_map = some descr ∧ descr.valId = f.m_what) := by
  obtain ⟨U, hloop, hphys, hk, hg⟩ := parse_loop d.m_map hne hids szText hfit
    (szText.length + 1) [] szText (by simp [itemsPhys]) (by omega)
    (by intro w hw; simp at hw) (by intro f hf; simp [itemsFields] at hf)
  simp only [itemsLog, itemsMarks, List.nil_append, List.length_nil] at hloop
  have hleU := itemsLog_length_le d.m_map U
  have hnoamp : '&' ∉ itemsLog U := by
    intro h
    apply hamp
    rw [← hphys]
    exact itemsLog_subset _ _ _ h
  refine ⟨{ m_logStr := itemsLog U, m_logList := itemsMarks 0 U, m_map := d.m_map }, ?_, rfl,
    ?_, itemsMarks_pairwise U 0, ?_⟩
  · unfold AssignPlainText
    rw [hloop]
    exact ReplaceLogXmlPartsBack_noop _ hnoamp
  · rw [LogStr2PhysStr_items d.m_map U hk (by rw [← hphys] at hfit; omega), hphys]
  · intro f hf
    simp only [AssignPhysFromLog] at hf
    rw [AppendAsPhysInfoLoop_items d.m_map U 0 0 hk (by rw [hphys]; simpa using hfit)] at hf
    obtain ⟨descr, h1, h2⟩ := hg f hf
    have hb := itemsFields_bounds d.m_map U 0 f hf
    refine ⟨descr, ?_, h2⟩
    rw [matchDescr_eq_firstPrefix _ _ hfit (by rw [← hphys]; omega)]
    exact h1

/-- C9 (amended), witness: `"Born in <Year>."` over the map `{1: "<Year>"}` gives the
logical string `"Born in ."` and one marker `{1, 8}`. -/
theorem AssignPlainText_renders_back_witness :
    (∃ L, AssignPlainText { m_logStr := [], m_logList := [], m_map := yearMap }
          "Born in <Year>.".toList = some L ∧ L.m_map = yearMap
      ∧ LogStr2PhysStr L = "Born in <Year>.".toList
      ∧ L.m_logList.Pairwise (fun a b => a.m_pos ≤ b.m_pos)
      ∧ (∀ f ∈ (AssignPhysFromLog L).m_physlist, ∃ descr,
          matchDescr "Born in <Year>.".toList f.m_start yearMap = some descr
            ∧ descr.valId = f.m_what))
    ∧ AssignPlainText { m_logStr := [], m_logList := [], m_map := yearMap }
          "Born in <Year>.".toList
        = some { m_logStr := "Born in .".toList, m_logList := [{ m_what := 1, m_pos := 8 }],
                 m_map := yearMap } :=
  ⟨AssignPlainText_renders_back { m_logStr := [], m_logList := [], m_map := yearMap }
      "Born in <Year>.".toList (by decide) (by decide) (by decide) (by decide),
    by decide⟩

/-! ### Replacement passes over the logical string -/

theorem isPrefixOf_append_false (a u t : CString) (h1 : a.isPrefixOf u = false)
    (h2 : u.isPrefixOf a = false) : a.isPrefixOf (u ++ t) = false := by
  rw [Bool.eq_false_iff] at h1 h2 ⊢
  intro h
  rw [List.isPrefixOf_iff_prefix] at h
  rcases List.prefix_or_prefix_of_prefix h (List.prefix_append u t) with h3 | h3
  · exact h1 (List.isPrefixOf_iff_prefix.2 h3)
  · exact h2 (List.isPrefixOf_iff_prefix.2 h3)

theorem Apart_nil (a : CString) : Apart a [] := by
  intro k hk; simp at hk

theorem Apart_single (h x : Char) (t : CString) (hx : x ≠ h) : Apart (h :: t) [x] := by
  intro k hk
  have hk0 : k = 0 := by simpa using hk
  subst hk0
  have e1 : (h == x) = false := by simpa using fun e => hx e.symm
  have e2 : (x == h) = false := by simpa using hx
  simp [List.isPrefixOf, e1, e2]

theorem Apart_append (a s t : CString) (hs : Apart a s) (ht : Apart a t) :
    Apart a (s ++ t) := by
  intro k hk
  by_cases hks : k < s.length
  · obtain ⟨h1, h2⟩ := hs k hks
    have hd : (s ++ t).drop k = s.drop k ++ t := by
      rw [List.drop_append_eq_append_drop]
      have : k - s.length = 0 := by omega
      rw [this, List.drop_zero]
    rw [hd]
    refine ⟨isPrefixOf_append_false a _ t h1 h2, ?_⟩
    rw [Bool.eq_false_iff] at h2 ⊢
    intro h
    rw [List.isPrefixOf_iff_prefix] at h
    exact h2 (List.isPrefixOf_iff_prefix.2 ((List.prefix_append _ t).trans h))
  · have hd : (s ++ t).drop k = t.drop (k - s.length) := by
      rw [List.drop_append_eq_append_drop, List.drop_eq_nil_of_le (by omega), List.nil_append]
    rw [hd]
    simp only [List.length_append] at hk
    exact ht (k - s.length) (by omega)

theorem findAt_nil (a : CString) (k : Nat) (ha : a ≠ []) : findAt a [] k = none := by
  simp [findAt, ha]

theorem findAt_self (a B : CString) (k : Nat) (ha : a ≠ []) :
    findAt a (a ++ B) k = some k := by
  cases a with
  | nil => exact absurd rfl ha
  | cons x a =>
    have : (x :: a).isPrefixOf (x :: a ++ B) = true := by
      rw [List.isPrefixOf_iff_prefix]; exact List.prefix_append _ _
    simp only [List.cons_append] at this ⊢
    rw [findAt, if_pos this]

theorem findAt_apart (a s B : CString) (hs : Apart a s) :
    ∀ (m n : Nat), n + m = s.length → findAt a (s.drop n ++ B) n = findAt a B s.length := by
  intro m
  induction m with
  | zero =>
    intro n hn
    rw [List.drop_eq_nil_of_le (by omega), List.nil_append]
    have : n = s.length := by omega
    rw [this]
  | succ m ih =>
    intro n hn
    obtain ⟨h1, h2⟩ := hs n (by omega)
    have hp := isPrefixOf_append_false a _ B h1 h2
    have hd : s.drop n = s.get ⟨n, by omega⟩ :: s.drop (n + 1) := by
      exact (List.drop_eq_getElem_cons (by omega))
    rw [hd] at hp ⊢
    rw [List.cons_append] at hp ⊢
    rw [findAt, hp]
    simp only [Bool.false_eq_true, if_false]
    exact ih (n + 1) (by omega)

theorem strFind_apart (a s B : CString) (hs : Apart a s) (n : Nat) (hn : n ≤ s.length) :
    strFind (s ++ B) a n = findAt a B s.length := by
  unfold strFind
  rw [if_neg (by simp only [List.length_append]; omega)]
  have hd : (s ++ B).drop n = s.drop n ++ B := by
    rw [List.drop_append_eq_append_drop]
    have : n - s.length = 0 := by omega
    rw [this, List.drop_zero]
  rw [hd]
  exact findAt_apart a s B hs (s.length - n) n (by omega)

theorem ReplaceLogTextPart_replace (lpMap : List SubstDescr) (pre old post new : CString)
    (ms1 ms2 : List CLogInfo)
    (hfit : (pre ++ (old ++ post)).length < INT_LIMIT)
    (hfit' : (pre ++ (new ++ post)).length < INT_LIMIT)
    (hms1 : ∀ m ∈ ms1, m.m_pos ≤ pre.length)
    (hms2 : ∀ m ∈ ms2, pre.length + old.length ≤ m.m_pos
      ∧ m.m_pos ≤ (pre ++ (old ++ post)).length)
    (hold : 0 < old.length) (hnew : 0 < new.length) :
    ReplaceLogTextPart { m_logStr := pre ++ (old ++ post), m_logList := ms1 ++ ms2,
                         m_map := lpMap } pre.length old.length new
      = { m_logStr := pre ++ (new ++ post),
          m_logList := ms1 ++ ms2.map
            (fun m => { m with m_pos := m.m_pos - old.length + new.length }),
          m_map := lpMap } := by
  simp only [List.length_append] at hfit hfit' hms2
  unfold ReplaceLogTextPart
  simp only [List.length_append]
  rw [if_neg (by omega), subSz_of_le (by omega) (by omega), castInt_of_lt (by omega)]
  rw [if_neg (by omega)]
  simp only [hold, hnew, if_true]
  rw [strInsert_cast _ _ (by omega)]
  congr 1
  · simp [extractSubstr]
  · rw [List.map_append]
    congr 1
    · conv => rhs; rw [← List.map_id ms1]
      apply List.map_congr_left
      intro m hm
      have := hms1 m hm
      rw [if_neg (by omega)]; rfl
    · apply List.map_congr_left
      intro m hm
      obtain ⟨h1, h2⟩ := hms2 m hm
      rw [if_pos (by omega)]
      simp only [CLogInfo.Add2Pos]
      rw [addSz_negSz (by omega) (by omega), addSz_of_lt (by omega)]

theorem substItems_append (σ : Char → CString) (A B : List Item) :
    substItems σ (A ++ B) = substItems σ A ++ substItems σ B := by
  induction A with
  | nil => rfl
  | cons x A ih => cases x <;> simp [substItems, ih]

theorem substItems_mono (σ τ : Char → CString) (h : ∀ x, (σ x).length ≤ (τ x).length) :
    ∀ R : List Item, (itemsLog (substItems σ R)).length ≤ (itemsLog (substItems τ R)).length := by
  intro R
  induction R with
  | nil => simp [substItems]
  | cons x R ih =>
    cases x with
    | ch c => have := h c; simp [substItems]; omega
    | fld w => simpa [substItems, itemsLog] using ih

/-- One pass of `ReplaceLogTextAllThrough` over items: the text `old` of the character
`c` is replaced by `new`, every other character keeps its text. -/
theorem pass_loop (lpMap : List SubstDescr) (σ τ : Char → CString) (c : Char)
    (old new : CString) (hold : 0 < old.length) (hnew : 0 < new.length)
    (hσc : σ c = old) (hτc : τ c = new) (hnewA : Apart old new)
    (hmono : (∀ x, (σ x).length ≤ (τ x).length) ∨ (∀ x, (τ x).length ≤ (σ x).length)) :
    ∀ (R P : List Item) (fuel n : Nat),
    (∀ x ∈ itemsLog R, x ≠ c → τ x = σ x ∧ Apart old (τ x)) →
    Apart old (itemsLog P) → n ≤ (itemsLog P).length →
    (itemsLog (substItems σ R)).length < fuel →
    (itemsLog P).length + (itemsLog (substItems σ R)).length < INT_LIMIT →
    (itemsLog P).length + (itemsLog (substItems τ R)).length < INT_LIMIT →
    ReplaceLogTextAllThroughLoop old new fuel
        { m_logStr := itemsLog (P ++ substItems σ R),
          m_logList := itemsMarks 0 (P ++ substItems σ R), m_map := lpMap } n
      = some { m_logStr := itemsLog (P ++ substItems τ R),
               m_logList := itemsMarks 0 (P ++ substItems τ R), m_map := lpMap } := by
  have hne : old ≠ [] := by intro e; rw [e] at hold; simp at hold
  intro R
  induction R with
  | nil =>
    intro P fuel n _ hP hn hfuel _ _
    cases fuel with
    | zero => omega
    | succ fuel =>
      simp only [substItems, List.append_nil]
      rw [ReplaceLogTextAllThroughLoop]
      have := strFind_apart old (itemsLog P) [] hP n hn
      rw [List.append_nil, findAt_nil _ _ hne] at this
      rw [this]
  | cons x R ih =>
    intro P fuel n hR hP hn hfuel hfσ hfτ
    cases x with
    | fld w =>
      simp only [substItems, itemsLog] at hfuel hfσ hfτ hR ⊢
      have e : ∀ Z : List Item, P ++ Item.fld w :: Z = (P ++ [Item.fld w]) ++ Z := by
        intro Z; simp
      rw [e (substItems σ R), e (substItems τ R)]
      exact ih (P ++ [Item.fld w]) fuel n hR (by simpa [itemsLog] using hP)
        (by simpa [itemsLog] using hn) hfuel (by simpa [itemsLog] using hfσ)
        (by simpa [itemsLog] using hfτ)
    | ch y =>
      simp only [substItems, itemsLog, itemsLog_append, itemsLog_chars, List.length_append,
        List.mem_cons, forall_eq_or_imp] at hfuel hfσ hfτ hR
      by_cases hy : y = c
      · subst hy
        rw [hσc] at hfuel hfσ
        rw [hτc] at hfτ
        cases fuel with
        | zero => omega
        | succ fuel =>
          have hlenσ : (itemsLog (substItems σ R)).length ≤ (itemsLog (substItems τ R)).length
              ∨ new.length ≤ old.length := by
            rcases hmono with h | h
            · exact Or.inl (substItems_mono σ τ h R)
            · right; have := h y; rw [hσc, hτc] at this; exact this
          have hfind : strFind (itemsLog (P ++ substItems σ (Item.ch y :: R))) old n
              = some (itemsLog P).length := by
            simp only [substItems, itemsLog_append, itemsLog_chars, hσc, List.append_assoc]
            rw [strFind_apart old (itemsLog P) _ hP n hn, findAt_self _ _ _ hne]
          rw [ReplaceLogTextAllThroughLoop, hfind]
          simp only
          have hrep : ReplaceLogTextPart
              { m_logStr := itemsLog (P ++ substItems σ (Item.ch y :: R)),
                m_logList := itemsMarks 0 (P ++ substItems σ (Item.ch y :: R)), m_map := lpMap }
              (itemsLog P).length old.length new
              = { m_logStr := itemsLog ((P ++ new.map Item.ch) ++ substItems σ R),
                  m_logList := itemsMarks 0 ((P ++ new.map Item.ch) ++ substItems σ R),
                  m_map := lpMap } := by
            have h := ReplaceLogTextPart_replace lpMap (itemsLog P) old
              (itemsLog (substItems σ R)) new (itemsMarks 0 P)
              (itemsMarks ((itemsLog P).length + old.length) (substItems σ R))
              (by simp only [List.length_append]; omega)
              (by simp only [List.length_append]; omega)
              (fun m hm => by simpa using (itemsMarks_bounds P 0 m hm).2)
              (fun m hm => by
                have := itemsMarks_bounds _ _ m hm
                simp only [List.length_append]
                omega)
              hold hnew
            have hm : ∀ a, itemsMarks a (substItems σ R)
                = (itemsMarks 0 (substItems σ R)).map
                    (fun m => { m with m_pos := m.m_pos + a }) := by
              intro a
              have := itemsMarks_shift (substItems σ R) 0 a
              rwa [Nat.zero_add] at this
            have eL : itemsLog (P ++ substItems σ (Item.ch y :: R))
                = itemsLog P ++ (old ++ itemsLog (substItems σ R)) := by
              simp [substItems, hσc]
            have eM : itemsMarks 0 (P ++ substItems σ (Item.ch y :: R))
                = itemsMarks 0 P
                  ++ itemsMarks ((itemsLog P).length + old.length) (substItems σ R) := by
              simp only [substItems, hσc]
              rw [itemsMarks_append, itemsMarks_append, itemsMarks_chars, itemsLog_chars,
                List.nil_append, Nat.zero_add]
            have eL' : itemsLog ((P ++ new.map Item.ch) ++ substItems σ R)
                = itemsLog P ++ (new ++ itemsLog (substItems σ R)) := by
              simp
            have eM' : itemsMarks 0 ((P ++ new.map Item.ch) ++ substItems σ R)
                = itemsMarks 0 P
                  ++ itemsMarks ((itemsLog P).length + new.length) (substItems σ R) := by
              rw [List.append_assoc, itemsMarks_append, itemsMarks_append, itemsMarks_chars,
                itemsLog_chars, List.nil_append, Nat.zero_add]
            rw [eL, eM, eL', eM', h]
            congr 2
            rw [hm ((itemsLog P).length + old.length), hm ((itemsLog P).length + new.length)]
            rw [List.map_map]
            apply List.map_congr_left
            intro m _
            simp only [Function.comp]
            congr 1
            omega
          rw [hrep]
          have hgoal : ∀ Z : List Item, P ++ substItems τ (Item.ch y :: R)
              = (P ++ new.map Item.ch) ++ substItems τ R := by
            intro _; simp [substItems, hτc]
          rw [hgoal []]
          exact ih (P ++ new.map Item.ch) fuel (n + new.length) hR.2
            (by rw [itemsLog_append, itemsLog_chars]; exact Apart_append _ _ _ hP hnewA)
            (by simp only [itemsLog_append, itemsLog_chars, List.length_append]; omega)
            (by omega)
            (by simp only [itemsLog_append, itemsLog_chars, List.length_append]; omega)
            (by simp only [itemsLog_append, itemsLog_chars, List.length_append]; omega)
      · obtain ⟨hτσ, hA⟩ := hR.1 hy
        have e : ∀ (ρ : Char → CString), ρ y = τ y → ∀ Z : List Item,
            P ++ substItems ρ (Item.ch y :: Z) = (P ++ (τ y).map Item.ch) ++ substItems ρ Z := by
          intro ρ hρ Z; simp [substItems, hρ]
        rw [e σ hτσ.symm, e τ rfl]
        rw [← hτσ] at hfuel hfσ
        exact ih (P ++ (τ y).map Item.ch) fuel n hR.2
          (by rw [itemsLog_append, itemsLog_chars]; exact Apart_append _ _ _ hP hA)
          (by simp only [itemsLog_append, itemsLog_chars, List.length_append]; omega)
          (by omega)
          (by simp only [itemsLog_append, itemsLog_chars, List.length_append]; omega)
          (by simp only [itemsLog_append, itemsLog_chars, List.length_append]; omega)

theorem Apart_of_not_mem (h : Char) (t s : CString) (hs : h ∉ s) : Apart (h :: t) s := by
  intro k hk
  have hd : s.drop k = s.get ⟨k, hk⟩ :: s.drop (k + 1) := List.drop_eq_getElem_cons hk
  have hz : s.get ⟨k, hk⟩ ≠ h := by
    intro e
    apply hs
    rw [← e]
    exact List.get_mem s k hk
  rw [hd]
  generalize s.get ⟨k, hk⟩ = z at hz
  have e1 : (h == z) = false := by simpa using fun e => hz e.symm
  have e2 : (z == h) = false := by simpa using hz
  simp [List.isPrefixOf, e1, e2]

theorem substItems_id (σ : Char → CString) (hσ : ∀ x, σ x = [x]) (Y : List Item) :
    substItems σ Y = Y := by
  induction Y with
  | nil => rfl
  | cons x Y ih => cases x <;> simp [substItems, ih, hσ]

theorem pass_items (lpMap : List SubstDescr) (σ τ : Char → CString) (c : Char)
    (old new : CString) (hold : 0 < old.length) (hnew : 0 < new.length)
    (hσc : σ c = old) (hτc : τ c = new) (hnewA : Apart old new)
    (hmono : (∀ x, (σ x).length ≤ (τ x).length) ∨ (∀ x, (τ x).length ≤ (σ x).length))
    (Y : List Item)
    (hY : ∀ x ∈ itemsLog Y, x ≠ c → τ x = σ x ∧ Apart old (τ x))
    (hfσ : (itemsLog (substItems σ Y)).length < INT_LIMIT)
    (hfτ : (itemsLog (substItems τ Y)).length < INT_LIMIT) :
    ReplaceLogTextAllThrough
        { m_logStr := itemsLog (substItems σ Y), m_logList := itemsMarks 0 (substItems σ Y),
          m_map := lpMap } old new
      = some { m_logStr := itemsLog (substItems τ Y),
               m_logList := itemsMarks 0 (substItems τ Y), m_map := lpMap } := by
  unfold ReplaceLogTextAllThrough
  rw [if_neg (by omega)]
  have := pass_loop lpMap σ τ c old new hold hnew hσc hτc hnewA hmono Y []
    ((itemsLog (substItems σ Y)).length + 1) 0 hY (Apart_nil old) (Nat.zero_le _) (by omega)
    (by simpa [itemsLog] using hfσ) (by simpa [itemsLog] using hfτ)
  simpa using this

theorem escapeChar_cons_ne (S : List Char) (c x : Char) (h : x ≠ c) :
    escapeChar (c :: S) x = escapeChar S x := by
  simp [escapeChar, h]

theorem escapeChar_not_listed (S : List Char) (c : Char) (h : c ∉ S) :
    escapeChar S c = [c] := by
  simp [escapeChar, h]

theorem escapeChar_length (S : List Char) (x : Char) :
    1 ≤ (escapeChar S x).length ∧ (escapeChar S x).length ≤ 6 := by
  unfold escapeChar
  split_ifs <;> simp

/-- The characters of an entity are no XML special characters other than `&`. -/
theorem escapeChar_not_mem (S : List Char) (c x : Char)
    (hc : c = '<' ∨ c = '>' ∨ c = chQuot ∨ c = chApos) (hx : x ≠ c) :
    c ∉ escapeChar S x := by
  have hx' : c ∉ [x] := by simpa using fun e => hx e.symm
  unfold escapeChar
  split_ifs
  · rcases hc with h | h | h | h <;> subst h <;> decide
  · rcases hc with h | h | h | h <;> subst h <;> decide
  · rcases hc with h | h | h | h <;> subst h <;> decide
  · rcases hc with h | h | h | h <;> subst h <;> decide
  · exact hx'
  · exact hx'

/-- The pass of `ReplaceLogXmlCharsThere` for the character `c`. -/
theorem escape_pass (lpMap : List SubstDescr) (S : List Char) (c : Char) (e : CString)
    (Y : List Item) (hc : c = '<' ∨ c = '>' ∨ c = chQuot ∨ c = chApos) (hcS : c ∉ S)
    (he : escapeChar (c :: S) c = e)
    (hfit : (itemsLog (substItems (escapeChar (c :: S)) Y)).length < INT_LIMIT) :
    ReplaceLogTextAllThrough
        { m_logStr := itemsLog (substItems (escapeChar S) Y),
          m_logList := itemsMarks 0 (substItems (escapeChar S) Y), m_map := lpMap } [c] e
      = some { m_logStr := itemsLog (substItems (escapeChar (c :: S)) Y),
               m_logList := itemsMarks 0 (substItems (escapeChar (c :: S)) Y),
               m_map := lpMap } := by
  have hmono : ∀ x, (escapeChar S x).length ≤ (escapeChar (c :: S) x).length := by
    intro x
    by_cases hx : x = c
    · subst hx
      rw [escapeChar_not_listed S x hcS]
      exact (escapeChar_length _ _).1
    · rw [escapeChar_cons_ne S c x hx]
  have hce : c ∉ e := by
    rw [← he]
    rcases hc with h | h | h | h <;> subst h <;> simp [escapeChar] <;> decide
  refine pass_items lpMap (escapeChar S) (escapeChar (c :: S)) c [c] e (by simp)
    (by rw [← he]; exact (escapeChar_length _ _).1) (escapeChar_not_listed S c hcS) he
    (Apart_of_not_mem c [] e hce) (Or.inl hmono) Y ?_ ?_ hfit
  · intro x _ hx
    refine ⟨escapeChar_cons_ne S c x hx, ?_⟩
    exact Apart_of_not_mem c [] _ (escapeChar_not_mem (c :: S) c x hc hx)
  · exact lt_of_le_of_lt (substItems_mono _ _ hmono Y) hfit

theorem escapeChar_cons_le (S : List Char) (c x : Char) :
    (escapeChar S x).length ≤ (escapeChar (c :: S) x).length := by
  by_cases hx : x = c
  · subst hx
    by_cases hS : x ∈ S
    · simp [escapeChar, hS]
    · rw [escapeChar_not_listed S x hS]
      exact (escapeChar_length _ _).1
  · rw [escapeChar_cons_ne S c x hx]

/-- The entity of `c` starts nowhere in the text of another character. -/
theorem Apart_entity (S T : List Char) (c x : Char)
    (hc : c = '<' ∨ c = '>' ∨ c = chQuot ∨ c = chApos) (hx : x ≠ c) (hamp : x ≠ '&') :
    Apart (escapeChar (c :: T) c) (escapeChar S x) := by
  have hsingle : ∀ t : CString, Apart ('&' :: t) [x] := fun t => Apart_single '&' x t hamp
  rcases hc with h | h | h | h
  · subst h
    have he : escapeChar ('<' :: T) '<' = '&' :: "lt;".toList := by simp [escapeChar]
    rw [he]
    unfold escapeChar
    split_ifs <;> first | exact hsingle _ | (subst x; decide)
  · subst h
    have he : escapeChar ('>' :: T) '>' = '&' :: "gt;".toList := by simp [escapeChar]
    rw [he]
    unfold escapeChar
    split_ifs <;> first | exact hsingle _ | (subst x; decide)
  · subst h
    have he : escapeChar (chQuot :: T) chQuot = '&' :: "quot;".toList := by
      simp [escapeChar]; decide
    rw [he]
    unfold escapeChar
    split_ifs <;> first | exact hsingle _ | (subst x; decide)
  · subst h
    have he : escapeChar (chApos :: T) chApos = '&' :: "apos".toList := by
      simp [escapeChar]; decide
    rw [he]
    unfold escapeChar
    split_ifs <;> first | exact hsingle _ | (subst x; decide)

/-- The pass of `ReplaceLogXmlPartsBack` for the entity of the character `c`. -/
theorem unescape_pass (lpMap : List SubstDescr) (S : List Char) (c : Char) (e : CString)
    (Y : List Item) (hc : c = '<' ∨ c = '>' ∨ c = chQuot ∨ c = chApos) (hcS : c ∉ S)
    (he : escapeChar (c :: S) c = e) (hamp : '&' ∉ itemsLog Y)
    (hfit : (itemsLog (substItems (escapeChar (c :: S)) Y)).length < INT_LIMIT) :
    ReplaceLogTextAllThrough
        { m_logStr := itemsLog (substItems (escapeChar (c :: S)) Y),
          m_logList := itemsMarks 0 (substItems (escapeChar (c :: S)) Y), m_map := lpMap } e [c]
      = some { m_logStr := itemsLog (substItems (escapeChar S) Y),
               m_logList := itemsMarks 0 (substItems (escapeChar S) Y),
               m_map := lpMap } := by
  have hcamp : c ≠ '&' := by
    rcases hc with h | h | h | h <;> subst h <;> decide
  have hA : Apart e [c] := by
    rw [← he]
    rcases hc with h | h | h | h <;> subst h <;> simp [escapeChar] <;> decide
  refine pass_items lpMap (escapeChar (c :: S)) (escapeChar S) c e [c]
    (by rw [← he]; exact (escapeChar_length _ _).1) (by simp) he
    (escapeChar_not_listed S c hcS) hA (Or.inr (fun x => escapeChar_cons_le S c x)) Y ?_ hfit ?_
  · intro x hxY hx
    refine ⟨(escapeChar_cons_ne S c x hx).symm, ?_⟩
    rw [← he]
    exact Apart_entity S S c x hc hx (fun h => hamp (h ▸ hxY))
  · exact lt_of_le_of_lt (substItems_mono _ _ (fun x => escapeChar_cons_le S c x) Y) hfit

/-- The four escaped characters, in the order in which the passes leave them. -/
theorem ReplaceLogXmlCharsThere_items (lpMap : List SubstDescr) (Y : List Item)
    (hamp : '&' ∉ itemsLog Y)
    (hfit : (itemsLog (substItems (escapeChar [chApos, chQuot, '>', '<']) Y)).length
      < INT_LIMIT) :
    ReplaceLogXmlCharsThere
        { m_logStr := itemsLog Y, m_logList := itemsMarks 0 Y, m_map := lpMap }
      = some { m_logStr := itemsLog (substItems (escapeChar [chApos, chQuot, '>', '<']) Y),
               m_logList := itemsMarks 0 (substItems (escapeChar [chApos, chQuot, '>', '<']) Y),
               m_map := lpMap } := by
  have mono := fun (S : List Char) (c : Char) =>
    substItems_mono _ _ (fun x => escapeChar_cons_le S c x) Y
  have f3 := lt_of_le_of_lt (mono [chQuot, '>', '<'] chApos) hfit
  have f2 := lt_of_le_of_lt (mono ['>', '<'] chQuot) f3
  have f1 := lt_of_le_of_lt (mono ['<'] '>') f2
  have h1 : ReplaceLogTextAllThrough
      { m_logStr := itemsLog Y, m_logList := itemsMarks 0 Y, m_map := lpMap }
      ('&' :: []) "&amp;".toList
      = some { m_logStr := itemsLog (substItems (escapeChar []) Y),
               m_logList := itemsMarks 0 (substItems (escapeChar []) Y), m_map := lpMap } := by
    rw [substItems_id _ (fun x => by simp [escapeChar]) Y]
    exact ReplaceLogTextAllThrough_noop _ _ _ _ hamp
  have h2 := escape_pass lpMap [] '<' "&lt;".toList Y (by simp) (by simp)
    (by simp [escapeChar]) f1
  have h3 := escape_pass lpMap ['<'] '>' "&gt;".toList Y (by simp) (by decide)
    (by simp [escapeChar]) f2
  have h4 := escape_pass lpMap ['>', '<'] chQuot "&quot;".toList Y (by simp) (by decide)
    (by simp [escapeChar]; decide) f3
  have h5 := escape_pass lpMap [chQuot, '>', '<'] chApos "&apos".toList Y (by simp) (by decide)
    (by simp [escapeChar]; decide) hfit
  unfold ReplaceLogXmlCharsThere
  have e1 : "&".toList = '&' :: [] := rfl
  have e2 : "<".toList = ['<'] := rfl
  have e3 : ">".toList = ['>'] := rfl
  rw [e1, e2, e3, h1]
  simp only [Option.bind_eq_bind, Option.some_bind]
  rw [h2]
  simp only [Option.some_bind]
  rw [h3]
  simp only [Option.some_bind]
  rw [h4]
  simp only [Option.some_bind]
  rw [h5]

theorem ReplaceLogXmlPartsBack_items (lpMap : List SubstDescr) (Y : List Item)
    (hamp : '&' ∉ itemsLog Y)
    (hfit : (itemsLog (substItems (escapeChar [chApos, chQuot, '>', '<']) Y)).length
      < INT_LIMIT) :
    ReplaceLogXmlPartsBack
        { m_logStr := itemsLog (substItems (escapeChar [chApos, chQuot, '>', '<']) Y),
          m_logList := itemsMarks 0 (substItems (escapeChar [chApos, chQuot, '>', '<']) Y),
          m_map := lpMap }
      = some { m_logStr := itemsLog Y, m_logList := itemsMarks 0 Y, m_map := lpMap } := by
  have mono := fun (S : List Char) (c : Char) =>
    substItems_mono _ _ (fun x => escapeChar_cons_le S c x) Y
  have f3 := lt_of_le_of_lt (mono [chQuot, '>', '<'] chApos) hfit
  have f2 := lt_of_le_of_lt (mono ['>', '<'] chQuot) f3
  have f1 := lt_of_le_of_lt (mono ['<'] '>') f2
  have h5 := unescape_pass lpMap [chQuot, '>', '<'] chApos "&apos".toList Y (by simp)
    (by decide) (by simp [escapeChar]; decide) hamp hfit
  have h4 := unescape_pass lpMap ['>', '<'] chQuot "&quot;".toList Y (by simp) (by decide)
    (by simp [escapeChar]; decide) hamp f3
  have h3 := unescape_pass lpMap ['<'] '>' "&gt;".toList Y (by simp) (by decide)
    (by simp [escapeChar]) hamp f2
  have h2 := unescape_pass lpMap [] '<' "&lt;".toList Y (by simp) (by simp)
    (by simp [escapeChar]) hamp f1
  have h1 : ReplaceLogTextAllThrough
      { m_logStr := itemsLog (substItems (escapeChar []) Y),
        m_logList := itemsMarks 0 (substItems (escapeChar []) Y), m_map := lpMap }
      ('&' :: "amp;".toList) "&".toList
      = some { m_logStr := itemsLog Y, m_logList := itemsMarks 0 Y, m_map := lpMap } := by
    rw [substItems_id _ (fun x => by simp [escapeChar]) Y]
    exact ReplaceLogTextAllThrough_noop _ _ _ _ hamp
  unfold ReplaceLogXmlPartsBack
  have e1 : "&amp;".toList = '&' :: "amp;".toList := rfl
  have e2 : "<".toList = ['<'] := rfl
  have e3 : ">".toList = ['>'] := rfl
  rw [e1, e2, e3, h5]
  simp only [Option.bind_eq_bind, Option.some_bind]
  rw [h4]
  simp only [Option.some_bind]
  rw [h3]
  simp only [Option.some_bind]
  rw [h2]
  simp only [Option.some_bind]
  rw [h1]

/-! ### C1: the plain-text round trip -/

theorem firstPrefix_none_of_begins : ∀ (lpMap : List SubstDescr) (c : Char) (r : CString),
    NonEmptyTexts lpMap → BeginsNoText lpMap c → firstPrefix lpMap (c :: r) = none := by
  intro lpMap
  induction lpMap with
  | nil => intro c r _ _; rfl
  | cons x rest ih =>
    intro c r hne hb
    simp only [firstPrefix]
    by_cases h0 : kInvalidSubstElemId = x.valId
    · rw [if_pos h0]
    · rw [if_neg h0]
      have hx := hne x (List.mem_cons_self _ _) (fun e => h0 e.symm)
      have hbx := hb x (List.mem_cons_self _ _)
      have hnp : x.lpTxt.isPrefixOf (c :: r) = false := by
        cases hxt : x.lpTxt with
        | nil => exact absurd hxt hx
        | cons a as =>
          rw [hxt] at hbx
          simp only [List.head?_cons, ne_eq, Option.some.injEq] at hbx
          simp [List.isPrefixOf, hbx]
      rw [hnp]
      simp only [Bool.false_eq_true, if_false]
      exact ih c r (fun y hy => hne y (List.mem_cons_of_mem _ hy))
        (fun y hy => hb y (List.mem_cons_of_mem _ hy))

theorem firstPrefix_of_scan (desc : SubstDescr) (r : CString) :
    ∀ (l : List SubstDescr) (w : Nat),
    (∀ x ∈ l, x.valId ≠ kInvalidSubstElemId → x ≠ desc →
      x.lpTxt.isPrefixOf desc.lpTxt = false ∧ desc.lpTxt.isPrefixOf x.lpTxt = false) →
    FindMapItemScan l w = some desc → firstPrefix l (desc.lpTxt ++ r) = some desc := by
  intro l
  induction l with
  | nil => intro w _ h; simp [FindMapItemScan] at h
  | cons x rest ih =>
    intro w hpf h
    simp only [FindMapItemScan] at h
    simp only [firstPrefix]
    by_cases h0 : kInvalidSubstElemId = x.valId
    · rw [if_pos h0] at h; cases h
    · rw [if_neg h0] at h ⊢
      by_cases hw : x.valId = w
      · rw [if_pos hw] at h
        have hx : x = desc := Option.some.inj h
        have : x.lpTxt.isPrefixOf (desc.lpTxt ++ r) = true := by
          rw [List.isPrefixOf_iff_prefix, hx]; exact List.prefix_append _ _
        rw [if_pos this, hx]
      · rw [if_neg hw] at h
        have hmem := FindMapItemScan_spec rest w desc h
        have hne : x ≠ desc := by
          intro e; rw [e] at hw; exact hw hmem.2.1
        obtain ⟨h1, h2⟩ := hpf x (List.mem_cons_self _ _) (fun e => h0 e.symm) hne
        have hnp : x.lpTxt.isPrefixOf (desc.lpTxt ++ r) = false := by
          rw [Bool.eq_false_iff]
          intro hp
          rw [List.isPrefixOf_iff_prefix] at hp
          rcases List.prefix_or_prefix_of_prefix hp (List.prefix_append desc.lpTxt r) with h3 | h3
          · rw [← List.isPrefixOf_iff_prefix, h1] at h3; cases h3
          · rw [← List.isPrefixOf_iff_prefix, h2] at h3; cases h3
        rw [hnp]
        simp only [Bool.false_eq_true, if_false]
        exact ih w (fun y hy => hpf y (List.mem_cons_of_mem _ hy)) h

/-- In a prefix-free table, the display text of a field is recognised as that field. -/
theorem firstPrefix_of_find (lpMap : List SubstDescr) (hpf : PrefixFree lpMap) (w : Nat)
    (desc : SubstDescr) (r : CString) (h : FindMapItem lpMap w = some desc) :
    firstPrefix lpMap (desc.lpTxt ++ r) = some desc := by
  obtain ⟨hmem, _, hid⟩ := FindMapItem_spec h
  unfold FindMapItem at h
  split at h
  · apply firstPrefix_of_scan desc r lpMap w _ h
    intro x hx hx0 hne
    exact ⟨hpf x hx desc hmem hx0 hid hne, hpf desc hmem x hx hid hx0 (fun e => hne e.symm)⟩
  · cases h

/-- The scan of `AssignPlainText` recovers the items `Y` from their physical string. -/
theorem parse_rendered (lpMap : List SubstDescr) (hne : NonEmptyTexts lpMap)
    (hpf : PrefixFree lpMap) :
    ∀ (Y U : List Item) (fuel : Nat), (itemsPhys lpMap Y).length < fuel →
    itemsKnown lpMap Y → (∀ c ∈ itemsLog Y, BeginsNoText lpMap c) →
    (itemsLog U).length + (itemsPhys lpMap Y).length < INT_LIMIT →
    AssignPlainTextLoop fuel
        { m_logStr := itemsLog U ++ itemsPhys lpMap Y, m_logList := itemsMarks 0 U,
          m_map := lpMap } (itemsLog U).length
      = some { m_logStr := itemsLog (U ++ Y), m_logList := itemsMarks 0 (U ++ Y),
               m_map := lpMap } := by
  intro Y
  induction Y with
  | nil =>
    intro U fuel hfuel _ _ _
    cases fuel with
    | zero => omega
    | succ fuel =>
      simp only [itemsPhys, List.append_nil]
      exact AssignPlainTextLoop_end lpMap U fuel
  | cons x Y ih =>
    intro U fuel hfuel hk hb hfit
    cases fuel with
    | zero => omega
    | succ fuel =>
      cases x with
      | ch c =>
        simp only [itemsPhys, itemsLog, List.length_cons, List.mem_cons,
          forall_eq_or_imp] at hfuel hb hfit ⊢
        rw [AssignPlainTextLoop_char lpMap U c _ fuel
          (by simp only [List.length_append, List.length_cons]; omega)
          (firstPrefix_none_of_begins lpMap c _ hne hb.1)]
        rw [ih (U ++ [Item.ch c]) fuel (by omega) (itemsKnown_cons_ch.1 hk) hb.2
          (by simp [itemsLog]; omega)]
        simp
      | fld w =>
        obtain ⟨hw1, hkY⟩ := itemsKnown_cons_fld.1 hk
        obtain ⟨desc, hd⟩ := Option.isSome_iff_exists.1 hw1
        have hT := fieldText_of_find hd
        have hid := (FindMapItem_spec hd).2.1
        simp only [itemsPhys, itemsLog, List.length_append, hT] at hfuel hb hfit ⊢
        obtain ⟨_, hpos, hstep⟩ := AssignPlainTextLoop_field lpMap hne U
          (desc.lpTxt ++ itemsPhys lpMap Y) fuel desc
          (by simp only [List.length_append]; omega)
          (firstPrefix_of_find lpMap hpf w desc _ hd)
        rw [hstep, List.drop_left, hid]
        rw [ih (U ++ [Item.fld w]) fuel (by omega) hkY hb (by simp [itemsLog]; omega)]
        simp

/-- C1, counterexample: over the valid map `{1: "Y"}`, the logical data with the logical
string `"Y"` and no marker is exported as `"Y"`, which is read back as the field 1; the
escaping leaves the data as they are, and their rendering does not parse back without
ambiguity (the display text begins at the plain character). -/
theorem round_trip_counterexample :
    NonEmptyTexts letterMap ∧ DistinctIds letterMap ∧ PrefixFree letterMap
    ∧ LogOk letterLog
    ∧ GetPlainText letterLog = some "Y".toList
    ∧ AssignPlainText letterLog "Y".toList
        = some { m_logStr := [], m_logList := [{ m_what := 1, m_pos := 0 }],
                 m_map := letterMap }
    ∧ letterLog.m_logStr ≠ [] ∧ letterLog.m_logList ≠ [{ m_what := 1, m_pos := 0 }]
    ∧ ReplaceLogXmlCharsThere letterLog = some letterLog
    ∧ ¬ ParsesBack (AssignPhysFromLog letterLog) := by
  decide

theorem itemsKnown_substItems (lpMap : List SubstDescr) (σ : Char → CString) :
    ∀ Y : List Item, itemsKnown lpMap Y → itemsKnown lpMap (substItems σ Y) := by
  intro Y
  induction Y with
  | nil => intro h; exact h
  | cons x Y ih =>
    intro h
    cases x with
    | ch c =>
      simp only [substItems]
      exact itemsKnown_append.2 ⟨itemsKnown_chars _ _, ih (itemsKnown_cons_ch.1 h)⟩
    | fld w =>
      simp only [substItems]
      exact itemsKnown_cons_fld.2
        ⟨(itemsKnown_cons_fld.1 h).1, ih (itemsKnown_cons_fld.1 h).2⟩

/-- Escaping lengthens the physical string by what it adds to the logical string, at
most five characters for each character. -/
theorem substItems_escape_length (lpMap : List SubstDescr) (S : List Char) :
    ∀ Y : List Item,
    (itemsPhys lpMap (substItems (escapeChar S) Y)).length + (itemsLog Y).length
        = (itemsPhys lpMap Y).length + (itemsLog (substItems (escapeChar S) Y)).length
    ∧ (itemsLog (substItems (escapeChar S) Y)).length ≤ 6 * (itemsLog Y).length := by
  intro Y
  induction Y with
  | nil => simp [substItems, itemsPhys, itemsLog]
  | cons x Y ih =>
    cases x with
    | ch c =>
      have := escapeChar_length S c
      simp only [substItems, itemsPhys_append, itemsPhys_chars, itemsLog_append,
        itemsLog_chars, List.length_append, itemsPhys, itemsLog, List.length_cons]
      omega
    | fld w =>
      simp only [substItems, itemsPhys, itemsLog, List.length_append]
      omega

/-! ### C10: escaping of the XML special characters -/

/-- C10, failing inputs. On the marker-free logical text `"aaaaa&"`, `GetPlainText`
returns `"aaaaa&amp;amp;"`: the scan position of `ReplaceLogTextAllThrough` advances by
the length of the new part from the previous scan position, not from the place of the
replacement, so the `&` written by the first escape is found and escaped again. On
the text of a single apostrophe it returns `"&apos"`, without the semicolon. -/
theorem GetPlainText_escape_divergence :
    GetPlainText ampLog = some "aaaaa&amp;amp;".toList
    ∧ GetPlainText ampLog ≠ some "aaaaa&amp;".toList
    ∧ GetPlainText aposLog = some "&apos".toList
    ∧ GetPlainText aposLog ≠ some "&apos;".toList := by
  decide

/-! ### C18: `InsertNewInfo` and unknown field ids -/

theorem FindMapItemScan_none : ∀ (lpMap : List SubstDescr) (item : Nat),
    item ∉ idsBeforeSentinel lpMap → FindMapItemScan lpMap item = none := by
  intro lpMap
  induction lpMap with
  | nil => intro item _; rfl
  | cons x rest ih =>
    intro item h
    simp only [FindMapItemScan]
    by_cases h0 : kInvalidSubstElemId = x.valId
    · rw [if_pos h0]
    · rw [if_neg h0]
      have hx : (x.valId != kInvalidSubstElemId) = true := by
        simpa using fun e => h0 e.symm
      simp only [idsBeforeSentinel, List.takeWhile_cons, hx, if_true, List.map_cons,
        List.mem_cons, not_or] at h
      rw [if_neg (fun e => h.1 e.symm)]
      exact ih item h.2

/-- C18. InsertField rejects an unknown field id: for every physical data and position,
when the id is 0 or does not occur in the field map before the sentinel,
`InsertNewInfo` returns no field and leaves the physical data (both strings, the
physical fields and the markers) unchanged. -/
theorem InsertNewInfo_rejects_unknown_id (d : CSubstPhysData) (phpos what : Nat)
    (h : what = kInvalidSubstElemId ∨ what ∉ idsBeforeSentinel d.m_map) :
    InsertNewInfo d phpos what = some (d, none) := by
  have hfind : FindMapItem d.m_map what = none := by
    unfold FindMapItem
    rcases h with h | h
    · rw [if_neg (by simp [h])]
    · split
      · exact FindMapItemScan_none _ _ h
      · rfl
  unfold InsertNewInfo
  rw [hfind]

/-- C18, witness: the id 7 is not in the map `{1: "<Year>"}`, the id 0 is the sentinel. -/
theorem InsertNewInfo_rejects_unknown_id_witness :
    InsertNewInfo yearFieldDoc 3 7 = some (yearFieldDoc, none)
    ∧ (7 = kInvalidSubstElemId ∨ 7 ∉ idsBeforeSentinel yearFieldDoc.m_map) :=
  ⟨InsertNewInfo_rejects_unknown_id yearFieldDoc 3 7 (by decide), by decide⟩

/-! ### C19: `LogStrToPhysStr` and its reference definition -/

theorem replacementText_of_find {lpMap : List SubstDescr} {lpFn : SubstDescr → CString}
    {w : Nat} {lpDesc : SubstDescr} (h : FindMapItem lpMap w = some lpDesc) :
    replacementText lpMap lpFn w = lpFn lpDesc := by
  simp [replacementText, h]

theorem render_reference (lpMap : List SubstDescr) (lpFn : SubstDescr → CString)
    (S : CString) (hS : S.length < INT_LIMIT) :
    ∀ (ms : List CLogInfo) (c : Nat) (acc : CString),
      (∀ m ∈ ms, (FindMapItem lpMap m.m_what).isSome = true) → marksFrom S.length c ms →
      renderFinish S (LogStrToPhysStrLoop lpMap lpFn S ms acc c)
        = acc ++ renderReference lpMap lpFn S c ms := by
  intro ms
  induction ms with
  | nil =>
    intro c acc _ hm
    simp only [LogStrToPhysStrLoop, renderReference]
    exact renderFinish_eq S acc c hS hm
  | cons m ms ih =>
    intro c acc hk hm
    obtain ⟨hcm, hm'⟩ := hm
    have hle := marksFrom_le ms m.m_pos hm'
    obtain ⟨lpDesc, hd⟩ := Option.isSome_iff_exists.1 (hk m (List.mem_cons_self _ _))
    simp only [LogStrToPhysStrLoop, hd, renderReference, replacementText_of_find hd]
    rw [ih m.m_pos _ (fun x hx => hk x (List.mem_cons_of_mem _ hx)) hm']
    rw [strMid_cast S (by omega) (by rw [subSz_of_le hcm (by omega)]; omega),
      subSz_of_le hcm (by omega)]
    simp

theorem renderReference_length (lpMap : List SubstDescr) (lpFn : SubstDescr → CString)
    (S : CString) : ∀ (ms : List CLogInfo) (c : Nat), marksFrom S.length c ms →
    (renderReference lpMap lpFn S c ms).length
      = (S.length - c) + (ms.map (fun m => (replacementText lpMap lpFn m.m_what).length)).sum := by
  intro ms
  induction ms with
  | nil => intro c _; simp [renderReference]
  | cons m ms ih =>
    intro c hm
    obtain ⟨hcm, hm'⟩ := hm
    have hle := marksFrom_le ms m.m_pos hm'
    simp only [renderReference, List.length_append, List.length_take, List.length_drop,
      List.map_cons, List.sum_cons, ih m.m_pos hm']
    omega

/-- C19. `LogStrToPhysStr` equals its reference definition: for logical data whose
markers reference mapped ids and do not decrease within the logical string `s` (a
`CString`), and for every callback `lpFn`, the result is
`s[0,pos_0) ++ lpFn(desc_0) ++ s[pos_0,pos_1) ++ ... ++ lpFn(desc_{n-1}) ++ s[pos_{n-1},len)`;
its length is `len(s)` plus the lengths of the callback results, and without markers it
is `s`. -/
theorem LogStrToPhysStr_reference (L : CSubstLogData) (lpFn : SubstDescr → CString)
    (hL : LogOk L) (hfit : L.m_logStr.length < INT_LIMIT) :
    LogStrToPhysStr L lpFn = renderReference L.m_map lpFn L.m_logStr 0 L.m_logList
    ∧ (LogStrToPhysStr L lpFn).length
        = L.m_logStr.length
          + (L.m_logList.map (fun m => (replacementText L.m_map lpFn m.m_what).length)).sum
    ∧ (L.m_logList = [] → LogStrToPhysStr L lpFn = L.m_logStr) := by
  obtain ⟨hk, hp, hb⟩ := hL
  have hm : marksFrom L.m_logStr.length 0 L.m_logList :=
    marksFrom_of_pairwise _ 0 (Nat.zero_le _) (fun m hm => ⟨Nat.zero_le _, hb m hm⟩) hp
  have h1 : LogStrToPhysStr L lpFn = renderReference L.m_map lpFn L.m_logStr 0 L.m_logList := by
    rw [LogStrToPhysStr_eq, render_reference L.m_map lpFn L.m_logStr hfit L.m_logList 0 [] hk hm]
    rfl
  refine ⟨h1, ?_, ?_⟩
  · rw [h1, renderReference_length L.m_map lpFn L.m_logStr L.m_logList 0 hm]
    omega
  · intro he
    rw [h1, he]
    rfl

/-- C19, witness: the logical text `"x<y in ."` with the field 1 at the logical position
7, rendered with a callback that gives `"#"` for every field. -/
theorem LogStrToPhysStr_reference_witness :
    (LogStrToPhysStr lessLog (fun _ => "#".toList)
        = renderReference lessLog.m_map (fun _ => "#".toList) lessLog.m_logStr 0
            lessLog.m_logList
      ∧ (LogStrToPhysStr lessLog (fun _ => "#".toList)).length
          = lessLog.m_logStr.length
            + (lessLog.m_logList.map
                (fun m => (replacementText lessLog.m_map (fun _ => "#".toList)
                  m.m_what).length)).sum
      ∧ (lessLog.m_logList = [] → LogStrToPhysStr lessLog (fun _ => "#".toList)
          = lessLog.m_logStr))
    ∧ LogStrToPhysStr lessLog (fun _ => "#".toList) = "x<y in #.".toList :=
  ⟨LogStrToPhysStr_reference lessLog (fun _ => "#".toList) (by decide) (by decide), by decide⟩

/-! ### C13: the physical part rebuilt from the logical part -/

/-- The field of index `i` starts at the logical position of its marker plus the lengths
of the display texts of the markers before it. -/
theorem items_index (lpMap : List SubstDescr) : ∀ (Y : List Item) (lo po i : Nat)
    (m : CLogInfo), (itemsMarks lo Y)[i]? = some m →
    (itemsFields lpMap po Y)[i]?
      = some { m_what := m.m_what,
               m_start := po + (m.m_pos - lo)
                 + (((itemsMarks lo Y).take i).map
                     (fun x => (fieldText lpMap x.m_what).length)).sum,
               m_end := po + (m.m_pos - lo)
                 + (((itemsMarks lo Y).take i).map
                     (fun x => (fieldText lpMap x.m_what).length)).sum
                 + (fieldText lpMap m.m_what).length } := by
  intro Y
  induction Y with
  | nil => intro lo po i m h; simp [itemsMarks] at h
  | cons x Y ih =>
    intro lo po i m h
    cases x with
    | ch c =>
      simp only [itemsMarks, itemsFields] at h ⊢
      have hb := (itemsMarks_bounds Y (lo + 1) m (List.getElem?_mem h)).1
      rw [ih (lo + 1) (po + 1) i m h]
      have e : po + 1 + (m.m_pos - (lo + 1)) = po + (m.m_pos - lo) := by omega
      rw [e]
    | fld w =>
      simp only [itemsMarks, itemsFields] at h ⊢
      cases i with
      | zero =>
        simp only [List.getElem?_cons_zero, Option.some.injEq] at h
        subst h
        simp
      | succ i =>
        simp only [List.getElem?_cons_succ] at h
        simp only [List.getElem?_cons_succ, List.take_succ_cons, List.map_cons, List.sum_cons]
        rw [ih lo (po + (fieldText lpMap w).length) i m h]
        have e : po + (fieldText lpMap w).length + (m.m_pos - lo)
              + (((itemsMarks lo Y).take i).map
                  (fun x => (fieldText lpMap x.m_what).length)).sum
            = po + (m.m_pos - lo) + ((fieldText lpMap w).length
              + (((itemsMarks lo Y).take i).map
                  (fun x => (fieldText lpMap x.m_what).length)).sum) := by omega
        rw [e]

theorem items_aligned (lpMap : List SubstDescr) : ∀ (Y : List Item) (lo po : Nat),
    (itemsFields lpMap po Y).map (fun f => f.m_what)
      = (itemsMarks lo Y).map (fun m => m.m_what) := by
  intro Y
  induction Y with
  | nil => intro _ _; rfl
  | cons x Y ih =>
    intro lo po
    cases x with
    | ch c => exact ih (lo + 1) (po + 1)
    | fld w => simp only [itemsFields, itemsMarks, List.map_cons, ih lo _]

/-- C13. Rebuild from logical data: for logical data `L` whose markers reference mapped
ids and do not decrease within the logical string (logical string and rendered text
within the range of a `CString`), `AssignPhysFromLog(L)` keeps the logical part, gives
a field sequence with the ids of the markers index by index, the field `i` having
`start = logicalPos_i + sum of the display-text lengths of the markers before i` and
`end = start + len(displayText_i)`; the physical string is `LogStr2PhysStr(L)`; the
spans do not overlap; and every span holds the display text of its field. -/
theorem AssignPhysFromLog_rebuild (L : CSubstLogData) (hL : LogOk L)
    (hfitL : L.m_logStr.length < INT_LIMIT)
    (hfit : (LogStr2PhysStr L).length < INT_LIMIT) :
    (AssignPhysFromLog L).toCSubstLogData = L
    ∧ (AssignPhysFromLog L).m_physlist.length = L.m_logList.length
    ∧ (AssignPhysFromLog L).m_physlist.map (fun f => f.m_what)
        = L.m_logList.map (fun m => m.m_what)
    ∧ (∀ (i : Nat) (m : CLogInfo), L.m_logList[i]? = some m →
        (AssignPhysFromLog L).m_physlist[i]?
          = some { m_what := m.m_what,
                   m_start := m.m_pos
                     + ((L.m_logList.take i).map
                         (fun x => (fieldText L.m_map x.m_what).length)).sum,
                   m_end := m.m_pos
                     + ((L.m_logList.take i).map
                         (fun x => (fieldText L.m_map x.m_what).length)).sum
                     + (fieldText L.m_map m.m_what).length })
    ∧ (AssignPhysFromLog L).m_physStr = LogStr2PhysStr L
    ∧ (AssignPhysFromLog L).m_physlist.Pairwise (fun f g => f.m_end ≤ g.m_start)
    ∧ (∀ f ∈ (AssignPhysFromLog L).m_physlist,
        ((AssignPhysFromLog L).m_physStr.drop f.m_start).take (f.m_end - f.m_start)
          = fieldText L.m_map f.m_what) := by
  obtain ⟨Y, hk, hY1, hY2⟩ := LogOk_items L hL
  have hrender : LogStr2PhysStr L = itemsPhys L.m_map Y := by
    rw [← LogStr2PhysStr_items L.m_map Y hk (by rw [hY1]; exact hfitL), hY1, hY2]
  rw [hrender] at hfit
  have hfields : (AssignPhysFromLog L).m_physlist = itemsFields L.m_map 0 Y := by
    simp only [AssignPhysFromLog]
    rw [← hY2, AppendAsPhysInfoLoop_items L.m_map Y 0 0 hk (by simpa using hfit)]
  have hstr : (AssignPhysFromLog L).m_physStr = itemsPhys L.m_map Y := by
    simp only [AssignPhysFromLog]; exact hrender
  have hal := items_aligned L.m_map Y 0 0
  refine ⟨rfl, ?_, ?_, ?_, ?_, ?_, ?_⟩
  · rw [hfields, ← hY2]
    have := congrArg List.length hal
    simpa using this
  · rw [hfields, ← hY2]; exact hal
  · intro i m hm
    rw [hfields]
    rw [← hY2] at hm ⊢
    have := items_index L.m_map Y 0 0 i m hm
    simpa using this
  · rfl
  · rw [hfields]; exact itemsFields_pairwise L.m_map Y 0
  · intro f hf
    rw [hfields] at hf
    rw [hstr]
    have h1 := itemsFields_text L.m_map Y 0 f hf
    have h2 := (itemsFields_bounds L.m_map Y 0 f hf).2.1
    have e : f.m_end - f.m_start = (fieldText L.m_map f.m_what).length := by omega
    rw [e]
    simpa using h1

/-- C13, witness: the logical data `("x<y in .", [{1, 7}])` over `{1: "<Year>"}` is rebuilt
to the physical string `"x<y in <Year>."` with the field `{1, 7, 13}`. -/
theorem AssignPhysFromLog_rebuild_witness :
    ((AssignPhysFromLog lessLog).toCSubstLogData = lessLog
      ∧ (AssignPhysFromLog lessLog).m_physlist.length = lessLog.m_logList.length
      ∧ (AssignPhysFromLog lessLog).m_physlist.map (fun f => f.m_what)
          = lessLog.m_logList.map (fun m => m.m_what)
      ∧ (∀ (i : Nat) (m : CLogInfo), lessLog.m_logList[i]? = some m →
          (AssignPhysFromLog lessLog).m_physlist[i]?
            = some { m_what := m.m_what,
                     m_start := m.m_pos
                       + ((lessLog.m_logList.take i).map
                           (fun x => (fieldText lessLog.m_map x.m_what).length)).sum,
                     m_end := m.m_pos
                       + ((lessLog.m_logList.take i).map
                           (fun x => (fieldText lessLog.m_map x.m_what).length)).sum
                       + (fieldText lessLog.m_map m.m_what).length })
      ∧ (AssignPhysFromLog lessLog).m_physStr = LogStr2PhysStr lessLog
      ∧ (AssignPhysFromLog lessLog).m_physlist.Pairwise (fun f g => f.m_end ≤ g.m_start)
      ∧ (∀ f ∈ (AssignPhysFromLog lessLog).m_physlist,
          ((AssignPhysFromLog lessLog).m_physStr.drop f.m_start).take (f.m_end - f.m_start)
            = fieldText lessLog.m_map f.m_what))
    ∧ (AssignPhysFromLog lessLog).m_physStr = "x<y in <Year>.".toList
    ∧ (AssignPhysFromLog lessLog).m_physlist = [{ m_what := 1, m_start := 7, m_end := 13 }] :=
  ⟨AssignPhysFromLog_rebuild lessLog (by decide) (by decide) (by decide), by decide, by decide⟩

/-! ### C20: `PhysPos2LogPos` -/

theorem subSz_modEq (a b : Nat) :
    ((subSz a b : Nat) : Int) % (SIZE_MOD : Int) = ((a : Int) - (b : Int)) % (SIZE_MOD : Int) := by
  unfold subSz SIZE_MOD
  omega

theorem GetLength_modEq (f : CPhysInfo) :
    ((f.GetLength : Nat) : Int) % (SIZE_MOD : Int)
      = ((f.m_end : Int) - (f.m_start : Int)) % (SIZE_MOD : Int) :=
  subSz_modEq _ _

theorem PhysPos2LogPos_fold_modEq (ph : Nat) : ∀ (l : List CPhysInfo) (r : Nat),
    ((l.foldl (fun result lpTmp =>
        if lpTmp.m_end ≤ ph then subSz result lpTmp.GetLength else result) r : Nat) : Int)
        % (SIZE_MOD : Int)
      = ((r : Int) - ((l.filter (fun f => decide (f.m_end ≤ ph))).map
          (fun f => (f.m_end : Int) - (f.m_start : Int))).sum) % (SIZE_MOD : Int) := by
  intro l
  induction l with
  | nil => intro r; simp
  | cons f l ih =>
    intro r
    simp only [List.foldl_cons]
    by_cases h : f.m_end ≤ ph
    · rw [if_pos h, ih]
      simp only [List.filter_cons, h, decide_True, if_true, List.map_cons, List.sum_cons]
      have h1 := subSz_modEq r f.GetLength
      have h2 := GetLength_modEq f
      have e : ((r : Int) - ((f.m_end : Int) - (f.m_start : Int)
            + ((l.filter (fun f => decide (f.m_end ≤ ph))).map
                (fun f => (f.m_end : Int) - (f.m_start : Int))).sum))
          = ((r : Int) - ((f.m_end : Int) - (f.m_start : Int)))
            - ((l.filter (fun f => decide (f.m_end ≤ ph))).map
                (fun f => (f.m_end : Int) - (f.m_start : Int))).sum := by ring
      rw [e]
      have h3 : Int.ModEq (SIZE_MOD : Int) ((subSz r f.GetLength : Nat) : Int)
          ((r : Int) - ((f.m_end : Int) - (f.m_start : Int))) :=
        Int.ModEq.trans h1 (Int.ModEq.sub (Int.ModEq.refl _) h2)
      exact Int.ModEq.sub h3 (Int.ModEq.refl _)
    · rw [if_neg h, ih]
      simp [List.filter_cons, h]


theorem free_count (lpMap : List SubstDescr) : ∀ (A : List Item) (po : Nat),
    ((List.range' po (itemsPhys lpMap A).length).filter
      (fun i => (itemsFields lpMap po A).all
        (fun f => !(decide (f.m_start ≤ i) && decide (i < f.m_end))))).length
      = (itemsLog A).length := by
  intro A
  induction A with
  | nil => intro po; simp [itemsPhys, itemsLog]
  | cons x A ih =>
    intro po
    cases x with
    | ch c =>
      simp only [itemsPhys, itemsFields, itemsLog, List.length_cons, List.range'_succ]
      have hfree : (itemsFields lpMap (po + 1) A).all
          (fun f => !(decide (f.m_start ≤ po) && decide (po < f.m_end))) = true := by
        rw [List.all_eq_true]
        intro f hf
        have := (itemsFields_bounds lpMap A (po + 1) f hf).1
        simp; omega
      rw [List.filter_cons, if_pos hfree, List.length_cons, ih (po + 1)]
    | fld w =>
      simp only [itemsPhys, itemsFields, itemsLog, List.length_append, List.all_cons]
      rw [Nat.add_comm (fieldText lpMap w).length (itemsPhys lpMap A).length,
        ← List.range'_append_1 po (fieldText lpMap w).length (itemsPhys lpMap A).length,
        List.filter_append, List.length_append]
      have h1 : (List.range' po (fieldText lpMap w).length).filter
          (fun i => (!(decide (po ≤ i) && decide (i < po + (fieldText lpMap w).length))
            && (itemsFields lpMap (po + (fieldText lpMap w).length) A).all
              (fun f => !(decide (f.m_start ≤ i) && decide (i < f.m_end))))) = [] := by
        rw [List.filter_eq_nil_iff]
        intro i hi
        rw [List.mem_range'_1] at hi
        simp; intro h; omega
      have h2 : (List.range' (po + (fieldText lpMap w).length) (itemsPhys lpMap A).length).filter
          (fun i => (!(decide (po ≤ i) && decide (i < po + (fieldText lpMap w).length))
            && (itemsFields lpMap (po + (fieldText lpMap w).length) A).all
              (fun f => !(decide (f.m_start ≤ i) && decide (i < f.m_end)))))
          = (List.range' (po + (fieldText lpMap w).length) (itemsPhys lpMap A).length).filter
              (fun i => (itemsFields lpMap (po + (fieldText lpMap w).length) A).all
                (fun f => !(decide (f.m_start ≤ i) && decide (i < f.m_end)))) := by
        apply List.filter_congr
        intro i hi
        rw [List.mem_range'_1] at hi
        have : decide (i < po + (fieldText lpMap w).length) = false := by simp; omega
        simp [this]
      rw [h1, h2, ih]
      simp

theorem plainBefore_conc (lpMap : List SubstDescr) (A B : List Item) :
    plainBefore (conc lpMap (A ++ B)) (itemsPhys lpMap A).length = (itemsLog A).length := by
  unfold plainBefore
  simp only [conc, itemsFields_append, Nat.zero_add, List.all_append, List.range_eq_range']
  rw [← free_count lpMap A 0]
  congr 1
  apply List.filter_congr
  intro i hi
  rw [List.mem_range'_1] at hi
  have : (itemsFields lpMap (itemsPhys lpMap A).length B).all
      (fun f => !(decide (f.m_start ≤ i) && decide (i < f.m_end))) = true := by
    rw [List.all_eq_true]
    intro f hf
    have := (itemsFields_bounds lpMap B _ f hf).1
    simp; omega
  rw [this, Bool.and_true]

theorem fields_sum (lpMap : List SubstDescr) : ∀ (A : List Item) (po : Nat),
    ((itemsFields lpMap po A).map (fun f => (f.m_end : Int) - (f.m_start : Int))).sum
      = ((itemsPhys lpMap A).length : Int) - ((itemsLog A).length : Int) := by
  intro A
  induction A with
  | nil => intro po; simp [itemsFields, itemsPhys, itemsLog]
  | cons x A ih =>
    intro po
    cases x with
    | ch c =>
      simp only [itemsFields, itemsPhys, itemsLog, List.length_cons, ih (po + 1)]
      push_cast; ring
    | fld w =>
      simp only [itemsFields, itemsPhys, itemsLog, List.length_append, List.map_cons,
        List.sum_cons, ih]
      push_cast; ring

theorem filter_sum_zero {α : Type} (p : α → Bool) (g : α → Int) : ∀ (l : List α),
    (∀ x ∈ l, p x = true → g x = 0) → ((l.filter p).map g).sum = 0 := by
  intro l
  induction l with
  | nil => intro _; rfl
  | cons x l ih =>
    intro h
    rw [List.filter_cons]
    split
    · rename_i hp
      rw [List.map_cons, List.sum_cons, h x (List.mem_cons_self _ _) hp,
        ih (fun y hy => h y (List.mem_cons_of_mem _ hy))]
      rfl
    · exact ih (fun y hy => h y (List.mem_cons_of_mem _ hy))

theorem lengthsBefore_conc (lpMap : List SubstDescr) (A B : List Item) :
    lengthsBefore (conc lpMap (A ++ B)) (itemsPhys lpMap A).length
      = ((itemsPhys lpMap A).length : Int) - ((itemsLog A).length : Int) := by
  unfold lengthsBefore
  simp only [conc, itemsFields_append, Nat.zero_add, List.filter_append, List.map_append,
    List.sum_append]
  have h1 : (itemsFields lpMap 0 A).filter (fun f => decide (f.m_end ≤ (itemsPhys lpMap A).length))
      = itemsFields lpMap 0 A := by
    rw [List.filter_eq_self]
    intro f hf
    have := (itemsFields_bounds lpMap A 0 f hf).2.2
    simp; omega
  rw [h1, fields_sum lpMap A 0]
  rw [filter_sum_zero _ _ (itemsFields lpMap (itemsPhys lpMap A).length B)]
  · simp
  · intro f hf hp
    obtain ⟨h2, h3, _⟩ := itemsFields_bounds lpMap B _ f hf
    have hp' : f.m_end ≤ (itemsPhys lpMap A).length := by simpa using hp
    omega

/-! ### C16: `DeleteOneInfo` -/

/-- The field of index `i` of a document cuts it in two. -/
theorem split_at_field (lpMap : List SubstDescr) : ∀ (X : List Item) (po i : Nat)
    (f : CPhysInfo), (itemsFields lpMap po X)[i]? = some f →
    ∃ (A : List Item) (w : Nat) (B : List Item), X = A ++ Item.fld w :: B
      ∧ (itemsFields lpMap po A).length = i
      ∧ f = { m_what := w, m_start := po + (itemsPhys lpMap A).length,
              m_end := po + (itemsPhys lpMap A).length + (fieldText lpMap w).length } := by
  intro X
  induction X with
  | nil => intro po i f h; simp [itemsFields] at h
  | cons x X ih =>
    intro po i f h
    cases x with
    | ch c =>
      simp only [itemsFields] at h
      obtain ⟨A, w, B, hX, hi, hf⟩ := ih (po + 1) i f h
      refine ⟨Item.ch c :: A, w, B, by rw [hX]; rfl, by simpa [itemsFields] using hi, ?_⟩
      rw [hf]
      simp only [itemsPhys, List.length_cons]
      have e : po + 1 + (itemsPhys lpMap A).length = po + ((itemsPhys lpMap A).length + 1) := by
        omega
      rw [e]
    | fld v =>
      simp only [itemsFields] at h
      cases i with
      | zero =>
        simp only [List.getElem?_cons_zero, Option.some.injEq] at h
        exact ⟨[], v, X, rfl, rfl, by rw [← h]; simp [itemsPhys]⟩
      | succ i =>
        simp only [List.getElem?_cons_succ] at h
        obtain ⟨A, w, B, hX, hi, hf⟩ := ih _ i f h
        refine ⟨Item.fld v :: A, w, B, by rw [hX]; rfl, by simpa [itemsFields] using hi, ?_⟩
        rw [hf]
        simp only [itemsPhys, List.length_append]
        have e : po + (fieldText lpMap v).length + (itemsPhys lpMap A).length
            = po + ((fieldText lpMap v).length + (itemsPhys lpMap A).length) := by omega
        rw [e]

/-- C16, counterexample: the data `echoDoc` meet the four listed conditions, the display
text is non-empty, and the field `[0, 2)` has the index 0; `DeleteOneInfo` returns TRUE and
leaves the physical string `"Xab"`, while `LogStr2PhysStr` of the new logical part (`"abX"`
without marker) is `"abX"`.  The marker of `echoDoc`
is well formed, and it is not stored at the logical position of its field. -/
theorem DeleteOneInfo_listed_counterexample :
    ListedConsistent echoDoc ∧ LogOk echoDoc.toCSubstLogData
    ∧ ¬ MarkersAtFields echoDoc ∧ ¬ Consistent echoDoc ∧ NonEmptyTexts echoDoc.m_map
    ∧ echoDoc.m_physlist[0]? = some { m_what := 1, m_start := 0, m_end := 2 }
    ∧ (DeleteOneInfo echoDoc 0).map
        (fun r => (r.1.m_physStr, LogStr2PhysStr r.1.toCSubstLogData, r.2))
      = some ("Xab".toList, "abX".toList, true)
    ∧ "Xab".toList ≠ "abX".toList := by
  decide

/-- C16 (amended). DeleteField: on consistent physical data in the sense of `Consistent`
(the markers have mapped ids and do not decrease within the logical string, and the fields
and the physical string are the ones `AssignPhysFromLog` rebuilds from the logical part)
over a map with non-empty display
texts, for the field `f` of index `i`, `DeleteOneInfo` returns TRUE, removes the index `i`
from the physical and from the marker sequence, moves start and end of exactly the
fields with `start >= f.start` left by `len(f)`, cuts `[f.start, f.end)` out of the
physical string, leaves the logical string and the logical positions of the other
markers unchanged, and the result is consistent (its physical string is
`LogStr2PhysStr` of the logical part); for every physical data and every index outside the
sequence (a field that is not in it, or a null field) it returns FALSE and changes
nothing. -/
theorem DeleteOneInfo_effect (d : CSubstPhysData) :
    (Consistent d → NonEmptyTexts d.m_map →
      ∀ (i : Nat) (f : CPhysInfo), d.m_physlist[i]? = some f →
      ∃ d', DeleteOneInfo d i = some (d', true)
        ∧ d'.m_physlist = (d.m_physlist.eraseIdx i).map
            (fun g => if g.m_start ≥ f.m_start then g.shiftBack (f.m_end - f.m_start) else g)
        ∧ d'.m_logList = d.m_logList.eraseIdx i
        ∧ d'.m_physStr = d.m_physStr.take f.m_start ++ d.m_physStr.drop f.m_end
        ∧ d'.m_logStr = d.m_logStr ∧ d'.m_map = d.m_map
        ∧ d'.m_physStr = LogStr2PhysStr d'.toCSubstLogData
        ∧ Consistent d')
    ∧ (∀ j, d.m_physlist.length ≤ j → DeleteOneInfo d j = some (d, false)) := by
  constructor
  · intro hc hne i f hf
    obtain ⟨X, hk, hX⟩ := Consistent_items d hc
    have hfit : d.m_physStr.length < INT_LIMIT := hc.2.2.1
    generalize d.m_map = lpMap at hk hX hne
    subst hX
    obtain ⟨A, w, B, rfl, hi, hfe⟩ := split_at_field lpMap X 0 i f hf
    subst hi
    obtain ⟨hkA, hkB⟩ := itemsKnown_append.1 hk
    have htight : Tight lpMap A := Tight_of_nonEmpty hne hkA
    have hfit' : (itemsPhys lpMap (A ++ Item.fld w :: B)).length < INT_LIMIT := hfit
    have hfit2 := hfit'
    simp only [itemsPhys_append, itemsPhys, List.length_append] at hfit2
    have hk' : itemsKnown lpMap (A ++ B) :=
      itemsKnown_append.2 ⟨hkA, (itemsKnown_cons_fld.1 hkB).2⟩
    have hcons : Consistent (conc lpMap (A ++ B)) := by
      apply conc_Consistent lpMap _ hk'
      simp only [itemsPhys_append, List.length_append]; omega
    simp only [Nat.zero_add] at hfe
    refine ⟨conc lpMap (A ++ B), DeleteOneInfo_conc lpMap A B w htight hfit', ?_, ?_, ?_,
      by simp [conc, itemsLog], rfl, hcons.2.2.2.2, hcons⟩
    · simp only [conc, itemsFields_append, itemsFields, Nat.zero_add]
      rw [eraseIdx_append_length, List.map_append]
      congr 1
      · conv => lhs; rw [← List.map_id (itemsFields lpMap 0 A)]
        apply List.map_congr_left
        intro g hg
        have := htight g hg
        rw [hfe]
        simp only [id]
        rw [if_neg (by simp; omega)]
      · have e := itemsFields_shift lpMap B (itemsPhys lpMap A).length (fieldText lpMap w).length
        rw [e, List.map_map]
        conv => lhs; rw [← List.map_id (itemsFields lpMap (itemsPhys lpMap A).length B)]
        apply List.map_congr_left
        intro g hg
        have := (itemsFields_bounds lpMap B _ g hg).1
        rw [hfe]
        simp only [Function.comp, id]
        rw [if_pos (by simp; omega)]
        simp only [CPhysInfo.shiftBack]
        cases g
        simp
    · simp only [conc, itemsMarks_append, itemsMarks, Nat.zero_add]
      rw [← itemsMarks_length lpMap A 0 0, eraseIdx_append_length]
    · rw [hfe]
      simp only [conc, itemsPhys_append, itemsPhys]
      rw [List.take_left, ← List.append_assoc, ← List.length_append, List.drop_left]
  · intro j hj
    unfold DeleteOneInfo
    rw [List.getElem?_eq_none hj]

/-- C16, witness: deleting the only field of `"<Year>"` gives the empty document; the
index 1, which is outside the sequence, is refused. -/
theorem DeleteOneInfo_effect_witness :
    Consistent yearFieldDoc ∧ NonEmptyTexts yearFieldDoc.m_map
    ∧ (∃ d', DeleteOneInfo yearFieldDoc 0 = some (d', true)
        ∧ d'.m_physlist = (yearFieldDoc.m_physlist.eraseIdx 0).map
            (fun g => if g.m_start ≥ 0 then g.shiftBack (6 - 0) else g)
        ∧ d'.m_logList = yearFieldDoc.m_logList.eraseIdx 0
        ∧ d'.m_physStr = yearFieldDoc.m_physStr.take 0 ++ yearFieldDoc.m_physStr.drop 6
        ∧ d'.m_logStr = yearFieldDoc.m_logStr ∧ d'.m_map = yearFieldDoc.m_map
        ∧ d'.m_physStr = LogStr2PhysStr d'.toCSubstLogData
        ∧ Consistent d')
    ∧ DeleteOneInfo yearFieldDoc 1 = some (yearFieldDoc, false)
    ∧ DeleteOneInfo yearFieldDoc 0 = some (yearDoc, true) :=
  ⟨by decide, by decide,
    (DeleteOneInfo_effect yearFieldDoc).1 (by decide) (by decide) 0
      { m_what := 1, m_start := 0, m_end := 6 } (by decide),
    (DeleteOneInfo_effect yearFieldDoc).2 1 (by decide), by decide⟩

/-! ### C17: the spans after `InsertNewInfo` -/

theorem PhysStr2logStr_eq (d : CSubstPhysData) :
    PhysStr2logStr d
      = exportFinish d.m_physStr (PhysStr2logStrLoop d.m_map d.m_physStr d.m_physlist 0 []) :=
  rfl

theorem exportFinish_eq (S acc : CString) (c : Nat) (hS : S.length < INT_LIMIT)
    (hc : c ≤ S.length) : exportFinish S (acc, c) = acc ++ S.drop c :=
  renderFinish_eq S acc c hS hc

theorem export_items (lpMap : List SubstDescr) (S : CString) (hS : S.length < INT_LIMIT) :
    ∀ (X : List Item) (po c : Nat) (acc rest : CString), itemsKnown lpMap X → c ≤ po →
      po ≤ S.length → S.drop po = itemsPhys lpMap X ++ rest →
      exportFinish S (PhysStr2logStrLoop lpMap S (itemsFields lpMap po X) c acc)
        = acc ++ (S.drop c).take (po - c) ++ itemsLog X ++ rest := by
  intro X
  induction X with
  | nil =>
    intro po c acc rest _ hc hpo hdrop
    simp only [itemsFields, PhysStr2logStrLoop, itemsLog, itemsPhys, List.nil_append,
      List.append_nil] at hdrop ⊢
    rw [exportFinish_eq S acc c hS (by omega), ← hdrop, List.append_assoc]
    congr 1
    have : S.drop po = (S.drop c).drop (po - c) := by
      rw [List.drop_drop]; congr 1; omega
    rw [this, List.take_append_drop]
  | cons x X ih =>
    intro po c acc rest hk hc hpo hdrop
    cases x with
    | ch a =>
      simp only [itemsFields, itemsLog, itemsPhys, List.cons_append] at hdrop ⊢
      have hlt : po < S.length := by
        by_contra hcon
        have : S.drop po = [] := List.drop_eq_nil_of_le (by omega)
        rw [this] at hdrop; cases hdrop
      have h1 := List.drop_eq_getElem_cons hlt
      rw [h1] at hdrop
      have hget : S[po] = a := (List.cons.inj hdrop).1
      have hdrop1 : S.drop (po + 1) = itemsPhys lpMap X ++ rest := (List.cons.inj hdrop).2
      rw [ih (po + 1) c acc rest (itemsKnown_cons_ch.1 hk) (by omega) (by omega) hdrop1]
      have e : po + 1 - c = (po - c) + 1 := by omega
      have hlt2 : po - c < (S.drop c).length := by simp; omega
      rw [e, List.take_succ, List.getElem?_eq_getElem hlt2]
      have : (S.drop c)[po - c] = a := by
        rw [List.getElem_drop]
        have : c + (po - c) = po := by omega
        simp only [this, hget]
      simp [this]
    | fld w =>
      obtain ⟨hw, hk'⟩ := itemsKnown_cons_fld.1 hk
      obtain ⟨lpDesc, hd⟩ := Option.isSome_iff_exists.1 hw
      simp only [itemsFields, itemsLog, itemsPhys, PhysStr2logStrLoop, hd] at hdrop ⊢
      have hlen : po + (fieldText lpMap w).length ≤ S.length := by
        have := congrArg List.length hdrop
        simp only [List.length_drop, List.length_append] at this
        omega
      have hdrop1 : S.drop (po + (fieldText lpMap w).length) = itemsPhys lpMap X ++ rest := by
        rw [← List.drop_drop, hdrop, List.append_assoc, List.drop_left]
      rw [ih (po + (fieldText lpMap w).length) (po + (fieldText lpMap w).length) _ rest hk'
        (le_refl _) hlen hdrop1]
      by_cases hlt : c < po
      · rw [if_pos hlt, strMid_cast S (by omega) (by rw [subSz_of_le hc (by omega)]; omega),
          subSz_of_le hc (by omega)]
        simp
      · have : po - c = 0 := by omega
        rw [if_neg hlt, this]
        simp

/-- The logical string recovered from the physical part of a sequence of items. -/
theorem PhysStr2logStr_conc (lpMap : List SubstDescr) (X : List Item)
    (hk : itemsKnown lpMap X) (hfit : (itemsPhys lpMap X).length < INT_LIMIT) :
    PhysStr2logStr (conc lpMap X) = itemsLog X := by
  rw [PhysStr2logStr_eq]
  simp only [conc]
  rw [export_items lpMap (itemsPhys lpMap X) hfit X 0 0 [] [] hk (le_refl _) (Nat.zero_le _)
    (by simp)]
  simp

/-- The loop of `ExportLogListSel` over the fields of the part `M` of a document. -/
theorem ExportLogListLoop_conc (lpMap : List SubstDescr) :
    ∀ (M P Q : List Item) (suma lo : Nat) (out : List CLogInfo),
    itemsKnown lpMap M → suma + lo = (itemsPhys lpMap P).length →
    (itemsPhys lpMap (P ++ (M ++ Q))).length < INT_LIMIT →
    ExportLogListLoop (conc lpMap (P ++ (M ++ Q)))
        (List.range' (itemsFields lpMap 0 P).length (itemsFields lpMap 0 M).length) suma out
      = some (out ++ itemsMarks lo M) := by
  intro M
  induction M with
  | nil => intro P Q suma lo out _ _ _; simp [itemsFields, itemsMarks, ExportLogListLoop]
  | cons x M ih =>
    intro P Q suma lo out hk hs hfit
    have hlenM : ∀ po, (itemsFields lpMap po M).length = (itemsFields lpMap 0 M).length := by
      intro po
      rw [← itemsMarks_length lpMap M 0 po, itemsMarks_length lpMap M 0 0]
    cases x with
    | ch c =>
      have e : P ++ (Item.ch c :: M ++ Q) = (P ++ [Item.ch c]) ++ (M ++ Q) := by simp
      have h := ih (P ++ [Item.ch c]) Q suma (lo + 1) out (itemsKnown_cons_ch.1 hk)
        (by simp only [itemsPhys_append, itemsPhys, List.length_append, List.length_cons,
              List.length_nil]; omega)
        (by rw [← e]; exact hfit)
      rw [e]
      simp only [itemsFields_append, itemsFields, List.append_nil, itemsMarks] at h ⊢
      rw [hlenM]
      exact h
    | fld w =>
      obtain ⟨hw, hk'⟩ := itemsKnown_cons_fld.1 hk
      obtain ⟨lpDesc, hd⟩ := Option.isSome_iff_exists.1 hw
      have hT := fieldText_of_find hd
      have hfit2 := hfit
      simp only [List.cons_append, itemsPhys_append, itemsPhys, List.length_append, hT] at hfit2
      have e : P ++ (Item.fld w :: M ++ Q) = (P ++ [Item.fld w]) ++ (M ++ Q) := by simp
      have h := ih (P ++ [Item.fld w]) Q (suma + lpDesc.lpTxt.length) lo
        (out ++ [{ m_what := w, m_pos := lo }]) hk'
        (by simp only [itemsPhys_append, itemsPhys, List.length_append, List.append_nil, hT]
            omega)
        (by rw [← e]; exact hfit)
      rw [← e] at h
      simp only [itemsFields_append, itemsFields, List.length_append, List.length_cons,
        List.length_nil, Nat.zero_add] at h
      simp only [itemsFields, List.length_cons, hlenM, itemsMarks]
      rw [List.range'_succ, ExportLogListLoop]
      have hget1 : (conc lpMap (P ++ (Item.fld w :: M ++ Q))).m_physlist[(itemsFields lpMap 0 P).length]?
          = some { m_what := w, m_start := (itemsPhys lpMap P).length,
                   m_end := (itemsPhys lpMap P).length + (fieldText lpMap w).length } := by
        simp only [conc, List.cons_append, itemsFields_append, itemsFields, Nat.zero_add]
        exact getElem?_append_length _ _ _
      have hget2 : (conc lpMap (P ++ (Item.fld w :: M ++ Q))).m_logList[(itemsFields lpMap 0 P).length]?
          = some { m_what := w, m_pos := (itemsLog P).length } := by
        rw [← itemsMarks_length lpMap P 0 0]
        simp only [conc, List.cons_append, itemsMarks_append, itemsMarks, Nat.zero_add]
        exact getElem?_append_length _ _ _
      rw [hget1, hget2]
      have hmap : (conc lpMap (P ++ (Item.fld w :: M ++ Q))).m_map = lpMap := rfl
      simp only [hmap, hd]
      rw [addSz_of_lt (by omega), subSz_of_le (by omega) (by omega)]
      have e2 : (itemsPhys lpMap P).length - suma = lo := by omega
      rw [e2, hlenM] at *
      rw [h]
      simp

/-- The fields of empty display text that begin a sequence of items. -/
theorem split_leading (lpMap : List SubstDescr) : ∀ (B : List Item) (po : Nat),
    ∃ Z B', B = Z ++ B' ∧ itemsPhys lpMap Z = [] ∧ itemsLog Z = []
      ∧ ∀ f ∈ itemsFields lpMap po B', po < f.m_end := by
  intro B
  induction B with
  | nil => intro po; exact ⟨[], [], rfl, rfl, rfl, by simp [itemsFields]⟩
  | cons x B ih =>
    intro po
    cases x with
    | ch c =>
      refine ⟨[], Item.ch c :: B, rfl, rfl, rfl, ?_⟩
      intro f hf
      simp only [itemsFields] at hf
      obtain ⟨h1, h2, _⟩ := itemsFields_bounds lpMap B _ f hf
      omega
    | fld w =>
      by_cases h0 : fieldText lpMap w = []
      · obtain ⟨Z, B', hB, hz1, hz2, hf⟩ := ih po
        exact ⟨Item.fld w :: Z, B', by rw [hB]; rfl, by simp [itemsPhys, h0, hz1],
          by simp [itemsLog, hz2], hf⟩
      · refine ⟨[], Item.fld w :: B, rfl, rfl, rfl, ?_⟩
        have hpos : 0 < (fieldText lpMap w).length := List.length_pos.2 h0
        intro f hf
        simp only [itemsFields, List.mem_cons] at hf
        rcases hf with rfl | hf
        · simp only; omega
        · obtain ⟨h1, h2, _⟩ := itemsFields_bounds lpMap B _ f hf
          omega

/-- A selection whose ends are not strictly inside a field cuts a document in three; the
middle part holds every field that lies wholly inside the selection. -/
theorem conc_split_sel (lpMap : List SubstDescr) (X : List Item) (start endPos : Nat)
    (hse : start ≤ endPos) (hend : endPos ≤ (conc lpMap X).m_physStr.length)
    (hin1 : NotInside (conc lpMap X) start) (hin2 : NotInside (conc lpMap X) endPos) :
    ∃ A M B, X = A ++ (M ++ B) ∧ (itemsPhys lpMap A).length = start
      ∧ (itemsPhys lpMap A).length + (itemsPhys lpMap M).length = endPos
      ∧ (∀ f ∈ itemsFields lpMap 0 A, f.m_start < start)
      ∧ (∀ f ∈ itemsFields lpMap endPos B, endPos < f.m_end) := by
  obtain ⟨A, R, hX, hw, htA⟩ := split_at_pos lpMap X 0 start (Nat.zero_le _)
    (by simp only [conc] at hend; omega) hin1
  subst hX
  simp only [Nat.zero_add] at hw
  have hin2' : ∀ f ∈ itemsFields lpMap start R, ¬ (f.m_start < endPos ∧ endPos < f.m_end) := by
    intro f hf
    apply hin2 f
    simp only [conc, itemsFields_append, List.mem_append, Nat.zero_add, hw]
    exact Or.inr hf
  obtain ⟨M, B, hR, hw2, _⟩ := split_at_pos lpMap R start endPos hse
    (by simp only [conc, itemsPhys_append, List.length_append] at hend; omega) hin2'
  obtain ⟨Z, B', hB, hz1, hz2, hfB⟩ := split_leading lpMap B endPos
  refine ⟨A, M ++ Z, B', by rw [hR, hB, List.append_assoc], hw, ?_, htA, hfB⟩
  simp only [itemsPhys_append, hz1, List.append_nil]
  omega

theorem FindAllThatFrom_none {α : Type} (lpFn : α → Bool) : ∀ (l : List α) (ii : Nat),
    (∀ x ∈ l, lpFn x = false) → FindAllThatFrom lpFn l ii = [] := by
  intro l
  induction l with
  | nil => intro _ _; rfl
  | cons x l ih =>
    intro ii h
    simp only [FindAllThatFrom, h x (List.mem_cons_self _ _), Bool.false_eq_true, if_false]
    exact ih (ii + 1) (fun y hy => h y (List.mem_cons_of_mem _ hy))

theorem FindAllThatFrom_all {α : Type} (lpFn : α → Bool) (l3 : List α)
    (h3 : ∀ x ∈ l3, lpFn x = false) : ∀ (l2 : List α) (ii : Nat),
    (∀ x ∈ l2, lpFn x = true) → FindAllThatFrom lpFn (l2 ++ l3) ii = List.range' ii l2.length := by
  intro l2
  induction l2 with
  | nil => intro ii _; simpa using FindAllThatFrom_none lpFn l3 ii h3
  | cons x l ih =>
    intro ii h
    rw [List.cons_append]
    simp only [FindAllThatFrom, h x (List.mem_cons_self _ _), if_true,
      List.length_cons, List.range'_succ]
    rw [ih (ii + 1) (fun y hy => h y (List.mem_cons_of_mem _ hy))]

theorem FindAllThatFrom_segments {α : Type} (lpFn : α → Bool) (l2 l3 : List α)
    (h2 : ∀ x ∈ l2, lpFn x = true) (h3 : ∀ x ∈ l3, lpFn x = false) :
    ∀ (l1 : List α) (ii : Nat), (∀ x ∈ l1, lpFn x = false) →
    FindAllThatFrom lpFn (l1 ++ (l2 ++ l3)) ii = List.range' (ii + l1.length) l2.length := by
  intro l1
  induction l1 with
  | nil => intro ii _; simpa using FindAllThatFrom_all lpFn l3 h3 l2 ii h2
  | cons x l ih =>
    intro ii h
    rw [List.cons_append]
    simp only [FindAllThatFrom, h x (List.mem_cons_self _ _),
      Bool.false_eq_true, if_false, List.length_cons]
    rw [ih (ii + 1) (fun y hy => h y (List.mem_cons_of_mem _ hy))]
    congr 1; omega

theorem zip_items_renumber (lpMap : List SubstDescr) : ∀ (M : List Item) (lo k po : Nat),
    (List.zip (itemsMarks (lo + k) M) (itemsFields lpMap po M)).map
        (fun mf => ({ m_what := mf.2.m_what, m_pos := mf.1.m_pos - lo } : CLogInfo))
      = itemsMarks k M := by
  intro M
  induction M with
  | nil => intro _ _ _; rfl
  | cons x M ih =>
    intro lo k po
    cases x with
    | ch c =>
      simp only [itemsMarks, itemsFields]
      exact ih lo (k + 1) (po + 1)
    | fld w =>
      simp only [itemsMarks, itemsFields, List.zip_cons_cons, List.map_cons, ih lo k _]
      congr 2
      omega

/-! ### C15: the export of the whole document -/

/-- The export of consistent data is their logical part. -/
theorem ExportLogAll_consistent (d : CSubstPhysData) (logData : CSubstLogData)
    (hc : Consistent d) : ExportLogAll d logData = some d.toCSubstLogData := by
  obtain ⟨X, hk, hX⟩ := Consistent_items d hc
  have hfit : d.m_physStr.length < INT_LIMIT := hc.2.2.1
  generalize d.m_map = lpMap at hk hX
  subst hX
  have hloop := ExportLogListLoop_conc lpMap X [] [] 0 0 [] hk rfl
    (by simpa [conc] using hfit)
  simp only [List.nil_append, List.append_nil, itemsFields, List.length_nil] at hloop
  unfold ExportLogAll ExportLogListAll ExportLogListSel
  simp only [CSubstLogData.Clear, CSubstLogData.DeleteContents, List.range_eq_range']
  have hl : (conc lpMap X).m_physlist.length = (itemsFields lpMap 0 X).length := rfl
  rw [hl, hloop]
  simp only
  rw [PhysStr2logStr_conc lpMap X hk (by simpa [conc] using hfit)]
  rfl

/-- C15, counterexample: the data `echoDoc` meet the four listed conditions; their
logical string is `"abX"` and their marker `{1, 3}`, and `ExportLogAll` produces the
logical string `"Xab"` and the marker `{1, 0}`: the positions recomputed from the
physical spans are not the stored ones.  The marker of `echoDoc`
is well formed, and it is not stored at the logical position of its field. -/
theorem ExportLogAll_listed_counterexample :
    ListedConsistent echoDoc ∧ LogOk echoDoc.toCSubstLogData
    ∧ ¬ MarkersAtFields echoDoc ∧ ¬ Consistent echoDoc
    ∧ ExportLogAll echoDoc { m_logStr := [], m_logList := [], m_map := [] }
      = some { m_logStr := "Xab".toList, m_logList := [{ m_what := 1, m_pos := 0 }],
               m_map := abMap }
    ∧ echoDoc.m_logStr = "abX".toList ∧ echoDoc.m_logList = [{ m_what := 1, m_pos := 3 }]
    ∧ "Xab".toList ≠ "abX".toList := by
  decide

/-! ### The export of a selection of consistent data -/

/-- Export of a selection of consistent data: for consistent physical
data and a selection `StartChar < EndChar <= len(physicalString)` with neither end
strictly inside a field, `ExportLogSel` gives the output the map of the document, the
markers of the fields wholly inside the selection, in order, with logical positions
counted from the selection start, and the logical text of the selection, so that
`LogStr2PhysStr` of the output is the selected part of the physical string.  (The
function reads the physical data only: it has no other result than the output.) -/
theorem ExportLogSel_consistent (d : CSubstPhysData) (sel : CSelInfo)
    (logData : CSubstLogData) (hc : Consistent d) (hse : sel.StartChar < sel.EndChar)
    (hend : sel.EndChar ≤ d.m_physStr.length) (hin1 : NotInside d sel.StartChar)
    (hin2 : NotInside d sel.EndChar) :
    ∃ E, ExportLogSel d (some sel) logData = some E
      ∧ E.m_map = d.m_map
      ∧ LogStr2PhysStr E
          = (d.m_physStr.drop sel.StartChar).take (sel.EndChar - sel.StartChar)
      ∧ E.m_logList
          = ((List.zip d.m_logList d.m_physlist).filter
              (fun mf => FnPhysInfoBetween sel.StartChar sel.EndChar mf.2)).map
              (fun mf => ({ m_what := mf.2.m_what,
                            m_pos := mf.1.m_pos - PhysPos2LogPos d sel.StartChar } : CLogInfo))
      ∧ E.m_logStr
          = (d.m_logStr.drop (PhysPos2LogPos d sel.StartChar)).take
              (PhysPos2LogPos d sel.EndChar - PhysPos2LogPos d sel.StartChar)
      ∧ LogOk E := by
  obtain ⟨X, hk, hX⟩ := Consistent_items d hc
  have hfit : d.m_physStr.length < INT_LIMIT := hc.2.2.1
  generalize d.m_map = lpMap at hk hX
  subst hX
  generalize hs : sel.StartChar = s at hse hin1
  generalize he : sel.EndChar = e at hse hend hin2
  obtain ⟨A, M, B, rfl, hw1, hw2, htA, htB⟩ :=
    conc_split_sel lpMap X s e (by omega) hend hin1 hin2
  obtain ⟨hkA, hk2⟩ := itemsKnown_append.1 hk
  obtain ⟨hkM, hkB⟩ := itemsKnown_append.1 hk2
  have hfit' : (itemsPhys lpMap (A ++ (M ++ B))).length < INT_LIMIT := hfit
  have hfit2 := hfit'
  simp only [itemsPhys_append, List.length_append] at hfit2
  have hleA := itemsLog_length_le lpMap A
  have hleM := itemsLog_length_le lpMap M
  have hp1 : PhysPos2LogPos (conc lpMap (A ++ (M ++ B))) s = (itemsLog A).length := by
    rw [← hw1]; exact PhysPos2LogPos_conc lpMap A _ (by omega)
  have hp2 : PhysPos2LogPos (conc lpMap (A ++ (M ++ B))) e
      = (itemsLog A).length + (itemsLog M).length := by
    have := PhysPos2LogPos_conc lpMap (A ++ M) B
      (by simp only [itemsPhys_append, List.length_append]; omega)
    simp only [itemsPhys_append, itemsLog_append, List.length_append, List.append_assoc] at this
    rw [← hw2]; exact this
  have hfields : (conc lpMap (A ++ (M ++ B))).m_physlist
      = itemsFields lpMap 0 A ++ (itemsFields lpMap s M ++ itemsFields lpMap e B) := by
    simp only [conc, itemsFields_append, Nat.zero_add]
    rw [hw2, hw1]
  have hmarks : (conc lpMap (A ++ (M ++ B))).m_logList
      = itemsMarks 0 A ++ (itemsMarks (itemsLog A).length M
          ++ itemsMarks ((itemsLog A).length + (itemsLog M).length) B) := by
    simp only [conc, itemsMarks_append, Nat.zero_add]
  have hA : ∀ f ∈ itemsFields lpMap 0 A, FnPhysInfoBetween s e f = false := by
    intro f hf
    have := htA f hf
    simp [FnPhysInfoBetween]; omega
  have hM : ∀ f ∈ itemsFields lpMap s M, FnPhysInfoBetween s e f = true := by
    intro f hf
    obtain ⟨h1, _, h3⟩ := itemsFields_bounds lpMap M s f hf
    simp [FnPhysInfoBetween]; omega
  have hB : ∀ f ∈ itemsFields lpMap e B, FnPhysInfoBetween s e f = false := by
    intro f hf
    have := htB f hf
    simp [FnPhysInfoBetween]; omega
  have hlenM : (itemsFields lpMap s M).length = (itemsFields lpMap 0 M).length := by
    rw [← itemsMarks_length lpMap M 0 s, itemsMarks_length lpMap M 0 0]
  have hfind : FindPhysInfoAllBetween (conc lpMap (A ++ (M ++ B))) s e
      = List.range' (itemsFields lpMap 0 A).length (itemsFields lpMap 0 M).length := by
    unfold FindPhysInfoAllBetween FindAllThat
    rw [hfields, FindAllThatFrom_segments _ _ _ hM hB _ 0 hA, Nat.zero_add, hlenM]
  have hloop := ExportLogListLoop_conc lpMap M A B s 0 [] hkM (by omega) hfit'
  have hlog : PhysStr2logStr (conc lpMap (A ++ (M ++ B))) = itemsLog (A ++ (M ++ B)) :=
    PhysStr2logStr_conc lpMap _ hk hfit'
  have hrender := LogStr2PhysStr_items lpMap M hkM (by omega)
  refine ⟨{ m_logStr := itemsLog M, m_logList := itemsMarks 0 M, m_map := lpMap }, ?_, rfl, ?_,
    ?_, ?_, LogOk_of_items lpMap M hkM⟩
  · unfold ExportLogSel
    have hsel : sel.IsSel = true := by
      simp [CSelInfo.IsSel, hs, he]; omega
    simp only [hsel, if_true, ExportLogListSel, CSubstLogData.DeleteContents, hs, he, hfind, hloop,
      List.nil_append, hlog, hp1, hp2]
    rw [strMid_cast _ (by omega) (by rw [subSz_of_le (by omega) (by omega)]; omega),
      subSz_of_le (by omega) (by omega)]
    simp [conc]
  · rw [hrender]
    simp only [conc, itemsPhys_append]
    rw [← hw1, List.drop_left, ← hw2]
    have e1 : (itemsPhys lpMap A).length + (itemsPhys lpMap M).length - (itemsPhys lpMap A).length
        = (itemsPhys lpMap M).length := by omega
    rw [e1, List.take_left]
  · rw [hp1, hfields, hmarks]
    rw [List.zip_append (by rw [itemsMarks_length lpMap A 0 0]),
      List.zip_append (by rw [itemsMarks_length lpMap M _ s])]
    rw [List.filter_append, List.filter_append]
    have f1 : (List.zip (itemsMarks 0 A) (itemsFields lpMap 0 A)).filter
        (fun mf => FnPhysInfoBetween s e mf.2) = [] := by
      rw [List.filter_eq_nil_iff]
      intro mf hmf
      have := (List.of_mem_zip (show (mf.1, mf.2) ∈ _ from hmf)).2
      simp [hA mf.2 this]
    have f3 : (List.zip (itemsMarks ((itemsLog A).length + (itemsLog M).length) B)
        (itemsFields lpMap e B)).filter (fun mf => FnPhysInfoBetween s e mf.2) = [] := by
      rw [List.filter_eq_nil_iff]
      intro mf hmf
      have := (List.of_mem_zip (show (mf.1, mf.2) ∈ _ from hmf)).2
      simp [hB mf.2 this]
    have f2 : (List.zip (itemsMarks (itemsLog A).length M) (itemsFields lpMap s M)).filter
        (fun mf => FnPhysInfoBetween s e mf.2)
        = List.zip (itemsMarks (itemsLog A).length M) (itemsFields lpMap s M) := by
      rw [List.filter_eq_self]
      intro mf hmf
      have := (List.of_mem_zip (show (mf.1, mf.2) ∈ _ from hmf)).2
      exact hM mf.2 this
    rw [f1, f2, f3, List.nil_append, List.append_nil]
    exact (zip_items_renumber lpMap M (itemsLog A).length 0 s).symm
  · rw [hp1, hp2]
    simp only [conc, itemsLog_append]
    rw [List.drop_left]
    have e1 : (itemsLog A).length + (itemsLog M).length - (itemsLog A).length
        = (itemsLog M).length := by omega
    rw [e1, List.take_left]

/-- Example: the selection `[1, 9)` of `"ab<Year>cd"` is exported as the logical
text `"bc"` with the field 1 at the logical position 1, which renders to `"b<Year>c"`. -/
theorem ExportLogSel_consistent_example :
    (∃ E, ExportLogSel midDoc (some { m_nStartChar := 1, m_nEndChar := 9 }) lessLog = some E
      ∧ E.m_map = midDoc.m_map
      ∧ LogStr2PhysStr E = (midDoc.m_physStr.drop 1).take (9 - 1)
      ∧ E.m_logList
          = ((List.zip midDoc.m_logList midDoc.m_physlist).filter
              (fun mf => FnPhysInfoBetween 1 9 mf.2)).map
              (fun mf => ({ m_what := mf.2.m_what,
                            m_pos := mf.1.m_pos - PhysPos2LogPos midDoc 1 } : CLogInfo))
      ∧ E.m_logStr
          = (midDoc.m_logStr.drop (PhysPos2LogPos midDoc 1)).take
              (PhysPos2LogPos midDoc 9 - PhysPos2LogPos midDoc 1)
      ∧ LogOk E)
    ∧ ExportLogSel midDoc (some { m_nStartChar := 1, m_nEndChar := 9 }) lessLog
        = some { m_logStr := "bc".toList, m_logList := [{ m_what := 1, m_pos := 1 }],
                 m_map := yearMap }
    ∧ (midDoc.m_physStr.drop 1).take (9 - 1) = "b<Year>c".toList :=
  ⟨ExportLogSel_consistent midDoc { m_nStartChar := 1, m_nEndChar := 9 } lessLog
      (by decide) (by decide) (by decide) (by decide) (by decide), by decide, by decide⟩

/-! ### C11, C12: the un-escaping of `AssignPlainText` -/

/-- C11, failing inputs. Over the map `{1: "<Year>"}`, `AssignPlainText` turns
`"x&amp;amp;"` into `"x&"`: after the first replacement the scan of
`ReplaceLogTextAllThrough` goes on from the old scan position plus one, finds the `&amp;`
that the replacement has just completed and decodes it again.  It turns `"&apos;"` into
`"';"`, the entity being searched without its semicolon.  The input `"&amp;lt;"` is
decoded once, to `"&lt;"`. -/
theorem AssignPlainText_unescape_divergence :
    AssignPlainText yearDoc.toCSubstLogData "x&amp;amp;".toList
      = some { m_logStr := "x&".toList, m_logList := [], m_map := yearMap }
    ∧ AssignPlainText yearDoc.toCSubstLogData "&apos;".toList
      = some { m_logStr := [chApos, ';'], m_logList := [], m_map := yearMap }
    ∧ AssignPlainText yearDoc.toCSubstLogData "&amp;lt;".toList
      = some { m_logStr := "&lt;".toList, m_logList := [], m_map := yearMap } := by
  decide

/-- C12, failing input. Over the map `{1: "<Year>"}`, `AssignPlainText` turns
`"&am<Year>p;"` into the logical string `"&"` with the marker of the field 1 at the
logical position `2^64 - 1`: the marker stands inside the entity `&amp;`, and
`ReplaceLogTextPart` moves it by `-5 + 1` from the position 3. -/
theorem AssignPlainText_marker_outside :
    AssignPlainText yearDoc.toCSubstLogData "&am<Year>p;".toList
      = some { m_logStr := "&".toList,
               m_logList := [{ m_what := 1, m_pos := 18446744073709551615 }], m_map := yearMap }
    ∧ ¬ (18446744073709551615 ≤ "&".toList.length) := by
  decide

/-! ### C21: `FindPhysInfoPosIsIn` -/

theorem FirstThat_some_iff {α : Type} (p : α → Bool) (l : List α) (k : Nat) :
    FirstThat p l = some k ↔
      ∃ x, l[k]? = some x ∧ p x = true ∧ ∀ j y, j < k → l[j]? = some y → p y = false := by
  induction l generalizing k with
  | nil => simp [FirstThat]
  | cons a l ih =>
    simp only [FirstThat]
    by_cases ha : p a = true
    · simp only [ha, if_true]
      constructor
      · intro h
        cases h
        exact ⟨a, by simp, ha, fun j y hj => by omega⟩
      · rintro ⟨x, hx, _, hall⟩
        cases k with
        | zero => rfl
        | succ k =>
          have := hall 0 a (by omega) (by simp)
          rw [ha] at this; cases this
    · have ha' : p a = false := Bool.eq_false_iff.2 ha
      simp only [ha', Bool.false_eq_true, if_false]
      cases k with
      | zero =>
        constructor
        · intro h
          cases hq : FirstThat p l with
          | none => simp [hq] at h
          | some j => simp [hq] at h
        · rintro ⟨x, hx, hpx, _⟩
          simp at hx
          subst hx
          rw [ha'] at hpx; cases hpx
      | succ k =>
        have e : (Option.map (· + 1) (FirstThat p l) = some (k + 1)) ↔ FirstThat p l = some k := by
          cases FirstThat p l with
          | none => simp
          | some j => simp
        rw [e, ih k]
        constructor
        · rintro ⟨x, hx, hpx, hall⟩
          refine ⟨x, by simpa using hx, hpx, ?_⟩
          intro j y hj hy
          cases j with
          | zero => simp at hy; subst hy; exact ha'
          | succ j => exact hall j y (by omega) (by simpa using hy)
        · rintro ⟨x, hx, hpx, hall⟩
          refine ⟨x, by simpa using hx, hpx, ?_⟩
          intro j y hj hy
          exact hall (j + 1) y (by omega) (by simpa using hy)

theorem FnPhysInfoPosIsIn_iff (pos : Nat) (f : CPhysInfo) :
    FnPhysInfoPosIsIn pos f = true ↔ (f.m_start < pos ∧ pos < f.m_end) := by
  simp [FnPhysInfoPosIsIn]

theorem FnPhysInfoPosIsIn_false_iff (pos : Nat) (f : CPhysInfo) :
    FnPhysInfoPosIsIn pos f = false ↔ ¬ (f.m_start < pos ∧ pos < f.m_end) := by
  rw [← FnPhysInfoPosIsIn_iff]; simp

/-- Non-overlapping fields: neither the start nor the end of a well-formed field is
strictly inside a field. -/
theorem NoOverlap_edges (l : List CPhysInfo) (hno : NoOverlap l)
    (f g : CPhysInfo) (hf : f ∈ l) (hg : g ∈ l) (hp : g.m_start ≤ g.m_end) :
    ¬ (f.m_start < g.m_start ∧ g.m_start < f.m_end)
    ∧ ¬ (f.m_start < g.m_end ∧ g.m_end < f.m_end) := by
  unfold NoOverlap at hno
  by_cases hfg : f = g
  · subst hfg
    constructor <;> omega
  · have hsym : Symmetric (fun a b : CPhysInfo => a.m_end ≤ b.m_start ∨ b.m_end ≤ a.m_start) :=
      fun _ _ h => h.symm
    have h := List.Pairwise.forall hsym hno hf hg hfg
    constructor <;> omega

/-- Non-overlapping fields: a position is strictly inside one field at most. -/
theorem NoOverlap_unique (l : List CPhysInfo) (hno : NoOverlap l) (p : Nat)
    (f g : CPhysInfo) (hf : f ∈ l) (hg : g ∈ l)
    (h1 : f.m_start < p ∧ p < f.m_end) (h2 : g.m_start < p ∧ p < g.m_end) : f = g := by
  unfold NoOverlap at hno
  by_contra hfg
  have hsym : Symmetric (fun a b : CPhysInfo => a.m_end ≤ b.m_start ∨ b.m_end ≤ a.m_start) :=
    fun _ _ h => h.symm
  have h := List.Pairwise.forall hsym hno hf hg hfg
  omega

/-- C21. FindFieldContaining uses the strict interior: `FindPhysInfoPosIsIn(pos)` returns
the field of index `k` exactly when that field has `start < pos < end` and no field before
it in the sequence has; it returns none exactly when no field has `start < pos < end`.
Consequently, when the fields do not overlap (each with `start <= end`), it returns none
for `pos` equal to the start or to the end of any field; and it returns none for every
`pos` when all fields have length `end - start <= 1`. -/
theorem FindPhysInfoPosIsIn_strict_interior (d : CSubstPhysData) :
    (∀ pos k, FindPhysInfoPosIsIn d pos = some k ↔
        ∃ f, d.m_physlist[k]? = some f ∧ (f.m_start < pos ∧ pos < f.m_end)
          ∧ ∀ j g, j < k → d.m_physlist[j]? = some g → ¬ (g.m_start < pos ∧ pos < g.m_end))
    ∧ (∀ pos, FindPhysInfoPosIsIn d pos = none ↔
        ∀ f ∈ d.m_physlist, ¬ (f.m_start < pos ∧ pos < f.m_end))
    ∧ (NoOverlap d.m_physlist → (∀ f ∈ d.m_physlist, f.m_start ≤ f.m_end) →
        ∀ f ∈ d.m_physlist, FindPhysInfoPosIsIn d f.m_start = none
          ∧ FindPhysInfoPosIsIn d f.m_end = none)
    ∧ ((∀ f ∈ d.m_physlist, f.m_end - f.m_start ≤ 1) →
        ∀ pos, FindPhysInfoPosIsIn d pos = none) := by
  have hnone : ∀ pos, FindPhysInfoPosIsIn d pos = none ↔
      ∀ f ∈ d.m_physlist, ¬ (f.m_start < pos ∧ pos < f.m_end) := by
    intro pos
    unfold FindPhysInfoPosIsIn
    rw [FirstThat_none_iff]
    exact forall₂_congr (fun f _ => FnPhysInfoPosIsIn_false_iff pos f)
  refine ⟨?_, hnone, ?_, ?_⟩
  · intro pos k
    unfold FindPhysInfoPosIsIn
    rw [FirstThat_some_iff]
    constructor
    · rintro ⟨f, hf, hp, hall⟩
      exact ⟨f, hf, (FnPhysInfoPosIsIn_iff pos f).1 hp,
        fun j g hj hg => (FnPhysInfoPosIsIn_false_iff pos g).1 (hall j g hj hg)⟩
    · rintro ⟨f, hf, hp, hall⟩
      exact ⟨f, hf, (FnPhysInfoPosIsIn_iff pos f).2 hp,
        fun j g hj hg => (FnPhysInfoPosIsIn_false_iff pos g).2 (hall j g hj hg)⟩
  · intro hno hwf f hf
    constructor
    · rw [hnone]
      intro g hg
      exact (NoOverlap_edges _ hno g f hg hf (hwf f hf)).1
    · rw [hnone]
      intro g hg
      exact (NoOverlap_edges _ hno g f hg hf (hwf f hf)).2
  · intro hlen pos
    rw [hnone]
    intro f hf
    have := hlen f hf
    omega

/-- C21, witness: the document `"ab<Year>cd"` with its field `[2, 8)`. -/
theorem FindPhysInfoPosIsIn_strict_interior_witness :
    NoOverlap midDoc.m_physlist ∧ (∀ f ∈ midDoc.m_physlist, f.m_start ≤ f.m_end)
    ∧ FindPhysInfoPosIsIn midDoc 2 = none ∧ FindPhysInfoPosIsIn midDoc 8 = none
    ∧ FindPhysInfoPosIsIn midDoc 3 = some 0 := by
  have h := (FindPhysInfoPosIsIn_strict_interior midDoc).2.2.1 (by decide) (by decide)
    { m_what := 1, m_start := 2, m_end := 8 } (by decide)
  exact ⟨by decide, by decide, h.1, h.2, by decide⟩

/-! ### C23: `FindMapItem` -/

theorem FindMapItemScan_find : ∀ (lpMap : List SubstDescr) (item : Nat),
    item ≠ kInvalidSubstElemId →
    FindMapItemScan lpMap item
      = (lpMap.takeWhile (fun lpDesc => lpDesc.valId != kInvalidSubstElemId)).find?
          (fun lpDesc => lpDesc.valId == item) := by
  intro lpMap
  induction lpMap with
  | nil => intro item _; rfl
  | cons x rest ih =>
    intro item h
    simp only [FindMapItemScan]
    by_cases h0 : kInvalidSubstElemId = x.valId
    · rw [if_pos h0]
      have hx : (x.valId != kInvalidSubstElemId) = false := by simp [← h0]
      rw [List.takeWhile_cons, hx]
      rfl
    · rw [if_neg h0]
      have hx : (x.valId != kInvalidSubstElemId) = true := by
        simpa using fun e => h0 e.symm
      rw [List.takeWhile_cons, hx]
      simp only [if_true, List.find?_cons]
      by_cases h1 : x.valId = item
      · simp [h1]
      · rw [if_neg h1]
        have : (x.valId == item) = false := by simpa using h1
        rw [this]
        exact ih item h

/-- C23. Field descriptor lookup: for an id other than 0, `FindMapItem` returns the first
entry before the sentinel (the first entry with `valId` 0) whose `valId` equals the id, and
none exactly when no entry before the sentinel has that id; for the id 0 it returns none
whatever the table holds. -/
theorem FindMapItem_first_entry (lpMap : List SubstDescr) (id : Nat) :
    (id ≠ kInvalidSubstElemId →
      FindMapItem lpMap id
        = (lpMap.takeWhile (fun lpDesc => lpDesc.valId != kInvalidSubstElemId)).find?
            (fun lpDesc => lpDesc.valId == id))
    ∧ (id ≠ kInvalidSubstElemId →
        (FindMapItem lpMap id = none ↔ id ∉ idsBeforeSentinel lpMap))
    ∧ FindMapItem lpMap kInvalidSubstElemId = none := by
  have h1 : id ≠ kInvalidSubstElemId →
      FindMapItem lpMap id
        = (lpMap.takeWhile (fun lpDesc => lpDesc.valId != kInvalidSubstElemId)).find?
            (fun lpDesc => lpDesc.valId == id) := by
    intro h
    unfold FindMapItem
    rw [if_pos (fun e => h e.symm)]
    exact FindMapItemScan_find lpMap id h
  refine ⟨h1, ?_, by simp [FindMapItem]⟩
  intro h
  rw [h1 h, List.find?_eq_none]
  simp [idsBeforeSentinel]

/-- C23, witness: the id 1 in the table of `"<Year>"`, whose sentinel comes second. -/
theorem FindMapItem_first_entry_witness :
    (1 : Nat) ≠ kInvalidSubstElemId
    ∧ FindMapItem yearMap 1 = some { valId := 1, lpTxt := "<Year>".toList }
    ∧ FindMapItem (yearMap ++ [{ valId := 2, lpTxt := "<Day>".toList }]) 2 = none := by
  have h := FindMapItem_first_entry yearMap 1
  have h2 := FindMapItem_first_entry (yearMap ++ [{ valId := 2, lpTxt := "<Day>".toList }]) 2
  exact ⟨by decide, (h.1 (by decide)).trans (by decide), (h2.2.1 (by decide)).2 (by decide)⟩

/-! ### C24, C25: `FindPosOutsidePhys` -/

open eFindDirection

theorem FindPosOutsidePhys_none (d : CSubstPhysData) (p : Nat) (direction : eFindDirection)
    (h : FindPhysInfoPosIsIn d p = none) : FindPosOutsidePhys d p direction = p := by
  simp [FindPosOutsidePhys, h]

theorem FindPhysInfoPosIsIn_some (d : CSubstPhysData) (p k : Nat)
    (h : FindPhysInfoPosIsIn d p = some k) :
    ∃ f, d.m_physlist[k]? = some f ∧ f ∈ d.m_physlist ∧ f.m_start < p ∧ p < f.m_end := by
  unfold FindPhysInfoPosIsIn at h
  obtain ⟨f, hf, hp, _⟩ := FirstThat_some_spec _ _ _ h
  have := (FnPhysInfoPosIsIn_iff p f).1 hp
  exact ⟨f, hf, List.getElem?_mem hf, this.1, this.2⟩

theorem FindPosOutsidePhys_some (d : CSubstPhysData) (p k : Nat) (f : CPhysInfo)
    (direction : eFindDirection)
    (h : FindPhysInfoPosIsIn d p = some k) (hf : d.m_physlist[k]? = some f) :
    FindPosOutsidePhys d p direction
      = if direction = eFindBackward
            ∨ (direction = eFindCloser ∧ subSz p f.m_start ≤ subSz f.m_end p) then f.m_start
        else f.m_end := by
  simp [FindPosOutsidePhys, h, hf]

theorem subSz_exact (a b : Nat) (hb : b ≤ a) (ha : a < SIZE_MOD) : subSz a b = a - b := by
  unfold subSz
  rw [Nat.mod_eq_of_lt ha, Nat.mod_eq_of_lt (by omega : b < SIZE_MOD)]
  have : a + (SIZE_MOD - b) = (a - b) + SIZE_MOD := by omega
  rw [this, Nat.add_mod_right, Nat.mod_eq_of_lt (by omega)]

/-- C25. Closest-edge snapping: for a position `p` strictly inside a field `[s, e)` (the
field `FindPhysInfoPosIsIn` finds, which is the only such field when the fields do not
overlap), `FindPosOutsidePhys(p, eFindCloser)` returns `s` when `p - s <= e - p` and `e`
otherwise; with `eFindBackward` it returns `s` and with `eFindForward` it returns `e`;
for a position that is not strictly inside any field it returns `p` for every direction. -/
theorem FindPosOutsidePhys_snaps (d : CSubstPhysData) (p : Nat) :
    (∀ k f, FindPhysInfoPosIsIn d p = some k → d.m_physlist[k]? = some f →
      f.m_end < SIZE_MOD →
      FindPosOutsidePhys d p eFindCloser
          = (if p - f.m_start ≤ f.m_end - p then f.m_start else f.m_end)
        ∧ FindPosOutsidePhys d p eFindBackward = f.m_start
        ∧ FindPosOutsidePhys d p eFindForward = f.m_end)
    ∧ (NoOverlap d.m_physlist → ∀ f ∈ d.m_physlist, f.m_start < p → p < f.m_end →
      f.m_end < SIZE_MOD →
      FindPosOutsidePhys d p eFindCloser
          = (if p - f.m_start ≤ f.m_end - p then f.m_start else f.m_end)
        ∧ FindPosOutsidePhys d p eFindBackward = f.m_start
        ∧ FindPosOutsidePhys d p eFindForward = f.m_end)
    ∧ ((∀ f ∈ d.m_physlist, ¬ (f.m_start < p ∧ p < f.m_end)) →
      ∀ direction, FindPosOutsidePhys d p direction = p) := by
  have first : ∀ k f, FindPhysInfoPosIsIn d p = some k → d.m_physlist[k]? = some f →
      f.m_end < SIZE_MOD →
      FindPosOutsidePhys d p eFindCloser
          = (if p - f.m_start ≤ f.m_end - p then f.m_start else f.m_end)
        ∧ FindPosOutsidePhys d p eFindBackward = f.m_start
        ∧ FindPosOutsidePhys d p eFindForward = f.m_end := by
    intro k f hk hf hsz
    obtain ⟨g, hg, _, h1, h2⟩ := FindPhysInfoPosIsIn_some d p k hk
    rw [hf] at hg
    cases hg
    rw [FindPosOutsidePhys_some d p k f _ hk hf, FindPosOutsidePhys_some d p k f _ hk hf,
      FindPosOutsidePhys_some d p k f _ hk hf]
    rw [subSz_exact p f.m_start (by omega) (by omega), subSz_exact f.m_end p (by omega) hsz]
    refine ⟨?_, by simp, by simp⟩
    simp
  refine ⟨first, ?_, ?_⟩
  · intro hno f hf h1 h2 hsz
    cases hk : FindPhysInfoPosIsIn d p with
    | none =>
      exact absurd ⟨h1, h2⟩ ((FindPhysInfoPosIsIn_none_iff d p).1 hk f hf)
    | some k =>
      obtain ⟨g, hg, hgm, h3, h4⟩ := FindPhysInfoPosIsIn_some d p k hk
      have : g = f := NoOverlap_unique _ hno p g f hgm hf ⟨h3, h4⟩ ⟨h1, h2⟩
      subst this
      exact first k g hk hg hsz
  · intro hnot direction
    exact FindPosOutsidePhys_none d p direction ((FindPhysInfoPosIsIn_none_iff d p).2 hnot)

/-- C25, witness: in `"ab<Year>cd"` with the field `[2, 8)` the position 5 is as far from
the start as from the end and snaps to the start, the position 6 snaps to the end. -/
theorem FindPosOutsidePhys_snaps_witness :
    FindPhysInfoPosIsIn midDoc 5 = some 0
    ∧ FindPosOutsidePhys midDoc 5 eFindCloser = 2
    ∧ FindPosOutsidePhys midDoc 5 eFindBackward = 2
    ∧ FindPosOutsidePhys midDoc 5 eFindForward = 8
    ∧ FindPosOutsidePhys midDoc 6 eFindCloser = 8
    ∧ FindPosOutsidePhys midDoc 8 eFindBackward = 8 := by
  have h5 := (FindPosOutsidePhys_snaps midDoc 5).1 0 { m_what := 1, m_start := 2, m_end := 8 }
    (by decide) (by decide) (by decide)
  have h6 := (FindPosOutsidePhys_snaps midDoc 6).2.1 (by decide)
    { m_what := 1, m_start := 2, m_end := 8 } (by decide) (by decide) (by decide) (by decide)
  have h8 := (FindPosOutsidePhys_snaps midDoc 8).2.2 (by decide) eFindBackward
  exact ⟨by decide, h5.1, h5.2.1, h5.2.2, h6.1, h8⟩

/-- C24. Non-interior caret after a click: when the fields do not overlap, the position
`r = FindPosOutsidePhys(p, direction)` is not strictly inside any field for every position
`p` and every direction, so `FindPhysInfoPosIsIn(r)` finds no field, and applying
`FindPosOutsidePhys` to `r` (with any direction) returns `r`. -/
theorem FindPosOutsidePhys_not_inside (d : CSubstPhysData) (hno : NoOverlap d.m_physlist)
    (p : Nat) (direction : eFindDirection) :
    (∀ f ∈ d.m_physlist, ¬ (f.m_start < FindPosOutsidePhys d p direction
        ∧ FindPosOutsidePhys d p direction < f.m_end))
    ∧ FindPhysInfoPosIsIn d (FindPosOutsidePhys d p direction) = none
    ∧ ∀ direction2, FindPosOutsidePhys d (FindPosOutsidePhys d p direction) direction2
        = FindPosOutsidePhys d p direction := by
  have key : NotInside d (FindPosOutsidePhys d p direction) := by
    cases hk : FindPhysInfoPosIsIn d p with
    | none =>
      rw [FindPosOutsidePhys_none d p direction hk]
      exact (FindPhysInfoPosIsIn_none_iff d p).1 hk
    | some k =>
      obtain ⟨f, hf, hfm, h1, h2⟩ := FindPhysInfoPosIsIn_some d p k hk
      rw [FindPosOutsidePhys_some d p k f direction hk hf]
      intro g hg
      have := NoOverlap_edges _ hno g f hg hfm (by omega)
      split_ifs
      · exact this.1
      · exact this.2
  have hnone := (FindPhysInfoPosIsIn_none_iff d _).2 key
  exact ⟨key, hnone, fun direction2 => FindPosOutsidePhys_none d _ direction2 hnone⟩

/-- C24, witness: a click at 4 in `"ab<Year>cd"` is forwarded at 2, the start of the
field. -/
theorem FindPosOutsidePhys_not_inside_witness :
    NoOverlap midDoc.m_physlist ∧ FindPosOutsidePhys midDoc 4 eFindCloser = 2
    ∧ FindPhysInfoPosIsIn midDoc (FindPosOutsidePhys midDoc 4 eFindCloser) = none
    ∧ FindPosOutsidePhys midDoc (FindPosOutsidePhys midDoc 4 eFindCloser) eFindCloser
        = FindPosOutsidePhys midDoc 4 eFindCloser := by
  have h := FindPosOutsidePhys_not_inside midDoc (by decide) 4 eFindCloser
  exact ⟨by decide, by decide, h.2.1, h.2.2 eFindCloser⟩

/-! ### C29: `ReplaceLogTextPart` -/

/-- C29. ReplaceTextRange: on logical data whose string is a `CString` (shorter than
2^31) and whose marker positions are `size_t` values, for `startIndex <= len` and
`0 <= replacedLength <= len - startIndex`, `ReplaceLogTextPart` sets the logical string
to `old[0,startIndex) ++ newText ++ old[startIndex+replacedLength, len)`, adds
`len(newText) - replacedLength` modulo 2^64 to the position of exactly the markers with
`logicalPos > startIndex` and leaves the other markers and the map unchanged; for
`startIndex > len`, `replacedLength < 0` or `replacedLength > len - startIndex` the logical
data are unchanged. -/
theorem ReplaceLogTextPart_effect (d : CSubstLogData) (startIndex : Nat)
    (replacedLength : Int) (newText : CString) (hfit : d.m_logStr.length < INT_LIMIT) :
    (startIndex ≤ d.m_logStr.length → 0 ≤ replacedLength →
      replacedLength ≤ (d.m_logStr.length : Int) - (startIndex : Int) →
      (∀ m ∈ d.m_logList, m.m_pos < SIZE_MOD) →
      (ReplaceLogTextPartInt d startIndex replacedLength newText).m_logStr
          = d.m_logStr.take startIndex ++ newText
              ++ d.m_logStr.drop (startIndex + replacedLength.toNat)
        ∧ (ReplaceLogTextPartInt d startIndex replacedLength newText).m_logList
          = d.m_logList.map (fun m =>
              if startIndex < m.m_pos then
                { m with m_pos := (((m.m_pos : Int) + (newText.length : Int) - replacedLength)
                                    % (SIZE_MOD : Int)).toNat }
              else m)
        ∧ (ReplaceLogTextPartInt d startIndex replacedLength newText).m_map = d.m_map)
    ∧ ((startIndex > d.m_logStr.length ∨ replacedLength < 0
        ∨ replacedLength > (d.m_logStr.length : Int) - (startIndex : Int)) →
      ReplaceLogTextPartInt d startIndex replacedLength newText = d) := by
  constructor
  · intro hs h0 hr hpos
    obtain ⟨r, rfl⟩ := Int.eq_ofNat_of_zero_le h0
    have hr' : r ≤ d.m_logStr.length - startIndex := by omega
    have hlt : startIndex < INT_LIMIT := by omega
    unfold ReplaceLogTextPartInt
    rw [if_neg (by omega)]
    simp only [Int.toNat_ofNat]
    unfold ReplaceLogTextPart
    simp only []
    rw [if_neg (by omega), subSz_of_le hs hfit,
      castInt_of_lt (by omega), if_neg (by omega)]
    refine ⟨?_, ?_, rfl⟩
    · simp only []
      by_cases hr0 : r > 0
      · by_cases hn : 0 < newText.length
        · rw [if_pos hr0, if_pos hn, strInsert_cast _ _ hlt]
          simp only [extractSubstr]
          rw [List.take_append_of_le_length (by simp; omega), List.take_take,
            Nat.min_eq_left (Nat.le_refl _),
            List.drop_append_of_le_length (by simp; omega)]
          have e : List.drop startIndex (List.take startIndex d.m_logStr) = [] := by
            apply List.drop_eq_nil_of_le; simp
          rw [e]; simp
        · have : newText = [] := by
            cases newText with
            | nil => rfl
            | cons a t => simp at hn
          subst this
          rw [if_pos hr0, if_neg hn]
          simp [extractSubstr]
      · have hr00 : r = 0 := by omega
        subst hr00
        by_cases hn : 0 < newText.length
        · rw [if_neg hr0, if_pos hn, strInsert_cast _ _ hlt]
          simp
        · have : newText = [] := by
            cases newText with
            | nil => rfl
            | cons a t => simp at hn
          subst this
          rw [if_neg hr0, if_neg hn]
          simp
    · apply List.map_congr_left
      intro m hm
      have hp := hpos m hm
      by_cases hlt2 : startIndex < m.m_pos
      · rw [if_pos hlt2, if_pos hlt2]
        have hrM : r < INT_LIMIT := by omega
        unfold INT_LIMIT at hrM
        unfold SIZE_MOD at hp
        by_cases hr0 : r > 0 <;> by_cases hn : 0 < newText.length
        · rw [if_pos hr0, if_pos hn]
          simp only [CLogInfo.Add2Pos, addSz, negSz, SIZE_MOD]
          congr 1
          omega
        · rw [if_pos hr0, if_neg hn]
          simp only [CLogInfo.Add2Pos, addSz, negSz, SIZE_MOD]
          congr 1
          omega
        · rw [if_neg hr0, if_pos hn]
          simp only [CLogInfo.Add2Pos, addSz, negSz, SIZE_MOD]
          congr 1
          omega
        · rw [if_neg hr0, if_neg hn]
          simp only [SIZE_MOD]
          cases m with
          | mk w q =>
            simp only [CLogInfo.mk.injEq, true_and]
            simp only at hp
            omega
      · rw [if_neg hlt2, if_neg hlt2]
  · intro h
    unfold ReplaceLogTextPartInt
    by_cases hneg : replacedLength < 0
    · rw [if_pos hneg]
    · rw [if_neg hneg]
      obtain ⟨r, rfl⟩ := Int.eq_ofNat_of_zero_le (by omega : 0 ≤ replacedLength)
      simp only [Int.toNat_ofNat]
      unfold ReplaceLogTextPart
      simp only []
      by_cases hs : startIndex > d.m_logStr.length
      · rw [if_pos hs]
      · rw [if_neg hs, subSz_of_le (by omega) hfit,
          castInt_of_lt (by omega), if_pos (by omega)]

/-- C29, witness: in `"x<y in ."` with a marker at 7 the character at index 1 is replaced
by `"&lt;"`; the marker moves to 10.  A negative length changes nothing. -/
theorem ReplaceLogTextPart_effect_witness :
    (ReplaceLogTextPartInt lessLog 1 1 "&lt;".toList).m_logStr = "x&lt;y in .".toList
    ∧ (ReplaceLogTextPartInt lessLog 1 1 "&lt;".toList).m_logList = [{ m_what := 1, m_pos := 10 }]
    ∧ ReplaceLogTextPartInt lessLog 1 (-1) "&lt;".toList = lessLog := by
  have h := ReplaceLogTextPart_effect lessLog 1 1 "&lt;".toList (by decide)
  have h2 := ReplaceLogTextPart_effect lessLog 1 (-1) "&lt;".toList (by decide)
  obtain ⟨a, b, _⟩ := h.1 (by decide) (by decide) (by decide) (by decide)
  exact ⟨a.trans (by decide), b.trans (by decide), h2.2 (Or.inr (Or.inl (by decide)))⟩

/-! ### `DeleteAllBetween` returns -/

theorem DeleteOneInfo_lengths (d : CSubstPhysData) (lpInf : Nat)
    (h : d.m_logList.length = d.m_physlist.length) :
    ∃ d' b, DeleteOneInfo d lpInf = some (d', b)
      ∧ d'.m_logList.length = d'.m_physlist.length
      ∧ (lpInf < d.m_physlist.length → d'.m_physlist.length + 1 = d.m_physlist.length) := by
  unfold DeleteOneInfo
  cases hg : d.m_physlist[lpInf]? with
  | none =>
    have : ¬ lpInf < d.m_physlist.length := by
      intro hlt
      rw [List.getElem?_eq_getElem hlt] at hg
      cases hg
    exact ⟨d, false, rfl, h, fun hlt => absurd hlt this⟩
  | some phinf =>
    have hlt : lpInf < d.m_physlist.length := (List.getElem?_eq_some.1 hg).1
    simp only []
    rw [if_pos (by omega)]
    split_ifs
    · refine ⟨_, true, rfl, ?_, ?_⟩
      · simp only [MoveAllPhys_length, List.length_eraseIdx]
        rw [if_pos (by omega), if_pos hlt]; omega
      · intro _
        simp only [MoveAllPhys_length, List.length_eraseIdx]
        rw [if_pos hlt]; omega
    · refine ⟨_, true, rfl, ?_, ?_⟩
      · simp only [List.length_eraseIdx]
        rw [if_pos (by omega), if_pos hlt]; omega
      · intro _
        simp only [List.length_eraseIdx]
        rw [if_pos hlt]; omega

theorem DeleteAllBetweenLoop_returns (start : Nat) : ∀ (fuel : Nat) (d : CSubstPhysData)
    (tempEnd : Nat), d.m_logList.length = d.m_physlist.length → d.m_physlist.length < fuel →
    ∃ d' e, DeleteAllBetweenLoop start fuel d tempEnd = some (d', e)
      ∧ d'.m_logList.length = d'.m_physlist.length := by
  intro fuel
  induction fuel with
  | zero => intro d tempEnd _ hf; omega
  | succ fuel ih =>
    intro d tempEnd h hf
    unfold DeleteAllBetweenLoop
    cases hk : FindPhysInfoBetween d start tempEnd with
    | none => exact ⟨d, tempEnd, rfl, h⟩
    | some k =>
      have hlt : k < d.m_physlist.length := FirstThat_some_lt _ _ _ hk
      simp only []
      rw [List.getElem?_eq_getElem hlt]
      obtain ⟨d1, b, h1, h2, h3⟩ := DeleteOneInfo_lengths d k h
      simp only [h1]
      exact ih d1 _ h2 (by have := h3 hlt; omega)

theorem DeleteAllBetween_returns (d : CSubstPhysData) (start endPos : Nat)
    (h : d.m_logList.length = d.m_physlist.length) :
    ∃ d', DeleteAllBetween d start endPos = some (d', subSz endPos start) := by
  unfold DeleteAllBetween
  obtain ⟨d1, e, h1, h2⟩ :=
    DeleteAllBetweenLoop_returns start (d.m_physlist.length + 1) d endPos h (by omega)
  simp only [h1]
  by_cases hpos : subSz e start > 0
  · rw [if_pos hpos]
    obtain ⟨a, b, h3, _, _⟩ := MoveAllInfo_what d1.m_logList d1.m_physlist start
      (negSz (subSz e start)) h2
    simp only [h3]
    exact ⟨_, rfl⟩
  · rw [if_neg hpos]
    exact ⟨_, rfl⟩

/-! ### C28: `ReplaceLogTextAllThrough` against the replace-all -/

/-- C28, failing inputs. On the marker-free text `"aaaaaa&"`, `ReplaceLogTextAllThrough`
with `"&"` -> `"&amp;"` gives `"aaaaaa&amp;amp;"`, where the replace-all gives
`"aaaaaa&amp;"`: the scan position advances by the length of the new part from the
previous scan position, not from the place of the replacement, so the `&` just written
is found again.  On `"x&amp;amp;"` with `"&amp;"` -> `"&"` it gives `"x&"`, where the
replace-all gives `"x&amp;"`. -/
theorem ReplaceLogTextAllThrough_rescans :
    (ReplaceLogTextAllThrough sixAmpLog "&".toList "&amp;".toList).map (fun d => d.m_logStr)
        = some "aaaaaa&amp;amp;".toList
    ∧ replaceAll "&".toList "&amp;".toList sixAmpLog.m_logStr = "aaaaaa&amp;".toList
    ∧ (ReplaceLogTextAllThrough ampAmpLog "&amp;".toList "&".toList).map (fun d => d.m_logStr)
        = some "x&".toList
    ∧ replaceAll "&amp;".toList "&".toList ampAmpLog.m_logStr = "x&amp;".toList := by
  decide

/-! ### C26: the change-notification lock -/

theorem notifyRun_append (e : CSubstEdit) (s1 s2 : List NotifyStep) :
    notifyRun e (s1 ++ s2)
      = ((notifyRun (notifyRun e s1).1 s2).1,
          (notifyRun e s1).2 ++ (notifyRun (notifyRun e s1).1 s2).2) := by
  induction s1 generalizing e with
  | nil => rfl
  | cons s rest ih =>
    rw [List.cons_append]
    simp only [notifyRun, ih, List.cons_append]

theorem notifyRun_inner : ∀ (inner : List NotifyStep) (k t k2 : Nat) (p : Bool),
    k + 1 + inner.length ≤ 2147483647 → t + inner.length ≤ 2147483647 →
    nestingDepth inner k = some k2 →
    notifyRun (CSubstEdit.mk ((k : Int) + 1) (t : Int) p) inner
      = (CSubstEdit.mk ((k2 : Int) + 1) ((t + inner.countP NotifyStep.isChange : Nat) : Int) p,
         inner.map (fun s => decide (s = NotifyStep.enChange))) := by
  intro inner
  induction inner with
  | nil =>
    intro k t k2 p _ _ h
    simp only [nestingDepth, Option.some.injEq] at h
    subst h
    simp [notifyRun]
  | cons s rest ih =>
    intro k t k2 p hk ht h
    simp only [List.length_cons] at hk ht
    cases s with
    | prologue =>
      simp only [nestingDepth] at h
      have e1 : notifyStep (CSubstEdit.mk ((k : Int) + 1) (t : Int) p) NotifyStep.prologue
          = (CSubstEdit.mk (((k + 1 : Nat) : Int) + 1) (t : Int) p, false) := by
        simp only [notifyStep, CSubstEdit.NotifyFixPrologue, intInc]
        rw [if_neg (by omega), if_neg (by omega)]
        simp
      simp only [notifyRun, e1, ih (k + 1) t k2 p (by omega) (by omega) h]
      simp [NotifyStep.isChange]
    | enChange =>
      simp only [nestingDepth] at h
      have e1 : notifyStep (CSubstEdit.mk ((k : Int) + 1) (t : Int) p) NotifyStep.enChange
          = (CSubstEdit.mk ((k : Int) + 1) ((t + 1 : Nat) : Int) p, true) := by
        simp only [notifyStep, CSubstEdit.OnEnChange, CSubstEdit.IsChangeNotifyLocked,
          CSubstEdit.ChangeModifyTempCountIncrement, intInc]
        rw [if_pos (by simp), if_neg (by omega)]
        simp
      simp only [notifyRun, e1, ih k (t + 1) k2 p (by omega) (by omega) h]
      simp [NotifyStep.isChange]
      omega
    | increment =>
      simp only [nestingDepth] at h
      have e1 : notifyStep (CSubstEdit.mk ((k : Int) + 1) (t : Int) p) NotifyStep.increment
          = (CSubstEdit.mk ((k : Int) + 1) ((t + 1 : Nat) : Int) p, false) := by
        simp only [notifyStep, CSubstEdit.ChangeModifyTempCountIncrement, intInc]
        rw [if_neg (by omega)]
        simp
      simp only [notifyRun, e1, ih k (t + 1) k2 p (by omega) (by omega) h]
      simp [NotifyStep.isChange]
      omega
    | epilogue =>
      cases k with
      | zero => simp [nestingDepth] at h
      | succ k =>
        simp only [nestingDepth] at h
        have e1 : notifyStep (CSubstEdit.mk (((k + 1 : Nat) : Int) + 1) (t : Int) p)
            NotifyStep.epilogue
            = (CSubstEdit.mk ((k : Int) + 1) (t : Int) p, false) := by
          simp only [notifyStep, CSubstEdit.NotifyFixEpilogue, intDec]
          rw [if_neg (by omega), if_neg (by omega)]
          simp
        simp only [notifyRun, e1, ih k t k2 p (by omega) (by omega) h]
        simp [NotifyStep.isChange]

theorem notifyStep_closing (c : Nat) (p : Bool) :
    notifyStep (CSubstEdit.mk (((0 : Nat) : Int) + 1) (c : Int) p) NotifyStep.epilogue
      = (CSubstEdit.mk 0 0 p, p && decide (0 < c)) := by
  have hd : intDec (((0 : Nat) : Int) + 1) = 0 := by simp [intDec]
  simp only [notifyStep, CSubstEdit.NotifyFixEpilogue, hd,
    CSubstEdit.ChangeModifyTempCountReset, if_true]
  by_cases hc : 0 < c
  · rw [if_pos (by omega)]
    simp [hc]
  · rw [if_neg (by omega)]
    have : c = 0 := by omega
    subst this
    simp

/-- C26. Coalesced change notification: run from a state with `m_nChangeNotifyLock == 0`
the steps `NotifyFixPrologue`, then a well-nested sequence `inner` of prologues,
`OnEnChange`, `ChangeModifyTempCountIncrement` and epilogues (fewer than 2^31 - 1 steps,
so that the `int` counters do not overflow), then the matching `NotifyFixEpilogue`.  What
the steps give out is, in order: nothing for the opening prologue; for every inner step
TRUE exactly when it is an `OnEnChange` (each `OnEnChange` returns TRUE, no inner epilogue
sends anything); and for the closing epilogue one `EN_CHANGE` sent to the parent exactly
when a parent exists and `inner` holds at least one `OnEnChange` or
`ChangeModifyTempCountIncrement`.  Afterwards both counters are 0. -/
theorem change_notification_coalesced (e : CSubstEdit) (inner : List NotifyStep)
    (hlock : e.m_nChangeNotifyLock = 0) (hn : WellNested inner)
    (hlen : inner.length < 2147483647) :
    (notifyRun e (NotifyStep.prologue :: (inner ++ [NotifyStep.epilogue]))).2
        = false :: (inner.map (fun s => decide (s = NotifyStep.enChange))
            ++ [e.hasParent && inner.any NotifyStep.isChange])
    ∧ (notifyRun e (NotifyStep.prologue :: (inner ++ [NotifyStep.epilogue]))).1
        = CSubstEdit.mk 0 0 e.hasParent := by
  obtain ⟨l, t, p⟩ := e
  simp only at hlock
  subst hlock
  have e1 : notifyStep (CSubstEdit.mk 0 t p) NotifyStep.prologue
      = (CSubstEdit.mk (((0 : Nat) : Int) + 1) ((0 : Nat) : Int) p, false) := by
    simp [notifyStep, CSubstEdit.NotifyFixPrologue, intInc, CSubstEdit.ChangeModifyTempCountReset]
  have e2 := notifyRun_inner inner 0 0 0 p (by omega) (by omega) hn
  have hany : decide (0 < 0 + inner.countP NotifyStep.isChange) = inner.any NotifyStep.isChange := by
    rw [Nat.zero_add, Bool.eq_iff_iff]
    simp [List.countP_pos_iff]
  simp only [notifyRun, e1, notifyRun_append, e2, notifyStep_closing, hany]
  simp

/-- C26, witness: the steps of an inserted field, with a nested prologue and epilogue
around one `EN_CHANGE` of the edit control, then the explicit increment: the `OnEnChange`
returns TRUE, the inner epilogue sends nothing, the closing epilogue sends `EN_CHANGE`. -/
theorem change_notification_coalesced_witness :
    WellNested insertFieldSteps
    ∧ (notifyRun (CSubstEdit.mk 0 0 true)
        (NotifyStep.prologue :: (insertFieldSteps ++ [NotifyStep.epilogue]))).2
        = [false, false, true, false, false, true]
    ∧ (notifyRun (CSubstEdit.mk 0 0 true)
        (NotifyStep.prologue :: (insertFieldSteps ++ [NotifyStep.epilogue]))).1
        = CSubstEdit.mk 0 0 true
    ∧ (notifyRun (CSubstEdit.mk 0 0 true) [NotifyStep.prologue, NotifyStep.epilogue]).2
        = [false, false] := by
  have h := change_notification_coalesced (CSubstEdit.mk 0 0 true) insertFieldSteps rfl
    (by decide) (by decide)
  exact ⟨by decide, h.1.trans (by decide), h.2, by decide⟩

/-! ### C30: `BackspaceDeleteNotSel` -/

theorem LastThatFrom_none {α : Type} (p : α → Bool) : ∀ (l : List α) (ii : Nat) (r : Option Nat),
    (∀ y ∈ l, p y = false) → LastThatFrom p l ii r = r := by
  intro l
  induction l with
  | nil => intro ii r _; rfl
  | cons x l ih =>
    intro ii r h
    simp only [LastThatFrom]
    rw [h x (List.mem_cons_self _ _)]
    exact ih _ _ (fun y hy => h y (List.mem_cons_of_mem _ hy))

theorem LastThatFrom_append {α : Type} (p : α → Bool) : ∀ (l1 l2 : List α) (ii : Nat)
    (r : Option Nat),
    LastThatFrom p (l1 ++ l2) ii r = LastThatFrom p l2 (ii + l1.length) (LastThatFrom p l1 ii r) := by
  intro l1
  induction l1 with
  | nil => intro l2 ii r; rfl
  | cons x l1 ih =>
    intro l2 ii r
    rw [List.cons_append]
    simp only [LastThatFrom, ih, List.length_cons]
    congr 1
    omega

/-- `LastThat` finds an element that passes when nothing behind it does. -/
theorem LastThat_append {α : Type} (p : α → Bool) (l1 l2 : List α) (x : α)
    (hx : p x = true) (h2 : ∀ y ∈ l2, p y = false) :
    LastThat p (l1 ++ x :: l2) = some l1.length := by
  unfold LastThat
  rw [LastThatFrom_append]
  simp only [LastThatFrom, hx, if_true, Nat.zero_add]
  exact LastThatFrom_none p l2 _ _ h2

theorem LastThatFrom_some {α : Type} (p : α → Bool) : ∀ (l : List α) (ii : Nat)
    (r : Option Nat) (k : Nat), LastThatFrom p l ii r = some k →
    r = some k ∨ ∃ x, x ∈ l ∧ l[k - ii]? = some x ∧ ii ≤ k := by
  intro l
  induction l with
  | nil => intro ii r k h; exact Or.inl h
  | cons x l ih =>
    intro ii r k h
    simp only [LastThatFrom] at h
    rcases ih _ _ _ h with h1 | ⟨y, hy, hg, hle⟩
    · by_cases hx : p x = true
      · rw [if_pos hx] at h1
        cases h1
        exact Or.inr ⟨x, List.mem_cons_self _ _, by simp, Nat.le_refl _⟩
      · rw [if_neg hx] at h1
        exact Or.inl h1
    · refine Or.inr ⟨y, List.mem_cons_of_mem _ hy, ?_, by omega⟩
      have e : k - ii = (k - (ii + 1)) + 1 := by omega
      rw [e]
      simpa using hg

theorem LastThat_some {α : Type} (p : α → Bool) (l : List α) (k : Nat)
    (h : LastThat p l = some k) : ∃ x, x ∈ l ∧ l[k]? = some x := by
  rcases LastThatFrom_some p l 0 none k h with h1 | ⟨x, hx, hg, _⟩
  · cases h1
  · exact ⟨x, hx, by simpa using hg⟩

/-- Behind a field that `FindPhysInfoBefore` finds ending at the caret,
`BackspaceDeleteNotSel` deletes from the start of that field. -/
theorem BackspaceDeleteNotSel_field (d : CSubstPhysData) (selInf : CSelInfo) (k : Nat)
    (f : CPhysInfo) (h0 : 0 < selInf.CaretChar)
    (hb : FindPhysInfoBefore d selInf.CaretChar = some k) (hf : d.m_physlist[k]? = some f)
    (he : f.m_end = selInf.CaretChar) :
    BackspaceDeleteNotSel d selInf
      = (DeleteAllBetween d f.m_start selInf.CaretChar).map Prod.fst := by
  unfold BackspaceDeleteNotSel
  simp only [hb, Option.some_bind, hf, he, if_true, gt_iff_lt, h0]

/-- With no field ending at the caret, `BackspaceDeleteNotSel` deletes the line-break
pair or the one character before the caret. -/
theorem BackspaceDeleteNotSel_plain (d : CSubstPhysData) (selInf : CSelInfo)
    (h0 : 0 < selInf.CaretChar) (hlen : selInf.CaretChar ≤ d.m_physStr.length)
    (hfit : d.m_physStr.length < INT_LIMIT)
    (hno : ∀ f ∈ d.m_physlist, f.m_end ≠ selInf.CaretChar) :
    BackspaceDeleteNotSel d selInf
      = (DeleteAllBetween d
          (if (d.m_physStr.take selInf.CaretChar).drop (selInf.CaretChar - 2) = ['\r', '\n']
            then selInf.CaretChar - 2 else selInf.CaretChar - 1)
          selInf.CaretChar).map Prod.fst := by
  generalize hcc : selInf.CaretChar = c at *
  have hbind : ∀ g, (FindPhysInfoBefore d c).bind (fun k => d.m_physlist[k]?) = some g →
      g.m_end ≠ c := by
    intro g hg
    cases hk : FindPhysInfoBefore d c with
    | none => rw [hk] at hg; cases hg
    | some k =>
      rw [hk] at hg
      simp only [Option.some_bind] at hg
      exact hno g (List.getElem?_mem hg)
  have key : BackspaceDeleteNotSel d selInf
      = (DeleteAllBetween d
          (if strRight (strLeft d.m_physStr (castInt c)) 2 = ['\r', '\n'] then subSz c 2
            else subSz c 1) c).map Prod.fst := by
    unfold BackspaceDeleteNotSel
    simp only [hcc, gt_iff_lt, h0, if_true]
    cases hq : (FindPhysInfoBefore d c).bind (fun k => d.m_physlist[k]?) with
    | none => rfl
    | some g =>
      simp only []
      rw [if_neg (hbind g hq)]
  rw [key]
  have hleft : strRight (strLeft d.m_physStr (castInt c)) 2
      = (d.m_physStr.take c).drop (c - 2) := by
    unfold strRight strLeft
    rw [toNat_castInt (by omega)]
    simp only [List.length_take]
    rw [Nat.min_eq_left hlen]
    rfl
  rw [hleft]
  by_cases hcr : (d.m_physStr.take c).drop (c - 2) = ['\r', '\n']
  · rw [if_pos hcr, if_pos hcr]
    have h2 : 2 ≤ c := by
      have := congrArg List.length hcr
      simp only [List.length_drop, List.length_take, List.length_cons, List.length_nil] at this
      omega
    rw [subSz_of_le h2 (by omega)]
  · rw [if_neg hcr, if_neg hcr, subSz_of_le h0 (by omega)]

/-- C30, the code against the claim: the document `"X\r\n"` over `{1: "X\r"}` with the
field at `[0, 2)` is consistent, and the caret 3 is in range and not inside a field.  No
field ends at 3 and the two characters before the caret are `"\r\n"`, so
`BackspaceDeleteNotSel` deletes `[1, 3)`: the position 1 is strictly inside the field,
whose `\r` goes while the field and its marker stay; the physical string `"X"` is no
longer `LogStr2PhysStr` of the logical part, `"X\r\n"`. -/
theorem BackspaceDeleteNotSel_cuts_field :
    Consistent crDoc ∧ NonEmptyTexts crDoc.m_map ∧ 0 < 3 ∧ 3 ≤ crDoc.m_physStr.length
    ∧ NotInside crDoc 3
    ∧ (∀ f ∈ crDoc.m_physlist, f.m_end ≠ 3)
    ∧ (crDoc.m_physStr.take 3).drop (3 - 2) = ['\r', '\n']
    ∧ ¬ NotInside crDoc (3 - 2)
    ∧ BackspaceDeleteNotSel crDoc { m_nStartChar := 3, m_nEndChar := 3 }
      = (DeleteAllBetween crDoc (3 - 2) 3).map Prod.fst
    ∧ (BackspaceDeleteNotSel crDoc { m_nStartChar := 3, m_nEndChar := 3 }).map
        (fun r => (r.m_physStr, r.m_physlist, r.m_logList, LogStr2PhysStr r.toCSubstLogData))
      = some (['X'], [{ m_what := 1, m_start := 0, m_end := 2 }], [{ m_what := 1, m_pos := 0 }],
          ['X', '\r', '\n']) := by
  decide

/-- Backspace span with empty selection: on consistent physical data over a map
with non-empty display texts, for the caret `c` with `0 < c <= len(physicalString)` not
strictly inside a field, `BackspaceDeleteNotSel` changes the model as
`DeleteAllBetween(s, c)` does.  When a field ends at `c`, `s` is the start of that field:
the whole field and its marker are removed, the fields behind it move left by its
length, the physical string loses exactly `[start, c)`, the logical string stays, and the
result is consistent.  When no field ends at `c`, `s` is `c - 2` if the two characters
`physicalString[c-2, c)` are `"\r\n"` and `c - 1` otherwise, and the position `c - 1` is
not strictly inside a field. -/
theorem BackspaceDeleteNotSel_span (d : CSubstPhysData) (selInf : CSelInfo)
    (hc : Consistent d) (hne : NonEmptyTexts d.m_map) (h0 : 0 < selInf.CaretChar)
    (hlen : selInf.CaretChar ≤ d.m_physStr.length) (hin : NotInside d selInf.CaretChar) :
    (∀ i f, d.m_physlist[i]? = some f → f.m_end = selInf.CaretChar →
      ∃ d', BackspaceDeleteNotSel d selInf = some d'
        ∧ DeleteAllBetween d f.m_start selInf.CaretChar
            = some (d', selInf.CaretChar - f.m_start)
        ∧ d'.m_physlist = (d.m_physlist.eraseIdx i).map
            (fun g => if g.m_start ≥ f.m_start then g.shiftBack (f.m_end - f.m_start) else g)
        ∧ d'.m_logList = d.m_logList.eraseIdx i
        ∧ d'.m_physStr = d.m_physStr.take f.m_start ++ d.m_physStr.drop f.m_end
        ∧ d'.m_logStr = d.m_logStr
        ∧ Consistent d')
    ∧ ((∀ f ∈ d.m_physlist, f.m_end ≠ selInf.CaretChar) →
      (∃ d', BackspaceDeleteNotSel d selInf = some d'
        ∧ DeleteAllBetween d
            (if (d.m_physStr.take selInf.CaretChar).drop (selInf.CaretChar - 2) = ['\r', '\n']
              then selInf.CaretChar - 2 else selInf.CaretChar - 1)
            selInf.CaretChar
          = some (d', selInf.CaretChar -
              (if (d.m_physStr.take selInf.CaretChar).drop (selInf.CaretChar - 2) = ['\r', '\n']
                then selInf.CaretChar - 2 else selInf.CaretChar - 1)))
      ∧ NotInside d (selInf.CaretChar - 1)) := by
  have hfit : d.m_physStr.length < INT_LIMIT := hc.2.2.1
  constructor
  · intro i f hf he
    have hplain := BackspaceDeleteNotSel_field d selInf
    generalize selInf.CaretChar = c at *
    obtain ⟨X, hk, hX⟩ := Consistent_items d hc
    generalize d.m_map = lpMap at hk hX hne
    subst hX
    obtain ⟨A, w, B, rfl, hi, hfe⟩ := split_at_field lpMap X 0 i f hf
    subst hi
    simp only [Nat.zero_add] at hfe
    obtain ⟨hkA, hkB⟩ := itemsKnown_append.1 hk
    have htight : Tight lpMap A := Tight_of_nonEmpty hne hkA
    have hfit' : (itemsPhys lpMap (A ++ Item.fld w :: B)).length < INT_LIMIT := hfit
    have hfit2 := hfit'
    simp only [itemsPhys_append, itemsPhys, List.length_append] at hfit2
    have hk' : itemsKnown lpMap (A ++ B) :=
      itemsKnown_append.2 ⟨hkA, (itemsKnown_cons_fld.1 hkB).2⟩
    have hcons : Consistent (conc lpMap (A ++ B)) := by
      apply conc_Consistent lpMap _ hk'
      simp only [itemsPhys_append, List.length_append]; omega
    have hcend : c = (itemsPhys lpMap A).length + (fieldText lpMap w).length := by
      rw [← he, hfe]
    have hfs : f.m_start = (itemsPhys lpMap A).length := by rw [hfe]
    have hbefore : FindPhysInfoBefore (conc lpMap (A ++ Item.fld w :: B)) c
        = some (itemsFields lpMap 0 A).length := by
      unfold FindPhysInfoBefore
      simp only [conc, itemsFields_append, itemsFields, Nat.zero_add]
      apply LastThat_append
      · simp [FnPhysInfoPosLowerEq]; omega
      · intro g hg
        have h1 := (itemsFields_bounds lpMap B _ g hg).1
        have h2 := itemsFields_pos_length hne (itemsKnown_cons_fld.1 hkB).2 _ g hg
        simp [FnPhysInfoPosLowerEq]; omega
    have hdel := DeleteAllBetween_conc lpMap hne A [Item.fld w] B
      (by simpa using hk) (by simpa using hfit')
    have ephys : itemsPhys lpMap [Item.fld w] = fieldText lpMap w := by simp [itemsPhys]
    rw [ephys, ← hcend, ← hfs] at hdel
    have hdel' : DeleteAllBetween (conc lpMap (A ++ Item.fld w :: B)) f.m_start c
        = some (conc lpMap (A ++ B), c - f.m_start) := by
      have e : c - f.m_start = (fieldText lpMap w).length := by omega
      rw [e]
      simpa using hdel
    refine ⟨conc lpMap (A ++ B), ?_, hdel', ?_, ?_, ?_, by simp [conc, itemsLog], hcons⟩
    · rw [hplain (itemsFields lpMap 0 A).length f h0 hbefore hf he, hdel']
      rfl
    · simp only [conc, itemsFields_append, itemsFields, Nat.zero_add]
      rw [eraseIdx_append_length, List.map_append]
      congr 1
      · conv => lhs; rw [← List.map_id (itemsFields lpMap 0 A)]
        apply List.map_congr_left
        intro g hg
        have := htight g hg
        rw [hfe]
        simp only [id]
        rw [if_neg (by simp; omega)]
      · have e := itemsFields_shift lpMap B (itemsPhys lpMap A).length (fieldText lpMap w).length
        rw [e, List.map_map]
        conv => lhs; rw [← List.map_id (itemsFields lpMap (itemsPhys lpMap A).length B)]
        apply List.map_congr_left
        intro g hg
        have := (itemsFields_bounds lpMap B _ g hg).1
        rw [hfe]
        simp only [Function.comp, id]
        rw [if_pos (by simp; omega)]
        simp only [CPhysInfo.shiftBack]
        cases g
        simp
    · simp only [conc, itemsMarks_append, itemsMarks, Nat.zero_add]
      rw [← itemsMarks_length lpMap A 0 0, eraseIdx_append_length]
    · rw [hfe]
      simp only [conc, itemsPhys_append, itemsPhys]
      rw [List.take_left, ← List.append_assoc, ← List.length_append, List.drop_left]
  · intro hno
    have hal : d.m_logList.length = d.m_physlist.length := by
      obtain ⟨X, _, hX⟩ := Consistent_items d hc
      rw [hX]
      exact itemsMarks_length _ X 0 0
    have hplain := BackspaceDeleteNotSel_plain d selInf h0 hlen hfit hno
    generalize selInf.CaretChar = c at *
    constructor
    · obtain ⟨d', hd⟩ := DeleteAllBetween_returns d
        (if (d.m_physStr.take c).drop (c - 2) = ['\r', '\n'] then c - 2 else c - 1) c hal
      rw [subSz_of_le (by split_ifs <;> omega) (by omega)] at hd
      exact ⟨d', by rw [hplain, hd]; rfl, hd⟩
    · intro g hg hcon
      have h1 := hin g hg
      have h2 := hno g hg
      omega

/-- In `"ab<Year>cd"` a backspace at 8, directly behind the field, removes the field and
its marker and leaves `"abcd"`; a backspace at 10 removes the `d`; in `"a\r\n"` a
backspace at 3 removes the line break. -/
theorem BackspaceDeleteNotSel_span_example :
    (∃ d', BackspaceDeleteNotSel midDoc { m_nStartChar := 8, m_nEndChar := 8 } = some d'
      ∧ d'.m_physlist = [] ∧ d'.m_logList = [] ∧ d'.m_physStr = "abcd".toList
      ∧ d'.m_logStr = midDoc.m_logStr)
    ∧ (BackspaceDeleteNotSel midDoc { m_nStartChar := 10, m_nEndChar := 10 }).map
        (fun r => r.m_physStr) = some "ab<Year>c".toList
    ∧ (BackspaceDeleteNotSel lineDoc { m_nStartChar := 3, m_nEndChar := 3 }).map
        (fun r => r.m_physStr) = some ['a'] := by
  obtain ⟨d', h1, _, h3, h4, h5, h6, _⟩ :=
    (BackspaceDeleteNotSel_span midDoc { m_nStartChar := 8, m_nEndChar := 8 }
      (by decide) (by decide) (by decide) (by decide) (by decide)).1
      0 { m_what := 1, m_start := 2, m_end := 8 } (by decide) (by decide)
  obtain ⟨⟨d2, h7, _⟩, _⟩ :=
    (BackspaceDeleteNotSel_span lineDoc { m_nStartChar := 3, m_nEndChar := 3 }
      (by decide) (by decide) (by decide) (by decide) (by decide)).2 (by decide)
  exact ⟨⟨d', h1, h3.trans (by decide), h4.trans (by decide), h5.trans (by decide), h6⟩,
    by decide, by decide⟩

/-! ### C27: `BubbleSort` and `IsSorted` -/

theorem set_set_append {α : Type} (pre rest : List α) (x y : α) :
    ((pre ++ x :: y :: rest).set pre.length y).set (pre.length + 1) x
      = (pre ++ [y]) ++ x :: rest := by
  induction pre with
  | nil => rfl
  | cons a pre ih => simp

theorem BubbleSortInner_carry {α : Type} (cmp : α → α → Int) (rev : Bool) :
    ∀ (n : Nat) (pre : List α) (x : α) (rest : List α) (b : Bool),
    BubbleSortInner cmp rev n pre.length (pre ++ x :: rest) b
      = (pre ++ (bubbleCarry cmp rev n x rest).1, b || (bubbleCarry cmp rev n x rest).2) := by
  intro n
  induction n with
  | zero => intro pre x rest b; simp [BubbleSortInner, bubbleCarry]
  | succ n ih =>
    intro pre x rest b
    unfold BubbleSortInner
    have h1 : (pre ++ x :: rest)[pre.length]? = some x := by
      rw [List.getElem?_append_right (Nat.le_refl _)]
      simp
    cases rest with
    | nil =>
      have h2 : (pre ++ [x])[pre.length + 1]? = none := by simp
      simp only [h1, h2, bubbleCarry, Bool.or_false]
    | cons y rest =>
      have h2 : (pre ++ x :: y :: rest)[pre.length + 1]? = some y := by
        rw [List.getElem?_append_right (by omega)]
        simp
      simp only [h1, h2]
      by_cases hbad : outOfOrder cmp rev x y
      · have hbad' := hbad
        unfold outOfOrder at hbad'
        rw [if_pos hbad', set_set_append]
        have e := ih (pre ++ [y]) x rest true
        simp only [List.length_append, List.length_singleton] at e
        rw [e]
        simp [bubbleCarry, hbad]
      · have hbad' := hbad
        unfold outOfOrder at hbad'
        rw [if_neg hbad']
        have e := ih (pre ++ [x]) y rest b
        simp only [List.length_append, List.length_singleton, List.append_assoc,
          List.singleton_append] at e
        rw [e]
        simp [bubbleCarry, hbad]

theorem bubbleCarry_perm {α : Type} (cmp : α → α → Int) (rev : Bool) :
    ∀ (n : Nat) (x : α) (rest : List α), ((bubbleCarry cmp rev n x rest).1).Perm (x :: rest) := by
  intro n
  induction n with
  | zero => intro x rest; exact List.Perm.refl _
  | succ n ih =>
    intro x rest
    cases rest with
    | nil => exact List.Perm.refl _
    | cons y rest =>
      simp only [bubbleCarry]
      split_ifs
      · exact ((ih x rest).cons y).trans (List.Perm.swap x y rest)
      · exact (ih y rest).cons x

theorem bubbleCarry_append {α : Type} (cmp : α → α → Int) (rev : Bool) :
    ∀ (r1 : List α) (x : α) (back : List α),
    bubbleCarry cmp rev r1.length x (r1 ++ back)
      = ((bubbleCarry cmp rev r1.length x r1).1 ++ back,
          (bubbleCarry cmp rev r1.length x r1).2) := by
  intro r1
  induction r1 with
  | nil => intro x back; rfl
  | cons y r1 ih =>
    intro x back
    rw [List.cons_append]
    simp only [List.length_cons, bubbleCarry]
    by_cases hbad : outOfOrder cmp rev x y
    · rw [if_pos hbad, if_pos hbad, ih x back]
      simp
    · rw [if_neg hbad, if_neg hbad, ih y back]
      simp

/-- A pass over a sequence whose neighbours are in order exchanges nothing. -/
theorem bubbleCarry_chain {α : Type} (cmp : α → α → Int) (rev : Bool) :
    ∀ (n : Nat) (x : α) (rest : List α),
    List.Chain (fun a b => ¬ outOfOrder cmp rev a b) x rest →
    bubbleCarry cmp rev n x rest = (x :: rest, false) := by
  intro n
  induction n with
  | zero => intro x rest _; rfl
  | succ n ih =>
    intro x rest h
    cases rest with
    | nil => rfl
    | cons y rest =>
      rw [List.chain_cons] at h
      simp only [bubbleCarry]
      rw [if_neg h.1, ih y rest h.2]

/-- A full pass that exchanges nothing went over neighbours in order. -/
theorem bubbleCarry_unchanged {α : Type} (cmp : α → α → Int) (rev : Bool) :
    ∀ (rest : List α) (x : α), (bubbleCarry cmp rev rest.length x rest).2 = false →
    List.Chain (fun a b => ¬ outOfOrder cmp rev a b) x rest := by
  intro rest
  induction rest with
  | nil => intro x _; exact List.Chain.nil
  | cons y rest ih =>
    intro x h
    simp only [List.length_cons, bubbleCarry] at h
    by_cases hbad : outOfOrder cmp rev x y
    · rw [if_pos hbad] at h
      cases h
    · rw [if_neg hbad] at h
      exact List.Chain.cons hbad (ih y h)

theorem inOrder_refl {α : Type} (cmp : α → α → Int) (rev : Bool)
    (hanti : ∀ a b, cmp a b > 0 ↔ cmp b a < 0) (a : α) : ¬ outOfOrder cmp rev a a := by
  have h := hanti a a
  unfold outOfOrder
  intro hb
  have : cmp a a = 0 := by omega
  exact hb.1 this

theorem inOrder_total {α : Type} (cmp : α → α → Int) (rev : Bool)
    (hanti : ∀ a b, cmp a b > 0 ↔ cmp b a < 0) (a b : α)
    (h : outOfOrder cmp rev a b) : ¬ outOfOrder cmp rev b a := by
  have h1 := hanti a b
  have h2 := hanti b a
  unfold outOfOrder at *
  cases rev
  · simp only [Bool.not_false, decide_eq_true_eq] at *
    omega
  · simp only [Bool.not_true, decide_eq_false_iff_not] at *
    omega

theorem inOrder_trans {α : Type} (cmp : α → α → Int) (rev : Bool)
    (hanti : ∀ a b, cmp a b > 0 ↔ cmp b a < 0)
    (htrans : ∀ a b c, cmp a b ≤ 0 → cmp b c ≤ 0 → cmp a c ≤ 0) (a b c : α)
    (h1 : ¬ outOfOrder cmp rev a b) (h2 : ¬ outOfOrder cmp rev b c) :
    ¬ outOfOrder cmp rev a c := by
  unfold outOfOrder at *
  cases rev
  · simp only [Bool.not_false, decide_eq_true_eq] at *
    have := htrans a b c (by omega) (by omega)
    omega
  · simp only [Bool.not_true, decide_eq_false_iff_not] at *
    have k1 := hanti a b
    have k2 := hanti b c
    have k3 := hanti a c
    have k4 := hanti b a
    have k5 := hanti c b
    have k6 := hanti c a
    have := htrans c b a (by omega) (by omega)
    omega

/-- A full pass leaves a greatest element at the end. -/
theorem bubbleCarry_last {α : Type} (cmp : α → α → Int) (rev : Bool)
    (hanti : ∀ a b, cmp a b > 0 ↔ cmp b a < 0)
    (htrans : ∀ a b c, cmp a b ≤ 0 → cmp b c ≤ 0 → cmp a c ≤ 0) :
    ∀ (rest : List α) (x : α), ∃ init m,
      (bubbleCarry cmp rev rest.length x rest).1 = init ++ [m]
      ∧ ∀ z ∈ init, ¬ outOfOrder cmp rev z m := by
  intro rest
  induction rest with
  | nil => intro x; exact ⟨[], x, rfl, by simp⟩
  | cons y rest ih =>
    intro x
    simp only [List.length_cons, bubbleCarry]
    by_cases hbad : outOfOrder cmp rev x y
    · rw [if_pos hbad]
      obtain ⟨init, m, he, hall⟩ := ih x
      refine ⟨y :: init, m, by simp [he], ?_⟩
      intro z hz
      have hx : ¬ outOfOrder cmp rev x m := by
        have hm : x ∈ init ++ [m] := by
          rw [← he]
          exact (bubbleCarry_perm cmp rev rest.length x rest).mem_iff.2 (List.mem_cons_self _ _)
        rcases List.mem_append.1 hm with hm | hm
        · exact hall x hm
        · simp only [List.mem_singleton] at hm
          subst hm
          exact inOrder_refl cmp rev hanti x
      rcases List.mem_cons.1 hz with hz | hz
      · subst hz
        exact inOrder_trans cmp rev hanti htrans z x m (inOrder_total cmp rev hanti x z hbad) hx
      · exact hall z hz
    · rw [if_neg hbad]
      obtain ⟨init, m, he, hall⟩ := ih y
      refine ⟨x :: init, m, by simp [he], ?_⟩
      intro z hz
      have hy : ¬ outOfOrder cmp rev y m := by
        have hm : y ∈ init ++ [m] := by
          rw [← he]
          exact (bubbleCarry_perm cmp rev rest.length y rest).mem_iff.2 (List.mem_cons_self _ _)
        rcases List.mem_append.1 hm with hm | hm
        · exact hall y hm
        · simp only [List.mem_singleton] at hm
          subst hm
          exact inOrder_refl cmp rev hanti y
      rcases List.mem_cons.1 hz with hz | hz
      · subst hz
        exact inOrder_trans cmp rev hanti htrans z y m hbad hy
      · exact hall z hz

theorem BubbleSortInner_zero {α : Type} (cmp : α → α → Int) (rev : Bool) (n : Nat) (x : α)
    (rest : List α) (b : Bool) :
    BubbleSortInner cmp rev n 0 (x :: rest) b
      = ((bubbleCarry cmp rev n x rest).1, b || (bubbleCarry cmp rev n x rest).2) := by
  have h := BubbleSortInner_carry cmp rev n [] x rest b
  simpa using h

theorem BubbleSortOuter_nil {α : Type} (cmp : α → α → Int) (rev : Bool) :
    ∀ (k : Nat) (b : Bool), BubbleSortOuter cmp rev k ([] : List α) b = ([], b) := by
  intro k
  induction k with
  | zero => intro b; rfl
  | succ k ih =>
    intro b
    simp only [BubbleSortOuter]
    have : BubbleSortInner cmp rev (k + 1) 0 ([] : List α) b = ([], b) := by
      simp [BubbleSortInner]
    rw [this]
    exact ih b

theorem BubbleSortOuter_perm {α : Type} (cmp : α → α → Int) (rev : Bool) :
    ∀ (k : Nat) (arr : List α) (b : Bool), ((BubbleSortOuter cmp rev k arr b).1).Perm arr := by
  intro k
  induction k with
  | zero => intro arr b; exact List.Perm.refl _
  | succ k ih =>
    intro arr b
    cases arr with
    | nil => rw [BubbleSortOuter_nil]
    | cons x rest =>
      simp only [BubbleSortOuter, BubbleSortInner_zero]
      exact (ih _ _).trans (bubbleCarry_perm cmp rev (k + 1) x rest)

theorem BubbleSortOuter_true {α : Type} (cmp : α → α → Int) (rev : Bool) :
    ∀ (k : Nat) (arr : List α), (BubbleSortOuter cmp rev k arr true).2 = true := by
  intro k
  induction k with
  | zero => intro arr; rfl
  | succ k ih =>
    intro arr
    cases arr with
    | nil => rw [BubbleSortOuter_nil]
    | cons x rest =>
      simp only [BubbleSortOuter, BubbleSortInner_zero, Bool.true_or]
      exact ih _

/-- On an array whose neighbours are in order the sort exchanges nothing. -/
theorem BubbleSortOuter_chain {α : Type} (cmp : α → α → Int) (rev : Bool) :
    ∀ (k : Nat) (arr : List α) (b : Bool),
    List.Chain' (fun a b => ¬ outOfOrder cmp rev a b) arr →
    BubbleSortOuter cmp rev k arr b = (arr, b) := by
  intro k
  induction k with
  | zero => intro arr b _; rfl
  | succ k ih =>
    intro arr b h
    cases arr with
    | nil => rw [BubbleSortOuter_nil]
    | cons x rest =>
      simp only [BubbleSortOuter, BubbleSortInner_zero]
      rw [bubbleCarry_chain cmp rev (k + 1) x rest h]
      simp only [Bool.or_false]
      exact ih _ _ h

/-- The outer loop with `lastInd = k`: the part behind the index `k` is sorted and not
below the part before it; in the end the whole array is sorted. -/
theorem BubbleSortOuter_sorted {α : Type} (cmp : α → α → Int) (rev : Bool)
    (hanti : ∀ a b, cmp a b > 0 ↔ cmp b a < 0)
    (htrans : ∀ a b c, cmp a b ≤ 0 → cmp b c ≤ 0 → cmp a c ≤ 0) :
    ∀ (k : Nat) (front back : List α) (b : Bool), front.length = k + 1 →
    back.Pairwise (fun a b => ¬ outOfOrder cmp rev a b) →
    (∀ a ∈ front, ∀ c ∈ back, ¬ outOfOrder cmp rev a c) →
    ((BubbleSortOuter cmp rev k (front ++ back) b).1).Pairwise
      (fun a b => ¬ outOfOrder cmp rev a b) := by
  intro k
  induction k with
  | zero =>
    intro front back b hl hback hfb
    simp only [BubbleSortOuter]
    rw [List.pairwise_append]
    refine ⟨?_, hback, hfb⟩
    cases front with
    | nil => simp
    | cons a t =>
      have : t = [] := by
        cases t with
        | nil => rfl
        | cons _ _ => simp at hl
      subst this
      simp
  | succ k ih =>
    intro front back b hl hback hfb
    cases front with
    | nil => simp at hl
    | cons x r1 =>
      have hr1 : r1.length = k + 1 := by simpa using hl
      rw [List.cons_append]
      simp only [BubbleSortOuter, BubbleSortInner_zero]
      have e := bubbleCarry_append cmp rev r1 x back
      rw [hr1] at e
      rw [e]
      obtain ⟨init, m, he, hall⟩ := bubbleCarry_last cmp rev hanti htrans r1 x
      rw [hr1] at he
      have hperm := bubbleCarry_perm cmp rev (k + 1) x r1
      rw [he] at hperm
      simp only [he]
      have hlen : init.length = k + 1 := by
        have := hperm.length_eq
        simp only [List.length_append, List.length_cons, List.length_nil] at this
        omega
      have hmem : ∀ a, a ∈ init ++ [m] → a ∈ x :: r1 := fun a ha => hperm.mem_iff.1 ha
      rw [List.append_assoc]
      apply ih init ([m] ++ back) _ hlen
      · rw [List.pairwise_append]
        refine ⟨by simp, hback, ?_⟩
        intro a ha c hc
        simp only [List.mem_singleton] at ha
        subst ha
        exact hfb a (hmem a (by simp)) c hc
      · intro a ha c hc
        rcases List.mem_append.1 hc with hc | hc
        · simp only [List.mem_singleton] at hc
          subst hc
          exact hall a ha
        · exact hfb a (hmem a (List.mem_append_left _ ha)) c hc

theorem IsSortedLoop_chain {α : Type} (cmp : α → α → Int) (rev : Bool) :
    ∀ (n : Nat) (pre : List α) (x : α) (rest : List α),
    IsSortedLoop cmp rev n pre.length (pre ++ x :: rest) = true
      ↔ List.Chain (fun a b => ¬ outOfOrder cmp rev a b) x (rest.take n) := by
  intro n
  induction n with
  | zero => intro pre x rest; simp [IsSortedLoop]
  | succ n ih =>
    intro pre x rest
    unfold IsSortedLoop
    have h1 : (pre ++ x :: rest)[pre.length]? = some x := by
      rw [List.getElem?_append_right (Nat.le_refl _)]
      simp
    cases rest with
    | nil =>
      have h2 : (pre ++ [x])[pre.length + 1]? = none := by simp
      simp only [h1, h2, List.take_nil]
      simp
    | cons y rest =>
      have h2 : (pre ++ x :: y :: rest)[pre.length + 1]? = some y := by
        rw [List.getElem?_append_right (by omega)]
        simp
      simp only [h1, h2, List.take_succ_cons, List.chain_cons]
      by_cases hbad : outOfOrder cmp rev x y
      · have hbad' := hbad
        unfold outOfOrder at hbad'
        rw [if_pos hbad']
        simp [hbad]
      · have hbad' := hbad
        unfold outOfOrder at hbad'
        rw [if_neg hbad']
        have e := ih (pre ++ [x]) y rest
        simp only [List.length_append, List.length_singleton, List.append_assoc,
          List.singleton_append] at e
        rw [e]
        simp [hbad]

theorem IsSorted_iff {α : Type} (cmp : α → α → Int) (rev : Bool) (arr : List α) :
    IsSorted cmp rev arr = true ↔ List.Chain' (fun a b => ¬ outOfOrder cmp rev a b) arr := by
  cases arr with
  | nil => simp [IsSorted, IsSortedLoop]
  | cons x rest =>
    unfold IsSorted
    have e := IsSortedLoop_chain cmp rev rest.length [] x rest
    simp only [List.length_nil, List.nil_append, List.take_length] at e
    simpa using e

theorem inOrder_iff {α : Type} (cmp : α → α → Int) (rev : Bool) (a b : α) :
    ¬ outOfOrder cmp rev a b ↔ (if rev = true then 0 ≤ cmp a b else cmp a b ≤ 0) := by
  unfold outOfOrder
  cases rev
  · simp only [Bool.not_false, decide_eq_true_eq, Bool.false_eq_true, if_false]
    omega
  · simp only [Bool.not_true, decide_eq_false_iff_not, if_true]
    omega

theorem BubbleSort_unsorted {α : Type} (cmp : α → α → Int) (rev : Bool) (arr : List α)
    (h : ¬ List.Chain' (fun a b => ¬ outOfOrder cmp rev a b) arr) :
    (BubbleSort cmp rev arr).2 = true := by
  cases arr with
  | nil => exact absurd List.chain'_nil h
  | cons x rest =>
    cases rest with
    | nil => exact absurd (List.chain'_singleton x) h
    | cons y rest =>
      have hch : (bubbleCarry cmp rev (y :: rest).length x (y :: rest)).2 = true := by
        by_contra hc
        exact h (bubbleCarry_unchanged cmp rev (y :: rest) x (Bool.eq_false_iff.2 hc))
      unfold BubbleSort
      simp only [List.length_cons, Nat.add_sub_cancel, BubbleSortOuter, BubbleSortInner_zero]
      simp only [List.length_cons] at hch
      rw [hch]
      exact BubbleSortOuter_true cmp rev _ _

/-- C27. BubbleSort sorts: after `BubbleSort(cmp, ..., bReverseOrder)` the array is a
permutation of the original; for a comparator that is a consistent total preorder
(`cmp(a,b) > 0` iff `cmp(b,a) < 0`, and `cmp(a,b) <= 0`, `cmp(b,c) <= 0` give
`cmp(a,c) <= 0`) `IsSorted(cmp, ..., bReverseOrder)` returns TRUE on it, every element
being in order with every later one; `BubbleSort` returns TRUE exactly when `IsSorted`
returns FALSE on the array before the call, and when it returns FALSE the array is as it
was; `IsSorted` returns TRUE exactly when no two neighbours are out of order, so for
every array of zero or one element. -/
theorem BubbleSort_sorts {α : Type} (cmp : α → α → Int) (rev : Bool) (arr : List α) :
    ((BubbleSort cmp rev arr).1).Perm arr
    ∧ ((∀ a b, cmp a b > 0 ↔ cmp b a < 0) →
        (∀ a b c, cmp a b ≤ 0 → cmp b c ≤ 0 → cmp a c ≤ 0) →
        IsSorted cmp rev (BubbleSort cmp rev arr).1 = true
        ∧ ((BubbleSort cmp rev arr).1).Pairwise
            (fun a b => if rev = true then 0 ≤ cmp a b else cmp a b ≤ 0))
    ∧ ((BubbleSort cmp rev arr).2 = true ↔ IsSorted cmp rev arr = false)
    ∧ ((BubbleSort cmp rev arr).2 = false → (BubbleSort cmp rev arr).1 = arr)
    ∧ (IsSorted cmp rev arr = true
        ↔ List.Chain' (fun a b => if rev = true then 0 ≤ cmp a b else cmp a b ≤ 0) arr)
    ∧ (arr.length ≤ 1 → IsSorted cmp rev arr = true) := by
  have hiff : (BubbleSort cmp rev arr).2 = true ↔ IsSorted cmp rev arr = false := by
    constructor
    · intro h
      by_contra hs
      have hs' : IsSorted cmp rev arr = true := by simpa using hs
      have := BubbleSortOuter_chain cmp rev (arr.length - 1) arr false
        ((IsSorted_iff cmp rev arr).1 hs')
      unfold BubbleSort at h
      rw [this] at h
      cases h
    · intro h
      apply BubbleSort_unsorted
      intro hc
      rw [(IsSorted_iff cmp rev arr).2 hc] at h
      cases h
  have hchain : ∀ l : List α, List.Chain' (fun a b => ¬ outOfOrder cmp rev a b) l
      ↔ List.Chain' (fun a b => if rev = true then 0 ≤ cmp a b else cmp a b ≤ 0) l := by
    intro l
    constructor
    · exact List.Chain'.imp (fun a b h => (inOrder_iff cmp rev a b).1 h)
    · exact List.Chain'.imp (fun a b h => (inOrder_iff cmp rev a b).2 h)
  refine ⟨BubbleSortOuter_perm cmp rev _ arr false, ?_, hiff, ?_, ?_, ?_⟩
  · intro hanti htrans
    have hp : ((BubbleSort cmp rev arr).1).Pairwise (fun a b => ¬ outOfOrder cmp rev a b) := by
      cases arr with
      | nil =>
        unfold BubbleSort
        rw [BubbleSortOuter_nil]
        exact List.Pairwise.nil
      | cons x rest =>
        have := BubbleSortOuter_sorted cmp rev hanti htrans rest.length (x :: rest) [] false
          (by simp) List.Pairwise.nil (by simp)
        simpa [BubbleSort] using this
    refine ⟨(IsSorted_iff cmp rev _).2 hp.chain', ?_⟩
    exact hp.imp (fun h => (inOrder_iff cmp rev _ _).1 h)
  · intro h
    have hs : IsSorted cmp rev arr = true := by
      by_contra hs
      have : IsSorted cmp rev arr = false := by simpa using hs
      rw [hiff.2 this] at h
      cases h
    have := BubbleSortOuter_chain cmp rev (arr.length - 1) arr false
      ((IsSorted_iff cmp rev arr).1 hs)
    unfold BubbleSort
    rw [this]
  · rw [IsSorted_iff, hchain]
  · intro hl
    rw [IsSorted_iff]
    cases arr with
    | nil => exact List.chain'_nil
    | cons x rest =>
      cases rest with
      | nil => exact List.chain'_singleton x
      | cons y rest => simp at hl

/-- C27, witness: the integers 3, 1, 2, 1 compared by their difference. -/
theorem BubbleSort_sorts_witness :
    BubbleSort intCompare false [3, 1, 2, 1] = ([1, 1, 2, 3], true)
    ∧ BubbleSort intCompare true [3, 1, 2, 1] = ([3, 2, 1, 1], true)
    ∧ IsSorted intCompare false (BubbleSort intCompare false [3, 1, 2, 1]).1 = true
    ∧ IsSorted intCompare false [3, 1, 2, 1] = false
    ∧ BubbleSort intCompare false [1, 2, 2] = ([1, 2, 2], false)
    ∧ IsSorted intCompare false [7] = true := by
  have h := BubbleSort_sorts intCompare false [3, 1, 2, 1]
  have h1 := h.2.1 (by intro a b; unfold intCompare; omega)
    (by intro a b c; unfold intCompare; omega)
  have h2 := (BubbleSort_sorts intCompare false [7]).2.2.2.2.2 (by decide)
  exact ⟨by decide, by decide, h1.1, h.2.2.1.1 (by decide), by decide, h2⟩

/-! ### C31: `VkDeleteNotSel` -/

/-- At the start of a field that `FindPhysInfoAfter` finds at the caret, `VkDeleteNotSel`
deletes up to the end of that field and replays one keystroke for each of its
characters. -/
theorem VkDeleteNotSel_field (d : CSubstPhysData) (selInf : CSelInfo) (k : Nat)
    (f : CPhysInfo) (h0 : selInf.CaretChar < d.m_physStr.length)
    (hb : FindPhysInfoAfter d selInf.CaretChar = some k) (hf : d.m_physlist[k]? = some f)
    (he : f.m_start = selInf.CaretChar) :
    VkDeleteNotSel d selInf
      = (DeleteAllBetween d selInf.CaretChar f.m_end).map
          (fun r => (r.1, f.m_end - selInf.CaretChar)) := by
  unfold VkDeleteNotSel
  simp only [hb, Option.some_bind, hf, he, if_true, h0]
  cases DeleteAllBetween d selInf.CaretChar f.m_end with
  | none => rfl
  | some r => rfl

/-- With no field starting at the caret, `VkDeleteNotSel` deletes the line-break pair or
the one character behind the caret and replays one keystroke. -/
theorem VkDeleteNotSel_plain (d : CSubstPhysData) (selInf : CSelInfo)
    (h0 : selInf.CaretChar < d.m_physStr.length) (hfit : d.m_physStr.length < INT_LIMIT)
    (hno : ∀ f ∈ d.m_physlist, f.m_start ≠ selInf.CaretChar) :
    VkDeleteNotSel d selInf
      = (DeleteAllBetween d selInf.CaretChar
          (if (d.m_physStr.drop selInf.CaretChar).take 2 = ['\r', '\n']
            then selInf.CaretChar + 2 else selInf.CaretChar + 1)).map
          (fun r => (r.1, 1)) := by
  generalize hcc : selInf.CaretChar = c at *
  have hbind : ∀ g, (FindPhysInfoAfter d c).bind (fun k => d.m_physlist[k]?) = some g →
      g.m_start ≠ c := by
    intro g hg
    cases hk : FindPhysInfoAfter d c with
    | none => rw [hk] at hg; cases hg
    | some k =>
      rw [hk] at hg
      simp only [Option.some_bind] at hg
      exact hno g (List.getElem?_mem hg)
  have hright : strLeft (strRight d.m_physStr (castInt (subSz d.m_physStr.length c))) 2
      = (d.m_physStr.drop c).take 2 := by
    unfold strRight strLeft
    rw [subSz_of_le (by omega) hfit, toNat_castInt (by omega)]
    have e : d.m_physStr.length - (d.m_physStr.length - c) = c := by omega
    rw [e]
    rfl
  have key : VkDeleteNotSel d selInf
      = match DeleteAllBetween d c
          (if strLeft (strRight d.m_physStr (castInt (subSz d.m_physStr.length c))) 2
              = ['\r', '\n'] then addSz c 2 else addSz c 1) with
        | none => none
        | some (d1, _) => some (d1, addSz c 1 - c) := by
    unfold VkDeleteNotSel
    simp only [hcc, h0, if_true]
    cases hq : (FindPhysInfoAfter d c).bind (fun k => d.m_physlist[k]?) with
    | none => rfl
    | some g =>
      simp only []
      rw [if_neg (hbind g hq)]
  have ha2 : addSz c 2 = c + 2 := by
    unfold addSz SIZE_MOD; unfold INT_LIMIT at hfit; omega
  have ha1 : addSz c 1 = c + 1 := by
    unfold addSz SIZE_MOD; unfold INT_LIMIT at hfit; omega
  rw [key, hright, ha2, ha1]
  have e1 : c + 1 - c = 1 := by omega
  rw [e1]
  cases DeleteAllBetween d c
      (if (d.m_physStr.drop c).take 2 = ['\r', '\n'] then c + 2 else c + 1) with
  | none => rfl
  | some r => rfl

/-- Forward delete on consistent data: on consistent physical data over a
map with non-empty display texts, for the caret `c < len(physicalString)` not strictly
inside a field, `VkDeleteNotSel` changes the model as `DeleteAllBetween(c, e)` does.  When
a field starts at `c`, `e` is the end of that field: the whole field and its marker are
removed, the fields behind it move left by its length, the physical string loses exactly
`[c, e)`, the logical string stays, the result is consistent, and `e - c` keystrokes are
replayed.  When no field starts at `c`, `e` is `c + 2` if the two characters
`physicalString[c, c+2)` are `"\r\n"` and `c + 1` otherwise, one keystroke is replayed in
both cases, and the position `c + 1` is not strictly inside a field. -/
theorem VkDeleteNotSel_consistent (d : CSubstPhysData) (selInf : CSelInfo)
    (hc : Consistent d) (hne : NonEmptyTexts d.m_map)
    (hlen : selInf.CaretChar < d.m_physStr.length) (hin : NotInside d selInf.CaretChar) :
    (∀ i f, d.m_physlist[i]? = some f → f.m_start = selInf.CaretChar →
      ∃ d', VkDeleteNotSel d selInf = some (d', f.m_end - selInf.CaretChar)
        ∧ DeleteAllBetween d selInf.CaretChar f.m_end
            = some (d', f.m_end - selInf.CaretChar)
        ∧ d'.m_physlist = (d.m_physlist.eraseIdx i).map
            (fun g => if g.m_start ≥ f.m_start then g.shiftBack (f.m_end - f.m_start) else g)
        ∧ d'.m_logList = d.m_logList.eraseIdx i
        ∧ d'.m_physStr = d.m_physStr.take f.m_start ++ d.m_physStr.drop f.m_end
        ∧ d'.m_logStr = d.m_logStr
        ∧ Consistent d')
    ∧ ((∀ f ∈ d.m_physlist, f.m_start ≠ selInf.CaretChar) →
      (∃ d', VkDeleteNotSel d selInf = some (d', 1)
        ∧ DeleteAllBetween d selInf.CaretChar
            (if (d.m_physStr.drop selInf.CaretChar).take 2 = ['\r', '\n']
              then selInf.CaretChar + 2 else selInf.CaretChar + 1)
          = some (d',
              (if (d.m_physStr.drop selInf.CaretChar).take 2 = ['\r', '\n']
                then selInf.CaretChar + 2 else selInf.CaretChar + 1) - selInf.CaretChar))
      ∧ NotInside d (selInf.CaretChar + 1)) := by
  have hfit : d.m_physStr.length < INT_LIMIT := hc.2.2.1
  constructor
  · intro i f hf he
    have hfield := VkDeleteNotSel_field d selInf
    generalize selInf.CaretChar = c at *
    obtain ⟨X, hk, hX⟩ := Consistent_items d hc
    generalize d.m_map = lpMap at hk hX hne
    subst hX
    obtain ⟨A, w, B, rfl, hi, hfe⟩ := split_at_field lpMap X 0 i f hf
    subst hi
    simp only [Nat.zero_add] at hfe
    obtain ⟨hkA, hkB⟩ := itemsKnown_append.1 hk
    have htight : Tight lpMap A := Tight_of_nonEmpty hne hkA
    have hfit' : (itemsPhys lpMap (A ++ Item.fld w :: B)).length < INT_LIMIT := hfit
    have hfit2 := hfit'
    simp only [itemsPhys_append, itemsPhys, List.length_append] at hfit2
    have hk' : itemsKnown lpMap (A ++ B) :=
      itemsKnown_append.2 ⟨hkA, (itemsKnown_cons_fld.1 hkB).2⟩
    have hcons : Consistent (conc lpMap (A ++ B)) := by
      apply conc_Consistent lpMap _ hk'
      simp only [itemsPhys_append, List.length_append]; omega
    have hcs : c = (itemsPhys lpMap A).length := by rw [← he, hfe]
    have hfend : f.m_end = (itemsPhys lpMap A).length + (fieldText lpMap w).length := by
      rw [hfe]
    have hafter : FindPhysInfoAfter (conc lpMap (A ++ Item.fld w :: B)) c
        = some (itemsFields lpMap 0 A).length := by
      rw [hcs, FindPhysInfoAfter_conc lpMap A _ htight]
      simp [itemsFields]
    have hdel := DeleteAllBetween_conc lpMap hne A [Item.fld w] B
      (by simpa using hk) (by simpa using hfit')
    have ephys : itemsPhys lpMap [Item.fld w] = fieldText lpMap w := by simp [itemsPhys]
    rw [ephys, ← hfend, ← hcs] at hdel
    have hdel' : DeleteAllBetween (conc lpMap (A ++ Item.fld w :: B)) c f.m_end
        = some (conc lpMap (A ++ B), f.m_end - c) := by
      have e : f.m_end - c = (fieldText lpMap w).length := by omega
      rw [e]
      simpa using hdel
    refine ⟨conc lpMap (A ++ B), ?_, hdel', ?_, ?_, ?_, by simp [conc, itemsLog], hcons⟩
    · rw [hfield (itemsFields lpMap 0 A).length f hlen hafter hf he, hdel']
      rfl
    · simp only [conc, itemsFields_append, itemsFields, Nat.zero_add]
      rw [eraseIdx_append_length, List.map_append]
      congr 1
      · conv => lhs; rw [← List.map_id (itemsFields lpMap 0 A)]
        apply List.map_congr_left
        intro g hg
        have := htight g hg
        rw [hfe]
        simp only [id]
        rw [if_neg (by simp; omega)]
      · have e := itemsFields_shift lpMap B (itemsPhys lpMap A).length (fieldText lpMap w).length
        rw [e, List.map_map]
        conv => lhs; rw [← List.map_id (itemsFields lpMap (itemsPhys lpMap A).length B)]
        apply List.map_congr_left
        intro g hg
        have := (itemsFields_bounds lpMap B _ g hg).1
        rw [hfe]
        simp only [Function.comp, id]
        rw [if_pos (by simp; omega)]
        simp only [CPhysInfo.shiftBack]
        cases g
        simp
    · simp only [conc, itemsMarks_append, itemsMarks, Nat.zero_add]
      rw [← itemsMarks_length lpMap A 0 0, eraseIdx_append_length]
    · rw [hfe]
      simp only [conc, itemsPhys_append, itemsPhys]
      rw [List.take_left, ← List.append_assoc, ← List.length_append, List.drop_left]
  · intro hno
    have hal : d.m_logList.length = d.m_physlist.length := by
      obtain ⟨X, _, hX⟩ := Consistent_items d hc
      rw [hX]
      exact itemsMarks_length _ X 0 0
    have hplain := VkDeleteNotSel_plain d selInf hlen hfit hno
    generalize selInf.CaretChar = c at *
    constructor
    · obtain ⟨d', hd⟩ := DeleteAllBetween_returns d c
        (if (d.m_physStr.drop c).take 2 = ['\r', '\n'] then c + 2 else c + 1) hal
      rw [subSz_exact _ _ (by split_ifs <;> omega)
        (by unfold SIZE_MOD; unfold INT_LIMIT at hfit; split_ifs <;> omega)] at hd
      exact ⟨d', by rw [hplain, hd]; rfl, hd⟩
    · intro g hg hcon
      have h1 := hin g hg
      have h2 := hno g hg
      omega

/-- Example: in `"ab<Year>cd"` a delete at 2, directly before the field, removes the
field and its marker, leaves `"abcd"` and replays 6 keystrokes; a delete at 0 removes the
`a` with one keystroke; in `"a\r\n"` a delete at 1 removes the line break with one
keystroke. -/
theorem VkDeleteNotSel_consistent_example :
    (∃ d', VkDeleteNotSel midDoc { m_nStartChar := 2, m_nEndChar := 2 } = some (d', 8 - 2)
      ∧ d'.m_physlist = [] ∧ d'.m_logList = [] ∧ d'.m_physStr = "abcd".toList
      ∧ d'.m_logStr = midDoc.m_logStr)
    ∧ (VkDeleteNotSel midDoc { m_nStartChar := 0, m_nEndChar := 0 }).map
        (fun r => (r.1.m_physStr, r.2)) = some ("b<Year>cd".toList, 1)
    ∧ (∃ d', VkDeleteNotSel lineDoc { m_nStartChar := 1, m_nEndChar := 1 } = some (d', 1))
    ∧ (VkDeleteNotSel lineDoc { m_nStartChar := 1, m_nEndChar := 1 }).map
        (fun r => r.1.m_physStr) = some ['a'] := by
  obtain ⟨d', h1, _, h3, h4, h5, h6, _⟩ :=
    (VkDeleteNotSel_consistent midDoc { m_nStartChar := 2, m_nEndChar := 2 }
      (by decide) (by decide) (by decide) (by decide)).1
      0 { m_what := 1, m_start := 2, m_end := 8 } (by decide) (by decide)
  obtain ⟨⟨d2, h7, _⟩, _⟩ :=
    (VkDeleteNotSel_consistent lineDoc { m_nStartChar := 1, m_nEndChar := 1 }
      (by decide) (by decide) (by decide) (by decide)).2 (by decide)
  exact ⟨⟨d', h1, h3.trans (by decide), h4.trans (by decide), h5.trans (by decide), h6⟩,
    by decide, ⟨d2, h7⟩, by decide⟩

/-- With no field found at the caret by `FindPhysInfoAfter`, `VkDeleteNotSel` deletes the
line-break pair or the one character behind the caret and replays one keystroke. -/
theorem VkDeleteNotSel_else (d : CSubstPhysData) (selInf : CSelInfo)
    (h0 : selInf.CaretChar < d.m_physStr.length) (hfit : d.m_physStr.length < INT_LIMIT)
    (hno : ∀ k f, FindPhysInfoAfter d selInf.CaretChar = some k → d.m_physlist[k]? = some f →
      f.m_start ≠ selInf.CaretChar) :
    VkDeleteNotSel d selInf
      = (DeleteAllBetween d selInf.CaretChar
          (if (d.m_physStr.drop selInf.CaretChar).take 2 = ['\r', '\n']
            then selInf.CaretChar + 2 else selInf.CaretChar + 1)).map
          (fun r => (r.1, 1)) := by
  generalize hcc : selInf.CaretChar = c at *
  have hbind : ∀ g, (FindPhysInfoAfter d c).bind (fun k => d.m_physlist[k]?) = some g →
      g.m_start ≠ c := by
    intro g hg
    cases hk : FindPhysInfoAfter d c with
    | none => rw [hk] at hg; cases hg
    | some k =>
      rw [hk] at hg
      simp only [Option.some_bind] at hg
      exact hno k g hk hg
  have hright : strLeft (strRight d.m_physStr (castInt (subSz d.m_physStr.length c))) 2
      = (d.m_physStr.drop c).take 2 := by
    unfold strRight strLeft
    rw [subSz_of_le (by omega) hfit, toNat_castInt (by omega)]
    have e : d.m_physStr.length - (d.m_physStr.length - c) = c := by omega
    rw [e]
    rfl
  have key : VkDeleteNotSel d selInf
      = match DeleteAllBetween d c
          (if strLeft (strRight d.m_physStr (castInt (subSz d.m_physStr.length c))) 2
              = ['\r', '\n'] then addSz c 2 else addSz c 1) with
        | none => none
        | some (d1, _) => some (d1, addSz c 1 - c) := by
    unfold VkDeleteNotSel
    simp only [hcc, h0, if_true]
    cases hq : (FindPhysInfoAfter d c).bind (fun k => d.m_physlist[k]?) with
    | none => rfl
    | some g =>
      simp only []
      rw [if_neg (hbind g hq)]
  have ha2 : addSz c 2 = c + 2 := by
    unfold addSz SIZE_MOD; unfold INT_LIMIT at hfit; omega
  have ha1 : addSz c 1 = c + 1 := by
    unfold addSz SIZE_MOD; unfold INT_LIMIT at hfit; omega
  rw [key, hright, ha2, ha1]
  have e1 : c + 1 - c = 1 := by omega
  rw [e1]
  cases DeleteAllBetween d c
      (if (d.m_physStr.drop c).take 2 = ['\r', '\n'] then c + 2 else c + 1) with
  | none => rfl
  | some r => rfl

/-- C31. Forward-delete span with empty selection: for every physical data whose two
sequences are index-aligned (every consistent data, in particular) and whose physical
string is a `CString`, and every caret `c < len(physicalString)`, `VkDeleteNotSel` changes
the model exactly as `DeleteAllBetween(c, e)` does, which returns: `e` is the end of the
field that `FindPhysInfoAfter(c)` finds if that field starts at `c`, and then `e - c`
delete keystrokes are replayed; otherwise `e` is `c + 2` if the two characters
`physicalString[c, c+2)` are `"\r\n"` and `c + 1` if not, and one keystroke is replayed,
also for the two-character line break. -/
theorem VkDeleteNotSel_span (d : CSubstPhysData) (selInf : CSelInfo) (hal : Aligned d)
    (hfit : d.m_physStr.length < INT_LIMIT)
    (hlen : selInf.CaretChar < d.m_physStr.length) :
    (∀ k f, FindPhysInfoAfter d selInf.CaretChar = some k → d.m_physlist[k]? = some f →
      f.m_start = selInf.CaretChar →
      ∃ d' n, DeleteAllBetween d selInf.CaretChar f.m_end = some (d', n)
        ∧ VkDeleteNotSel d selInf = some (d', f.m_end - selInf.CaretChar))
    ∧ ((∀ k f, FindPhysInfoAfter d selInf.CaretChar = some k → d.m_physlist[k]? = some f →
        f.m_start ≠ selInf.CaretChar) →
      ∃ d' n, DeleteAllBetween d selInf.CaretChar
            (if (d.m_physStr.drop selInf.CaretChar).take 2 = ['\r', '\n']
              then selInf.CaretChar + 2 else selInf.CaretChar + 1) = some (d', n)
        ∧ VkDeleteNotSel d selInf = some (d', 1)) := by
  constructor
  · intro k f hk hf he
    obtain ⟨d', n, hd, _⟩ := DeleteAllBetween_aligned d selInf.CaretChar f.m_end hal
    refine ⟨d', n, hd, ?_⟩
    rw [VkDeleteNotSel_field d selInf k f hlen hk hf he, hd]
    rfl
  · intro hno
    obtain ⟨d', n, hd, _⟩ := DeleteAllBetween_aligned d selInf.CaretChar
      (if (d.m_physStr.drop selInf.CaretChar).take 2 = ['\r', '\n']
        then selInf.CaretChar + 2 else selInf.CaretChar + 1) hal
    refine ⟨d', n, hd, ?_⟩
    rw [VkDeleteNotSel_else d selInf hlen hfit hno, hd]
    rfl

/-- C31, witness: in `"ab<Year>cd"` a delete at 2, directly before the field, acts as
`DeleteAllBetween(2, 8)` and replays 6 keystrokes, leaving `"abcd"`; in `"a\r\n"` a delete
at 1 acts as `DeleteAllBetween(1, 3)` and replays one keystroke, leaving `"a"`. -/
theorem VkDeleteNotSel_span_witness :
    (∃ d' n, DeleteAllBetween midDoc 2 8 = some (d', n)
      ∧ VkDeleteNotSel midDoc { m_nStartChar := 2, m_nEndChar := 2 } = some (d', 8 - 2))
    ∧ (VkDeleteNotSel midDoc { m_nStartChar := 2, m_nEndChar := 2 }).map
        (fun r => (r.1.m_physStr, r.2)) = some ("abcd".toList, 6)
    ∧ (∃ d' n, DeleteAllBetween lineDoc 1 3 = some (d', n)
      ∧ VkDeleteNotSel lineDoc { m_nStartChar := 1, m_nEndChar := 1 } = some (d', 1))
    ∧ (VkDeleteNotSel lineDoc { m_nStartChar := 1, m_nEndChar := 1 }).map
        (fun r => (r.1.m_physStr, r.2)) = some (['a'], 1) :=
  ⟨(VkDeleteNotSel_span midDoc { m_nStartChar := 2, m_nEndChar := 2 } (by decide) (by decide)
      (by decide)).1 0 { m_what := 1, m_start := 2, m_end := 8 } (by decide) (by decide)
      (by decide),
    by decide,
    (VkDeleteNotSel_span lineDoc { m_nStartChar := 1, m_nEndChar := 1 } (by decide) (by decide)
      (by decide)).2
      (fun _ _ hk _ =>
        Option.noConfusion ((by decide : FindPhysInfoAfter lineDoc 1 = none).symm.trans hk)),
    by decide⟩

/-! ### `ModifyDataOnInsertion` on consistent data -/

/-- Character insertion by diff on consistent data: on consistent physical data whose physical string
is `strOld`, for a position `iPos <= len(strOld)` not strictly inside a field and a
non-empty text `x` (the new text within the range of a `CString`), when `strNew` is
`strOld` with `x` inserted at `iPos`, `ModifyDataOnInsertion(iPos, strOld, strNew)`
returns `len(x)`, the physical string becomes `strNew`, `x` is spliced into the logical
string at `PhysPos2LogPos(iPos)`, and the result is consistent; when `strNew == strOld` it
returns 0 and changes nothing. -/
theorem ModifyDataOnInsertion_consistent (d : CSubstPhysData) (iPos : Nat) (strOld x : CString)
    (hc : Consistent d) (hold : d.m_physStr = strOld) (hpos : iPos ≤ strOld.length)
    (hin : NotInside d iPos) (hx : x ≠ [])
    (hfit : strOld.length + x.length < INT_LIMIT) :
    (∃ d', ModifyDataOnInsertion d iPos strOld (strOld.take iPos ++ x ++ strOld.drop iPos)
          = some (d', x.length)
      ∧ d'.m_physStr = strOld.take iPos ++ x ++ strOld.drop iPos
      ∧ d'.m_logStr = d.m_logStr.take (PhysPos2LogPos d iPos) ++ x
          ++ d.m_logStr.drop (PhysPos2LogPos d iPos)
      ∧ Consistent d')
    ∧ ModifyDataOnInsertion d iPos strOld strOld = some (d, 0) := by
  constructor
  · subst hold
    have hxl : 0 < x.length := List.length_pos.2 hx
    have hne : d.m_physStr ≠ d.m_physStr.take iPos ++ x ++ d.m_physStr.drop iPos := by
      intro h
      have := congrArg List.length h
      simp only [List.length_append, List.length_take, List.length_drop] at this
      omega
    have hnewlen : (d.m_physStr.take iPos ++ x ++ d.m_physStr.drop iPos).length
        = d.m_physStr.length + x.length := by
      simp only [List.length_append, List.length_take, List.length_drop]
      omega
    have hdelta : subSz (d.m_physStr.take iPos ++ x ++ d.m_physStr.drop iPos).length
        d.m_physStr.length = x.length := by
      rw [hnewlen, subSz_of_le (by omega) hfit]
      omega
    have hmid : strMid (d.m_physStr.take iPos ++ x ++ d.m_physStr.drop iPos) (castInt iPos)
        (castInt x.length) = x := by
      rw [strMid_cast _ (by omega) (by omega), List.append_assoc,
        List.drop_append_of_le_length (by simp; omega)]
      have e : List.drop iPos (List.take iPos d.m_physStr) = [] := by
        apply List.drop_eq_nil_of_le; simp
      rw [e, List.nil_append, List.take_left]
    obtain ⟨X, hk, hX⟩ := Consistent_items d hc
    generalize d.m_map = lpMap at hk hX
    subst hX
    obtain ⟨A, B, rfl, hw, ht⟩ := conc_split lpMap X iPos hpos hin
    subst hw
    have hfit' : (itemsPhys lpMap (A ++ B)).length + x.length < INT_LIMIT := hfit
    have hfit2 := hfit'
    simp only [itemsPhys_append, List.length_append] at hfit2
    obtain ⟨hkA, hkB⟩ := itemsKnown_append.1 hk
    have hk' : itemsKnown lpMap (A ++ (x.map Item.ch ++ B)) :=
      itemsKnown_append.2 ⟨hkA, itemsKnown_append.2 ⟨itemsKnown_chars lpMap x, hkB⟩⟩
    have hcons : Consistent (conc lpMap (A ++ (x.map Item.ch ++ B))) := by
      apply conc_Consistent lpMap _ hk'
      simp only [itemsPhys_append, itemsPhys_chars, List.length_append]; omega
    have htext := InsertText_conc lpMap A B x ht hfit'
    refine ⟨conc lpMap (A ++ (x.map Item.ch ++ B)), ?_, ?_, ?_, hcons⟩
    · unfold ModifyDataOnInsertion
      rw [if_pos hne]
      simp only []
      rw [hdelta, hmid, htext]
    · simp only [conc, itemsPhys_append, itemsPhys_chars]
      rw [List.take_left, List.drop_left, List.append_assoc]
    · rw [PhysPos2LogPos_conc lpMap A B (by omega)]
      simp only [conc, itemsLog_append, itemsLog_chars]
      rw [List.take_left, List.drop_left, List.append_assoc]
  · unfold ModifyDataOnInsertion
    simp

/-- Example: typing `"XY"` behind the field of `"ab<Year>cd"`. -/
theorem ModifyDataOnInsertion_consistent_example :
    (∃ d', ModifyDataOnInsertion midDoc 8 "ab<Year>cd".toList "ab<Year>XYcd".toList
          = some (d', 2)
      ∧ d'.m_physStr = "ab<Year>XYcd".toList ∧ d'.m_logStr = "abXYcd".toList)
    ∧ ModifyDataOnInsertion midDoc 8 "ab<Year>cd".toList "ab<Year>cd".toList
        = some (midDoc, 0) := by
  obtain ⟨⟨d', h1, h2, h3, _⟩, h4⟩ := ModifyDataOnInsertion_consistent midDoc 8
    "ab<Year>cd".toList "XY".toList (by decide) (by decide) (by decide) (by decide)
    (by decide) (by decide)
  exact ⟨⟨d', h1, h2, h3.trans (by decide)⟩, h4⟩

/-! ### C37: the lookups on a position-sorted sequence -/

theorem LastThat_snoc {α : Type} (p : α → Bool) (l : List α) (x : α) :
    LastThat p (l ++ [x]) = if p x then some l.length else LastThat p l := by
  unfold LastThat
  rw [LastThatFrom_append]
  simp [LastThatFrom]

theorem LastThat_none_iff {α : Type} (p : α → Bool) (l : List α) :
    LastThat p l = none ↔ ∀ x ∈ l, p x = false := by
  induction l using List.reverseRecOn with
  | nil => simp [LastThat, LastThatFrom]
  | append_singleton l x ih =>
    rw [LastThat_snoc]
    by_cases hx : p x = true
    · rw [if_pos hx]
      simp only [List.mem_append, List.mem_singleton]
      constructor
      · intro h; cases h
      · intro h
        have := h x (Or.inr rfl)
        rw [hx] at this; cases this
    · rw [if_neg hx, ih]
      simp only [List.mem_append, List.mem_singleton]
      constructor
      · intro h y hy
        rcases hy with hy | hy
        · exact h y hy
        · subst hy; exact Bool.eq_false_iff.2 hx
      · intro h y hy
        exact h y (Or.inl hy)

theorem LastThat_some_spec {α : Type} (p : α → Bool) (l : List α) (k : Nat)
    (h : LastThat p l = some k) :
    ∃ x, l[k]? = some x ∧ p x = true ∧ ∀ j y, k < j → l[j]? = some y → p y = false := by
  induction l using List.reverseRecOn with
  | nil => simp [LastThat, LastThatFrom] at h
  | append_singleton l x ih =>
    rw [LastThat_snoc] at h
    by_cases hx : p x = true
    · rw [if_pos hx] at h
      cases h
      refine ⟨x, by simp, hx, ?_⟩
      intro j y hj hy
      have : j < (l ++ [x]).length := (List.getElem?_eq_some.1 hy).1
      simp at this
      omega
    · rw [if_neg hx] at h
      obtain ⟨z, hz, hpz, hall⟩ := ih h
      have hk : k < l.length := (List.getElem?_eq_some.1 hz).1
      refine ⟨z, by rw [List.getElem?_append_left hk]; exact hz, hpz, ?_⟩
      intro j y hj hy
      by_cases hjl : j < l.length
      · rw [List.getElem?_append_left hjl] at hy
        exact hall j y hj hy
      · have hjl' : j < (l ++ [x]).length := (List.getElem?_eq_some.1 hy).1
        simp at hjl'
        have e : j = l.length := by omega
        subst e
        simp at hy
        subst hy
        exact Bool.eq_false_iff.2 hx

theorem mem_index {α : Type} (l : List α) (x : α) (h : x ∈ l) :
    ∃ j : Nat, l[j]? = some x := by
  obtain ⟨j, hj, hx⟩ := List.getElem_of_mem h
  exact ⟨j, by rw [List.getElem?_eq_getElem hj, hx]⟩

theorem PositionSorted_index (l : List CPhysInfo) (hs : PositionSorted l) (i j : Nat)
    (a b : CPhysInfo) (ha : l[i]? = some a) (hb : l[j]? = some b) (hij : i < j) :
    a.m_end ≤ b.m_start := by
  have h := hs.1
  rw [List.pairwise_iff_getElem] at h
  obtain ⟨hi, hai⟩ := List.getElem?_eq_some.1 ha
  obtain ⟨hj, hbj⟩ := List.getElem?_eq_some.1 hb
  rw [← hai, ← hbj]
  exact h i j hi hj hij

/-- C37. Sequence-order lookups find the nearest field when the sequence is
position-sorted: for physical data whose fields are sorted by position in sequence order
(each field ends at or before the start of every later one, each with `start <= end`) and
every `pos`, `FindPhysInfoBefore(pos)` returns a field with `end <= pos` whose end is the
greatest among the fields with `end <= pos`, and none exactly when there is no such field;
`FindPhysInfoAfter(pos)` returns a field with `start >= pos` whose start is the least
among those, and none exactly when there is none; `FindPhysInfoBetween(a, b)` returns a
field with `a <= start` and `end <= b` whose start is the least among those, and none
exactly when there is none. -/
theorem FindPhysInfo_nearest (d : CSubstPhysData) (hs : PositionSorted d.m_physlist) :
    (∀ pos,
      (FindPhysInfoBefore d pos = none ↔ ∀ f ∈ d.m_physlist, ¬ f.m_end ≤ pos)
      ∧ ∀ k, FindPhysInfoBefore d pos = some k →
          ∃ f, d.m_physlist[k]? = some f ∧ f.m_end ≤ pos
            ∧ ∀ g ∈ d.m_physlist, g.m_end ≤ pos → g.m_end ≤ f.m_end)
    ∧ (∀ pos,
      (FindPhysInfoAfter d pos = none ↔ ∀ f ∈ d.m_physlist, ¬ pos ≤ f.m_start)
      ∧ ∀ k, FindPhysInfoAfter d pos = some k →
          ∃ f, d.m_physlist[k]? = some f ∧ pos ≤ f.m_start
            ∧ ∀ g ∈ d.m_physlist, pos ≤ g.m_start → f.m_start ≤ g.m_start)
    ∧ (∀ a b,
      (FindPhysInfoBetween d a b = none
        ↔ ∀ f ∈ d.m_physlist, ¬ (a ≤ f.m_start ∧ f.m_end ≤ b))
      ∧ ∀ k, FindPhysInfoBetween d a b = some k →
          ∃ f, d.m_physlist[k]? = some f ∧ a ≤ f.m_start ∧ f.m_end ≤ b
            ∧ ∀ g ∈ d.m_physlist, a ≤ g.m_start → g.m_end ≤ b → f.m_start ≤ g.m_start) := by
  refine ⟨?_, ?_, ?_⟩
  · intro pos
    constructor
    · unfold FindPhysInfoBefore
      rw [LastThat_none_iff]
      simp [FnPhysInfoPosLowerEq]
    · intro k hk
      unfold FindPhysInfoBefore at hk
      obtain ⟨f, hf, hp, hall⟩ := LastThat_some_spec _ _ _ hk
      have hp' : f.m_end ≤ pos := by simpa [FnPhysInfoPosLowerEq] using hp
      refine ⟨f, hf, hp', ?_⟩
      intro g hg hgp
      obtain ⟨j, hj⟩ := mem_index _ g hg
      rcases Nat.lt_trichotomy j k with hlt | heq | hgt
      · have := PositionSorted_index _ hs j k g f hj hf hlt
        have := hs.2 f (List.getElem?_mem hf)
        omega
      · subst heq
        rw [hf] at hj
        cases hj
        exact Nat.le_refl _
      · have := hall j g hgt hj
        simp [FnPhysInfoPosLowerEq] at this
        omega
  · intro pos
    constructor
    · unfold FindPhysInfoAfter
      rw [FirstThat_none_iff]
      simp [FnPhysInfoPosGreaterEq]
    · intro k hk
      unfold FindPhysInfoAfter at hk
      obtain ⟨f, hf, hp, hall⟩ := (FirstThat_some_iff _ _ _).1 hk
      have hp' : pos ≤ f.m_start := by simpa [FnPhysInfoPosGreaterEq] using hp
      refine ⟨f, hf, hp', ?_⟩
      intro g hg hgp
      obtain ⟨j, hj⟩ := mem_index _ g hg
      rcases Nat.lt_trichotomy j k with hlt | heq | hgt
      · have := hall j g hlt hj
        simp [FnPhysInfoPosGreaterEq] at this
        omega
      · subst heq
        rw [hf] at hj
        cases hj
        exact Nat.le_refl _
      · have := PositionSorted_index _ hs k j f g hf hj hgt
        have := hs.2 f (List.getElem?_mem hf)
        omega
  · intro a b
    constructor
    · unfold FindPhysInfoBetween
      rw [FirstThat_none_iff]
      simp [FnPhysInfoBetween]
    · intro k hk
      unfold FindPhysInfoBetween at hk
      obtain ⟨f, hf, hp, hall⟩ := (FirstThat_some_iff _ _ _).1 hk
      have hp' : a ≤ f.m_start ∧ f.m_end ≤ b := by simpa [FnPhysInfoBetween] using hp
      refine ⟨f, hf, hp'.1, hp'.2, ?_⟩
      intro g hg hga hgb
      obtain ⟨j, hj⟩ := mem_index _ g hg
      rcases Nat.lt_trichotomy j k with hlt | heq | hgt
      · have := hall j g hlt hj
        simp [FnPhysInfoBetween] at this
        omega
      · subst heq
        rw [hf] at hj
        cases hj
        exact Nat.le_refl _
      · have := PositionSorted_index _ hs k j f g hf hj hgt
        have := hs.2 f (List.getElem?_mem hf)
        omega

/-- C37, witness: in `"<Year>x<Year>"` with the fields `[0, 6)` and `[7, 13)`, the field
before 7 is the first, the field after 6 is the second, the first field between 0 and 13
is the first, and there is no field before 5. -/
theorem FindPhysInfo_nearest_witness :
    PositionSorted twoFieldDoc.m_physlist
    ∧ FindPhysInfoBefore twoFieldDoc 7 = some 0
    ∧ FindPhysInfoAfter twoFieldDoc 6 = some 1
    ∧ FindPhysInfoBetween twoFieldDoc 0 13 = some 0
    ∧ FindPhysInfoBefore twoFieldDoc 5 = none
    ∧ FindPhysInfoBefore twoFieldDoc 13 = some 1 := by
  have h := FindPhysInfo_nearest twoFieldDoc (by decide)
  exact ⟨by decide, by decide, by decide, by decide, ((h.1 5).1).2 (by decide), by decide⟩

/-! ### C36: `PhysStr2logStr` against the rendering -/

theorem itemsFields_lengths (lpMap : List SubstDescr) : ∀ (X : List Item) (lo po : Nat),
    ((itemsFields lpMap po X).map (fun f => f.m_end - f.m_start)).sum
      = ((itemsMarks lo X).map (fun m => (fieldText lpMap m.m_what).length)).sum := by
  intro X
  induction X with
  | nil => intro lo po; rfl
  | cons x X ih =>
    intro lo po
    cases x with
    | ch c => simp only [itemsFields, itemsMarks]; exact ih _ _
    | fld w =>
      simp only [itemsFields, itemsMarks, List.map_cons, List.sum_cons, ih lo]
      omega

/-- The rebuild of well-formed logical data is the physical data of its items. -/
theorem AssignPhysFromLog_items (lpMap : List SubstDescr) (Y : List Item)
    (hk : itemsKnown lpMap Y) (hfit : (itemsPhys lpMap Y).length < INT_LIMIT) :
    AssignPhysFromLog { m_logStr := itemsLog Y, m_logList := itemsMarks 0 Y, m_map := lpMap }
      = conc lpMap Y := by
  have hl : (itemsLog Y).length < INT_LIMIT :=
    lt_of_le_of_lt (itemsLog_length_le lpMap Y) hfit
  simp only [AssignPhysFromLog, conc]
  rw [AppendAsPhysInfoLoop_items lpMap Y 0 0 hk (by simpa using hfit),
    LogStr2PhysStr_items lpMap Y hk hl]

/-! ### C35: the escaped text and the fields -/

theorem escapeChar_escXmlChar (x : Char) (hx : x ≠ chApos) :
    escapeChar [chApos, chQuot, '>', '<'] x = escXmlChar x := by
  unfold escapeChar escXmlChar
  by_cases h1 : x = '<'
  · subst h1; decide
  · by_cases h2 : x = '>'
    · subst h2; decide
    · by_cases h3 : x = chQuot
      · subst h3; decide
      · simp [h1, h2, h3, hx]

theorem substItems_chars (lpMap : List SubstDescr) : ∀ (t : CString), chApos ∉ t →
    itemsPhys lpMap (substItems (escapeChar [chApos, chQuot, '>', '<']) (t.map Item.ch))
        = escXml t
    ∧ itemsLog (substItems (escapeChar [chApos, chQuot, '>', '<']) (t.map Item.ch))
        = escXml t := by
  intro t
  induction t with
  | nil => intro _; exact ⟨rfl, rfl⟩
  | cons c t ih =>
    intro h
    have hc : c ≠ chApos := fun e => h (by simp [e])
    have ht : chApos ∉ t := fun e => h (List.mem_cons_of_mem _ e)
    obtain ⟨i1, i2⟩ := ih ht
    simp [substItems, escXml, escapeChar_escXmlChar c hc, i1, i2]

theorem escXml_append (a b : CString) : escXml (a ++ b) = escXml a ++ escXml b := by
  induction a with
  | nil => rfl
  | cons c a ih => simp [escXml, ih]

theorem buildItems_escaped (lpMap : List SubstDescr) (S : CString) (hS : chApos ∉ S) :
    ∀ (ms : List CLogInfo) (lo : Nat),
    itemsPhys lpMap (substItems (escapeChar [chApos, chQuot, '>', '<']) (buildItems S lo ms))
      = escapedReference lpMap S lo ms := by
  intro ms
  induction ms with
  | nil =>
    intro lo
    simp only [buildItems, escapedReference]
    exact (substItems_chars lpMap _ (fun h => hS (List.mem_of_mem_drop h))).1
  | cons m ms ih =>
    intro lo
    simp only [buildItems, escapedReference, substItems_append, substItems, itemsPhys_append,
      itemsPhys, ih]
    rw [(substItems_chars lpMap _
      (fun h => hS (List.mem_of_mem_drop (List.mem_of_mem_take h)))).1]
    simp

theorem items_escaped_log : ∀ (X : List Item), chApos ∉ itemsLog X →
    itemsLog (substItems (escapeChar [chApos, chQuot, '>', '<']) X) = escXml (itemsLog X) := by
  intro X
  induction X with
  | nil => intro _; rfl
  | cons x X ih =>
    intro h
    cases x with
    | ch c =>
      simp only [itemsLog] at h
      have hc : c ≠ chApos := fun e => h (by simp [e])
      have hX : chApos ∉ itemsLog X := fun e => h (List.mem_cons_of_mem _ e)
      simp only [substItems, itemsLog_append, itemsLog_chars, itemsLog, escXml,
        escapeChar_escXmlChar c hc, ih hX]
    | fld w =>
      simp only [itemsLog] at h
      simp only [substItems, itemsLog, ih h]

/-- C35. Escaping does not move fields relative to the text: for logical data whose
markers reference mapped ids and do not decrease within the logical text, whose text
holds neither `&` nor the apostrophe (the escaped text within the range of a `CString`),
`GetPlainText` returns `esc(seg_0) ++ display_0 ++ esc(seg_1) ++ ... ++ display_{n-1} ++
esc(seg_n)`, where `seg_k` are the pieces of the logical text between consecutive marker
positions and `esc` replaces `<`, `>` and the quotation mark by `&lt;`, `&gt;` and
`&quot;`. -/
theorem GetPlainText_escaped_segments (L : CSubstLogData) (hL : LogOk L)
    (hamp : '&' ∉ L.m_logStr) (hapos : chApos ∉ L.m_logStr)
    (hfit : (escXml L.m_logStr).length < INT_LIMIT) :
    GetPlainText L = some (escapedReference L.m_map L.m_logStr 0 L.m_logList) := by
  obtain ⟨hk, hp, hb⟩ := hL
  have hm : marksFrom L.m_logStr.length 0 L.m_logList :=
    marksFrom_of_pairwise _ 0 (Nat.zero_le _) (fun m hm => ⟨Nat.zero_le _, hb m hm⟩) hp
  have hkX := buildItems_known L.m_map L.m_logStr L.m_logList 0 hk
  have hlog : itemsLog (buildItems L.m_logStr 0 L.m_logList) = L.m_logStr := by
    simpa using buildItems_log L.m_logStr L.m_logList 0 hm
  have hmarks := buildItems_marks L.m_logStr L.m_logList 0 hm
  have hesc := items_escaped_log (buildItems L.m_logStr 0 L.m_logList) (by rw [hlog]; exact hapos)
  rw [hlog] at hesc
  have hthere := ReplaceLogXmlCharsThere_items L.m_map (buildItems L.m_logStr 0 L.m_logList)
    (by rw [hlog]; exact hamp) (by rw [hesc]; exact hfit)
  rw [hlog, hmarks] at hthere
  unfold GetPlainText
  have hLe : L = { m_logStr := L.m_logStr, m_logList := L.m_logList, m_map := L.m_map } := rfl
  rw [hLe, hthere]
  simp only [Option.bind_eq_bind, Option.some_bind, Option.pure_def]
  rw [LogStr2PhysStr_items L.m_map _ (itemsKnown_substItems _ _ _ hkX) (by rw [hesc]; exact hfit),
    buildItems_escaped L.m_map L.m_logStr hapos]

/-- C35, witness: the text `"a<>b"` with the field 1 between the two angle brackets is
exported as `"a&lt;<Year>&gt;b"`. -/
theorem GetPlainText_escaped_segments_witness :
    GetPlainText bracketLog = some "a&lt;<Year>&gt;b".toList :=
  (GetPlainText_escaped_segments bracketLog (by decide) (by decide) (by decide)
    (by decide)).trans (by decide)

/-! ### C38: `ReplaceLogTextAllThrough` stops -/

theorem findAt_some_spec (sub : CString) : ∀ (s : CString) (k0 k : Nat),
    findAt sub s k0 = some k → k0 ≤ k ∧ (k - k0) + sub.length ≤ s.length := by
  intro s
  induction s with
  | nil =>
    intro k0 k h
    simp only [findAt] at h
    split at h
    · rename_i hs
      cases h
      subst hs
      simp
    · cases h
  | cons c cs ih =>
    intro k0 k h
    simp only [findAt] at h
    split at h
    · rename_i hp
      cases h
      have := (List.isPrefixOf_iff_prefix.1 hp).length_le
      simp only [List.length_cons] at this ⊢
      omega
    · obtain ⟨h1, h2⟩ := ih _ _ h
      simp only [List.length_cons]
      omega

theorem strFind_some_spec (s sub : CString) (n k : Nat) (h : strFind s sub n = some k) :
    n ≤ k ∧ k + sub.length ≤ s.length := by
  unfold strFind at h
  split at h
  · cases h
  · rename_i hn
    obtain ⟨h1, h2⟩ := findAt_some_spec sub _ _ _ h
    simp only [List.length_drop] at h2
    omega

/-- The logical string after an accepted `ReplaceLogTextPart`. -/
theorem ReplaceLogTextPart_logStr (d : CSubstLogData) (startIndex r : Nat) (newText : CString)
    (hfit : d.m_logStr.length < INT_LIMIT) (hr : startIndex + r ≤ d.m_logStr.length) :
    (ReplaceLogTextPart d startIndex r newText).m_logStr
      = d.m_logStr.take startIndex ++ newText ++ d.m_logStr.drop (startIndex + r) := by
  have hs : startIndex ≤ d.m_logStr.length := by omega
  have hlt : startIndex < INT_LIMIT := by omega
  unfold ReplaceLogTextPart
  simp only []
  rw [if_neg (by omega), subSz_of_le hs hfit, castInt_of_lt (by omega), if_neg (by omega)]
  simp only []
  by_cases hr0 : r > 0
  · by_cases hn : 0 < newText.length
    · rw [if_pos hr0, if_pos hn, strInsert_cast _ _ hlt]
      simp only [extractSubstr]
      rw [List.take_append_of_le_length (by simp; omega), List.take_take,
        Nat.min_eq_left (Nat.le_refl _),
        List.drop_append_of_le_length (by simp; omega)]
      have e : List.drop startIndex (List.take startIndex d.m_logStr) = [] := by
        apply List.drop_eq_nil_of_le; simp
      rw [e]; simp
    · have : newText = [] := by
        cases newText with
        | nil => rfl
        | cons a t => simp at hn
      subst this
      rw [if_pos hr0, if_neg hn]
      simp [extractSubstr]
  · have hr00 : r = 0 := by omega
    subst hr00
    by_cases hn : 0 < newText.length
    · rw [if_neg hr0, if_pos hn, strInsert_cast _ _ hlt]
      simp
    · have : newText = [] := by
        cases newText with
        | nil => rfl
        | cons a t => simp at hn
      subst this
      rw [if_neg hr0, if_neg hn]
      simp

theorem ReplaceLogTextPart_length (d : CSubstLogData) (startIndex r : Nat) (newText : CString)
    (hfit : d.m_logStr.length < INT_LIMIT) (hr : startIndex + r ≤ d.m_logStr.length) :
    (ReplaceLogTextPart d startIndex r newText).m_logStr.length
      = d.m_logStr.length - r + newText.length := by
  rw [ReplaceLogTextPart_logStr d startIndex r newText hfit hr]
  simp only [List.length_append, List.length_take, List.length_drop]
  omega

/-- The loop of `ReplaceLogTextAllThrough` stops, with the same result for every fuel
above the bound `m` on `(len - nSearPos) / len(strOldPart)`. -/
theorem ReplaceLogTextAllThroughLoop_stops (strOldPart strNewPart : CString)
    (hold : 0 < strOldPart.length) :
    ∀ (m : Nat) (d : CSubstLogData) (nSearPos : Nat),
    (d.m_logStr.length - nSearPos) / strOldPart.length ≤ m →
    d.m_logStr.length
      + ((d.m_logStr.length - nSearPos) / strOldPart.length)
          * (strNewPart.length - strOldPart.length) < INT_LIMIT →
    ∃ d', ∀ fuel, m < fuel →
      ReplaceLogTextAllThroughLoop strOldPart strNewPart fuel d nSearPos = some d' := by
  intro m
  induction m with
  | zero =>
    intro d n hq hfit
    cases hf : strFind d.m_logStr strOldPart n with
    | none =>
      refine ⟨d, ?_⟩
      intro fuel hfuel
      obtain ⟨fuel', rfl⟩ : ∃ f, fuel = f + 1 := ⟨fuel - 1, by omega⟩
      simp only [ReplaceLogTextAllThroughLoop, hf]
    | some k =>
      exfalso
      obtain ⟨h1, h2⟩ := strFind_some_spec _ _ _ _ hf
      have : 1 ≤ (d.m_logStr.length - n) / strOldPart.length := by
        rw [Nat.le_div_iff_mul_le hold]
        omega
      omega
  | succ m ih =>
    intro d n hq hfit
    cases hf : strFind d.m_logStr strOldPart n with
    | none =>
      refine ⟨d, ?_⟩
      intro fuel hfuel
      obtain ⟨fuel', rfl⟩ : ∃ f, fuel = f + 1 := ⟨fuel - 1, by omega⟩
      simp only [ReplaceLogTextAllThroughLoop, hf]
    | some k =>
      obtain ⟨h1, h2⟩ := strFind_some_spec _ _ _ _ hf
      have hsplit : d.m_logStr.length - n
          = (d.m_logStr.length - n - strOldPart.length) + strOldPart.length := by omega
      have hq1 : (d.m_logStr.length - n) / strOldPart.length
          = (d.m_logStr.length - n - strOldPart.length) / strOldPart.length + 1 := by
        conv => lhs; rw [hsplit]
        exact Nat.add_div_right _ hold
      rw [hq1] at hq hfit
      rw [Nat.add_mul, Nat.one_mul] at hfit
      have hlen : d.m_logStr.length < INT_LIMIT := by omega
      have hnew := ReplaceLogTextPart_length d k strOldPart.length strNewPart hlen h2
      have hmeasure : (ReplaceLogTextPart d k strOldPart.length strNewPart).m_logStr.length
          - (n + strNewPart.length) = d.m_logStr.length - n - strOldPart.length := by
        rw [hnew]; omega
      obtain ⟨d', hd'⟩ := ih (ReplaceLogTextPart d k strOldPart.length strNewPart)
        (n + strNewPart.length) (by rw [hmeasure]; omega)
        (by rw [hmeasure, hnew]; omega)
      refine ⟨d', ?_⟩
      intro fuel hfuel
      obtain ⟨fuel', rfl⟩ : ∃ f, fuel = f + 1 := ⟨fuel - 1, by omega⟩
      simp only [ReplaceLogTextAllThroughLoop, hf]
      exact hd' fuel' (by omega)

/-- C38. `ReplaceLogTextAllThrough` terminates: for every logical data, every non-empty
`strOldPart` and every `strNewPart` (the text staying within the range of a `CString`),
the search loop returns within `len(s) / len(strOldPart) + 1` rounds, that is, after at
most `len(s) / len(strOldPart)` replacements, and `ReplaceLogTextAllThrough` returns that
result; at every replacement `len(logicalString)` minus the search position decreases by
`len(strOldPart)`. -/
theorem ReplaceLogTextAllThrough_terminates (d : CSubstLogData)
    (strOldPart strNewPart : CString) (hold : strOldPart ≠ [])
    (hfit : d.m_logStr.length
      + (d.m_logStr.length / strOldPart.length) * (strNewPart.length - strOldPart.length)
        < INT_LIMIT) :
    (∃ d', ReplaceLogTextAllThroughLoop strOldPart strNewPart
          (d.m_logStr.length / strOldPart.length + 1) d 0 = some d'
      ∧ ReplaceLogTextAllThrough d strOldPart strNewPart = some d')
    ∧ (∀ (e : CSubstLogData) (nSearPos nDexFound : Nat), e.m_logStr.length < INT_LIMIT →
        strFind e.m_logStr strOldPart nSearPos = some nDexFound →
        strOldPart.length ≤ e.m_logStr.length - nSearPos
        ∧ (ReplaceLogTextPart e nDexFound strOldPart.length strNewPart).m_logStr.length
            - (nSearPos + strNewPart.length)
          = e.m_logStr.length - nSearPos - strOldPart.length) := by
  have hpos : 0 < strOldPart.length := List.length_pos.2 hold
  constructor
  · obtain ⟨d', hd'⟩ := ReplaceLogTextAllThroughLoop_stops strOldPart strNewPart hpos
      (d.m_logStr.length / strOldPart.length) d 0 (by simp) (by simpa using hfit)
    refine ⟨d', hd' _ (by omega), ?_⟩
    unfold ReplaceLogTextAllThrough
    rw [if_neg (by omega)]
    exact hd' _ (by have := Nat.div_le_self d.m_logStr.length strOldPart.length; omega)
  · intro e n k hlen hf
    obtain ⟨h1, h2⟩ := strFind_some_spec _ _ _ _ hf
    refine ⟨by omega, ?_⟩
    rw [ReplaceLogTextPart_length e k strOldPart.length strNewPart hlen h2]
    omega

/-- C38, witness: `"&"` -> `"&amp;"` on `"aaaaaa&"`, where the new part holds the old
one, stops within 8 rounds; `"&amp;"` -> `""` on `"x&amp;amp;"` stops within 3. -/
theorem ReplaceLogTextAllThrough_terminates_witness :
    (∃ d', ReplaceLogTextAllThroughLoop "&".toList "&amp;".toList (7 / 1 + 1) sixAmpLog 0
          = some d'
      ∧ ReplaceLogTextAllThrough sixAmpLog "&".toList "&amp;".toList = some d')
    ∧ (∃ d', ReplaceLogTextAllThroughLoop "&amp;".toList [] (10 / 5 + 1) ampAmpLog 0 = some d'
      ∧ ReplaceLogTextAllThrough ampAmpLog "&amp;".toList [] = some d') :=
  ⟨(ReplaceLogTextAllThrough_terminates sixAmpLog "&".toList "&amp;".toList (by decide)
      (by decide)).1,
   (ReplaceLogTextAllThrough_terminates ampAmpLog "&amp;".toList [] (by decide)
      (by decide)).1⟩

/-! ### C39: the extraction loop of `AssignPlainText` stops -/

theorem ReplaceLogTextPart_keeps (d : CSubstLogData) (startIndex r : Nat) (newText : CString) :
    (ReplaceLogTextPart d startIndex r newText).m_map = d.m_map
    ∧ (ReplaceLogTextPart d startIndex r newText).m_logList.length = d.m_logList.length := by
  unfold ReplaceLogTextPart
  simp only []
  split_ifs <;> simp

/-- The field-extraction loop of `AssignPlainText` stops, with the same result for every
fuel above the bound `m` on `len - nDex`; every marker it adds takes a display text out of
the string. -/
theorem AssignPlainTextLoop_stops (k : Nat) :
    ∀ (m : Nat) (d : CSubstLogData) (nDex : Nat),
    d.m_logStr.length - nDex ≤ m → d.m_logStr.length < INT_LIMIT →
    NonEmptyTexts d.m_map →
    (∀ lpDesc ∈ d.m_map, lpDesc.valId ≠ kInvalidSubstElemId → k ≤ lpDesc.lpTxt.length) →
    ∃ d', (∀ fuel, m < fuel → AssignPlainTextLoop fuel d nDex = some d')
      ∧ d'.m_logList.length * k ≤ d.m_logList.length * k + (d.m_logStr.length - nDex) := by
  intro m
  induction m with
  | zero =>
    intro d nDex hm _ _ _
    refine ⟨d, ?_, by omega⟩
    intro fuel hfuel
    obtain ⟨fuel', rfl⟩ : ∃ f, fuel = f + 1 := ⟨fuel - 1, by omega⟩
    simp only [AssignPlainTextLoop]
    rw [if_pos (by omega)]
  | succ m ih =>
    intro d nDex hm hfit hne hk
    by_cases hend : nDex ≥ d.m_logStr.length
    · refine ⟨d, ?_, by omega⟩
      intro fuel hfuel
      obtain ⟨fuel', rfl⟩ : ∃ f, fuel = f + 1 := ⟨fuel - 1, by omega⟩
      simp only [AssignPlainTextLoop]
      rw [if_pos hend]
    · cases hmatch : matchDescr d.m_logStr nDex d.m_map with
      | none =>
        obtain ⟨d', h1, h2⟩ := ih d (nDex + 1) (by omega) hfit hne hk
        refine ⟨d', ?_, by omega⟩
        intro fuel hfuel
        obtain ⟨fuel', rfl⟩ : ∃ f, fuel = f + 1 := ⟨fuel - 1, by omega⟩
        simp only [AssignPlainTextLoop]
        rw [if_neg hend]
        simp only [hmatch]
        exact h1 fuel' (by omega)
      | some descr =>
        have hfp := hmatch
        rw [matchDescr_eq_firstPrefix d.m_logStr nDex hfit (by omega)] at hfp
        obtain ⟨hmem, hid, hpre⟩ := firstPrefix_spec _ _ _ hfp
        have hlen1 : 0 < descr.lpTxt.length := List.length_pos.2 (hne descr hmem hid)
        have hlenk := hk descr hmem hid
        have hle : nDex + descr.lpTxt.length ≤ d.m_logStr.length := by
          have := (List.isPrefixOf_iff_prefix.1 hpre).length_le
          simp only [List.length_drop] at this
          omega
        have hnew := ReplaceLogTextPart_length d nDex descr.lpTxt.length [] hfit hle
        obtain ⟨hmap, hcount⟩ := ReplaceLogTextPart_keeps d nDex descr.lpTxt.length []
        simp only [List.length_nil, Nat.add_zero] at hnew
        obtain ⟨d', h1, h2⟩ := ih
          { ReplaceLogTextPart d nDex descr.lpTxt.length [] with
            m_logList := (ReplaceLogTextPart d nDex descr.lpTxt.length []).m_logList
              ++ [{ m_what := descr.valId, m_pos := nDex }] } nDex
          (by simp only [hnew]; omega) (by simp only [hnew]; omega)
          (by simp only [hmap]; exact hne) (by simp only [hmap]; exact hk)
        simp only [List.length_append, List.length_singleton, hcount, hnew] at h2
        refine ⟨d', ?_, ?_⟩
        · intro fuel hfuel
          obtain ⟨fuel', rfl⟩ : ∃ f, fuel = f + 1 := ⟨fuel - 1, by omega⟩
          simp only [AssignPlainTextLoop]
          rw [if_neg hend]
          simp only [hmatch]
          exact h1 fuel' (by omega)
        · rw [Nat.add_mul, Nat.one_mul] at h2
          omega

/-- C39. `AssignPlainText` terminates: for every input text `t` (a `CString`) and every
field map in which every display text is non-empty, the field-extraction loop of
`AssignPlainText` returns within `len(t) + 1` rounds, the last being the one that finds the
scan index at the end, so after at most `len(t)` iterations; and when every display text
has at least `k > 0` characters, the number of markers produced is at most
`len(t) / k`. -/
theorem AssignPlainText_extraction_terminates (lpMap : List SubstDescr) (t : CString)
    (hne : NonEmptyTexts lpMap) (hfit : t.length < INT_LIMIT) :
    ∃ d', AssignPlainTextLoop (t.length + 1)
          { m_logStr := t, m_logList := [], m_map := lpMap } 0 = some d'
      ∧ ∀ k, 0 < k →
          (∀ lpDesc ∈ lpMap, lpDesc.valId ≠ kInvalidSubstElemId → k ≤ lpDesc.lpTxt.length) →
          d'.m_logList.length ≤ t.length / k := by
  obtain ⟨d', h1, _⟩ := AssignPlainTextLoop_stops 0 t.length
    { m_logStr := t, m_logList := [], m_map := lpMap } 0 (by simp) hfit hne
    (fun _ _ _ => Nat.zero_le _)
  refine ⟨d', h1 _ (by omega), ?_⟩
  intro k hk0 hk
  obtain ⟨d2, h3, h4⟩ := AssignPlainTextLoop_stops k t.length
    { m_logStr := t, m_logList := [], m_map := lpMap } 0 (by simp) hfit hne hk
  have e : d2 = d' := by
    have a := h3 (t.length + 1) (by omega)
    have b := h1 (t.length + 1) (by omega)
    rw [a] at b
    exact Option.some.inj b
  subst e
  simp only [List.length_nil, Nat.zero_mul, Nat.zero_add, Nat.sub_zero] at h4
  exact (Nat.le_div_iff_mul_le hk0).2 h4

/-- C39, witness: the text `"<Year><Year>x"` over `yearMap`, whose display text has 6
characters: two markers, at most `13 / 6`. -/
theorem AssignPlainText_extraction_terminates_witness :
    ∃ d', AssignPlainTextLoop ("<Year><Year>x".toList.length + 1)
          { m_logStr := "<Year><Year>x".toList, m_logList := [], m_map := yearMap } 0 = some d'
      ∧ d'.m_logList.length ≤ 13 / 6 := by
  obtain ⟨d', h1, h2⟩ := AssignPlainText_extraction_terminates yearMap "<Year><Year>x".toList
    (by decide) (by decide)
  exact ⟨d', h1, h2 6 (by decide) (by decide)⟩

/-! ### C33, C34: the reachable states -/

/-- `InsertNewInfo` on a sequence of items. -/
theorem InsertNewInfo_items (lpMap : List SubstDescr) (X : List Item) (phpos what : Nat)
    (d1 : CSubstPhysData) (r : Option CPhysInfo) (hk : itemsKnown lpMap X)
    (hw : (FindMapItem lpMap what).isSome = true)
    (hpos : phpos ≤ (conc lpMap X).m_physStr.length) (hin : NotInside (conc lpMap X) phpos)
    (hfit : (conc lpMap X).m_physStr.length + (fieldText lpMap what).length < INT_LIMIT)
    (h : InsertNewInfo (conc lpMap X) phpos what = some (d1, r)) :
    ∃ X1, itemsKnown lpMap X1 ∧ (itemsPhys lpMap X1).length < INT_LIMIT
      ∧ d1 = conc lpMap X1 := by
  obtain ⟨lpDesc, hd⟩ := Option.isSome_iff_exists.1 hw
  rw [fieldText_of_find hd] at hfit
  obtain ⟨A, B, rfl, hwd, ht⟩ := conc_split lpMap X phpos hpos hin
  subst hwd
  have hfit1 : (itemsPhys lpMap (A ++ B)).length + lpDesc.lpTxt.length < INT_LIMIT := hfit
  have hfitA : (itemsPhys lpMap A).length < INT_LIMIT := by
    simp only [itemsPhys_append, List.length_append] at hfit1; omega
  have hk1 : itemsKnown lpMap (A ++ Item.fld what :: B) := by
    obtain ⟨hkA, hkB⟩ := itemsKnown_append.1 hk
    exact itemsKnown_append.2 ⟨hkA, itemsKnown_cons_fld.2 ⟨hw, hkB⟩⟩
  have hrun : InsertNewInfo (conc lpMap (A ++ B)) (itemsPhys lpMap A).length what
      = some (conc lpMap (A ++ Item.fld what :: B),
          some { m_what := what, m_start := (itemsPhys lpMap A).length,
                 m_end := (itemsPhys lpMap A).length + lpDesc.lpTxt.length }) := by
    unfold InsertNewInfo
    have hmap : (conc lpMap (A ++ B)).m_map = lpMap := rfl
    simp only [hmap, hd]
    rw [PhysPos2LogPos_conc lpMap A B hfitA]
    exact InsertNewInfoLog_conc lpMap A B what lpDesc hd ht hfit1
  rw [hrun] at h
  refine ⟨A ++ Item.fld what :: B, hk1, ?_, ?_⟩
  · simp only [itemsPhys_append, itemsPhys, List.length_append, fieldText_of_find hd] at hfit1 ⊢
    omega
  · simp only [Option.some.injEq, Prod.mk.injEq] at h
    exact h.1.symm

/-- `InsertText` on a sequence of items. -/
theorem InsertText_items (lpMap : List SubstDescr) (X : List Item) (physIndex : Nat)
    (sztext : CString) (d1 : CSubstPhysData) (b : Bool) (hk : itemsKnown lpMap X)
    (hpos : physIndex ≤ (conc lpMap X).m_physStr.length)
    (hin : NotInside (conc lpMap X) physIndex)
    (hfit : (conc lpMap X).m_physStr.length + sztext.length < INT_LIMIT)
    (h : InsertText (conc lpMap X) physIndex sztext = some (d1, b)) :
    ∃ X1, itemsKnown lpMap X1 ∧ (itemsPhys lpMap X1).length < INT_LIMIT
      ∧ d1 = conc lpMap X1 := by
  obtain ⟨A, B, rfl, hwd, ht⟩ := conc_split lpMap X physIndex hpos hin
  subst hwd
  have hfit1 : (itemsPhys lpMap (A ++ B)).length + sztext.length < INT_LIMIT := hfit
  have hfit2 := hfit1
  simp only [itemsPhys_append, List.length_append] at hfit2
  rw [InsertText_conc lpMap A B sztext ht hfit1] at h
  obtain ⟨hkA, hkB⟩ := itemsKnown_append.1 hk
  refine ⟨A ++ (sztext.map Item.ch ++ B),
    itemsKnown_append.2 ⟨hkA, itemsKnown_append.2 ⟨itemsKnown_chars _ _, hkB⟩⟩, ?_, ?_⟩
  · simp only [itemsPhys_append, itemsPhys_chars, List.length_append]
    omega
  · simp only [Option.some.injEq, Prod.mk.injEq] at h
    exact h.1.symm

/-- `DeleteOneInfo` on a sequence of items. -/
theorem DeleteOneInfo_items (lpMap : List SubstDescr) (hne : NonEmptyTexts lpMap)
    (X : List Item) (lpInf : Nat) (d1 : CSubstPhysData) (b : Bool) (hk : itemsKnown lpMap X)
    (hfit : (itemsPhys lpMap X).length < INT_LIMIT)
    (h : DeleteOneInfo (conc lpMap X) lpInf = some (d1, b)) :
    ∃ X1, itemsKnown lpMap X1 ∧ (itemsPhys lpMap X1).length < INT_LIMIT
      ∧ d1 = conc lpMap X1 := by
  cases hget : (itemsFields lpMap 0 X)[lpInf]? with
  | none =>
    have hrun : DeleteOneInfo (conc lpMap X) lpInf = some (conc lpMap X, false) := by
      unfold DeleteOneInfo
      have : (conc lpMap X).m_physlist[lpInf]? = none := hget
      rw [this]
    rw [hrun] at h
    simp only [Option.some.injEq, Prod.mk.injEq] at h
    exact ⟨X, hk, hfit, h.1.symm⟩
  | some f =>
    obtain ⟨A, w, B, rfl, hi, _⟩ := split_at_field lpMap X 0 lpInf f hget
    subst hi
    obtain ⟨hkA, hkB⟩ := itemsKnown_append.1 hk
    rw [DeleteOneInfo_conc lpMap A B w (Tight_of_nonEmpty hne hkA) hfit] at h
    simp only [Option.some.injEq, Prod.mk.injEq] at h
    refine ⟨A ++ B, itemsKnown_append.2 ⟨hkA, (itemsKnown_cons_fld.1 hkB).2⟩, ?_, h.1.symm⟩
    simp only [itemsPhys_append, itemsPhys, List.length_append] at hfit ⊢
    omega

/-- `DeleteAllBetween` on a sequence of items. -/
theorem DeleteAllBetween_items (lpMap : List SubstDescr) (hne : NonEmptyTexts lpMap)
    (X : List Item) (start endPos n : Nat) (d1 : CSubstPhysData) (hk : itemsKnown lpMap X)
    (hfit : (itemsPhys lpMap X).length < INT_LIMIT) (hse : start ≤ endPos)
    (hend : endPos ≤ (conc lpMap X).m_physStr.length)
    (hin1 : NotInside (conc lpMap X) start) (hin2 : NotInside (conc lpMap X) endPos)
    (h : DeleteAllBetween (conc lpMap X) start endPos = some (d1, n)) :
    ∃ X1, itemsKnown lpMap X1 ∧ (itemsPhys lpMap X1).length < INT_LIMIT
      ∧ d1 = conc lpMap X1 := by
  obtain ⟨A, M, B, rfl, hw1, hw2⟩ := conc_split_range lpMap X start endPos hse hend hin1 hin2
  subst hw1 hw2
  rw [DeleteAllBetween_conc lpMap hne A M B hk hfit] at h
  simp only [Option.some.injEq, Prod.mk.injEq] at h
  obtain ⟨hkA, hk2⟩ := itemsKnown_append.1 hk
  obtain ⟨_, hkB⟩ := itemsKnown_append.1 hk2
  refine ⟨A ++ B, itemsKnown_append.2 ⟨hkA, hkB⟩, ?_, h.1.symm⟩
  simp only [itemsPhys_append, List.length_append] at hfit ⊢
  omega

/-- `InsertData` on a sequence of items. -/
theorem InsertData_items (lpMap : List SubstDescr) (X : List Item) (physIndex : Nat)
    (logData logData1 : CSubstLogData) (n : Nat) (d1 : CSubstPhysData)
    (hk : itemsKnown lpMap X) (hmap : logData.m_map = lpMap) (hF : LogOk logData)
    (hfitF : logData.m_logStr.length < INT_LIMIT)
    (hpos : physIndex ≤ (conc lpMap X).m_physStr.length)
    (hin : NotInside (conc lpMap X) physIndex)
    (hfit : (conc lpMap X).m_physStr.length + (LogStr2PhysStr logData).length < INT_LIMIT)
    (h : InsertData (conc lpMap X) physIndex logData = some (d1, logData1, n)) :
    ∃ X1, itemsKnown lpMap X1 ∧ (itemsPhys lpMap X1).length < INT_LIMIT
      ∧ d1 = conc lpMap X1 := by
  obtain ⟨Y, hkY, hY1, hY2⟩ := LogOk_items logData hF
  rw [hmap] at hkY
  have hrender : LogStr2PhysStr logData = itemsPhys lpMap Y := by
    rw [← LogStr2PhysStr_items lpMap Y hkY (by rw [hY1]; exact hfitF), hY1, hY2, ← hmap]
  rw [hrender] at hfit
  obtain ⟨A, B, rfl, hwd, ht⟩ := conc_split lpMap X physIndex hpos hin
  subst hwd
  obtain ⟨hkA, hkB⟩ := itemsKnown_append.1 hk
  have hfit1 : (itemsPhys lpMap (A ++ B)).length + (itemsPhys lpMap Y).length < INT_LIMIT := hfit
  have hfit2 := hfit1
  simp only [itemsPhys_append, List.length_append] at hfit2
  have hleY := itemsLog_length_le lpMap Y
  have hleA := itemsLog_length_le lpMap A
  have htext := InsertText_conc lpMap A B logData.m_logStr ht
    (by rw [← hY1]; simp only [itemsPhys_append, List.length_append]; omega)
  have hbegin : PhysPos2LogPos (conc lpMap (A ++ (logData.m_logStr.map Item.ch ++ B)))
      (itemsPhys lpMap A).length = (itemsLog A).length :=
    PhysPos2LogPos_conc lpMap A _ (by omega)
  obtain ⟨U1, hU1, hkU1, hloop⟩ := InsertDataLoop_conc lpMap B (itemsLog A).length Y A 0
    (itemsPhys lpMap A).length 0 (itemsLog Y).length hkY hkA (le_refl _) (by simp) (by simp)
    (by omega) (by omega)
  rw [hY1, hY2] at hloop
  have hrun : InsertData (conc lpMap (A ++ B)) (itemsPhys lpMap A).length logData
      = some (conc lpMap (U1 ++ B), { logData with m_logList := [] },
          logData.m_logStr.length + ((itemsPhys lpMap Y).length - logData.m_logStr.length)) := by
    unfold InsertData
    rw [htext]
    simp only
    rw [hbegin, hloop]
  rw [hrun] at h
  simp only [Option.some.injEq, Prod.mk.injEq] at h
  refine ⟨U1 ++ B, itemsKnown_append.2 ⟨hkU1, hkB⟩, ?_, h.1.symm⟩
  simp only [itemsPhys_append, hU1, List.length_append]
  omega

/-- Every reachable state is the physical data of a sequence of items over the map. -/
theorem Reachable_items (lpMap : List SubstDescr) (hne : NonEmptyTexts lpMap)
    (d : CSubstPhysData) (hr : Reachable lpMap d) :
    ∃ X, itemsKnown lpMap X ∧ (itemsPhys lpMap X).length < INT_LIMIT ∧ d = conc lpMap X := by
  induction hr with
  | empty =>
    refine ⟨[], ?_, ?_, rfl⟩
    · intro w hw; simp at hw
    · simp [itemsPhys, INT_LIMIT]
  | insertNewInfo d d1 phpos what r _ hw hpos hin hfit h ih =>
    obtain ⟨X, hk, _, rfl⟩ := ih
    exact InsertNewInfo_items lpMap X phpos what d1 r hk hw hpos hin hfit h
  | insertText d d1 physIndex sztext b _ hpos hin hfit h ih =>
    obtain ⟨X, hk, _, rfl⟩ := ih
    exact InsertText_items lpMap X physIndex sztext d1 b hk hpos hin hfit h
  | deleteOneInfo d d1 lpInf b _ h ih =>
    obtain ⟨X, hk, hfit, rfl⟩ := ih
    exact DeleteOneInfo_items lpMap hne X lpInf d1 b hk hfit h
  | deleteAllBetween d d1 start endPos n _ hse hend hin1 hin2 h ih =>
    obtain ⟨X, hk, hfit, rfl⟩ := ih
    exact DeleteAllBetween_items lpMap hne X start endPos n d1 hk hfit hse hend hin1 hin2 h
  | insertData d d1 physIndex logData logData1 n _ hmap hF hfitF hpos hin hfit h ih =>
    obtain ⟨X, hk, _, rfl⟩ := ih
    exact InsertData_items lpMap X physIndex logData logData1 n d1 hk hmap hF hfitF hpos hin
      hfit h

/-- In the physical data of a sequence of items, the marker of every index sits at the
logical position of the start, and of the end, of the field of the same index. -/
theorem conc_marker_positions (lpMap : List SubstDescr) (X : List Item)
    (hfit : (itemsPhys lpMap X).length < INT_LIMIT) (i : Nat) (m : CLogInfo) (f : CPhysInfo)
    (hm : (conc lpMap X).m_logList[i]? = some m) (hf : (conc lpMap X).m_physlist[i]? = some f) :
    m.m_what = f.m_what ∧ m.m_pos = PhysPos2LogPos (conc lpMap X) f.m_start
      ∧ m.m_pos = PhysPos2LogPos (conc lpMap X) f.m_end := by
  obtain ⟨A, w, B, rfl, hi, rfl⟩ := split_at_field lpMap X 0 i f hf
  have hfit1 := hfit
  simp only [itemsPhys_append, itemsPhys, List.length_append] at hfit1
  have hmk : (conc lpMap (A ++ Item.fld w :: B)).m_logList[i]?
      = some { m_what := w, m_pos := (itemsLog A).length } := by
    rw [← hi, ← itemsMarks_length lpMap A 0 0]
    simp only [conc, itemsMarks_append, itemsMarks, Nat.zero_add]
    exact getElem?_append_length _ _ _
  rw [hmk] at hm
  cases hm
  refine ⟨rfl, ?_, ?_⟩
  · simp only [Nat.zero_add]
    rw [PhysPos2LogPos_conc lpMap A _ (by omega)]
  · have e : A ++ Item.fld w :: B = (A ++ [Item.fld w]) ++ B := by simp
    have hl : (itemsPhys lpMap (A ++ [Item.fld w])).length
        = (itemsPhys lpMap A).length + (fieldText lpMap w).length := by
      simp [itemsPhys_append, itemsPhys]
    have hg : (itemsLog (A ++ [Item.fld w])).length = (itemsLog A).length := by
      simp [itemsLog_append, itemsLog]
    simp only [Nat.zero_add]
    rw [e, ← hl, PhysPos2LogPos_conc lpMap (A ++ [Item.fld w]) B (by omega), hg]

/-- C33, counterexample: the fragment `"ab"` with the markers `{1, 2}`, `{1, 0}` over
`{1: "<Year>"}` has mapped ids and marker positions within its text, and position 0 of the
empty document is in range and not inside a field; `InsertData` pastes it, and the
physical string it leaves, `"ab<Yea<Year>r>"`, is not the one `AssignPhysFromLog` rebuilds
from the logical data, `"ab<Year><Year>ab"`; the second marker is not at the logical
position of the start of the second field. -/
theorem InsertData_unsorted_fragment_diverges :
    (∀ m ∈ unsortedFragment.m_logList, (FindMapItem yearMap m.m_what).isSome = true
      ∧ m.m_pos ≤ unsortedFragment.m_logStr.length)
    ∧ unsortedFragment.m_map = yearMap
    ∧ 0 ≤ (emptyDoc yearMap).m_physStr.length ∧ NotInside (emptyDoc yearMap) 0
    ∧ InsertData (emptyDoc yearMap) 0 unsortedFragment
        = some (unsortedPasted, { unsortedFragment with m_logList := [] }, 14)
    ∧ unsortedPasted.m_physStr = "ab<Yea<Year>r>".toList
    ∧ (AssignPhysFromLog unsortedPasted.toCSubstLogData).m_physStr = "ab<Year><Year>ab".toList
    ∧ (AssignPhysFromLog unsortedPasted.toCSubstLogData).m_physStr ≠ unsortedPasted.m_physStr
    ∧ PhysPos2LogPos unsortedPasted 6 ≠ 0 := by
  refine ⟨by decide, rfl, by decide, by decide, by decide, rfl, by decide, by decide,
    by decide⟩

/-- C33 (as amended). Incremental maintenance agrees with a rebuild: in every state
reachable from the empty document (over a field map with non-empty display texts) by
`InsertNewInfo`, `InsertText`, `DeleteOneInfo`, `DeleteAllBetween` and `InsertData`,
called with mapped field ids, with positions in range and not strictly inside a field, and
with fragments whose markers are in non-decreasing position order within the fragment
text, `AssignPhysFromLog` of the current logical data yields exactly the current physical
field sequence and the current physical string; the two sequences have the same length
and at every index `i` the ids agree and
`markers[i].logicalPos = PhysPos2LogPos(fields[i].start) = PhysPos2LogPos(fields[i].end)`. -/
theorem Reachable_rebuild_agrees (lpMap : List SubstDescr) (d : CSubstPhysData)
    (hne : NonEmptyTexts lpMap) (hr : Reachable lpMap d) :
    AssignPhysFromLog d.toCSubstLogData = d
      ∧ (AssignPhysFromLog d.toCSubstLogData).m_physlist = d.m_physlist
      ∧ (AssignPhysFromLog d.toCSubstLogData).m_physStr = d.m_physStr
      ∧ d.m_logList.length = d.m_physlist.length
      ∧ ∀ (i : Nat) (m : CLogInfo) (f : CPhysInfo), d.m_logList[i]? = some m →
          d.m_physlist[i]? = some f →
          m.m_what = f.m_what ∧ m.m_pos = PhysPos2LogPos d f.m_start
            ∧ m.m_pos = PhysPos2LogPos d f.m_end := by
  obtain ⟨X, hk, hfit, rfl⟩ := Reachable_items lpMap hne d hr
  have hre : AssignPhysFromLog (conc lpMap X).toCSubstLogData = conc lpMap X :=
    AssignPhysFromLog_items lpMap X hk hfit
  refine ⟨hre, by rw [hre], by rw [hre], ?_, ?_⟩
  · exact itemsMarks_length lpMap X 0 0
  · intro i m f hm hf
    exact conc_marker_positions lpMap X hfit i m f hm hf

/-- C33, witness: the document that holds the field `<Year>` and nothing else is reached
from the empty document over `{1: "<Year>"}` by one `InsertNewInfo(0, 1)`; the rebuild
from its logical data is the document itself. -/
theorem Reachable_rebuild_agrees_witness :
    NonEmptyTexts yearMap ∧ Reachable yearMap yearFieldDoc
    ∧ (AssignPhysFromLog yearFieldDoc.toCSubstLogData = yearFieldDoc
      ∧ (AssignPhysFromLog yearFieldDoc.toCSubstLogData).m_physlist = yearFieldDoc.m_physlist
      ∧ (AssignPhysFromLog yearFieldDoc.toCSubstLogData).m_physStr = yearFieldDoc.m_physStr
      ∧ yearFieldDoc.m_logList.length = yearFieldDoc.m_physlist.length
      ∧ ∀ (i : Nat) (m : CLogInfo) (f : CPhysInfo), yearFieldDoc.m_logList[i]? = some m →
          yearFieldDoc.m_physlist[i]? = some f →
          m.m_what = f.m_what ∧ m.m_pos = PhysPos2LogPos yearFieldDoc f.m_start
            ∧ m.m_pos = PhysPos2LogPos yearFieldDoc f.m_end) :=
  ⟨by decide,
    Reachable.insertNewInfo (emptyDoc yearMap) yearFieldDoc 0 1
      (some { m_what := 1, m_start := 0, m_end := 6 }) Reachable.empty (by decide)
      (by decide) (by decide) (by decide) (by decide),
    Reachable_rebuild_agrees yearMap yearFieldDoc (by decide)
      (Reachable.insertNewInfo (emptyDoc yearMap) yearFieldDoc 0 1
        (some { m_what := 1, m_start := 0, m_end := 6 }) Reachable.empty (by decide)
        (by decide) (by decide) (by decide) (by decide))⟩

/-- C34. Position order is a reachable-state invariant: in every state reachable from the
empty document (field map with non-empty display texts) by `InsertNewInfo`, `InsertText`,
`DeleteOneInfo`, `DeleteAllBetween` and `InsertData`, called with positions in range and
not strictly inside a field and with fragments whose markers are in non-decreasing
position order, the physical field sequence is sorted by position in sequence order
(every field ends at or before the start of every later one, in particular
`fields[i].end <= fields[i+1].start`) and the marker sequence is in non-decreasing
`logicalPos` order. -/
theorem Reachable_position_order (lpMap : List SubstDescr) (d : CSubstPhysData)
    (hne : NonEmptyTexts lpMap) (hr : Reachable lpMap d) :
    d.m_physlist.Pairwise (fun a b => a.m_end ≤ b.m_start)
      ∧ (∀ (i : Nat) (f g : CPhysInfo), d.m_physlist[i]? = some f →
          d.m_physlist[i + 1]? = some g → f.m_end ≤ g.m_start)
      ∧ (∀ f ∈ d.m_physlist, f.m_start < f.m_end)
      ∧ d.m_logList.Pairwise (fun a b => a.m_pos ≤ b.m_pos)
      ∧ (∀ (i : Nat) (m k : CLogInfo), d.m_logList[i]? = some m →
          d.m_logList[i + 1]? = some k → m.m_pos ≤ k.m_pos) := by
  obtain ⟨X, hk, hfit, rfl⟩ := Reachable_items lpMap hne d hr
  have hp : (conc lpMap X).m_physlist.Pairwise (fun a b => a.m_end ≤ b.m_start) :=
    itemsFields_pairwise lpMap X 0
  have hq : (conc lpMap X).m_logList.Pairwise (fun a b => a.m_pos ≤ b.m_pos) :=
    itemsMarks_pairwise X 0
  refine ⟨hp, ?_, itemsFields_pos_length hne hk 0, hq, ?_⟩
  · intro i f g hf hg
    rw [List.pairwise_iff_getElem] at hp
    obtain ⟨h1, e1⟩ := List.getElem?_eq_some_iff.1 hf
    obtain ⟨h2, e2⟩ := List.getElem?_eq_some_iff.1 hg
    rw [← e1, ← e2]
    exact hp i (i + 1) h1 h2 (Nat.lt_succ_self i)
  · intro i m k hm hk2
    rw [List.pairwise_iff_getElem] at hq
    obtain ⟨h1, e1⟩ := List.getElem?_eq_some_iff.1 hm
    obtain ⟨h2, e2⟩ := List.getElem?_eq_some_iff.1 hk2
    rw [← e1, ← e2]
    exact hq i (i + 1) h1 h2 (Nat.lt_succ_self i)

/-- C34, witness: the document `"<Year>x<Year>"` is reached from the empty document over
`{1: "<Year>"}` by `InsertNewInfo(0, 1)`, `InsertText(6, "x")` and `InsertNewInfo(7, 1)`;
its fields `[0, 6)` and `[7, 13)` and its markers at 0 and 1 are in position order. -/
theorem Reachable_position_order_witness :
    NonEmptyTexts yearMap ∧ Reachable yearMap twoFieldDoc
    ∧ (twoFieldDoc.m_physlist.Pairwise (fun a b => a.m_end ≤ b.m_start)
      ∧ (∀ (i : Nat) (f g : CPhysInfo), twoFieldDoc.m_physlist[i]? = some f →
          twoFieldDoc.m_physlist[i + 1]? = some g → f.m_end ≤ g.m_start)
      ∧ (∀ f ∈ twoFieldDoc.m_physlist, f.m_start < f.m_end)
      ∧ twoFieldDoc.m_logList.Pairwise (fun a b => a.m_pos ≤ b.m_pos)
      ∧ (∀ (i : Nat) (m k : CLogInfo), twoFieldDoc.m_logList[i]? = some m →
          twoFieldDoc.m_logList[i + 1]? = some k → m.m_pos ≤ k.m_pos)) :=
  have hr : Reachable yearMap twoFieldDoc :=
    Reachable.insertNewInfo yearThenX twoFieldDoc 7 1
      (some { m_what := 1, m_start := 7, m_end := 13 })
      (Reachable.insertText yearFieldDoc yearThenX 6 "x".toList true
        (Reachable.insertNewInfo (emptyDoc yearMap) yearFieldDoc 0 1
          (some { m_what := 1, m_start := 0, m_end := 6 }) Reachable.empty (by decide)
          (by decide) (by decide) (by decide) (by decide))
        (by decide) (by decide) (by decide) (by decide))
      (by decide) (by decide) (by decide) (by decide) (by decide)
  ⟨by decide, hr, Reachable_position_order yearMap twoFieldDoc (by decide) hr⟩

/-! ### The four listed conditions of consistency -/

theorem spansFrom_of_pairwise (lpMap : List SubstDescr) (S : CString) :
    ∀ (l : List CPhysInfo) (po : Nat), po ≤ S.length →
    (∀ f ∈ l, po ≤ f.m_start ∧ f.m_start ≤ f.m_end ∧ f.m_end ≤ S.length
      ∧ (S.drop f.m_start).take (f.m_end - f.m_start) = fieldText lpMap f.m_what) →
    l.Pairwise (fun a b => a.m_end ≤ b.m_start) → spansFrom lpMap S po l := by
  intro l
  induction l with
  | nil => intro po h _ _; exact h
  | cons f l ih =>
    intro po hpo hb hp
    rw [List.pairwise_cons] at hp
    obtain ⟨h1, h2, h3, h4⟩ := hb f (List.mem_cons_self _ _)
    refine ⟨h1, h2, h3, h4, ih f.m_end h3 ?_ hp.2⟩
    intro g hg
    obtain ⟨_, g2, g3, g4⟩ := hb g (List.mem_cons_of_mem _ hg)
    exact ⟨hp.1 g hg, g2, g3, g4⟩

theorem spansFrom_le (lpMap : List SubstDescr) (S : CString) :
    ∀ (l : List CPhysInfo) (po : Nat), spansFrom lpMap S po l → po ≤ S.length := by
  intro l
  induction l with
  | nil => intro po h; exact h
  | cons f l ih => intro po h; exact le_trans h.1 (le_trans h.2.1 h.2.2.1)

theorem physItems_phys (lpMap : List SubstDescr) (S : CString) :
    ∀ (l : List CPhysInfo) (po : Nat), spansFrom lpMap S po l →
    itemsPhys lpMap (physItems S po l) = S.drop po := by
  intro l
  induction l with
  | nil => intro po _; simp only [physItems, itemsPhys_chars]
  | cons f l ih =>
    intro po h
    obtain ⟨h1, h2, h3, h4, h5⟩ := h
    simp only [physItems, itemsPhys_append, itemsPhys_chars, itemsPhys, ih f.m_end h5, ← h4]
    have e1 : S.drop f.m_start = (S.drop po).drop (f.m_start - po) := by
      rw [List.drop_drop]; congr 1; omega
    have e2 : S.drop f.m_end = (S.drop f.m_start).drop (f.m_end - f.m_start) := by
      rw [List.drop_drop]; congr 1; omega
    rw [e2, List.take_append_drop, e1, List.take_append_drop]

theorem physItems_fields (lpMap : List SubstDescr) (S : CString) :
    ∀ (l : List CPhysInfo) (po : Nat), spansFrom lpMap S po l →
    itemsFields lpMap po (physItems S po l) = l := by
  intro l
  induction l with
  | nil => intro po _; simp only [physItems, itemsFields_chars]
  | cons f l ih =>
    intro po h
    obtain ⟨h1, h2, h3, h4, h5⟩ := h
    have hlen : (fieldText lpMap f.m_what).length = f.m_end - f.m_start := by
      rw [← h4, List.length_take, List.length_drop]; omega
    have hpre : ((S.drop po).take (f.m_start - po)).length = f.m_start - po := by
      rw [List.length_take, List.length_drop]; omega
    simp only [physItems, itemsFields_append, itemsFields_chars, itemsPhys_chars, itemsFields,
      List.nil_append, hpre, hlen]
    have e1 : po + (f.m_start - po) = f.m_start := by omega
    have e2 : f.m_start + (f.m_end - f.m_start) = f.m_end := by omega
    rw [e1, e2, ih f.m_end h5]

theorem physItems_known (lpMap : List SubstDescr) (S : CString) :
    ∀ (l : List CPhysInfo) (po : Nat),
    (∀ f ∈ l, (FindMapItem lpMap f.m_what).isSome = true) →
    itemsKnown lpMap (physItems S po l) := by
  intro l
  induction l with
  | nil => intro po _; exact itemsKnown_chars _ _
  | cons f l ih =>
    intro po h
    simp only [physItems]
    exact itemsKnown_append.2 ⟨itemsKnown_chars _ _,
      itemsKnown_cons_fld.2 ⟨h f (List.mem_cons_self _ _),
        ih _ (fun g hg => h g (List.mem_cons_of_mem _ hg))⟩⟩

/-- The physical part of data that meet the listed conditions is the physical part of a
sequence of items, whose markers have the ids of the stored ones. -/
theorem Listed_items (d : CSubstPhysData) (h : ListedConsistent d) :
    ∃ X, itemsKnown d.m_map X ∧ itemsPhys d.m_map X = d.m_physStr
      ∧ itemsFields d.m_map 0 X = d.m_physlist
      ∧ (itemsMarks 0 X).map (fun m => m.m_what) = d.m_logList.map (fun m => m.m_what) := by
  obtain ⟨hal, hp, hf, _⟩ := h
  have hs : spansFrom d.m_map d.m_physStr 0 d.m_physlist :=
    spansFrom_of_pairwise _ _ _ 0 (Nat.zero_le _)
      (fun f hf' => ⟨Nat.zero_le _, (hf f hf').1, (hf f hf').2.1, (hf f hf').2.2.2⟩) hp
  refine ⟨physItems d.m_physStr 0 d.m_physlist,
    physItems_known _ _ _ 0 (fun f hf' => (hf f hf').2.2.1), ?_, physItems_fields _ _ _ 0 hs, ?_⟩
  · simpa using physItems_phys _ _ _ 0 hs
  · rw [← items_aligned d.m_map _ 0 0, physItems_fields _ _ _ 0 hs]
    exact hal

/-- The physical data of a sequence of items meet the listed conditions. -/
theorem conc_listed (lpMap : List SubstDescr) (X : List Item) (hk : itemsKnown lpMap X)
    (hfit : (itemsPhys lpMap X).length < INT_LIMIT) : ListedConsistent (conc lpMap X) := by
  refine ⟨items_aligned lpMap X 0 0, itemsFields_pairwise lpMap X 0, ?_,
    (conc_Consistent lpMap X hk hfit).2.2.2.2⟩
  intro f hf
  obtain ⟨_, h2, h3⟩ := itemsFields_bounds lpMap X 0 f hf
  refine ⟨by omega, by simpa [conc] using h3, hk _ (itemsFields_mem_fld lpMap X 0 f hf), ?_⟩
  have := itemsFields_text lpMap X 0 f hf
  have e : f.m_end - f.m_start = (fieldText lpMap f.m_what).length := by omega
  rw [e]
  simpa [conc] using this

/-- Consistent data meet the four listed conditions. -/
theorem Consistent_listed (d : CSubstPhysData) (h : Consistent d) : ListedConsistent d := by
  obtain ⟨X, hk, hX⟩ := Consistent_items d h
  have hfit : d.m_physStr.length < INT_LIMIT := h.2.2.1
  generalize d.m_map = lpMap at hk hX
  subst hX
  exact conc_listed lpMap X hk hfit

/-! ### C20, C36: positions and the logical string, from the physical part -/

theorem PhysPos2LogPos_congr (d e : CSubstPhysData) (h : d.m_physlist = e.m_physlist)
    (ph : Nat) : PhysPos2LogPos d ph = PhysPos2LogPos e ph := by
  unfold PhysPos2LogPos; rw [h]

theorem plainBefore_congr (d e : CSubstPhysData) (h : d.m_physlist = e.m_physlist)
    (ph : Nat) : plainBefore d ph = plainBefore e ph := by
  unfold plainBefore; rw [h]

theorem lengthsBefore_congr (d e : CSubstPhysData) (h : d.m_physlist = e.m_physlist)
    (ph : Nat) : lengthsBefore d ph = lengthsBefore e ph := by
  unfold lengthsBefore; rw [h]

theorem NotInside_congr (d e : CSubstPhysData) (h : d.m_physlist = e.m_physlist)
    (ph : Nat) (hin : NotInside d ph) : NotInside e ph := by
  unfold NotInside at hin ⊢; rw [← h]; exact hin

theorem PhysStr2logStr_congr (d e : CSubstPhysData) (hm : d.m_map = e.m_map)
    (hs : d.m_physStr = e.m_physStr) (hl : d.m_physlist = e.m_physlist) :
    PhysStr2logStr d = PhysStr2logStr e := by
  unfold PhysStr2logStr; rw [hm, hs, hl]

/-- On data that meet the listed conditions, the logical position of a physical position
that is not inside a field is the number of plain characters before it. -/
theorem Listed_PhysPos2LogPos (d : CSubstPhysData) (hc : ListedConsistent d)
    (hfit : d.m_physStr.length < INT_LIMIT) (ph : Nat) (hph : ph ≤ d.m_physStr.length)
    (hin : NotInside d ph) :
    ((PhysPos2LogPos d ph : Nat) : Int) = (ph : Int) - lengthsBefore d ph
      ∧ PhysPos2LogPos d ph = plainBefore d ph ∧ PhysPos2LogPos d ph ≤ ph := by
  obtain ⟨X, hk, hX1, hX2, _⟩ := Listed_items d hc
  have hl : d.m_physlist = (conc d.m_map X).m_physlist := hX2.symm
  rw [PhysPos2LogPos_congr d _ hl, plainBefore_congr d _ hl, lengthsBefore_congr d _ hl]
  have hin' := NotInside_congr d _ hl ph hin
  generalize d.m_map = lpMap at hk hX1 hX2 hl hin'
  rw [← hX1] at hph hfit
  obtain ⟨A, B, rfl, hw, _⟩ := conc_split lpMap X ph hph hin'
  subst hw
  have hfitA : (itemsPhys lpMap A).length < INT_LIMIT := by
    simp only [itemsPhys_append, List.length_append] at hfit; omega
  have hle := itemsLog_length_le lpMap A
  rw [PhysPos2LogPos_conc lpMap A B hfitA, lengthsBefore_conc, plainBefore_conc]
  exact ⟨by omega, rfl, hle⟩

theorem sum_map_what (g : Nat → Nat) : ∀ (l1 l2 : List CLogInfo),
    l1.map (fun m => m.m_what) = l2.map (fun m => m.m_what) →
    (l1.map (fun m => g m.m_what)).sum = (l2.map (fun m => g m.m_what)).sum := by
  intro l1 l2 h
  have e1 : l1.map (fun m => g m.m_what) = (l1.map (fun m => m.m_what)).map g := by
    rw [List.map_map]; rfl
  have e2 : l2.map (fun m => g m.m_what) = (l2.map (fun m => m.m_what)).map g := by
    rw [List.map_map]; rfl
  rw [e1, e2, h]

/-- On data that meet the listed conditions and whose markers do not decrease within the
logical string, the end of the physical string is the end of the logical string. -/
theorem Listed_PhysPos2LogPos_end (d : CSubstPhysData) (hc : ListedConsistent d)
    (hfit : d.m_physStr.length < INT_LIMIT) (hfitL : d.m_logStr.length < INT_LIMIT)
    (hp : d.m_logList.Pairwise (fun a b => a.m_pos ≤ b.m_pos))
    (hb : ∀ m ∈ d.m_logList, m.m_pos ≤ d.m_logStr.length) :
    PhysPos2LogPos d d.m_physStr.length = d.m_logStr.length := by
  obtain ⟨X, hk, hX1, hX2, hX3⟩ := Listed_items d hc
  have hmapped : ∀ m ∈ d.m_logList, (FindMapItem d.m_map m.m_what).isSome = true := by
    intro m hm
    have h1 : m.m_what ∈ d.m_logList.map (fun m => m.m_what) := List.mem_map_of_mem _ hm
    rw [← hc.1] at h1
    obtain ⟨f, hf, hfw⟩ := List.mem_map.1 h1
    rw [← hfw]
    exact (hc.2.2.1 f hf).2.2.1
  have hL : LogOk d.toCSubstLogData := ⟨hmapped, hp, hb⟩
  obtain ⟨Y, hkY, hY1, hY2⟩ := LogOk_items _ hL
  have hrender : d.m_physStr = itemsPhys d.m_map Y := by
    rw [hc.2.2.2, ← LogStr2PhysStr_items d.m_map Y hkY (by rw [hY1]; exact hfitL), hY1, hY2]
  have hl : d.m_physlist = (conc d.m_map X).m_physlist := hX2.symm
  rw [PhysPos2LogPos_congr d _ hl]
  have hlenY : d.m_physStr.length = d.m_logStr.length
      + (d.m_logList.map (fun m => (fieldText d.m_map m.m_what).length)).sum := by
    have := itemsPhys_length d.m_map Y 0
    rw [hY2, ← hrender, hY1] at this
    exact this
  have hsum : ((itemsMarks 0 X).map (fun m => (fieldText d.m_map m.m_what).length)).sum
      = (d.m_logList.map (fun m => (fieldText d.m_map m.m_what).length)).sum :=
    sum_map_what (fun w => (fieldText d.m_map w).length) _ _ hX3
  have hlenX : d.m_physStr.length = (itemsLog X).length
      + (d.m_logList.map (fun m => (fieldText d.m_map m.m_what).length)).sum := by
    have := itemsPhys_length d.m_map X 0
    rw [hX1, hsum] at this
    exact this
  have hpos := PhysPos2LogPos_conc d.m_map X [] (by rw [hX1]; exact hfit)
  rw [List.append_nil, hX1] at hpos
  rw [hpos]
  omega

/-- C20, counterexample: the data `swappedDoc` meet the four listed conditions (the
logical string `"ab"` with the markers `{1, 2}`, `{1, 0}` renders to
`"ab<Year><Year>ab"`, the fields lie at `[2, 8)` and `[8, 14)`), the end 16 of the
physical string is not inside a field, and `PhysPos2LogPos(16)` is 4, the number of plain
characters of the physical string, while the logical string has 2 characters. -/
theorem PhysPos2LogPos_listed_counterexample :
    ListedConsistent swappedDoc ∧ ¬ Consistent swappedDoc
    ∧ swappedDoc.m_physStr.length = 16 ∧ NotInside swappedDoc 16
    ∧ PhysPos2LogPos swappedDoc 16 = 4 ∧ plainBefore swappedDoc 16 = 4
    ∧ swappedDoc.m_logStr.length = 2 := by
  decide

/-- C20 (amended). PhysicalToLogical mapping: for every physical data and every `ph`,
`PhysPos2LogPos(ph)` is `ph` minus the sum of `end - start` over the physical fields with
`end <= ph`, in `size_t` arithmetic (modulo `SIZE_MOD`); for data that meet the four
listed conditions of consistency (physical string a `CString`) and a position within the
physical string that is not strictly inside a field, the difference is exact and is the
number of characters before `ph` that lie in no field; when moreover the markers are in
non-decreasing order within the logical string, `PhysPos2LogPos(len(physicalString))` is
`len(logicalString)`. -/
theorem PhysPos2LogPos_value (d : CSubstPhysData) (ph : Nat) :
    Int.ModEq (SIZE_MOD : Int) ((PhysPos2LogPos d ph : Nat) : Int)
      ((ph : Int) - lengthsBefore d ph)
    ∧ (ListedConsistent d → d.m_physStr.length < INT_LIMIT → ph ≤ d.m_physStr.length →
        NotInside d ph →
        ((PhysPos2LogPos d ph : Nat) : Int) = (ph : Int) - lengthsBefore d ph
        ∧ PhysPos2LogPos d ph = plainBefore d ph)
    ∧ (ListedConsistent d → d.m_physStr.length < INT_LIMIT → d.m_logStr.length < INT_LIMIT →
        d.m_logList.Pairwise (fun a b => a.m_pos ≤ b.m_pos) →
        (∀ m ∈ d.m_logList, m.m_pos ≤ d.m_logStr.length) →
        PhysPos2LogPos d d.m_physStr.length = d.m_logStr.length) := by
  refine ⟨PhysPos2LogPos_fold_modEq ph d.m_physlist ph, ?_, ?_⟩
  · intro hc hfit hph hin
    obtain ⟨h1, h2, _⟩ := Listed_PhysPos2LogPos d hc hfit ph hph hin
    exact ⟨h1, h2⟩
  · intro hc hfit hfitL hp hb
    exact Listed_PhysPos2LogPos_end d hc hfit hfitL hp hb

/-- C20, witness: in `"<Year>"` with the field `{1, 0, 6}`, the position 6 is the logical
position 0, the end of the logical string; in `echoDoc`, which meets the listed
conditions, the position 3 behind `"abX"` is the logical position 1. -/
theorem PhysPos2LogPos_value_witness :
    ListedConsistent yearFieldDoc ∧ NotInside yearFieldDoc 6
    ∧ (((PhysPos2LogPos yearFieldDoc 6 : Nat) : Int) = (6 : Int) - lengthsBefore yearFieldDoc 6
        ∧ PhysPos2LogPos yearFieldDoc 6 = plainBefore yearFieldDoc 6)
    ∧ PhysPos2LogPos yearFieldDoc yearFieldDoc.m_physStr.length = yearFieldDoc.m_logStr.length
    ∧ PhysPos2LogPos yearFieldDoc 6 = 0
    ∧ ListedConsistent echoDoc ∧ NotInside echoDoc 3
    ∧ (((PhysPos2LogPos echoDoc 3 : Nat) : Int) = (3 : Int) - lengthsBefore echoDoc 3
        ∧ PhysPos2LogPos echoDoc 3 = plainBefore echoDoc 3)
    ∧ PhysPos2LogPos echoDoc 3 = 1 :=
  ⟨by decide, by decide,
    (PhysPos2LogPos_value yearFieldDoc 6).2.1 (by decide) (by decide) (by decide) (by decide),
    (PhysPos2LogPos_value yearFieldDoc 6).2.2 (by decide) (by decide) (by decide) (by decide)
      (by decide),
    by decide, by decide, by decide,
    (PhysPos2LogPos_value echoDoc 3).2.1 (by decide) (by decide) (by decide) (by decide),
    by decide⟩

/-- C36, counterexample: the data `echoDoc` meet the four listed conditions; their
logical string is `"abX"`, and `PhysStr2logStr` returns `"Xab"`.  The marker of `echoDoc`
is well formed, and it is not stored at the logical position of its field. -/
theorem PhysStr2logStr_listed_counterexample :
    ListedConsistent echoDoc ∧ LogOk echoDoc.toCSubstLogData
    ∧ ¬ MarkersAtFields echoDoc ∧ ¬ Consistent echoDoc
    ∧ PhysStr2logStr echoDoc = "Xab".toList ∧ echoDoc.m_logStr = "abX".toList
    ∧ "Xab".toList ≠ "abX".toList := by
  decide

/-- C36 (amended). `PhysStr2logStr` inverts the rendering: for logical data `L` whose
markers reference mapped ids and do not decrease within the logical string (logical string
and rendered text within the range of a `CString`), `PhysStr2logStr` of the physical data
that `AssignPhysFromLog` builds from `L` is the logical string of `L`; for every physical
data that is consistent in the sense of `Consistent` (markers as above, fields and physical
string the ones `AssignPhysFromLog` rebuilds) `PhysStr2logStr` returns its logical string;
and for every physical data that meets the four listed conditions of consistency the
length of `PhysStr2logStr` is `len(physicalString)` less the sum of the field lengths
`end - start`. -/
theorem PhysStr2logStr_inverts_rendering :
    (∀ L : CSubstLogData, LogOk L → L.m_logStr.length < INT_LIMIT →
      (LogStr2PhysStr L).length < INT_LIMIT →
      PhysStr2logStr (AssignPhysFromLog L) = L.m_logStr)
    ∧ (∀ d : CSubstPhysData, Consistent d → PhysStr2logStr d = d.m_logStr)
    ∧ (∀ d : CSubstPhysData, ListedConsistent d → d.m_physStr.length < INT_LIMIT →
      (PhysStr2logStr d).length + (d.m_physlist.map (fun f => f.m_end - f.m_start)).sum
          = d.m_physStr.length) := by
  refine ⟨?_, ?_, ?_⟩
  · intro L hL hfitL hfit
    obtain ⟨Y, hk, hY1, hY2⟩ := LogOk_items L hL
    have hrender : LogStr2PhysStr L = itemsPhys L.m_map Y := by
      rw [← LogStr2PhysStr_items L.m_map Y hk (by rw [hY1]; exact hfitL), hY1, hY2]
    rw [hrender] at hfit
    have hLe : L = { m_logStr := itemsLog Y, m_logList := itemsMarks 0 Y, m_map := L.m_map } := by
      rw [hY1, hY2]
    rw [hLe, AssignPhysFromLog_items L.m_map Y hk hfit, PhysStr2logStr_conc L.m_map Y hk hfit]
  · intro d hc
    obtain ⟨X, hk, hX⟩ := Consistent_items d hc
    have hfit : d.m_physStr.length < INT_LIMIT := hc.2.2.1
    generalize d.m_map = lpMap at hk hX
    subst hX
    exact PhysStr2logStr_conc lpMap X hk hfit
  · intro d hc hfit
    obtain ⟨X, hk, hX1, hX2, _⟩ := Listed_items d hc
    rw [PhysStr2logStr_congr d (conc d.m_map X) rfl hX1.symm hX2.symm,
      PhysStr2logStr_conc d.m_map X hk (by rw [hX1]; exact hfit), ← hX2, ← hX1,
      itemsFields_lengths d.m_map X 0 0, ← itemsPhys_length d.m_map X 0]

/-- C36, witness: the logical data `("x<y in .", [{1, 7}])`, the document `"ab<Year>cd"`,
and the data `echoDoc`, which meet the listed conditions. -/
theorem PhysStr2logStr_inverts_rendering_witness :
    LogOk lessLog ∧ PhysStr2logStr (AssignPhysFromLog lessLog) = "x<y in .".toList
    ∧ Consistent midDoc ∧ PhysStr2logStr midDoc = "abcd".toList
    ∧ ListedConsistent echoDoc
    ∧ (PhysStr2logStr echoDoc).length
        + (echoDoc.m_physlist.map (fun f => f.m_end - f.m_start)).sum = 5 :=
  ⟨by decide,
    PhysStr2logStr_inverts_rendering.1 lessLog (by decide) (by decide) (by decide),
    by decide,
    PhysStr2logStr_inverts_rendering.2.1 midDoc (by decide),
    by decide,
    PhysStr2logStr_inverts_rendering.2.2 echoDoc (by decide) (by decide)⟩

/-! ### C32: `ModifyDataOnInsertion` -/

/-- On index-aligned data, `InsertText` of a non-empty text at a position within the
physical string that is not inside a field returns TRUE and splices the text into the two
strings, at `physIndex` and at `PhysPos2LogPos(physIndex)`. -/
theorem InsertText_strings (d : CSubstPhysData) (physIndex : Nat) (sztext : CString)
    (hal : Aligned d) (hpos : physIndex ≤ d.m_physStr.length) (hin : NotInside d physIndex)
    (hx : 0 < sztext.length) :
    ∃ d', InsertText d physIndex sztext = some (d', true)
      ∧ d'.m_physStr = strInsert d.m_physStr (castInt physIndex) sztext
      ∧ d'.m_logStr = strInsert d.m_logStr (castInt (PhysPos2LogPos d physIndex)) sztext := by
  unfold InsertText
  rw [if_neg (by omega), (FindPhysInfoPosIsIn_none_iff d physIndex).2 hin]
  simp only [Option.isSome_none, Bool.false_eq_true, if_false]
  rw [if_pos hx]
  obtain ⟨a, b, h4, _, _⟩ := MoveAllInfo_what d.m_logList d.m_physlist physIndex
    sztext.length (Aligned_length hal).symm
  simp only [h4]
  exact ⟨_, rfl, rfl, rfl⟩

/-- C32. Character insertion by diff: on physical data that meet the four listed conditions
of consistency and whose physical string is `strOld`, for a position `iPos <= len(strOld)`
not strictly inside a field and a non-empty text `x` (the new text within the range of a
`CString`), when `strNew` is `strOld` with `x` inserted at `iPos`,
`ModifyDataOnInsertion(iPos, strOld, strNew)` returns `len(x)`, the physical string becomes
`strNew` and `x` is spliced into the logical string at `PhysPos2LogPos(iPos)`; when
`strNew == strOld` it returns 0 and changes nothing. -/
theorem ModifyDataOnInsertion_effect (d : CSubstPhysData) (iPos : Nat) (strOld x : CString)
    (hc : ListedConsistent d) (hold : d.m_physStr = strOld) (hpos : iPos ≤ strOld.length)
    (hin : NotInside d iPos) (hx : x ≠ [])
    (hfit : strOld.length + x.length < INT_LIMIT) :
    (∃ d', ModifyDataOnInsertion d iPos strOld (strOld.take iPos ++ x ++ strOld.drop iPos)
          = some (d', x.length)
      ∧ d'.m_physStr = strOld.take iPos ++ x ++ strOld.drop iPos
      ∧ d'.m_logStr = d.m_logStr.take (PhysPos2LogPos d iPos) ++ x
          ++ d.m_logStr.drop (PhysPos2LogPos d iPos))
    ∧ ModifyDataOnInsertion d iPos strOld strOld = some (d, 0) := by
  constructor
  · subst hold
    have hxl : 0 < x.length := List.length_pos.2 hx
    have hne : d.m_physStr ≠ d.m_physStr.take iPos ++ x ++ d.m_physStr.drop iPos := by
      intro h
      have := congrArg List.length h
      simp only [List.length_append, List.length_take, List.length_drop] at this
      omega
    have hnewlen : (d.m_physStr.take iPos ++ x ++ d.m_physStr.drop iPos).length
        = d.m_physStr.length + x.length := by
      simp only [List.length_append, List.length_take, List.length_drop]
      omega
    have hdelta : subSz (d.m_physStr.take iPos ++ x ++ d.m_physStr.drop iPos).length
        d.m_physStr.length = x.length := by
      rw [hnewlen, subSz_of_le (by omega) hfit]
      omega
    have hmid : strMid (d.m_physStr.take iPos ++ x ++ d.m_physStr.drop iPos) (castInt iPos)
        (castInt x.length) = x := by
      rw [strMid_cast _ (by omega) (by omega), List.append_assoc,
        List.drop_append_of_le_length (by simp; omega)]
      have e : List.drop iPos (List.take iPos d.m_physStr) = [] := by
        apply List.drop_eq_nil_of_le; simp
      rw [e, List.nil_append, List.take_left]
    obtain ⟨_, _, hle⟩ := Listed_PhysPos2LogPos d hc (by omega) iPos hpos hin
    obtain ⟨d', h1, h2, h3⟩ := InsertText_strings d iPos x hc.1 hpos hin hxl
    refine ⟨d', ?_, ?_, ?_⟩
    · unfold ModifyDataOnInsertion
      rw [if_pos hne]
      simp only []
      rw [hdelta, hmid, h1]
    · rw [h2, strInsert_cast _ _ (by omega)]
    · rw [h3, strInsert_cast _ _ (by omega)]
  · unfold ModifyDataOnInsertion
    simp

/-- C32, witness: typing `"XY"` behind the field of `"ab<Year>cd"`; typing `"Q"` behind
the `X` of `echoDoc`, which meets the listed conditions. -/
theorem ModifyDataOnInsertion_effect_witness :
    (∃ d', ModifyDataOnInsertion midDoc 8 "ab<Year>cd".toList "ab<Year>XYcd".toList
          = some (d', 2)
      ∧ d'.m_physStr = "ab<Year>XYcd".toList ∧ d'.m_logStr = "abXYcd".toList)
    ∧ ModifyDataOnInsertion midDoc 8 "ab<Year>cd".toList "ab<Year>cd".toList
        = some (midDoc, 0)
    ∧ ListedConsistent echoDoc
    ∧ (∃ d', ModifyDataOnInsertion echoDoc 3 "abXab".toList "abXQab".toList = some (d', 1)
      ∧ d'.m_physStr = "abXQab".toList ∧ d'.m_logStr = "aQbX".toList) := by
  obtain ⟨⟨d', h1, h2, h3⟩, h4⟩ := ModifyDataOnInsertion_effect midDoc 8
    "ab<Year>cd".toList "XY".toList (by decide) (by decide) (by decide) (by decide)
    (by decide) (by decide)
  obtain ⟨⟨d2, g1, g2, g3⟩, _⟩ := ModifyDataOnInsertion_effect echoDoc 3
    "abXab".toList "Q".toList (by decide) (by decide) (by decide) (by decide)
    (by decide) (by decide)
  exact ⟨⟨d', h1, h2, h3.trans (by decide)⟩, h4, by decide,
    ⟨d2, g1, g2, g3.trans (by decide)⟩⟩

/-! ### C14: the export of a selection -/

theorem ExportLogListLoop_congr (d e : CSubstPhysData) (hm : d.m_map = e.m_map)
    (hl : d.m_physlist = e.m_physlist)
    (hw : d.m_logList.map (fun m => m.m_what) = e.m_logList.map (fun m => m.m_what)) :
    ∀ (idxs : List Nat) (suma : Nat) (out : List CLogInfo),
    ExportLogListLoop d idxs suma out = ExportLogListLoop e idxs suma out := by
  intro idxs
  induction idxs with
  | nil => intro suma out; rfl
  | cons n rest ih =>
    intro suma out
    have key : (d.m_logList[n]?).map (fun m => m.m_what)
        = (e.m_logList[n]?).map (fun m => m.m_what) := by
      have := congrArg (fun l => l[n]?) hw
      simpa [List.getElem?_map] using this
    simp only [ExportLogListLoop]
    rw [hl, hm]
    cases e.m_physlist[n]? with
    | none => rfl
    | some f =>
      simp only
      cases h1 : d.m_logList[n]? with
      | none =>
        cases h2 : e.m_logList[n]? with
        | none => rfl
        | some b => rw [h1, h2] at key; cases key
      | some a =>
        cases h2 : e.m_logList[n]? with
        | none => rw [h1, h2] at key; cases key
        | some b =>
          rw [h1, h2] at key
          simp only [Option.map_some', Option.some.injEq] at key
          simp only [key]
          cases FindMapItem e.m_map b.m_what with
          | none => exact ih _ _
          | some lpDesc => exact ih _ _

/-- `ExportLogSel` reads the map, the physical part and the ids of the markers only. -/
theorem ExportLogSel_congr (d e : CSubstPhysData) (hm : d.m_map = e.m_map)
    (hs : d.m_physStr = e.m_physStr) (hl : d.m_physlist = e.m_physlist)
    (hw : d.m_logList.map (fun m => m.m_what) = e.m_logList.map (fun m => m.m_what))
    (sel : CSelInfo) (logData : CSubstLogData) :
    ExportLogSel d (some sel) logData = ExportLogSel e (some sel) logData := by
  unfold ExportLogSel ExportLogListSel FindPhysInfoAllBetween
  simp only [ExportLogListLoop_congr d e hm hl hw, PhysStr2logStr_congr d e hm hs hl,
    PhysPos2LogPos_congr d e hl, hl, hm]

theorem zip_filter_fields (p : CPhysInfo → Bool) (g : CPhysInfo → Nat) (k : Nat) :
    ∀ (ms : List CLogInfo) (fs : List CPhysInfo), ms.length = fs.length →
    (∀ mf ∈ List.zip ms fs, mf.1.m_pos = g mf.2) →
    ((List.zip ms fs).filter (fun mf => p mf.2)).map
        (fun mf => ({ m_what := mf.2.m_what, m_pos := mf.1.m_pos - k } : CLogInfo))
      = (fs.filter p).map (fun f => ({ m_what := f.m_what, m_pos := g f - k } : CLogInfo)) := by
  intro ms
  induction ms with
  | nil =>
    intro fs hl _
    cases fs with
    | nil => rfl
    | cons f fs => simp at hl
  | cons m ms ih =>
    intro fs hl h
    cases fs with
    | nil => simp at hl
    | cons f fs =>
      have hm : m.m_pos = g f := h (m, f) (by simp)
      have ih' := ih fs (by simpa using hl)
        (fun mf hmf => h mf (by simp only [List.zip_cons_cons]; exact List.mem_cons_of_mem _ hmf))
      simp only [List.zip_cons_cons, List.filter_cons]
      by_cases hp : p f = true
      · simp only [hp, if_true, List.map_cons, ih', hm]
      · simp only [hp, Bool.false_eq_true, if_false, ih']

theorem conc_zip_positions (lpMap : List SubstDescr) (X : List Item)
    (hfit : (itemsPhys lpMap X).length < INT_LIMIT) :
    ∀ mf ∈ List.zip (conc lpMap X).m_logList (conc lpMap X).m_physlist,
      mf.1.m_pos = PhysPos2LogPos (conc lpMap X) mf.2.m_start := by
  intro mf hmf
  obtain ⟨i, hi⟩ := List.mem_iff_getElem?.1 hmf
  rw [List.getElem?_zip_eq_some] at hi
  exact (conc_marker_positions lpMap X hfit i mf.1 mf.2 hi.1 hi.2).2.1

/-- C14. Export of a selection renders to the selected text: for physical data that meet
the four listed conditions of consistency (physical string a `CString`) and a selection
`StartChar < EndChar <= len(physicalString)` with neither end strictly inside a field,
`ExportLogSel` gives the output the map of the document and one marker for each field
wholly inside the selection, in order, with the id of the field and the logical position
of its start counted from the logical position of the selection start, and a logical
text such that `LogStr2PhysStr` of the output is the selected part of the physical string;
the markers of the output do not decrease within its text.  (The function reads the
physical data only: it has no other result than the output.) -/
theorem ExportLogSel_renders_selection (d : CSubstPhysData) (sel : CSelInfo)
    (logData : CSubstLogData) (hc : ListedConsistent d)
    (hfit : d.m_physStr.length < INT_LIMIT) (hse : sel.StartChar < sel.EndChar)
    (hend : sel.EndChar ≤ d.m_physStr.length) (hin1 : NotInside d sel.StartChar)
    (hin2 : NotInside d sel.EndChar) :
    ∃ E, ExportLogSel d (some sel) logData = some E
      ∧ E.m_map = d.m_map
      ∧ LogStr2PhysStr E
          = (d.m_physStr.drop sel.StartChar).take (sel.EndChar - sel.StartChar)
      ∧ E.m_logList
          = (d.m_physlist.filter (FnPhysInfoBetween sel.StartChar sel.EndChar)).map
              (fun f => ({ m_what := f.m_what,
                           m_pos := PhysPos2LogPos d f.m_start
                             - PhysPos2LogPos d sel.StartChar } : CLogInfo))
      ∧ LogOk E := by
  obtain ⟨X, hk, hX1, hX2, hX3⟩ := Listed_items d hc
  have hfitX : (itemsPhys d.m_map X).length < INT_LIMIT := by rw [hX1]; exact hfit
  have hcons : Consistent (conc d.m_map X) := conc_Consistent d.m_map X hk hfitX
  have hl : d.m_physlist = (conc d.m_map X).m_physlist := hX2.symm
  have hs : d.m_physStr = (conc d.m_map X).m_physStr := hX1.symm
  have hw : d.m_logList.map (fun m => m.m_what)
      = (conc d.m_map X).m_logList.map (fun m => m.m_what) := hX3.symm
  obtain ⟨E, h1, h2, h3, h4, _, h6⟩ := ExportLogSel_consistent (conc d.m_map X) sel
    logData hcons hse (by rw [← hs]; exact hend) (NotInside_congr d _ hl _ hin1)
    (NotInside_congr d _ hl _ hin2)
  refine ⟨E, ?_, h2, ?_, ?_, h6⟩
  · rw [ExportLogSel_congr d (conc d.m_map X) rfl hs hl hw, h1]
  · rw [h3, ← hs]
  · have hz := zip_filter_fields (FnPhysInfoBetween sel.StartChar sel.EndChar)
      (fun f => PhysPos2LogPos (conc d.m_map X) f.m_start)
      (PhysPos2LogPos (conc d.m_map X) sel.StartChar)
      (conc d.m_map X).m_logList (conc d.m_map X).m_physlist
      (itemsMarks_length d.m_map X 0 0) (conc_zip_positions d.m_map X hfitX)
    rw [h4, hz, ← hl]
    apply List.map_congr_left
    intro f _
    simp only [PhysPos2LogPos_congr d (conc d.m_map X) hl]

/-- C14, witness: the selection `[1, 9)` of `"ab<Year>cd"` is exported as the logical
text `"bc"` with the field 1 at the logical position 1, which renders to `"b<Year>c"`; the
whole of `echoDoc`, which meets the listed conditions, is exported as `"Xab"` with the
field at 0. -/
theorem ExportLogSel_renders_selection_witness :
    (∃ E, ExportLogSel midDoc (some { m_nStartChar := 1, m_nEndChar := 9 }) lessLog = some E
      ∧ E.m_map = midDoc.m_map
      ∧ LogStr2PhysStr E = (midDoc.m_physStr.drop 1).take (9 - 1)
      ∧ E.m_logList
          = (midDoc.m_physlist.filter (FnPhysInfoBetween 1 9)).map
              (fun f => ({ m_what := f.m_what,
                           m_pos := PhysPos2LogPos midDoc f.m_start
                             - PhysPos2LogPos midDoc 1 } : CLogInfo))
      ∧ LogOk E)
    ∧ ExportLogSel midDoc (some { m_nStartChar := 1, m_nEndChar := 9 }) lessLog
        = some { m_logStr := "bc".toList, m_logList := [{ m_what := 1, m_pos := 1 }],
                 m_map := yearMap }
    ∧ (midDoc.m_physStr.drop 1).take (9 - 1) = "b<Year>c".toList
    ∧ ListedConsistent echoDoc
    ∧ (∃ E, ExportLogSel echoDoc (some { m_nStartChar := 0, m_nEndChar := 5 }) lessLog = some E
      ∧ LogStr2PhysStr E = (echoDoc.m_physStr.drop 0).take (5 - 0))
    ∧ ExportLogSel echoDoc (some { m_nStartChar := 0, m_nEndChar := 5 }) lessLog
        = some { m_logStr := "Xab".toList, m_logList := [{ m_what := 1, m_pos := 0 }],
                 m_map := abMap } := by
  obtain ⟨E, g1, _, g3, _⟩ := ExportLogSel_renders_selection echoDoc
    { m_nStartChar := 0, m_nEndChar := 5 } lessLog (by decide) (by decide) (by decide)
    (by decide) (by decide) (by decide)
  exact ⟨ExportLogSel_renders_selection midDoc { m_nStartChar := 1, m_nEndChar := 9 } lessLog
      (by decide) (by decide) (by decide) (by decide) (by decide) (by decide), by decide,
    by decide, by decide, ⟨E, g1, g3⟩, by decide⟩

/-! ### C22: the value `DeleteAllBetween` returns -/

theorem FirstThat_split {α : Type} (p : α → Bool) : ∀ (l : List α) (k : Nat),
    FirstThat p l = some k →
    ∃ L1 x L2, l = L1 ++ x :: L2 ∧ L1.length = k ∧ p x = true ∧ ∀ y ∈ L1, p y = false := by
  intro l
  induction l with
  | nil => intro k h; simp [FirstThat] at h
  | cons a l ih =>
    intro k h
    simp only [FirstThat] at h
    by_cases ha : p a = true
    · rw [if_pos ha] at h
      cases h
      exact ⟨[], a, l, rfl, rfl, ha, by simp⟩
    · rw [if_neg ha] at h
      cases hq : FirstThat p l with
      | none => rw [hq] at h; cases h
      | some j =>
        rw [hq] at h
        simp only [Option.map_some', Option.some.injEq] at h
        obtain ⟨L1, x, L2, e1, e2, e3, e4⟩ := ih j hq
        refine ⟨a :: L1, x, L2, by rw [e1]; rfl, by simp [e2, h], e3, ?_⟩
        intro y hy
        rcases List.mem_cons.1 hy with rfl | hy
        · exact Bool.eq_false_iff.2 ha
        · exact e4 y hy

theorem extractSubstr_length (s : CString) (i n : Nat) (h : i + n ≤ s.length) :
    (extractSubstr s i n).length + n = s.length := by
  unfold extractSubstr
  simp only [List.length_append, List.length_take, List.length_drop]
  omega

theorem shiftBack_zero (f : CPhysInfo) : f.shiftBack 0 = f := by
  cases f; rfl

/-- `DeleteOneInfo` on the first field that `FindPhysInfoBetween` finds in a
position-sorted sequence: the fields before it stay, the fields behind it move left by its
length, and the physical string loses as many characters. -/
theorem DeleteOneInfo_first_between (d : CSubstPhysData) (L1 L2 : List CPhysInfo)
    (f : CPhysInfo) (hl : d.m_physlist = L1 ++ f :: L2)
    (hal : d.m_logList.length = d.m_physlist.length)
    (hfit : d.m_physStr.length < INT_LIMIT)
    (hs : PositionSorted d.m_physlist)
    (hw : ∀ g ∈ d.m_physlist, g.m_end ≤ d.m_physStr.length)
    (h1 : ∀ g ∈ L1, g.m_start < f.m_start) :
    f.GetLength = f.m_end - f.m_start
    ∧ ∃ d1, DeleteOneInfo d L1.length = some (d1, true)
      ∧ d1.m_physlist = L1 ++ L2.map (fun g => g.shiftBack (f.m_end - f.m_start))
      ∧ d1.m_physStr.length + (f.m_end - f.m_start) = d.m_physStr.length
      ∧ d1.m_logList.length = d1.m_physlist.length := by
  have hf : f ∈ d.m_physlist := by rw [hl]; simp
  have hfe := hw f hf
  have hfs := hs.2 f hf
  have hlen : f.GetLength = f.m_end - f.m_start := by
    unfold CPhysInfo.GetLength
    rw [subSz_of_le hfs (by omega)]
  refine ⟨hlen, ?_⟩
  have hget : d.m_physlist[L1.length]? = some f := by
    rw [hl]; exact getElem?_append_length _ _ _
  have her : d.m_physlist.eraseIdx L1.length = L1 ++ L2 := by
    rw [hl]; exact eraseIdx_append_length _ _ _
  have hlt : L1.length < d.m_logList.length := by
    rw [hal, hl]; simp
  have hlen2 : (d.m_logList.eraseIdx L1.length).length = (L1 ++ L2).length := by
    rw [List.length_eraseIdx, if_pos hlt, hal, hl]
    simp
  have hpw := hs.1
  rw [hl, List.pairwise_append, List.pairwise_cons] at hpw
  unfold DeleteOneInfo
  rw [hget]
  simp only []
  rw [if_pos hlt, hlen, her]
  by_cases hpos : f.m_end - f.m_start > 0
  · rw [if_pos hpos]
    have hmove : MoveAllPhysInfoGreaterEq (L1 ++ L2) f.m_start (negSz (f.m_end - f.m_start))
        = L1 ++ L2.map (fun g => g.shiftBack (f.m_end - f.m_start)) := by
      unfold MoveAllPhysInfoGreaterEq
      rw [List.map_append]
      congr 1
      · conv => rhs; rw [← List.map_id L1]
        apply List.map_congr_left
        intro g hg
        have := h1 g hg
        simp only [FnMoveAllPhysInfoGreaterEq, id]
        rw [if_neg (by omega)]
      · apply List.map_congr_left
        intro g hg
        have hg1 := hpw.2.1.1 g hg
        have hgm : g ∈ d.m_physlist := by rw [hl]; simp [hg]
        have hg2 := hw g hgm
        have hg3 := hs.2 g hgm
        simp only [FnMoveAllPhysInfoGreaterEq, CPhysInfo.shiftBack]
        rw [if_pos (by omega), addSz_negSz (by omega) (by omega),
          addSz_negSz (by omega) (by omega)]
    refine ⟨_, rfl, hmove, ?_, ?_⟩
    · simp only
      exact extractSubstr_length _ _ _ (by omega)
    · simp only [hmove, hlen2, List.length_append, List.length_map]
  · rw [if_neg hpos]
    have h0 : f.m_end - f.m_start = 0 := by omega
    refine ⟨_, rfl, ?_, ?_, ?_⟩
    · simp only [h0]
      congr 1
      conv => lhs; rw [← List.map_id L2]
      apply List.map_congr_left
      intro g _
      rw [shiftBack_zero]; rfl
    · simp only [h0]; rfl
    · simp only [hlen2]

theorem PositionSorted_after_delete (L1 L2 : List CPhysInfo) (f : CPhysInfo) (len : Nat)
    (hs : PositionSorted (L1 ++ f :: L2))
    (hw : ∀ g ∈ L1 ++ f :: L2, g.m_end ≤ len) :
    PositionSorted (L1 ++ L2.map (fun g => g.shiftBack (f.m_end - f.m_start)))
    ∧ ∀ g ∈ L1 ++ L2.map (fun g => g.shiftBack (f.m_end - f.m_start)),
        g.m_end + (f.m_end - f.m_start) ≤ len := by
  obtain ⟨hpw, hse⟩ := hs
  rw [List.pairwise_append, List.pairwise_cons] at hpw
  obtain ⟨p1, ⟨p2, p3⟩, p4⟩ := hpw
  have hfs := hse f (by simp)
  have hfe := hw f (by simp)
  refine ⟨⟨?_, ?_⟩, ?_⟩
  · rw [List.pairwise_append]
    refine ⟨p1, ?_, ?_⟩
    · rw [List.pairwise_map]
      apply List.Pairwise.imp_of_mem _ p3
      intro a b ha hb hab
      have := p2 a ha
      have := p2 b hb
      have := hse a (by simp [ha])
      simp only [CPhysInfo.shiftBack]
      omega
    · intro a ha b hb
      obtain ⟨b', hb', rfl⟩ := List.mem_map.1 hb
      have := p4 a ha f (by simp)
      have := p2 b' hb'
      simp only [CPhysInfo.shiftBack]
      omega
  · intro g hg
    rcases List.mem_append.1 hg with hg | hg
    · exact hse g (by simp [hg])
    · obtain ⟨g', hg', rfl⟩ := List.mem_map.1 hg
      have := hse g' (by simp [hg'])
      simp only [CPhysInfo.shiftBack]
      omega
  · intro g hg
    rcases List.mem_append.1 hg with hg | hg
    · have := p4 g hg f (by simp)
      omega
    · obtain ⟨g', hg', rfl⟩ := List.mem_map.1 hg
      have := p2 g' hg'
      have := hw g' (by simp [hg'])
      have := hse g' (by simp [hg'])
      simp only [CPhysInfo.shiftBack]
      omega

/-- The loop of `DeleteAllBetween` on position-sorted fields that lie within the physical
string: it returns, and the physical string loses what `tempEnd` loses. -/
theorem DeleteAllBetweenLoop_length (start : Nat) : ∀ (fuel : Nat) (d : CSubstPhysData)
    (tempEnd : Nat), PositionSorted d.m_physlist →
    (∀ f ∈ d.m_physlist, f.m_end ≤ d.m_physStr.length) →
    d.m_logList.length = d.m_physlist.length → d.m_physStr.length < INT_LIMIT →
    start ≤ tempEnd → tempEnd ≤ d.m_physStr.length → d.m_physlist.length < fuel →
    ∃ d1 e, DeleteAllBetweenLoop start fuel d tempEnd = some (d1, e)
      ∧ start ≤ e ∧ e ≤ d1.m_physStr.length ∧ e ≤ tempEnd
      ∧ d1.m_physStr.length + tempEnd = d.m_physStr.length + e
      ∧ d1.m_logList.length = d1.m_physlist.length := by
  intro fuel
  induction fuel with
  | zero => intro d tempEnd _ _ _ _ _ _ hf; omega
  | succ fuel ih =>
    intro d tempEnd hs hw hal hfit hst hte hf
    unfold DeleteAllBetweenLoop
    cases hk : FindPhysInfoBetween d start tempEnd with
    | none => exact ⟨d, tempEnd, rfl, hst, hte, le_refl _, rfl, hal⟩
    | some k =>
      obtain ⟨L1, f, L2, hl, hk1, hpf, hno⟩ := FirstThat_split _ _ _ hk
      simp only [FnPhysInfoBetween, Bool.and_eq_true, decide_eq_true_eq] at hpf
      have hpw := hs.1
      rw [hl, List.pairwise_append, List.pairwise_cons] at hpw
      have hfs := hs.2 f (by rw [hl]; simp)
      have h1 : ∀ g ∈ L1, g.m_start < f.m_start := by
        intro g hg
        have hb := hno g hg
        have := hpw.2.2 g hg f (by simp)
        simp only [FnPhysInfoBetween, Bool.and_eq_false_imp, decide_eq_true_eq,
          decide_eq_false_iff_not] at hb
        by_contra hcon
        exact hb (by omega) (by omega)
      obtain ⟨hlen, d1, hd1, hd2, hd3, hd4⟩ :=
        DeleteOneInfo_first_between d L1 L2 f hl hal hfit hs hw h1
      obtain ⟨hs1, hw1⟩ := PositionSorted_after_delete L1 L2 f d.m_physStr.length
        (by rw [← hl]; exact hs) (by rw [← hl]; exact hw)
      have hget : d.m_physlist[k]? = some f := by
        rw [hl, ← hk1]; exact getElem?_append_length _ _ _
      simp only []
      rw [hget]
      simp only []
      rw [← hk1, hd1]
      simp only []
      rw [hlen, subSz_of_le (by omega) (by omega)]
      obtain ⟨d2, e, h2, h3, h4, h4', h5, h6⟩ := ih d1 (tempEnd - (f.m_end - f.m_start))
        (by rw [hd2]; exact hs1)
        (by rw [hd2]; intro g hg; have := hw1 g hg; omega)
        hd4 (by omega) (by omega) (by omega)
        (by rw [hd2]; rw [hl] at hf; simp only [List.length_append, List.length_cons,
              List.length_map] at hf ⊢; omega)
      exact ⟨d2, e, h2, h3, h4, by omega, by omega, h6⟩

/-- C22, counterexample: on physical data with a field and no marker
`DeleteAllBetween(0, 6)` returns no value (`GetAt` throws); on the consistent document
`"<Year>"` the range `[0, 10)`, whose ends are not inside a field, makes
`DeleteAllBetween` return 10 while the physical string loses its 6 characters; on the
data `overlapDoc`, whose two sequences are aligned and whose fields `[0, 4)` and `[2, 6)`
overlap, the range `[0, 6)` lies within the string and has no end inside a field, and
`DeleteAllBetween` returns 6 while the physical string loses its 8 characters. -/
theorem DeleteAllBetween_return_counterexample :
    ((0 : Nat) ≤ 6 ∧ DeleteAllBetween loneFieldDoc 0 6 = none)
    ∧ (0 : Nat) ≤ 10 ∧ Consistent yearFieldDoc ∧ NotInside yearFieldDoc 0
    ∧ NotInside yearFieldDoc 10
    ∧ (DeleteAllBetween yearFieldDoc 0 10).map (fun r => (r.1.m_physStr.length, r.2))
        = some (0, 10)
    ∧ yearFieldDoc.m_physStr.length - 0 = 6
    ∧ Aligned overlapDoc ∧ ¬ PositionSorted overlapDoc.m_physlist
    ∧ (0 : Nat) ≤ 6 ∧ 6 ≤ overlapDoc.m_physStr.length
    ∧ NotInside overlapDoc 0 ∧ NotInside overlapDoc 6
    ∧ (DeleteAllBetween overlapDoc 0 6).map (fun r => (r.1.m_physStr.length, r.2))
        = some (0, 6)
    ∧ overlapDoc.m_physStr.length - 0 = 8 := by
  decide

/-- C22 (amended). DeleteRange return value: for physical data whose two sequences have
the same length and every `start <= end` (a `size_t`), `DeleteAllBetween(start, end)`
returns `end - start`, whatever fields it deletes and whatever plain text remains to be
cut; when the fields are sorted by position (each with `start <= end`, each ending at or
before the start of the next) and lie within the physical string (a `CString`), and `end`
is within the physical string, the returned value is the decrease of
`len(physicalString)`. -/
theorem DeleteAllBetween_return_value (d : CSubstPhysData) (start endPos : Nat)
    (hse : start ≤ endPos) (hsz : endPos < SIZE_MOD)
    (hal : d.m_logList.length = d.m_physlist.length) :
    (∃ d', DeleteAllBetween d start endPos = some (d', endPos - start))
    ∧ (PositionSorted d.m_physlist → (∀ f ∈ d.m_physlist, f.m_end ≤ d.m_physStr.length) →
        d.m_physStr.length < INT_LIMIT → endPos ≤ d.m_physStr.length →
        ∀ d' n, DeleteAllBetween d start endPos = some (d', n) →
          n = d.m_physStr.length - d'.m_physStr.length
          ∧ d'.m_physStr.length ≤ d.m_physStr.length) := by
  constructor
  · obtain ⟨d', h⟩ := DeleteAllBetween_returns d start endPos hal
    rw [subSz_exact endPos start hse hsz] at h
    exact ⟨d', h⟩
  · intro hs hw hfit hend d' n hdel
    obtain ⟨d1, e, h1, h2, h3, h3', h4, h5⟩ := DeleteAllBetweenLoop_length start
      (d.m_physlist.length + 1) d endPos hs hw hal hfit hse hend (by omega)
    unfold DeleteAllBetween at hdel
    rw [h1] at hdel
    simp only [] at hdel
    rw [subSz_of_le h2 (by omega), subSz_exact endPos start hse hsz] at hdel
    by_cases hpos : e - start > 0
    · rw [if_pos hpos] at hdel
      obtain ⟨a, b, h6, _, _⟩ := MoveAllInfo_what d1.m_logList d1.m_physlist start
        (negSz (e - start)) h5
      rw [h6] at hdel
      simp only [Option.some.injEq, Prod.mk.injEq] at hdel
      obtain ⟨hd, hn⟩ := hdel
      have hx := extractSubstr_length d1.m_physStr start (e - start) (by omega)
      rw [← hd, ← hn]
      simp only
      omega
    · rw [if_neg hpos] at hdel
      simp only [Option.some.injEq, Prod.mk.injEq] at hdel
      obtain ⟨hd, hn⟩ := hdel
      rw [← hd, ← hn]
      omega

/-- C22, witness: deleting `[1, 9)` from `"ab<Year>cd"` returns 8 and leaves `"ad"`;
a range that reaches beyond the string, `[0, 10)` on `"<Year>"`, returns 10. -/
theorem DeleteAllBetween_return_value_witness :
    (∃ d', DeleteAllBetween midDoc 1 9 = some (d', 9 - 1)
      ∧ 9 - 1 = midDoc.m_physStr.length - d'.m_physStr.length
      ∧ d'.m_physStr = "ad".toList)
    ∧ (∃ d', DeleteAllBetween yearFieldDoc 0 10 = some (d', 10 - 0)) := by
  have h := DeleteAllBetween_return_value midDoc 1 9 (by decide) (by decide) (by decide)
  have h2 := DeleteAllBetween_return_value yearFieldDoc 0 10 (by decide) (by decide)
    (by decide)
  obtain ⟨d', hd⟩ := h.1
  have h3 := h.2 (by decide) (by decide) (by decide) (by decide) d' _ hd
  have h4 : (DeleteAllBetween midDoc 1 9).map (fun r => r.1.m_physStr) = some "ad".toList := by
    decide
  rw [hd] at h4
  exact ⟨⟨d', hd, h3.1, Option.some.inj h4⟩, h2.1⟩

/-! ### C1: the plain-text round trip -/

/-- The scan of `AssignPlainText` recovers the items `Y` from their physical string, when
at every item the first display text that stands there is the one of the item. -/
theorem parse_items (lpMap : List SubstDescr) (hne : NonEmptyTexts lpMap) :
    ∀ (Y U : List Item) (fuel : Nat), (itemsPhys lpMap Y).length < fuel →
    itemsKnown lpMap Y →
    (∀ A c B, Y = A ++ Item.ch c :: B → firstPrefix lpMap (c :: itemsPhys lpMap B) = none) →
    (∀ A w B, Y = A ++ Item.fld w :: B →
      firstPrefix lpMap (fieldText lpMap w ++ itemsPhys lpMap B) = FindMapItem lpMap w) →
    (itemsLog U).length + (itemsPhys lpMap Y).length < INT_LIMIT →
    AssignPlainTextLoop fuel
        { m_logStr := itemsLog U ++ itemsPhys lpMap Y, m_logList := itemsMarks 0 U,
          m_map := lpMap } (itemsLog U).length
      = some { m_logStr := itemsLog (U ++ Y), m_logList := itemsMarks 0 (U ++ Y),
               m_map := lpMap } := by
  intro Y
  induction Y with
  | nil =>
    intro U fuel hfuel _ _ _ _
    cases fuel with
    | zero => omega
    | succ fuel =>
      simp only [itemsPhys, List.append_nil]
      exact AssignPlainTextLoop_end lpMap U fuel
  | cons x Y ih =>
    intro U fuel hfuel hk hch hfl hfit
    have hch' : ∀ A c B, Y = A ++ Item.ch c :: B →
        firstPrefix lpMap (c :: itemsPhys lpMap B) = none :=
      fun A c B h => hch (x :: A) c B (by rw [h]; rfl)
    have hfl' : ∀ A w B, Y = A ++ Item.fld w :: B →
        firstPrefix lpMap (fieldText lpMap w ++ itemsPhys lpMap B) = FindMapItem lpMap w :=
      fun A w B h => hfl (x :: A) w B (by rw [h]; rfl)
    cases fuel with
    | zero => omega
    | succ fuel =>
      cases x with
      | ch c =>
        have h0 := hch [] c Y rfl
        simp only [itemsPhys, itemsLog, List.length_cons] at hfuel hfit ⊢
        rw [AssignPlainTextLoop_char lpMap U c _ fuel
          (by simp only [List.length_append, List.length_cons]; omega) h0]
        rw [ih (U ++ [Item.ch c]) fuel (by omega) (itemsKnown_cons_ch.1 hk) hch' hfl'
          (by simp [itemsLog]; omega)]
        simp
      | fld w =>
        obtain ⟨hw1, hkY⟩ := itemsKnown_cons_fld.1 hk
        obtain ⟨desc, hd⟩ := Option.isSome_iff_exists.1 hw1
        have hT := fieldText_of_find hd
        have hid := (FindMapItem_spec hd).2.1
        have h0 := hfl [] w Y rfl
        rw [hT, hd] at h0
        simp only [itemsPhys, itemsLog, List.length_append, hT] at hfuel hfit ⊢
        obtain ⟨_, hpos, hstep⟩ := AssignPlainTextLoop_field lpMap hne U
          (desc.lpTxt ++ itemsPhys lpMap Y) fuel desc
          (by simp only [List.length_append]; omega) h0
        rw [hstep, List.drop_left, hid]
        rw [ih (U ++ [Item.fld w]) fuel (by omega) hkY hch' hfl' (by simp [itemsLog]; omega)]
        simp

/-- What `ParsesBack` says of the physical data of a sequence of items. -/
theorem ParsesBack_items (lpMap : List SubstDescr) (Y : List Item)
    (h : ParsesBack (conc lpMap Y)) :
    (∀ A c B, Y = A ++ Item.ch c :: B → firstPrefix lpMap (c :: itemsPhys lpMap B) = none)
    ∧ (∀ A w B, Y = A ++ Item.fld w :: B →
      firstPrefix lpMap (fieldText lpMap w ++ itemsPhys lpMap B) = FindMapItem lpMap w) := by
  obtain ⟨h1, h2⟩ := h
  constructor
  · intro A c B hY
    subst hY
    have := h1 (itemsPhys lpMap A).length
      (by simp [conc, itemsPhys])
      (by
        intro f hf
        simp only [conc, itemsFields_append, itemsFields, Nat.zero_add, List.mem_append] at hf
        rcases hf with hf | hf
        · have := (itemsFields_bounds lpMap A 0 f hf).2.2
          omega
        · have := (itemsFields_bounds lpMap B _ f hf).1
          omega)
    simpa [conc, itemsPhys] using this
  · intro A w B hY
    subst hY
    have := h2 { m_what := w, m_start := (itemsPhys lpMap A).length,
                 m_end := (itemsPhys lpMap A).length + (fieldText lpMap w).length }
      (by simp [conc, itemsFields_append, itemsFields])
    simpa [conc, itemsPhys] using this

/-- C1 (amended). Plain-text round trip: for logical data over a field map with non-empty
display texts, whose markers reference mapped ids and are in non-decreasing order within
the logical string, whose logical string holds no `&`, and whose exported text is
unambiguous (`ParsesBack` of the rendering of the escaped data: no display text begins at
a character of the exported text that lies outside the fields, and at the start of every
field the first display text of the table that stands there is the field's own; the
exported text within the range of a `CString`): `GetPlainText` returns a text from which
`AssignPlainText`, on any object with the same map, yields the same logical string and the
same marker sequence. -/
theorem plain_text_round_trip (L : CSubstLogData) (hne : NonEmptyTexts L.m_map)
    (hL : LogOk L) (hamp : '&' ∉ L.m_logStr)
    (hplain : ∀ E, ReplaceLogXmlCharsThere L = some E → ParsesBack (AssignPhysFromLog E))
    (hfit : (LogStr2PhysStr L).length + 5 * L.m_logStr.length < INT_LIMIT) :
    ∃ t, GetPlainText L = some t
      ∧ ∀ d : CSubstLogData, d.m_map = L.m_map → AssignPlainText d t = some L := by
  obtain ⟨Y, hk, hY1, hY2⟩ := LogOk_items L hL
  have hLeq : L = { m_logStr := itemsLog Y, m_logList := itemsMarks 0 Y, m_map := L.m_map } := by
    rw [hY1, hY2]
  have hrender : LogStr2PhysStr L = itemsPhys L.m_map Y := by
    rw [← LogStr2PhysStr_items L.m_map Y hk (by rw [hY1]; omega), hY1, hY2]
  rw [hrender, ← hY1] at hfit
  rw [← hY1] at hamp
  obtain ⟨hlen1, hlen2⟩ := substItems_escape_length L.m_map [chApos, chQuot, '>', '<'] Y
  generalize hE : substItems (escapeChar [chApos, chQuot, '>', '<']) Y = E at hlen1 hlen2
  have hlen3 := itemsLog_length_le L.m_map E
  have hkE : itemsKnown L.m_map E := by
    rw [← hE]; exact itemsKnown_substItems L.m_map _ Y hk
  have hescape := ReplaceLogXmlCharsThere_items L.m_map Y hamp (by rw [hE]; omega)
  rw [← hLeq, hE] at hescape
  have hback := ReplaceLogXmlPartsBack_items L.m_map Y hamp (by rw [hE]; omega)
  rw [← hLeq, hE] at hback
  have hpb := hplain _ hescape
  rw [AssignPhysFromLog_items L.m_map E hkE (by omega)] at hpb
  obtain ⟨hch, hfl⟩ := ParsesBack_items L.m_map E hpb
  have hloop := parse_items L.m_map hne E []
    ((itemsPhys L.m_map E).length + 1) (by omega) hkE
    hch hfl (by simp only [itemsLog, List.length_nil]; omega)
  simp only [itemsLog, itemsMarks, List.nil_append, List.length_nil] at hloop
  refine ⟨itemsPhys L.m_map E, ?_, ?_⟩
  · unfold GetPlainText
    rw [hescape]
    simp only [Option.bind_eq_bind, Option.some_bind]
    rw [LogStr2PhysStr_items L.m_map _ hkE (by omega)]
    rfl
  · intro d hd
    unfold AssignPlainText
    rw [hd, hloop]
    simp only [Option.bind_eq_bind, Option.some_bind]
    exact hback

/-- C1 (amended), witness: the plain text `"x<y in ."` with the field 1 at the logical
position 7, over the map `{1: "<Year>"}`, is exported as `"x&lt;y in <Year>."` and read
back; so is the plain text `"Yes"` over the map `{1: "Year"}`, although its first
character begins the display text. -/
theorem plain_text_round_trip_witness :
    (∃ t, GetPlainText lessLog = some t
      ∧ ∀ d : CSubstLogData, d.m_map = lessLog.m_map → AssignPlainText d t = some lessLog)
    ∧ GetPlainText lessLog = some "x&lt;y in <Year>.".toList
    ∧ (∃ t, GetPlainText yesLog = some t
      ∧ ∀ d : CSubstLogData, d.m_map = yesLog.m_map → AssignPlainText d t = some yesLog)
    ∧ GetPlainText yesLog = some "Yes".toList :=
  ⟨plain_text_round_trip lessLog (by decide) (by decide) (by decide)
      (by
        intro E hE
        have h0 : ReplaceLogXmlCharsThere lessLog = some lessLogEscaped := by decide
        rw [h0] at hE
        cases hE
        decide)
      (by decide), by decide,
    plain_text_round_trip yesLog (by decide) (by decide) (by decide)
      (by
        intro E hE
        have h0 : ReplaceLogXmlCharsThere yesLog = some yesLog := by decide
        rw [h0] at hE
        cases hE
        decide)
      (by decide), by decide⟩

/-! ### C15: the export of the whole document -/

/-- Every state reached from the empty document by the five editing operations, called
within their preconditions, is consistent in the sense of `Consistent`. -/
theorem Reachable_Consistent (lpMap : List SubstDescr) (hne : NonEmptyTexts lpMap)
    (d : CSubstPhysData) (hr : Reachable lpMap d) : Consistent d := by
  obtain ⟨X, hk, hfit, rfl⟩ := Reachable_items lpMap hne d hr
  exact conc_Consistent lpMap X hk hfit

/-- C15 (amended). Export of the whole document is the logical part, when the physical
view is the rebuild of the logical data: for every logical data `L` whose markers have
mapped ids and do not decrease within the logical string (strings within the range of a
`CString`), `ExportLogAll` on the physical data that `AssignPhysFromLog` builds from `L`
gives the output the logical string of `L`, its map, and markers with the ids and logical
positions of the markers of `L`, in the same order; the same holds for every physical
data that is consistent in the sense of `Consistent` (markers as above, fields and
physical string the ones `AssignPhysFromLog` rebuilds), and so for every state reached
from the empty document by the five editing operations called within their preconditions
(display texts non-empty). -/
theorem ExportLogAll_logical_part :
    (∀ (L out : CSubstLogData), LogOk L → L.m_logStr.length < INT_LIMIT →
      (LogStr2PhysStr L).length < INT_LIMIT →
      ExportLogAll (AssignPhysFromLog L) out = some L)
    ∧ (∀ (d : CSubstPhysData) (out : CSubstLogData), Consistent d →
      ExportLogAll d out = some d.toCSubstLogData)
    ∧ (∀ (lpMap : List SubstDescr) (d : CSubstPhysData) (out : CSubstLogData),
      NonEmptyTexts lpMap → Reachable lpMap d →
      ExportLogAll d out = some d.toCSubstLogData) := by
  refine ⟨?_, fun d out hc => ExportLogAll_consistent d out hc, ?_⟩
  · intro L out hL h1 h2
    exact ExportLogAll_consistent (AssignPhysFromLog L) out ⟨hL, h1, h2, rfl, rfl⟩
  · intro lpMap d out hne hr
    exact ExportLogAll_consistent d out (Reachable_Consistent lpMap hne d hr)

/-- C15, witness: the export of the rebuild of `("x<y in .", [{1, 7}])`, and of the
document `"<Year>"` with its field `{1, 0, 6}`, which is consistent and is reached from
the empty document by one `InsertNewInfo(0, 1)`. -/
theorem ExportLogAll_logical_part_witness :
    LogOk lessLog
    ∧ ExportLogAll (AssignPhysFromLog lessLog) yearFragment = some lessLog
    ∧ Consistent yearFieldDoc
    ∧ ExportLogAll yearFieldDoc lessLog = some yearFieldDoc.toCSubstLogData
    ∧ ExportLogAll yearFieldDoc lessLog
        = some { m_logStr := [], m_logList := [{ m_what := 1, m_pos := 0 }], m_map := yearMap }
    ∧ Reachable yearMap yearFieldDoc
    ∧ ExportLogAll yearFieldDoc yearFragment = some yearFieldDoc.toCSubstLogData :=
  ⟨by decide,
    ExportLogAll_logical_part.1 lessLog yearFragment (by decide) (by decide) (by decide),
    by decide,
    ExportLogAll_logical_part.2.1 yearFieldDoc lessLog (by decide), by decide,
    Reachable.insertNewInfo (emptyDoc yearMap) yearFieldDoc 0 1
      (some { m_what := 1, m_start := 0, m_end := 6 }) Reachable.empty (by decide)
      (by decide) (by decide) (by decide) (by decide),
    ExportLogAll_logical_part.2.2 yearMap yearFieldDoc yearFragment (by decide)
      (Reachable.insertNewInfo (emptyDoc yearMap) yearFieldDoc 0 1
        (some { m_what := 1, m_start := 0, m_end := 6 }) Reachable.empty (by decide)
        (by decide) (by decide) (by decide) (by decide))⟩

/-! ### Consistency: the listed conditions and the place of the markers -/

/-- Two sequences of items with the same markers and the same physical string are equal. -/
theorem items_ext (lpMap : List SubstDescr) : ∀ (X Y : List Item) (k : Nat),
    itemsMarks k X = itemsMarks k Y → itemsPhys lpMap X = itemsPhys lpMap Y → X = Y := by
  intro X
  induction X with
  | nil =>
    intro Y k hm hp
    cases Y with
    | nil => rfl
    | cons y Y =>
      cases y with
      | ch c => simp [itemsPhys] at hp
      | fld w => simp [itemsMarks] at hm
  | cons x X ih =>
    intro Y k hm hp
    cases Y with
    | nil =>
      cases x with
      | ch c => simp [itemsPhys] at hp
      | fld w => simp [itemsMarks] at hm
    | cons y Y =>
      cases x with
      | ch c =>
        cases y with
        | ch c' =>
          simp only [itemsPhys, List.cons.injEq] at hp
          simp only [itemsMarks] at hm
          rw [hp.1, ih Y (k + 1) hm hp.2]
        | fld w =>
          exfalso
          simp only [itemsMarks] at hm
          have h1 := (itemsMarks_bounds X (k + 1) { m_what := w, m_pos := k }
            (by rw [hm]; exact List.mem_cons_self _ _)).1
          simp only at h1
          omega
      | fld w =>
        cases y with
        | ch c' =>
          exfalso
          simp only [itemsMarks] at hm
          have h1 := (itemsMarks_bounds Y (k + 1) { m_what := w, m_pos := k }
            (by rw [← hm]; exact List.mem_cons_self _ _)).1
          simp only at h1
          omega
        | fld w' =>
          simp only [itemsMarks, List.cons.injEq, CLogInfo.mk.injEq] at hm
          obtain ⟨⟨hw, _⟩, hm⟩ := hm
          subst hw
          simp only [itemsPhys, List.append_cancel_left_eq] at hp
          rw [ih Y k hm hp]

/-- The file's notion of consistency is the four listed conditions together with markers
that are well formed and stored at the logical positions of their fields. -/
theorem Consistent_iff_listed (d : CSubstPhysData) :
    Consistent d ↔ ListedConsistent d ∧ LogOk d.toCSubstLogData ∧ MarkersAtFields d
      ∧ d.m_logStr.length < INT_LIMIT ∧ d.m_physStr.length < INT_LIMIT := by
  constructor
  · intro h
    refine ⟨Consistent_listed d h, h.1, ?_, h.2.1, h.2.2.1⟩
    obtain ⟨X, hk, hX⟩ := Consistent_items d h
    have hfit : d.m_physStr.length < INT_LIMIT := h.2.2.1
    generalize d.m_map = lpMap at hk hX
    subst hX
    intro mf hmf
    obtain ⟨i, hi, rfl⟩ := List.getElem_of_mem hmf
    have hi' := hi
    simp only [List.length_zip, lt_min_iff] at hi'
    have h1 : (conc lpMap X).m_logList[i]? = some ((conc lpMap X).m_logList[i]) :=
      List.getElem?_eq_getElem hi'.1
    have h2 : (conc lpMap X).m_physlist[i]? = some ((conc lpMap X).m_physlist[i]) :=
      List.getElem?_eq_getElem hi'.2
    have := (conc_marker_positions lpMap X hfit i _ _ h1 h2).2.1
    simpa [List.getElem_zip] using this
  · rintro ⟨hl, hok, hmk, hf1, hf2⟩
    obtain ⟨X, hkX, hX1, hX2, hX3⟩ := Listed_items d hl
    obtain ⟨Y, hkY, hY1, hY2⟩ := LogOk_items d.toCSubstLogData hok
    have hmapY : d.toCSubstLogData.m_map = d.m_map := rfl
    rw [hmapY] at hkY
    have hlogs : d.toCSubstLogData.m_logStr = d.m_logStr := rfl
    have hlist : d.toCSubstLogData.m_logList = d.m_logList := rfl
    rw [hlogs] at hY1
    rw [hlist] at hY2
    have hrender : itemsPhys d.m_map Y = d.m_physStr := by
      rw [hl.2.2.2, ← LogStr2PhysStr_items d.m_map Y hkY (by rw [hY1]; exact hf1), hY1, hY2]
    have hfitX : (itemsPhys d.m_map X).length < INT_LIMIT := by rw [hX1]; exact hf2
    have hlen : (itemsMarks 0 X).length = d.m_logList.length := by
      have := congrArg List.length hX3
      simpa using this
    have hlenF : d.m_physlist.length = d.m_logList.length := by
      have := congrArg List.length hl.1
      simpa using this
    have hmarks : itemsMarks 0 X = d.m_logList := by
      apply List.ext_getElem hlen
      intro i h1 h2
      have hw : ((itemsMarks 0 X).map (fun m => m.m_what))[i]? 
          = (d.m_logList.map (fun m => m.m_what))[i]? := by rw [hX3]
      simp only [List.getElem?_map, List.getElem?_eq_getElem h1, List.getElem?_eq_getElem h2,
        Option.map_some', Option.some.injEq] at hw
      have hi3 : i < d.m_physlist.length := by omega
      have hiX : i < (itemsFields d.m_map 0 X).length := by rw [hX2]; exact hi3
      have hc := (conc_marker_positions d.m_map X hfitX i ((itemsMarks 0 X)[i])
        ((itemsFields d.m_map 0 X)[i]) (List.getElem?_eq_getElem h1)
        (List.getElem?_eq_getElem hiX)).2.1
      rw [PhysPos2LogPos_congr (conc d.m_map X) d hX2] at hc
      have hd := hmk (d.m_logList[i], d.m_physlist[i]) (by
        have hz : i < (List.zip d.m_logList d.m_physlist).length := by
          simp only [List.length_zip, lt_min_iff]; exact ⟨h2, hi3⟩
        have := List.getElem_mem hz
        simpa [List.getElem_zip] using this)
      simp only at hd
      have hfe : (itemsFields d.m_map 0 X)[i] = d.m_physlist[i] := by
        simp only [hX2]
      rw [hfe] at hc
      cases hx : (itemsMarks 0 X)[i] with
      | mk w p =>
        cases hy : d.m_logList[i] with
        | mk w' p' =>
          rw [hx] at hw hc
          rw [hy] at hw hd
          simp only at hw hc hd
          rw [hw, hc, hd]
    have hXY : X = Y := items_ext d.m_map X Y 0 (by rw [hmarks, hY2]) (by rw [hX1, hrender])
    subst hXY
    have hd : d = conc d.m_map X := by
      cases d
      simp only [conc] at *
      simp [hY1, hY2, hX1, hX2]
    rw [hd]
    exact conc_Consistent d.m_map X hkX hfitX

end SubstLib
